import Mathlib

/-!
# Lute: the HTML to Markdown-AST core (h2m.go), embedded in Lean

The development follows `src/h2m.go`, with the link sanitizer and the attribute
filter of `src/render/sanitizer.go` and the list test of `src/list.go`.  Go strings and byte slices are lists of
code points (`Str`); the input is UTF-8 text, on which the byte-level
operations of the source (`ReplaceAll`, `Contains`, `Trim...`) act exactly as
the code-point versions below.  Both the DOM (`html.Node`) and the Markdown AST
(`ast.Node`) are heaps of records linked by optional indices, the Go pointers.
-/

set_option maxRecDepth 100000
set_option maxHeartbeats 4000000

namespace H2M

/-! ## Go strings -/

/-- A Go `string` / `[]byte` value. -/
abbrev Str := List Char

/-- The Go call `strings.HasPrefix`. -/
def HasPrefix (s p : Str) : Bool := p.isPrefixOf s

/-- The Go call `strings.HasSuffix`. -/
def HasSuffix (s p : Str) : Bool := p.isSuffixOf s

/-- The Go call `strings.Index`: the first position of `sub` in `s`. -/
def Index : Str → Str → Option Nat
  | [], sub => if sub.isEmpty then some 0 else none
  | c :: cs, sub =>
    if sub.isPrefixOf (c :: cs) then some 0 else (Index cs sub).map (· + 1)

/-- The Go call `strings.LastIndex`: the last position of `sub` in `s`. -/
def LastIndex : Str → Str → Option Nat
  | [], sub => if sub.isEmpty then some 0 else none
  | c :: cs, sub =>
    match LastIndex cs sub with
    | some i => some (i + 1)
    | none => if sub.isPrefixOf (c :: cs) then some 0 else none

/-- The Go call `strings.Contains`. -/
def Contains (s sub : Str) : Bool := (Index s sub).isSome

/-- The Go call `bytes.ContainsAny`: some character of `chars` occurs in `s`. -/
def ContainsAny (s chars : Str) : Bool := s.any (fun c => chars.contains c)

/-- Worker of `ReplaceAll` for a non-empty `old`: `skip` characters of an
occurrence that was just replaced are still to be dropped. -/
def replaceAllAux {α : Type} [DecidableEq α] (old new : List α) : Nat → List α → List α
  | _, [] => []
  | skip + 1, _ :: cs => replaceAllAux old new skip cs
  | 0, c :: cs =>
    if old.isPrefixOf (c :: cs) then new ++ replaceAllAux old new (old.length - 1) cs
    else c :: replaceAllAux old new 0 cs

/-- The Go call `strings.ReplaceAll` / `bytes.ReplaceAll`: every non-overlapping
occurrence of `old`, from the left, becomes `new`; an empty `old` matches before
every character and at the end. -/
def ReplaceAll {α : Type} [DecidableEq α] (s old new : List α) : List α :=
  if old.isEmpty then new ++ s.flatMap (fun c => c :: new) else replaceAllAux old new 0 s

/-- The Go predicate `unicode.IsSpace`. -/
def IsSpace (c : Char) : Bool :=
  let n := c.toNat
  n = 0x20 || (0x09 ≤ n && n ≤ 0x0D) || n = 0x85 || n = 0xA0 || n = 0x1680 ||
    (0x2000 ≤ n && n ≤ 0x200A) || n = 0x2028 || n = 0x2029 || n = 0x202F ||
    n = 0x205F || n = 0x3000

/-- The Go call `strings.TrimLeft`: drop leading characters that are in `cutset`. -/
def TrimLeft (s cutset : Str) : Str := s.dropWhile (fun c => cutset.contains c)

/-- The Go call `strings.TrimRight`. -/
def TrimRight (s cutset : Str) : Str := (TrimLeft s.reverse cutset).reverse

/-- The Go call `strings.Trim`. -/
def Trim (s cutset : Str) : Str := TrimRight (TrimLeft s cutset) cutset

/-- The Go call `strings.TrimSpace`. -/
def TrimSpace (s : Str) : Str := ((s.dropWhile IsSpace).reverse.dropWhile IsSpace).reverse

/-- The Go call `strings.TrimPrefix`. -/
def TrimPrefix (s p : Str) : Str := if p.isPrefixOf s then s.drop p.length else s

/-- The Go call `strings.TrimSuffix`. -/
def TrimSuffix (s p : Str) : Str :=
  if p.isSuffixOf s then s.take (s.length - p.length) else s

/-- Worker of `Split`: `cur` is the piece being read, reversed. -/
def splitAux (sep : Str) : Nat → Str → Str → List Str
  | _, cur, [] => [cur.reverse]
  | skip + 1, cur, _ :: cs => splitAux sep skip cur cs
  | 0, cur, c :: cs =>
    if sep.isPrefixOf (c :: cs) then cur.reverse :: splitAux sep (sep.length - 1) [] cs
    else splitAux sep 0 (c :: cur) cs

/-- The Go call `strings.Split` for a non-empty separator (the only use in the
source): the pieces between the occurrences of `sep`, at least one piece. -/
def Split (s sep : Str) : List Str := splitAux sep 0 [] s

/-- The Go call `strings.ToLower`, on the ASCII letters. -/
def ToLower (s : Str) : Str := s.map Char.toLower

/-- The constant `editor.Zwsp`, the zero-width separator U+200B. -/
def Zwsp : Str := [Char.ofNat 0x200B]

/-- The non-breaking space U+00A0, the bytes 194, 160 of the source. -/
def Nbsp : Str := [Char.ofNat 0xA0]

/-! ## The DOM: `html.Node` -/

/-- The Go type `html.NodeType`. -/
inductive HType
  | ErrorNode | TextNode | DocumentNode | ElementNode | CommentNode | DoctypeNode
deriving DecidableEq, Repr

/-- The element kinds `atom.Atom` that the source names; `zero` is the atom 0 of
text nodes and custom tags, `other` any atom the source does not name. -/
inductive Atom
  | zero | A | Annotatn | Audio | B | Blockquote | Br | Code | Col | Colgroup | Del
  | Details | Div | Em | Figcaption | Figure | Font | H1 | H2 | H3 | H4 | H5 | H6
  | Hr | I | Iframe | Img | Input | Li | Mark | Meta | Noscript | Ol | P | Picture
  | Pre | S | Script | Section | Span | Strike | Strong | Sub | Summary | Sup
  | Table | Tbody | Td | Th | Thead | Tr | Ul | Video | other
deriving DecidableEq, Repr

/-- The Go type `html.Attribute`. -/
structure Attribute where
  Key : Str
  Val : Str
deriving DecidableEq, Repr

/-- The Go type `html.Node`; the five links are indices into the DOM heap. -/
structure HNode where
  Parent : Option Nat := none
  FirstChild : Option Nat := none
  LastChild : Option Nat := none
  PrevSibling : Option Nat := none
  NextSibling : Option Nat := none
  Typ : HType := .ErrorNode
  DataAtom : Atom := .zero
  Data : Str := []
  Namespace : Str := []
  Attr : List Attribute := []
deriving DecidableEq, Repr

/-- The DOM heap: a `*html.Node` is an index into it. -/
abbrev Dom := List HNode

/-! ### DOM helpers of the packages `util` and `lute` -/

/-- Fuel for the walks over a DOM heap: one more than the number of nodes. -/
def domFuel (dom : Dom) : Nat := dom.length + 1

/-- Modelled from the spec: `util.DomAttrValue` (attribute lookup, not in the
analysed files): the value of the first attribute named `key`, the empty string
when there is none or when the node is nil. -/
def DomAttrValue (dom : Dom) (n : Option Nat) (key : Str) : Str :=
  match n.bind (fun i => dom[i]?) with
  | none => []
  | some hn =>
    match hn.Attr.find? (fun a => a.Key = key) with
    | some a => a.Val
    | none => []

/-- Modelled from the spec: `lute.hasAttr` (not in the analysed files): the
node carries an attribute named `key`. -/
def hasAttr (dom : Dom) (n : Nat) (key : Str) : Bool :=
  match dom[n]? with
  | none => false
  | some hn => hn.Attr.any (fun a => a.Key = key)

/-- The nodes of the sibling chain that starts at `first`, each followed by its
descendants, in document order. -/
def domWalk (dom : Dom) : Nat → Option Nat → List Nat
  | 0, _ => []
  | _, none => []
  | fuel + 1, some i =>
    match dom[i]? with
    | none => []
    | some hn => i :: (domWalk dom fuel hn.FirstChild ++ domWalk dom fuel hn.NextSibling)

/-- The proper descendants of node `n`, in document order. -/
def domDescendants (dom : Dom) (n : Nat) : List Nat :=
  match dom[n]? with
  | none => []
  | some hn => domWalk dom (domFuel dom) hn.FirstChild

/-- What one node adds to the text of `DomText`: the data of a text node, a line
break for a `br` element. -/
def domOwnText (dom : Dom) (i : Nat) : Str :=
  match dom[i]? with
  | none => []
  | some hn =>
    if hn.Typ = .TextNode then hn.Data
    else if hn.DataAtom = .Br then ['\n'] else []

/-- Modelled from the spec: `util.DomText` (text extraction, not in the analysed
files): the concatenated text of the node and its descendants, a `br` element
counting as a line break (section 4.1); the empty string for nil. -/
def DomText (dom : Dom) (n : Option Nat) : Str :=
  match n with
  | none => []
  | some i => (i :: domDescendants dom i).flatMap (domOwnText dom)

/-- The element kind of a DOM node, `zero` for a missing one. -/
def atomOf (dom : Dom) (i : Nat) : Atom :=
  match dom[i]? with
  | none => .zero
  | some hn => hn.DataAtom

/-- Modelled from the spec: `util.DomChildrenByType` (child-by-type query, not in
the analysed files): the descendants of `n` of element kind `a`, in document
order; none for nil. -/
def DomChildrenByType (dom : Dom) (n : Option Nat) (a : Atom) : List Nat :=
  match n with
  | none => []
  | some i => (domDescendants dom i).filter (fun j => atomOf dom j = a)

/-- Modelled from the spec: `util.DomExistChildByType` (not in the analysed
files): some descendant of `n` has one of the element kinds `as`. -/
def DomExistChildByType (dom : Dom) (n : Nat) (as : List Atom) : Bool :=
  (domDescendants dom n).any (fun j => as.contains (atomOf dom j))

/-- Modelled from the spec: `util.DomChildByTypeAndClass` (not in the analysed
files): the first descendant of `n` of element kind `a` whose class contains
`cls`. -/
def DomChildByTypeAndClass (dom : Dom) (n : Nat) (a : Atom) (cls : Str) : Option Nat :=
  (domDescendants dom n).find?
    (fun j => atomOf dom j = a && Contains (DomAttrValue dom (some j) "class".toList) cls)

/-- The ancestors of a node, nearest first. -/
def domAncestors (dom : Dom) : Nat → Option Nat → List Nat
  | 0, _ => []
  | _, none => []
  | fuel + 1, some i =>
    match dom[i]? with
    | none => []
    | some hn => i :: domAncestors dom fuel hn.Parent

/-- Modelled from the spec: `lute.parentIs` (not in the analysed files): some
ancestor of `n` has one of the element kinds `as` ("the nearest table ancestor
exists"). -/
def parentIs (dom : Dom) (n : Nat) (as : List Atom) : Bool :=
  match dom[n]? with
  | none => false
  | some hn => (domAncestors dom (domFuel dom) hn.Parent).any (fun j => as.contains (atomOf dom j))

/-- Modelled from the spec: `lute.prefixSpaces` (prefix space analysis, not in
the analysed files): the leading spaces of the text. -/
def prefixSpaces (text : Str) : Str := text.takeWhile (· = ' ')

/-- Modelled from the spec: `lute.suffixSpaces` (suffix space analysis, not in
the analysed files): the trailing spaces of the text. -/
def suffixSpaces (text : Str) : Str := (text.reverse.takeWhile (· = ' '))

/-- Replace the record at index `i` of a heap by its image under `f`. -/
def upd {α : Type} (heap : List α) (i : Nat) (f : α → α) : List α :=
  match heap[i]? with
  | some x => heap.set i (f x)
  | none => heap

/-- Apply `f` to the record that an optional link points to. -/
def updOpt {α : Type} (heap : List α) (p : Option Nat) (f : α → α) : List α :=
  match p with
  | some i => upd heap i f
  | none => heap

namespace Html

/-- Modelled from the spec: `html.Node.Unlink` of the engine's own html package
(not in the analysed files): detach the node from its parent and siblings. -/
def Unlink (dom : Dom) (i : Nat) : Dom :=
  match dom[i]? with
  | none => dom
  | some n =>
    let dom := match n.PrevSibling with
      | some p => upd dom p (fun x => { x with NextSibling := n.NextSibling })
      | none => updOpt dom n.Parent (fun x => { x with FirstChild := n.NextSibling })
    let dom := match n.NextSibling with
      | some q => upd dom q (fun x => { x with PrevSibling := n.PrevSibling })
      | none => updOpt dom n.Parent (fun x => { x with LastChild := n.PrevSibling })
    upd dom i (fun x => { x with Parent := none, NextSibling := none, PrevSibling := none })

/-- Modelled from the spec: `html.Node.AppendChild` (not in the analysed files):
make `c` the last child of `p`. -/
def AppendChild (dom : Dom) (p c : Nat) : Dom :=
  let dom := Unlink dom c
  match dom[p]? with
  | none => dom
  | some pn =>
    let dom := upd dom c (fun x => { x with Parent := some p, PrevSibling := pn.LastChild })
    match pn.LastChild with
    | some l =>
      upd (upd dom l (fun x => { x with NextSibling := some c })) p
        (fun x => { x with LastChild := some c })
    | none => upd dom p (fun x => { x with FirstChild := some c, LastChild := some c })

/-- Modelled from the spec: `html.Node.InsertBefore` (not in the analysed files):
make `sib` the sibling right before `n`. -/
def InsertBefore (dom : Dom) (n sib : Nat) : Dom :=
  let dom := Unlink dom sib
  match dom[n]? with
  | none => dom
  | some nn =>
    let dom := upd dom sib
      (fun x => { x with PrevSibling := nn.PrevSibling, NextSibling := some n, Parent := nn.Parent })
    let dom := updOpt dom nn.PrevSibling (fun x => { x with NextSibling := some sib })
    let dom := upd dom n (fun x => { x with PrevSibling := some sib })
    match nn.PrevSibling with
    | some _ => dom
    | none => updOpt dom nn.Parent (fun x => { x with FirstChild := some sib })

end Html

/-! ## The Markdown AST: `ast.Node` -/

/-- The node kinds `ast.NodeType` that the source emits. -/
inductive NodeType
  | NodeDocument | NodeParagraph | NodeHeading | NodeHeadingC8hMarker | NodeThematicBreak
  | NodeBlockquote | NodeBlockquoteMarker | NodeList | NodeListItem | NodeHTMLBlock
  | NodeCodeBlock | NodeCodeBlockFenceOpenMarker | NodeCodeBlockFenceCloseMarker
  | NodeCodeBlockFenceInfoMarker | NodeCodeBlockCode | NodeText | NodeEmphasis
  | NodeEmA6kOpenMarker | NodeEmA6kCloseMarker | NodeStrong | NodeStrongA6kOpenMarker
  | NodeStrongA6kCloseMarker | NodeCodeSpan | NodeCodeSpanOpenMarker | NodeCodeSpanContent
  | NodeCodeSpanCloseMarker | NodeHardBreak | NodeBr | NodeLink | NodeImage | NodeBang
  | NodeOpenBracket | NodeCloseBracket | NodeOpenParen | NodeCloseParen | NodeLinkText
  | NodeLinkDest | NodeLinkTitle | NodeLinkSpace | NodeTaskListItemMarker | NodeStrikethrough
  | NodeStrikethrough2OpenMarker | NodeStrikethrough2CloseMarker | NodeTable | NodeTableHead
  | NodeTableRow | NodeTableCell | NodeEmoji | NodeEmojiImg | NodeEmojiAlias | NodeMathBlock
  | NodeMathBlockOpenMarker | NodeMathBlockContent | NodeMathBlockCloseMarker | NodeInlineMath
  | NodeInlineMathOpenMarker | NodeInlineMathContent | NodeInlineMathCloseMarker | NodeMark
  | NodeMark2OpenMarker | NodeMark2CloseMarker | NodeSup | NodeSupOpenMarker | NodeSupCloseMarker
  | NodeSub | NodeSubOpenMarker | NodeSubCloseMarker
deriving DecidableEq, Repr

open NodeType

/-- The Go type `ast.ListData`, the fields the source sets. -/
structure ListData where
  Typ : Nat := 0
  Tight : Bool := false
  BulletChar : Nat := 0
  Marker : Str := []
deriving DecidableEq, Repr

/-- The Go type `ast.Node`; the five links are indices into the AST heap. -/
structure Node where
  Typ : NodeType := NodeText
  Tokens : Str := []
  Parent : Option Nat := none
  Previous : Option Nat := none
  Next : Option Nat := none
  FirstChild : Option Nat := none
  LastChild : Option Nat := none
  HeadingLevel : Nat := 0
  ListData : Option ListData := none
  IsFencedCodeBlock : Bool := false
  CodeBlockFenceLen : Nat := 0
  CodeBlockInfo : Str := []
  TableAligns : List Nat := []
  TableCellAlign : Nat := 0
  TaskListItemChecked : Bool := false
deriving DecidableEq, Repr

/-- A node without links, as `&ast.Node{...}` creates it. -/
def Node.bare (n : Node) : Node :=
  { n with Parent := none, Previous := none, Next := none, FirstChild := none, LastChild := none }

/-- The AST heap: an `*ast.Node` is an index into it. -/
abbrev Heap := List Node

/-- A node that a call of `genASTByDOM` has built but not yet linked into the
tree, with the children appended to it so far (`node.AppendChild(...)` before
`tree.Context.Tip.AppendChild(node)`). -/
inductive Sub where
  | mk (n : Node) (children : List Sub)

/-- The record of a node under construction. -/
def Sub.node : Sub → Node
  | .mk n _ => n

/-- The children of a node under construction. -/
def Sub.children : Sub → List Sub
  | .mk _ cs => cs

/-- A leaf under construction: `&ast.Node{...}`. -/
def leaf (n : Node) : Sub := .mk n []

/-- The call `node.AppendChild(c)` on a node under construction. -/
def Sub.append (s c : Sub) : Sub := .mk s.node (s.children ++ [c])

/-- Assign fields of a node under construction (`node.Type = ...`). -/
def Sub.set (s : Sub) (f : Node → Node) : Sub := .mk (f s.node) s.children

/-- Assign fields of the last child of a node under construction
(`node.LastChild.CodeBlockInfo = ...`). -/
def Sub.setLast (s : Sub) (f : Node → Node) : Sub :=
  match s.children.reverse with
  | [] => s
  | c :: cs => .mk s.node (cs.reverse ++ [c.set f])

/-- The field `LastChild.CodeBlockInfo` of a node under construction. -/
def Sub.lastInfo (s : Sub) : Str :=
  match s.children.reverse with
  | [] => []
  | c :: _ => c.node.CodeBlockInfo

namespace Ast

/-- The parent link of a node of the heap. -/
def parentOf (h : Heap) (i : Nat) : Option Nat := (h[i]?).bind (·.Parent)

/-- Modelled from the spec: `ast.Node.Unlink` (not in the analysed files; the
links are those of section 3.2): detach the node from its parent and siblings. -/
def Unlink (h : Heap) (i : Nat) : Heap :=
  match h[i]? with
  | none => h
  | some n =>
    let h := match n.Previous with
      | some p => upd h p (fun x => { x with Next := n.Next })
      | none => updOpt h n.Parent (fun x => { x with FirstChild := n.Next })
    let h := match n.Next with
      | some q => upd h q (fun x => { x with Previous := n.Previous })
      | none => updOpt h n.Parent (fun x => { x with LastChild := n.Previous })
    upd h i (fun x => { x with Parent := none, Next := none, Previous := none })

/-- The linking half of `AppendChild`: the detached node `c` becomes the last
child of `p`. -/
def link (h : Heap) (p c : Nat) : Heap :=
  match h[p]? with
  | none => h
  | some pn =>
    match pn.LastChild with
    | some l =>
      let h := upd h c (fun x => { x with Parent := some p, Previous := some l })
      let h := upd h l (fun x => { x with Next := some c })
      upd h p (fun x => { x with LastChild := some c })
    | none =>
      let h := upd h c (fun x => { x with Parent := some p })
      upd h p (fun x => { x with FirstChild := some c, LastChild := some c })

/-- Modelled from the spec: `ast.Node.AppendChild` (not in the analysed files):
unlink `c`, then make it the last child of `p`. -/
def AppendChild (h : Heap) (p c : Nat) : Heap := link (Unlink h c) p c

/-- The linking half of `InsertBefore`: the detached node `sib` becomes the
sibling right before `n`. -/
def linkBefore (h : Heap) (n sib : Nat) : Heap :=
  match h[n]? with
  | none => h
  | some nn =>
    let h := upd h sib (fun x => { x with Previous := nn.Previous, Next := some n, Parent := nn.Parent })
    let h := updOpt h nn.Previous (fun x => { x with Next := some sib })
    let h := upd h n (fun x => { x with Previous := some sib })
    match nn.Previous with
    | some _ => h
    | none => updOpt h nn.Parent (fun x => { x with FirstChild := some sib })

/-- The linking half of `InsertAfter`: the detached node `sib` becomes the
sibling right after `n`. -/
def linkAfter (h : Heap) (n sib : Nat) : Heap :=
  match h[n]? with
  | none => h
  | some nn =>
    let h := upd h sib (fun x => { x with Next := nn.Next, Previous := some n, Parent := nn.Parent })
    let h := updOpt h nn.Next (fun x => { x with Previous := some sib })
    let h := upd h n (fun x => { x with Next := some sib })
    match nn.Next with
    | some _ => h
    | none => updOpt h nn.Parent (fun x => { x with LastChild := some sib })

mutual
/-- Put a node under construction on the heap, detached, with its children
linked under it; its index is the length of the heap before. -/
def alloc (h : Heap) : Sub → Heap
  | .mk n cs =>
    allocChildren (h ++ [n.bare]) h.length cs
/-- Put the children of a node under construction on the heap, each linked as
the last child of `p`. -/
def allocChildren (h : Heap) (p : Nat) : List Sub → Heap
  | [] => h
  | c :: cs => allocChildren (link (alloc h c) p h.length) p cs
end

/-- Modelled from the spec: `ast.Node.AppendChild` for a node built by the
caller: the new node becomes the last child of `p`. -/
def AppendNew (h : Heap) (p : Nat) (c : Sub) : Heap := link (alloc h c) p h.length

/-- Modelled from the spec: `ast.Node.InsertBefore` (not in the analysed files)
for a node built by the caller: it becomes the sibling right before `n`. -/
def InsertBefore (h : Heap) (n : Nat) (c : Sub) : Heap := linkBefore (alloc h c) n h.length

/-- Modelled from the spec: `ast.Node.InsertAfter` (not in the analysed files)
for a node built by the caller: it becomes the sibling right after `n`. -/
def InsertAfter (h : Heap) (n : Nat) (c : Sub) : Heap := linkAfter (alloc h c) n h.length

/-- The chain of links `Next` / `NextSibling` that starts at `first`. -/
def chain (h : Heap) : Nat → Option Nat → List Nat
  | 0, _ => []
  | _, none => []
  | fuel + 1, some i =>
    match h[i]? with
    | none => []
    | some n => i :: chain h fuel n.Next

/-- The children of a node, in order. -/
def childrenOf (h : Heap) (i : Nat) : List Nat :=
  match h[i]? with
  | none => []
  | some n => chain h (h.length + 1) n.FirstChild

/-- The kind of a node of the heap (`NodeText` for a missing one). -/
def typOf (h : Heap) (i : Nat) : NodeType :=
  match h[i]? with
  | none => NodeText
  | some n => n.Typ

/-- The ancestors of a node, nearest first. -/
def ancestors (h : Heap) : Nat → Option Nat → List Nat
  | 0, _ => []
  | _, none => []
  | fuel + 1, some i =>
    match h[i]? with
    | none => []
    | some n => i :: ancestors h fuel n.Parent

/-- Modelled from the spec: `ast.Node.ParentIs` (not in the analysed files):
some ancestor of the node has kind `t`. -/
def ParentIs (h : Heap) (i : Nat) (t : NodeType) : Bool :=
  (ancestors h (h.length + 1) (parentOf h i)).any (fun j => typOf h j = t)

/-- Modelled from the spec: `ast.Node.ChildByType` (child-by-type query, not in
the analysed files): the first child of kind `t`. -/
def ChildByType (h : Heap) (i : Nat) (t : NodeType) : Option Nat :=
  (childrenOf h i).find? (fun j => typOf h j = t)

/-- The nodes of the sibling chain that starts at `first`, each followed by its
descendants, in walk order. -/
def walk (h : Heap) : Nat → Option Nat → List Nat
  | 0, _ => []
  | _, none => []
  | fuel + 1, some i =>
    match h[i]? with
    | none => []
    | some n => i :: (walk h fuel n.FirstChild ++ walk h fuel n.Next)

/-- The node `i` followed by its descendants, in walk order. -/
def subtree (h : Heap) (i : Nat) : List Nat :=
  match h[i]? with
  | none => []
  | some n => i :: walk h (h.length + 1) n.FirstChild

/-- Modelled from the spec: `ast.Node.ChildrenByType` (not in the analysed
files): the nodes of kind `t` met by a walk from the node. -/
def ChildrenByType (h : Heap) (i : Nat) (t : NodeType) : List Nat :=
  (subtree h i).filter (fun j => typOf h j = t)

/-- Modelled from the spec: `ast.Node.IsBlock` (not in the analysed files): a
container block or a leaf block of section 3.2. -/
def IsBlock (t : NodeType) : Bool :=
  [NodeDocument, NodeParagraph, NodeBlockquote, NodeList, NodeListItem, NodeHeading, NodeTable,
   NodeTableHead, NodeTableRow, NodeTableCell, NodeCodeBlock, NodeMathBlock, NodeHTMLBlock,
   NodeThematicBreak, NodeHardBreak, NodeBr].contains t

/-- Modelled from the spec: `ast.Node.IsContainerBlock` (not in the analysed
files): a container block that holds other blocks. -/
def IsContainerBlock (t : NodeType) : Bool :=
  [NodeDocument, NodeParagraph, NodeBlockquote, NodeList, NodeListItem, NodeHeading, NodeTable,
   NodeTableHead, NodeTableRow, NodeTableCell, NodeCodeBlock, NodeMathBlock, NodeHTMLBlock].contains t

end Ast

/-! ## The engine, its collaborators and the builder state -/

/-- The engine `*Lute`: the parse option the source reads and the collaborators
whose code is outside the analysed files. -/
structure Lute where
  /-- The option `lute.ParseOptions.ProtyleWYSIWYG`. -/
  ProtyleWYSIWYG : Bool
  /-- The HTML parser `lute.parseHTML`: the DOM heap with the root at index 0, or
  nil. -/
  parseHTML : Str → Option Dom
  /-- The editor-specific DOM adjustment `lute.adjustVditorDOM`. -/
  adjustVditorDOM : Dom → Dom
  /-- The marker escaping `lex.EscapeMarkers`. -/
  EscapeMarkers : Str → Str
  /-- The marker escaping `lex.EscapeProtyleMarkers`. -/
  EscapeProtyleMarkers : Str → Str
  /-- The emoji resolver `tree.EmojiImgTokens`. -/
  EmojiImgTokens : Str → Str → Str
  /-- The Go call `html.UnescapeString`. -/
  UnescapeString : Str → Str
  /-- The serialisation `util.DomHTML` of a DOM node. -/
  DomHTML : Dom → Nat → Str
  /-- The Go predicate `unicode.IsPunct`. -/
  IsPunct : Char → Bool
  /-- The Go predicate `unicode.IsSymbol`. -/
  IsSymbol : Char → Bool
  /-- The Markdown formatter `render.NewFormatRenderer(tree, ...).Render()` on a
  tree that is not nil. -/
  Render : Heap → Str

/-- The run-time failures of the Go code, and the exhaustion of the fuel of the
embedding. -/
inductive Panic
  | nilDeref | indexOutOfRange | outOfFuel
deriving DecidableEq, Repr

deriving instance DecidableEq for Except

/-- The state of a conversion: the DOM, the AST heap (`tree.Root` is node 0),
the builder's tip `tree.Context.Tip`, and the number of `defer
tree.Context.ParentTip()` calls pending in the running `genASTByDOM` frame. -/
structure State where
  dom : Dom
  nodes : Heap
  Tip : Nat
  defers : Nat := 0
deriving DecidableEq, Repr

/-- Computations of the converter. -/
abbrev M := StateT State (Except Panic)

/-- Computations that only touch the DOM. -/
abbrev DomM := StateT Dom (Except Panic)

/-- Run a DOM computation inside the converter. -/
def liftDom {α : Type} (m : DomM α) : M α := fun s =>
  match m s.dom with
  | .ok (a, d) => .ok (a, { s with dom := d })
  | .error e => .error e

/-- Follow a Go pointer: nil panics. -/
def deref {m : Type → Type} [Monad m] [MonadExcept Panic m] (p : Option Nat) : m Nat :=
  match p with
  | some i => pure i
  | none => throw Panic.nilDeref

/-- Read a DOM node inside a DOM computation. -/
def dnode (i : Nat) : DomM HNode := do
  match (← get)[i]? with
  | some hn => pure hn
  | none => throw Panic.nilDeref

/-- Read a DOM node. -/
def hnode (i : Nat) : M HNode := do
  match (← get).dom[i]? with
  | some hn => pure hn
  | none => throw Panic.nilDeref

/-- Read an AST node. -/
def anode (i : Nat) : M Node := do
  match (← get).nodes[i]? with
  | some n => pure n
  | none => throw Panic.nilDeref

/-- The DOM. -/
def getDom : M Dom := do pure (← get).dom

/-- The AST heap. -/
def getHeap : M Heap := do pure (← get).nodes

/-- The tip `tree.Context.Tip`. -/
def getTip : M Nat := do pure (← get).Tip

/-- The node `tree.Context.Tip`. -/
def tipNode : M Node := do anode (← getTip)

/-- The assignment `tree.Context.Tip = node`. -/
def setTip (i : Nat) : M Unit := modify (fun s => { s with Tip := i })

/-- The statement `defer tree.Context.ParentTip()`. -/
def deferParentTip : M Unit := modify (fun s => { s with defers := s.defers + 1 })

/-- Modelled from the spec: `parse.Context.ParentTip` (not in the analysed
files): the tip moves to its parent, when it has one ("on post-visit the tip is
popped"). -/
def ParentTip : M Unit :=
  modify (fun s =>
    match Ast.parentOf s.nodes s.Tip with
    | some p => { s with Tip := p }
    | none => s)

/-- The call `p.AppendChild(c)` for a node `c` built by the caller; the result
is the new node. -/
def appendChild (p : Nat) (c : Sub) : M Nat := do
  let s ← get
  set { s with nodes := Ast.AppendNew s.nodes p c }
  pure s.nodes.length

/-- The call `tree.Context.Tip.AppendChild(c)`. -/
def tipAppend (c : Sub) : M Nat := do appendChild (← getTip) c

/-- The three statements `tree.Context.Tip.AppendChild(node)`,
`tree.Context.Tip = node`, `defer tree.Context.ParentTip()`. -/
def pushTip (c : Sub) : M Nat := do
  let i ← tipAppend c
  setTip i
  deferParentTip
  pure i

/-- The call `n.InsertBefore(c)` for a node `c` built by the caller. -/
def insertBefore (n : Nat) (c : Sub) : M Unit :=
  modify (fun s => { s with nodes := Ast.InsertBefore s.nodes n c })

/-- The call `n.InsertAfter(c)` for a node `c` built by the caller. -/
def insertAfter (n : Nat) (c : Sub) : M Unit :=
  modify (fun s => { s with nodes := Ast.InsertAfter s.nodes n c })

/-- The call `n.Unlink()` on a node of the tree. -/
def unlink (n : Nat) : M Unit :=
  modify (fun s => { s with nodes := Ast.Unlink s.nodes n })

/-- Assign the tokens of a node of the tree. -/
def setTokens (n : Nat) (t : Str) : M Unit :=
  modify (fun s => { s with nodes := upd s.nodes n (fun x => { x with Tokens := t }) })

/-- Assign the list data of a node of the tree. -/
def setListData (n : Nat) (d : ListData) : M Unit :=
  modify (fun s => { s with nodes := upd s.nodes n (fun x => { x with ListData := some d }) })

/-- What the first `switch` of `genASTByDOM` leaves behind: whether it returned
from the function, and the node it linked into the tree, if any. -/
structure Visit where
  returned : Bool
  node : Option Nat
deriving DecidableEq, Repr

/-- The `break` of a case that linked no node. -/
def Visit.brk : Visit := { returned := false, node := none }

/-- A `return` from inside the first switch. -/
def Visit.ret : Visit := { returned := true, node := none }

/-- The end of a case that linked `node` and goes on to the children. -/
def Visit.opened (i : Nat) : Visit := { returned := false, node := some i }

/-- A marker or text leaf `&ast.Node{Type: t, Tokens: tokens}`. -/
def astNode (t : NodeType) (tokens : Str := []) : Sub := leaf { Typ := t, Tokens := tokens }

/-- The zero-width separator text node. -/
def zwspText : Sub := astNode NodeText Zwsp

/-! ## The text pipeline (case 0 of the first switch) -/

/-- Modelled from the spec: `lex.TrimWhitespace` (not in the analysed files):
the tokens without the white space at both ends. -/
def TrimWhitespace (s : Str) : Str := Trim s [' ', '\t', '\n', Char.ofNat 11, Char.ofNat 12, '\r']

/-- The loop `for strings.Contains(tokens, "\n  ") { tokens = ReplaceAll(tokens,
"\n  ", "\n ") }`, run for at most `fuel` rounds. -/
def collapseLoop : Nat → Str → Str
  | 0, s => s
  | fuel + 1, s =>
    if Contains s ['\n', ' ', ' '] then collapseLoop fuel (ReplaceAll s ['\n', ' ', ' '] ['\n', ' '])
    else s

/-- Lines 122-125 of h2m.go: collapse a line break followed by spaces. -/
def collapseNewlineSpaces (s : Str) : Str :=
  ReplaceAll (collapseLoop s.length s) ['\n', ' '] ['\n']

/-- Lines 165-166 of h2m.go: the pipe normalisation inside a table. -/
def escapePipes (s : Str) : Str :=
  ReplaceAll (ReplaceAll s ['\\', '|'] ['|']) ['|'] ['\\', '|']

/-- The kinds of inline decoration that the text pipeline looks for at the tip. -/
def isDecoration (t : NodeType) : Bool :=
  t = NodeStrong || t = NodeEmphasis || t = NodeStrikethrough || t = NodeMark || t = NodeSup ||
    t = NodeSub

/-- The element kind of the parent of a DOM node, if it has a parent. -/
def parentAtom (dom : Dom) (hn : HNode) : Option Atom := hn.Parent.map (atomOf dom)

/-- Case 0 of the first switch of `genASTByDOM`: the text pipeline. -/
def caseText (L : Lute) (n : Nat) : M Visit := do
  let hn ← hnode n
  let dom ← getDom
  let node : Node := { Typ := NodeText, Tokens := hn.Data }
  let node := if parentAtom dom hn = some .A then { node with Typ := NodeLinkText } else node
  let node := { node with Tokens := collapseNewlineSpaces node.Tokens }
  let node := { node with Tokens := Trim node.Tokens ['\t', '\n'] }
  let inTable := parentIs dom n [.Table]
  if inTable ∧ hn.Data = ['\n'] then
    if (← tipNode).FirstChild = none ∨ hn.NextSibling = none then
      return Visit.brk
    let _ ← tipAppend (astNode NodeBr)
    return Visit.brk
  if inTable ∧ TrimSpace hn.Data = [] then
    let _ ← tipAppend (leaf { node with Tokens := [' '] })
    return Visit.brk
  let node :=
    if inTable then { node with Tokens := ReplaceAll (TrimSpace node.Tokens) ['\n'] [' '] }
    else node
  let node := { node with Tokens := ReplaceAll node.Tokens Nbsp [' '] }
  let node := { node with Tokens := ReplaceAll node.Tokens ['\n'] [' '] }
  let tipTyp := (← tipNode).Typ
  let node :=
    if isDecoration tipTyp ∧ HasSuffix node.Tokens [' '] ∧ hn.NextSibling = none then
      { node with Tokens := node.Tokens ++ Zwsp }
    else node
  let node :=
    if L.ProtyleWYSIWYG then { node with Tokens := L.EscapeProtyleMarkers node.Tokens }
    else
      let node := { node with Tokens := L.EscapeMarkers node.Tokens }
      if inTable then { node with Tokens := escapePipes node.Tokens } else node
  if Ast.IsBlock tipTyp ∧ hn.Parent ≠ none ∧ parentAtom dom hn ≠ some .Span ∧
      (TrimWhitespace node.Tokens).length < 1 then
    return Visit.ret
  let _ ← tipAppend (leaf node)
  return Visit.brk

/-! ## Paragraph-like containers, headings, lists -/

/-- The fenced code block of a GitHub highlight `div` (lines 213-222). -/
def divCodeBlock (data language text : Str) : Sub :=
  Sub.mk { Typ := NodeCodeBlock, Tokens := data, IsFencedCodeBlock := true }
    [leaf { Typ := NodeCodeBlockFenceOpenMarker, Tokens := "```".toList, CodeBlockFenceLen := 3 },
     leaf { Typ := NodeCodeBlockFenceInfoMarker, CodeBlockInfo := language },
     leaf { Typ := NodeCodeBlockCode, Tokens := text },
     leaf { Typ := NodeCodeBlockFenceCloseMarker, Tokens := "```".toList, CodeBlockFenceLen := 3 }]

/-- The function `appendMathBlock` of h2m.go. -/
def appendMathBlock (tex : Str) : M Unit := do
  let tex := TrimSpace tex
  if tex = [] then
    return
  let mathBlock := Sub.mk { Typ := NodeMathBlock }
    [astNode NodeMathBlockOpenMarker "$$".toList, astNode NodeMathBlockContent tex,
     astNode NodeMathBlockCloseMarker "$$".toList]
  let i ← tipAppend mathBlock
  setTip i
  ParentTip

/-- The function `appendInlineMath` of h2m.go. -/
def appendInlineMath (tex : Str) : M Unit := do
  let tex := TrimSpace tex
  if tex = [] then
    return
  let inlineMath := Sub.mk { Typ := NodeInlineMath }
    [astNode NodeInlineMathOpenMarker "$".toList, astNode NodeInlineMathContent tex,
     astNode NodeInlineMathCloseMarker "$".toList]
  let i ← tipAppend inlineMath
  setTip i
  ParentTip

/-- The language of a GitHub highlight `div`, from its class (lines 206-211). -/
def divLanguage (cls : Str) : Str :=
  if Contains cls "-source-".toList then
    match LastIndex cls "-source-".toList with
    | some i => cls.drop (i + "-source-".toList.length)
    | none => []
  else if Contains cls "-text-html-basic".toList then "html".toList
  else []

/-- The data of a DOM node behind an optional link, empty for nil. -/
def dataOf (dom : Dom) (p : Option Nat) : Str :=
  match p.bind (fun i => dom[i]?) with
  | some hn => hn.Data
  | none => []

/-- Case `atom.P, atom.Div, atom.Section` of the first switch. -/
def caseP (n : Nat) : M Visit := do
  let hn ← hnode n
  let dom ← getDom
  if (← tipNode).Typ = NodeLink then
    return Visit.brk
  if parentIs dom n [.Table] then
    if hn.PrevSibling ≠ none ∧ Contains (dataOf dom hn.PrevSibling) ['\n'] then
      return Visit.brk
    if hn.NextSibling ≠ none ∧ Contains (dataOf dom hn.NextSibling) ['\n'] then
      return Visit.brk
    if (← tipNode).FirstChild = none then
      return Visit.brk
    let _ ← tipAppend (astNode NodeBr)
    return Visit.brk
  if (← tipNode).Typ = NodeHeading then
    return Visit.brk
  let cls := DomAttrValue dom (some n) "class".toList
  if hn.DataAtom = .Div then
    let language := divLanguage cls
    if language ≠ [] then
      let _ ← tipAppend (divCodeBlock hn.Data language (DomText dom (some n)))
      return Visit.ret
    if Contains cls "MathJax".toList ∧ hn.NextSibling ≠ none ∧
        (hn.NextSibling.map (atomOf dom)) = some .Script ∧
        Contains (DomAttrValue dom hn.NextSibling "type".toList) "math/tex".toList then
      let tex := DomText dom hn.NextSibling
      appendMathBlock tex
      let sib ← deref hn.NextSibling
      liftDom (modify (fun d => Html.Unlink d sib))
      return Visit.ret
    let tex := TrimSpace (DomAttrValue dom (some n) "data-tex".toList)
    if tex ≠ [] then
      appendMathBlock tex
      return Visit.ret
  if Contains (ToLower cls) "mathjax".toList then
    return Visit.ret
  if TrimSpace (DomText dom (some n)) = [] then
    if !DomExistChildByType dom n [.Img, .Picture, .Annotatn] then
      return Visit.ret
  let i ← pushTip (leaf { Typ := NodeParagraph, Tokens := hn.Data })
  return Visit.opened i

/-- The number of the byte `b - '0'` as Go computes it on bytes. -/
def byteSub (b : Char) : Nat := (b.toNat + 256 - 48) % 256

/-- Case `atom.H1 ... atom.H6` of the first switch. -/
def caseHeading (n : Nat) : M Visit := do
  let hn ← hnode n
  if (← tipNode).Typ = NodeLink then
    return Visit.brk
  match hn.Data[1]? with
  | none => throw Panic.indexOutOfRange
  | some b =>
    let level := byteSub b
    let node := Sub.mk { Typ := NodeHeading, Tokens := hn.Data, HeadingLevel := level }
      [astNode NodeHeadingC8hMarker (List.replicate level '#')]
    let i ← pushTip node
    return Visit.opened i

/-- Case `atom.Hr` of the first switch. -/
def caseHr (n : Nat) : M Visit := do
  let hn ← hnode n
  let _ ← tipAppend (leaf { Typ := NodeThematicBreak, Tokens := hn.Data })
  return Visit.brk

/-- Case `atom.Blockquote` of the first switch. -/
def caseBlockquote (n : Nat) : M Visit := do
  let hn ← hnode n
  let i ← pushTip (Sub.mk { Typ := NodeBlockquote, Tokens := hn.Data }
    [astNode NodeBlockquoteMarker ">".toList])
  return Visit.opened i

/-- Case `atom.Ol, atom.Ul` of the first switch. -/
def caseList (n : Nat) : M Visit := do
  let hn ← hnode n
  let typ := if hn.DataAtom = .Ol then 1 else 0
  let i ← pushTip (leaf { Typ := NodeList, Tokens := hn.Data,
                          ListData := some { Typ := typ, Tight := true } })
  return Visit.opened i

/-- The marker and bullet character of a list item (lines 288-307). -/
def liMarker (dom : Dom) (n : Nat) (hn : HNode) : Str × Nat :=
  let marker := DomAttrValue dom (some n) "data-marker".toList
  let parentOl := parentAtom dom hn = some .Ol
  if marker = [] then
    if parentOl then
      let start := DomAttrValue dom hn.Parent "start".toList
      if start = [] then ("1.".toList, 0) else (start ++ ".".toList, 0)
    else ("*".toList, 42)
  else
    let grand := hn.Parent.bind (fun p => (dom[p]?).bind (·.Parent))
    let grandAtom := grand.map (atomOf dom)
    if hn.Parent ≠ none ∧ marker ≠ "1.".toList ∧ parentOl ∧ grand ≠ none ∧
        (grandAtom = some .Ol ∨ grandAtom = some .Ul) then
      ("1.".toList, 0)
    else (marker, 0)

/-- Case `atom.Li` of the first switch. -/
def caseLi (n : Nat) : M Visit := do
  let hn ← hnode n
  let dom ← getDom
  let (marker, bullet) := liMarker dom n hn
  let i ← pushTip (leaf { Typ := NodeListItem, Tokens := hn.Data,
                          ListData := some { Marker := marker, BulletChar := bullet } })
  return Visit.opened i

/-! ## Code blocks: case `atom.Pre` -/

/-- The chain of links `NextSibling` that starts at `first`. -/
def domChain (dom : Dom) : Nat → Option Nat → List Nat
  | 0, _ => []
  | _, none => []
  | fuel + 1, some i =>
    match dom[i]? with
    | none => []
    | some hn => i :: domChain dom fuel hn.NextSibling

/-- Run `f` on the elements of a list, in order. -/
def forEach {m : Type → Type} [Monad m] {α : Type} : List α → (α → m Unit) → m Unit
  | [], _ => pure ()
  | a :: as, f => do f a; forEach as f

/-- Allocate a DOM node `&html.Node{...}`. -/
def newHNode (hn : HNode) : DomM Nat := do
  let d ← get
  set (d ++ [hn])
  pure d.length

/-- The statement `c.InsertBefore(&html.Node{DataAtom: atom.Br})`. -/
def insertBr (c : Nat) : DomM Unit := do
  let br ← newHNode { DataAtom := .Br }
  modify (fun d => Html.InsertBefore d c br)

/-- The element kind of the node behind an optional link. -/
def atomAt (dom : Dom) (p : Option Nat) : Option Atom := p.map (atomOf dom)

/-- The first child of the node behind an optional link. -/
def firstChildAt (dom : Dom) (p : Option Nat) : Option Nat :=
  p.bind (fun i => (dom[i]?).bind (·.FirstChild))

/-- The shape `ol > li > p > a` under `pre` that lines 338-340 and 359-361 test:
`firstc` is an `ol` without next sibling whose first child is a `li`, whose first
child is a `p`, whose first child has element kind `a`. -/
def olLiP (dom : Dom) (firstc : Nat) (a : Atom) : Bool :=
  match dom[firstc]? with
  | none => false
  | some fc =>
    let li := fc.FirstChild
    let par := firstChildAt dom li
    let x := firstChildAt dom par
    fc.DataAtom = .Ol && fc.NextSibling = none && li ≠ none && atomAt dom li = some .Li &&
      par ≠ none && atomAt dom par = some .P && x ≠ none && atomAt dom x = some a

/-- Lines 313-376 of h2m.go: the rewrites of the children of a `pre`; the result
is the final `firstc` and the flag `span2Code`. -/
def preRewrite (n firstc0 : Nat) : DomM (Nat × Bool) := do
  let mut firstc := firstc0
  let fc ← dnode firstc
  if fc.DataAtom = .Div ∧ fc.NextSibling ≠ none ∧ atomAt (← get) fc.NextSibling = some .Code then
    firstc ← deref fc.NextSibling
    let first ← deref (← dnode n).FirstChild
    modify (fun d => Html.Unlink d first)
  let fc ← dnode firstc
  if fc.DataAtom = .Div ∧ fc.NextSibling = none then
    match DomChildrenByType (← get) (some n) .Code with
    | [code] =>
      modify (fun d => Html.Unlink d code)
      modify (fun d => Html.AppendChild d n code)
      let div := firstc
      modify (fun d => Html.Unlink d div)
      firstc ← deref (← dnode n).FirstChild
    | _ => pure ()
  let mut span2Code := false
  if olLiP (← get) firstc .Span then
    let d ← get
    let lis := domChain d (domFuel d) (firstChildAt d (some firstc))
    forEach lis (fun li => do
      let code ← newHNode { Data := "code".toList, DataAtom := .Code, Typ := .ElementNode }
      let par ← deref (← dnode li).FirstChild
      let d ← get
      let spans := domChain d (domFuel d) (← dnode par).FirstChild
      forEach spans (fun span => do
        modify (fun d => Html.Unlink d span)
        modify (fun d => Html.AppendChild d code span))
      modify (fun d => Html.AppendChild d par code))
    span2Code := true
  if olLiP (← get) firstc .Code then
    let d ← get
    let lis := domChain d (domFuel d) (firstChildAt d (some firstc))
    let codes ← lis.mapM (fun li => do
      let par ← deref (← dnode li).FirstChild
      pure (← dnode par).FirstChild)
    forEach lis (fun li => modify (fun d => Html.Unlink d li))
    forEach codes (fun code => do
      let c ← deref code
      modify (fun d => Html.Unlink d c)
      modify (fun d => Html.AppendChild d n c))
    let ol := firstc
    modify (fun d => Html.Unlink d ol)
    firstc ← deref (← dnode n).FirstChild
  return (firstc, span2Code)

/-- Lines 383-410 of h2m.go: the info string of the fence, from the class of the
first child and of the `pre`. -/
def preInfo (childClass preClass : Str) (childIsCode span2Code : Bool) : Str :=
  let cls := if !Contains childClass "language-".toList then preClass else childClass
  let info :=
    if Contains cls "language-".toList then
      match Index cls "language-".toList with
      | some i => (Split (cls.drop (i + "language-".toList.length)) [' ']).headD []
      | none => []
    else if childIsCode && !span2Code then
      if !Contains childClass [' '] then childClass else []
    else []
  let info := if info.length < 1 then (if !Contains preClass [' '] then preClass else info) else info
  if ContainsAny info ['-', '_', ' '] then [] else info

/-- Lines 413-439 of h2m.go: line breaks between the per-line `code` elements,
removal of the line-number list. -/
def preBreaks (n firstc : Nat) : DomM Unit := do
  let fc ← dnode firstc
  if fc.DataAtom = .Code then
    if fc.NextSibling ≠ none ∧ atomAt (← get) fc.NextSibling = some .Code then
      let d ← get
      forEach (domChain d (domFuel d) fc.NextSibling) insertBr
    let fc ← dnode firstc
    if fc.FirstChild ≠ none ∧ atomAt (← get) fc.FirstChild = some .Ol then
      let d ← get
      let first := firstChildAt d fc.FirstChild
      forEach (domChain d (domFuel d) first) (fun li =>
        if some li ≠ first then insertBr li else pure ())
    let last := (← dnode n).LastChild
    if last ≠ none ∧ atomAt (← get) last = some .Ul then
      let l ← deref last
      modify (fun d => Html.Unlink d l)
  let fc ← dnode firstc
  if fc.DataAtom = .Pre ∧ fc.FirstChild ≠ none then
    let d ← get
    let second := (fc.FirstChild.bind (fun i => d[i]?)).bind (·.NextSibling)
    forEach (domChain d (domFuel d) second) insertBr

/-- Lines 454-456 of h2m.go: the test that the table holds one row of one head
section whose first child is a cell. -/
def singleCellTable (h : Heap) (table : Nat) : Except Panic Bool :=
  match h[table]? with
  | none => .error Panic.nilDeref
  | some t =>
    match t.FirstChild with
    | none => .ok false
    | some head =>
      if t.FirstChild ≠ t.LastChild then .ok false
      else
        match h[head]? with
        | none => .error Panic.nilDeref
        | some hd =>
          if hd.Typ ≠ NodeTableHead then .ok false
          else if hd.FirstChild ≠ hd.LastChild then .ok false
          else
            match hd.FirstChild.bind (fun r => h[r]?) with
            | none => .error Panic.nilDeref
            | some row =>
              match row.FirstChild with
              | none => .ok false
              | some cell => .ok (Ast.typOf h cell = NodeTableCell)

/-- The loop `for table := tree.Context.Tip.Parent; nil != table; table =
table.Parent` of line 452: the first ancestor that is a single-cell table. -/
def findSingleCellTable (h : Heap) : List Nat → Except Panic (Option Nat)
  | [] => .ok none
  | table :: rest =>
    if Ast.typOf h table = NodeTable then
      match singleCellTable h table with
      | .error e => .error e
      | .ok true => .ok (some table)
      | .ok false => findSingleCellTable h rest
    else findSingleCellTable h rest

/-- The code span of one line of a degraded code block (lines 469-472). -/
def lineCodeSpan (line : Str) : Sub :=
  Sub.mk { Typ := NodeCodeSpan }
    [astNode NodeCodeSpanOpenMarker ['`'], astNode NodeCodeSpanContent line,
     astNode NodeCodeSpanCloseMarker ['`']]

/-- Lines 467-482 of h2m.go: one code span per non-empty line, a break after it
unless the line is the last one; `i` is the index of the first line of `lines`
and `total` the number of all lines. -/
def degradeLines (L : Lute) (total : Nat) : Nat → List Str → M Unit
  | _, [] => pure ()
  | i, line :: rest => do
    if 0 < line.length then
      let _ ← tipAppend (lineCodeSpan line)
      if i < total - 1 then
        if L.ProtyleWYSIWYG then
          let _ ← tipAppend (astNode NodeBr)
        else
          let _ ← tipAppend (astNode NodeHardBreak ['\n'])
    degradeLines L total (i + 1) rest

/-- The fenced code block of a `pre` (lines 379-382, 441-447). -/
def preCodeBlock (data info content : Str) : Sub :=
  Sub.mk { Typ := NodeCodeBlock, Tokens := data, IsFencedCodeBlock := true }
    [leaf { Typ := NodeCodeBlockFenceOpenMarker, Tokens := "```".toList, CodeBlockFenceLen := 3 },
     leaf { Typ := NodeCodeBlockFenceInfoMarker, CodeBlockInfo := info },
     leaf { Typ := NodeCodeBlockCode, Tokens := content },
     leaf { Typ := NodeCodeBlockFenceCloseMarker, Tokens := "```".toList, CodeBlockFenceLen := 3 }]

/-- Lines 449-485 of h2m.go: where the code block of a `pre` goes. -/
def placeCodeBlock (L : Lute) (node : Sub) (content : Str) : M Unit := do
  let h ← getHeap
  let tip ← getTip
  if Ast.ParentIs h tip NodeTable then
    match findSingleCellTable h (Ast.ancestors h (h.length + 1) (Ast.parentOf h tip)) with
    | .error e => throw e
    | .ok (some table) =>
      insertBefore table node
      unlink table
      setTip h.length
    | .ok none =>
      let lines := Split content ['\n']
      degradeLines L lines.length 0 lines
  else
    let _ ← tipAppend node

/-- Case `atom.Pre` of the first switch. -/
def casePre (L : Lute) (n : Nat) : M Visit := do
  let hn ← hnode n
  match hn.FirstChild with
  | none => return Visit.ret
  | some firstc0 =>
    let (firstc, span2Code) ← liftDom (preRewrite n firstc0)
    let fc ← hnode firstc
    if fc.Typ = .TextNode ∨ fc.DataAtom = .Span ∨ fc.DataAtom = .Code ∨ fc.DataAtom = .Section ∨
        fc.DataAtom = .Pre ∨ fc.DataAtom = .A then
      let dom ← getDom
      let info :=
        if fc.DataAtom = .Code ∨ fc.DataAtom = .Span ∨ fc.DataAtom = .A then
          preInfo (DomAttrValue dom (some firstc) "class".toList)
            (DomAttrValue dom (some n) "class".toList) (fc.DataAtom = .Code) span2Code
        else []
      liftDom (preBreaks n firstc)
      let dom ← getDom
      let content := ReplaceAll (DomText dom (some n)) Nbsp [' ']
      placeCodeBlock L (preCodeBlock hn.Data info content) content
    else
      let dom ← getDom
      let _ ← tipAppend (leaf { Typ := NodeHTMLBlock, Tokens := L.DomHTML dom n })
    return Visit.ret

/-! ## Inline decorations, code spans, breaks, links, images -/

/-- The kind of the last child of the tip, if the tip has a child. -/
def tipLastChildTyp : M (Option NodeType) := do
  let h ← getHeap
  pure ((← tipNode).LastChild.map (Ast.typOf h))

/-- Case `atom.Em, atom.I` of the first switch. -/
def caseEm (n : Nat) : M Visit := do
  let hn ← hnode n
  let dom ← getDom
  let text := DomText dom (some n)
  if TrimSpace text = [] then
    return Visit.brk
  let h ← getHeap
  let tip ← getTip
  if (← tipNode).Typ = NodeEmphasis ∨ Ast.ParentIs h tip NodeEmphasis then
    return Visit.brk
  let last ← tipLastChildTyp
  if last = some NodeStrong ∨ last = some NodeEmphasis then
    let _ ← tipAppend zwspText
  let i ← pushTip (Sub.mk { Typ := NodeEmphasis, Tokens := hn.Data }
    [astNode NodeEmA6kOpenMarker "*".toList])
  return Visit.opened i

/-- Case `atom.Strong, atom.B` of the first switch. -/
def caseStrong (n : Nat) : M Visit := do
  let hn ← hnode n
  let dom ← getDom
  let text := DomText dom (some n)
  if TrimSpace text = [] then
    return Visit.brk
  let h ← getHeap
  let tip ← getTip
  if (← tipNode).Typ = NodeStrong ∨ Ast.ParentIs h tip NodeStrong then
    return Visit.brk
  let last ← tipLastChildTyp
  if last = some NodeStrong ∨ last = some NodeEmphasis then
    let _ ← tipAppend zwspText
  let i ← pushTip (Sub.mk { Typ := NodeStrong, Tokens := hn.Data }
    [astNode NodeStrongA6kOpenMarker "**".toList])
  return Visit.opened i

/-- A code span with its two markers around the content (lines 566-570). -/
def codeSpan (data content : Str) : Sub :=
  Sub.mk { Typ := NodeCodeSpan, Tokens := data }
    [astNode NodeCodeSpanOpenMarker ['`'], astNode NodeCodeSpanContent content,
     astNode NodeCodeSpanCloseMarker ['`']]

/-- The loop of lines 548-557: every child that is not a text node is a `span`. -/
def allSpan (dom : Dom) (hn : HNode) : Bool :=
  (domChain dom (domFuel dom) hn.FirstChild).all (fun c =>
    match dom[c]? with
    | none => true
    | some cn => cn.Typ = .TextNode || cn.DataAtom = .Span)

/-- The content of a code span (lines 542-565). -/
def codeContent (L : Lute) (dom : Dom) (n : Nat) (hn : HNode) : Str :=
  let code := L.DomHTML dom n
  let code := match Index code ['>'] with
    | some i => code.drop (i + 1)
    | none => code
  let code := TrimSuffix code "</code>".toList
  let code := if allSpan dom hn then ReplaceAll (DomText dom (some n)) Nbsp [' '] else code
  L.UnescapeString code

/-- Case `atom.Code` of the first switch. -/
def caseCode (L : Lute) (n : Nat) : M Visit := do
  let hn ← hnode n
  if hn.FirstChild = none then
    return Visit.ret
  if (← tipLastChildTyp) = some NodeCodeSpan then
    let _ ← tipAppend zwspText
  let dom ← getDom
  let _ ← pushTip (codeSpan hn.Data (codeContent L dom n hn))
  return Visit.ret

/-- Case `atom.Br` of the first switch. -/
def caseBr (L : Lute) (n : Nat) : M Visit := do
  let hn ← hnode n
  if (← tipNode).Typ = NodeLink then
    return Visit.brk
  if hn.NextSibling = none then
    return Visit.brk
  let dom ← getDom
  if L.ProtyleWYSIWYG ∧ parentIs dom n [.Table] then
    let i ← pushTip (leaf { Typ := NodeBr, Tokens := hn.Data })
    return Visit.opened i
  else
    let i ← pushTip (leaf { Typ := NodeHardBreak, Tokens := ['\n'] })
    return Visit.opened i

/-- Case `atom.A` of the first switch. -/
def caseA (n : Nat) : M Visit := do
  let hn ← hnode n
  let dom ← getDom
  let text := TrimSpace (DomText dom (some n))
  if text = [] ∧ hn.Parent ≠ none ∧
      parentIs dom n [.H1, .H2, .H3, .H4, .H5, .H6, .Div, .Section] ∧
      DomChildrenByType dom (some n) .Img = [] then
    return Visit.ret
  if text = [] ∧ hn.FirstChild = none then
    return Visit.ret
  let i ← pushTip (Sub.mk { Typ := NodeLink, Tokens := hn.Data } [astNode NodeOpenBracket])
  return Visit.opened i

/-- Lines 628-651 of h2m.go: the destination of an image, from `src`, `data-src`
and `srcset`. -/
def imgSrc (dom : Dom) (n : Nat) : Str :=
  let src := DomAttrValue dom (some n) "src".toList
  let dataSrc := DomAttrValue dom (some n) "data-src".toList
  let src := if HasPrefix src "data:image".toList ∧ dataSrc ≠ [] then dataSrc else src
  let srcset := DomAttrValue dom (some n) "srcset".toList
  if src = [] ∧ srcset ≠ [] then
    if Contains srcset [','] then
      let src := TrimSpace ((Split srcset [',']).getLastD [])
      if Contains src [' '] then TrimSpace ((Split src [' ']).headD []) else src
    else
      let src := TrimSpace src
      if Contains src [' '] then TrimSpace ((Split srcset [' ']).headD []) else src
  else src

/-- The `Image` node of an `img` element (lines 620-658). -/
def imageNode (dom : Dom) (n : Nat) (data : Str) : Sub :=
  let imgAlt := DomAttrValue dom (some n) "alt".toList
  let linkTitle := DomAttrValue dom (some n) "title".toList
  Sub.mk { Typ := NodeImage, Tokens := data }
    ([astNode NodeBang, astNode NodeOpenBracket] ++
     (if imgAlt ≠ [] then [astNode NodeLinkText imgAlt] else []) ++
     [astNode NodeCloseBracket, astNode NodeOpenParen, astNode NodeLinkDest (imgSrc dom n)] ++
     (if linkTitle ≠ [] then [astNode NodeLinkSpace, astNode NodeLinkTitle linkTitle] else []) ++
     [astNode NodeCloseParen])

/-- The `Emoji` node of an `img` element of class `emoji` (lines 615-618). -/
def emojiNode (L : Lute) (dom : Dom) (n : Nat) (data : Str) : Sub :=
  let imgAlt := DomAttrValue dom (some n) "alt".toList
  Sub.mk { Typ := NodeEmoji, Tokens := data }
    [Sub.mk { Typ := NodeEmojiImg,
              Tokens := L.EmojiImgTokens imgAlt (DomAttrValue dom (some n) "src".toList) }
      [astNode NodeEmojiAlias (":".toList ++ imgAlt ++ ":".toList)]]

/-- Case `atom.Img` of the first switch. -/
def caseImg (L : Lute) (n : Nat) : M Visit := do
  let hn ← hnode n
  let dom ← getDom
  let imgClass := DomAttrValue dom (some n) "class".toList
  if (← tipNode).Typ = NodeDocument then
    let _ ← pushTip (astNode NodeParagraph)
  if imgClass = "emoji".toList then
    let i ← pushTip (emojiNode L dom n hn.Data)
    return Visit.opened i
  else
    let i ← pushTip (imageNode dom n hn.Data)
    return Visit.opened i

/-- Case `atom.Input` of the first switch. -/
def caseInput (n : Nat) : M Visit := do
  let hn ← hnode n
  let dom ← getDom
  let i ← tipAppend (leaf { Typ := NodeTaskListItemMarker, Tokens := hn.Data,
                            TaskListItemChecked := hasAttr dom n "checked".toList })
  let parent ← deref (← anode i).Parent
  match (← anode parent).Parent with
  | none => pure ()
  | some grand =>
    match (← anode grand).ListData with
    | none => setListData grand { Typ := 3 }
    | some d => setListData grand { d with Typ := 3 }
  return Visit.brk

/-- Cases `atom.Del, atom.S, atom.Strike`, `atom.Mark`, `atom.Sup`, `atom.Sub`
of the first switch: the decoration `t` with its open marker. -/
def caseDecoration (n : Nat) (t open_ : NodeType) (marker : Str) : M Visit := do
  let hn ← hnode n
  let i ← pushTip (Sub.mk { Typ := t, Tokens := hn.Data } [astNode open_ marker])
  return Visit.opened i

/-! ## Tables -/

/-- The alignment code of an `align` attribute (lines 713-722, 760-769). -/
def alignCode (align : Str) : Nat :=
  if align = "left".toList then 1
  else if align = "center".toList then 2
  else if align = "right".toList then 3
  else 0

/-- Lines 709-724 of h2m.go: the alignments of the cells of the first row. -/
def tableAligns (dom : Dom) (hn : HNode) : List Nat :=
  let th := firstChildAt dom (firstChildAt dom hn.FirstChild)
  (domChain dom (domFuel dom) th).map
    (fun c => alignCode (DomAttrValue dom (some c) "align".toList))

/-- Case `atom.Table` of the first switch. -/
def caseTable (n : Nat) : M Visit := do
  let hn ← hnode n
  let dom ← getDom
  let i ← pushTip (leaf { Typ := NodeTable, Tokens := hn.Data, TableAligns := tableAligns dom hn })
  return Visit.opened i

/-- Case `atom.Thead` of the first switch. -/
def caseThead (n : Nat) : M Visit := do
  let hn ← hnode n
  if hn.FirstChild = none then
    return Visit.brk
  let i ← pushTip (leaf { Typ := NodeTableHead, Tokens := hn.Data })
  return Visit.opened i

/-- Case `atom.Tr` of the first switch. -/
def caseTr (n : Nat) : M Visit := do
  let hn ← hnode n
  if hn.FirstChild = none then
    return Visit.brk
  let parent ← deref hn.Parent
  let table := (← hnode parent).Parent
  let h ← getHeap
  let dom ← getDom
  if Ast.ChildByType h (← getTip) NodeTableHead = none ∧
      (DomChildrenByType dom table .Thead).length < 1 then
    let _ ← pushTip (astNode NodeTableHead)
  let i ← pushTip (leaf { Typ := NodeTableRow, Tokens := hn.Data })
  return Visit.opened i

/-- Case `atom.Th, atom.Td` of the first switch. -/
def caseTd (n : Nat) : M Visit := do
  let hn ← hnode n
  let dom ← getDom
  let i ← pushTip (leaf { Typ := NodeTableCell, Tokens := hn.Data,
                          TableCellAlign := alignCode (DomAttrValue dom (some n) "align".toList) })
  return Visit.opened i

/-! ## Spans, fonts, raw HTML, figures -/

/-- A loop `for strings.Contains(s, old) { s = ReplaceAll(s, old, new) }`, run for
at most `fuel` rounds. -/
def replaceLoop (old new : Str) : Nat → Str → Str
  | 0, s => s
  | fuel + 1, s => if Contains s old then replaceLoop old new fuel (ReplaceAll s old new) else s

/-- Lines 804-820 of h2m.go: the formula of a KaTeX span, when it has one. -/
def katexTex (dom : Dom) (n : Nat) : Option Str :=
  if Contains (ToLower (TrimSpace (DomAttrValue dom (some n) "class".toList))) "katex".toList then
    match DomChildByTypeAndClass dom n .Span "katex-mathml".toList with
    | none => none
    | some span =>
      let tex := DomText dom (firstChildAt dom (some span))
      if tex ≠ [] then
        let tex := TrimSpace tex
        let tex := replaceLoop ['\n', ' '] ['\n'] tex.length tex
        match LastIndex tex ['\n', '\n', '\n', '\n'] with
        | some idx => if 0 < idx then some (TrimSpace (tex.drop (idx + 4))) else none
        | none => none
      else none
  else none

/-- Case `atom.Span` of the first switch. -/
def caseSpan (n : Nat) : M Visit := do
  let hn ← hnode n
  let dom ← getDom
  if hn.FirstChild = none then
    return Visit.ret
  if DomAttrValue dom (some n) "data-type".toList = "code".toList then
    if (← tipLastChildTyp) = some NodeCodeSpan then
      let _ ← tipAppend zwspText
    let _ ← pushTip (codeSpan [] (DomText dom (some n)))
    return Visit.ret
  let tex := TrimSpace (DomAttrValue dom (some n) "data-tex".toList)
  if tex ≠ [] then
    appendInlineMath tex
    return Visit.ret
  match katexTex dom n with
  | some tex =>
    appendInlineMath tex
    return Visit.ret
  | none =>
    if Contains (ToLower (TrimSpace (DomAttrValue dom (some n) "class".toList))) "mathjax".toList then
      match DomChildrenByType dom (some n) .Script with
      | script :: _ =>
        let tex := DomText dom (firstChildAt dom (some script))
        if tex ≠ [] then
          appendInlineMath tex
          return Visit.ret
        return Visit.ret
      | [] => return Visit.ret
    return Visit.brk

/-- Lines 834-845 of h2m.go: the text of a `font` element. -/
def fontTokens (text : Str) : Str :=
  let tokens := replaceLoop ['\n', '\n'] ['\n'] text.length text
  let tokens := collapseNewlineSpaces tokens
  ReplaceAll tokens ['\n'] [' ']

/-- Case `atom.Font` of the first switch. -/
def caseFont (n : Nat) : M Visit := do
  let dom ← getDom
  let _ ← tipAppend (astNode NodeText (fontTokens (DomText dom (some n))))
  return Visit.ret

/-- The first piece of `bytes.SplitAfter(s, sep)`: `s` up to and including the
first occurrence of `sep`, all of `s` when there is none. -/
def splitAfterFirst (s sep : Str) : Str :=
  match Index s sep with
  | some i => s.take (i + sep.length)
  | none => s

/-- Case `atom.Details` of the first switch. -/
def caseDetails (L : Lute) (n : Nat) : M Visit := do
  let dom ← getDom
  let _ ← tipAppend (astNode NodeHTMLBlock (splitAfterFirst (L.DomHTML dom n) "</summary>".toList))
  return Visit.brk

/-- Case `atom.Iframe, atom.Audio, atom.Video` of the first switch. -/
def caseMedia (L : Lute) (n : Nat) : M Visit := do
  let dom ← getDom
  let _ ← tipAppend (astNode NodeHTMLBlock (L.DomHTML dom n))
  return Visit.ret

/-- Case `atom.Script` of the first switch. -/
def caseScript (n : Nat) : M Visit := do
  let dom ← getDom
  let tex := DomText dom (firstChildAt dom (some n))
  if tex ≠ [] then
    appendInlineMath tex
    return Visit.ret
  return Visit.brk

/-- Case `atom.Figcaption` of the first switch. -/
def caseFigcaption (n : Nat) : M Visit := do
  let hn ← hnode n
  let dom ← getDom
  if Ast.IsContainerBlock (← tipNode).Typ then
    let _ ← tipAppend (Sub.mk { Typ := NodeParagraph, Tokens := hn.Data }
      [astNode NodeHardBreak, astNode NodeText (DomText dom (some n))])
    return Visit.ret
  return Visit.brk

/-- Case `atom.Figure` of the first switch. -/
def caseFigure (n : Nat) : M Visit := do
  let hn ← hnode n
  if Ast.IsContainerBlock (← tipNode).Typ then
    let i ← pushTip (leaf { Typ := NodeParagraph, Tokens := hn.Data })
    return Visit.opened i
  return Visit.brk

/-- The first `switch n.DataAtom` of `genASTByDOM` (lines 115-883). -/
def switchPre (L : Lute) (n : Nat) (a : Atom) : M Visit :=
  match a with
  | .zero => caseText L n
  | .P | .Div | .Section => caseP n
  | .H1 | .H2 | .H3 | .H4 | .H5 | .H6 => caseHeading n
  | .Hr => caseHr n
  | .Blockquote => caseBlockquote n
  | .Ol | .Ul => caseList n
  | .Li => caseLi n
  | .Pre => casePre L n
  | .Em | .I => caseEm n
  | .Strong | .B => caseStrong n
  | .Code => caseCode L n
  | .Br => caseBr L n
  | .A => caseA n
  | .Img => caseImg L n
  | .Input => caseInput n
  | .Del | .S | .Strike =>
    caseDecoration n NodeStrikethrough NodeStrikethrough2OpenMarker "~~".toList
  | .Mark => caseDecoration n NodeMark NodeMark2OpenMarker "==".toList
  | .Sup => caseDecoration n NodeSup NodeSupOpenMarker []
  | .Sub => caseDecoration n NodeSub NodeSubOpenMarker []
  | .Table => caseTable n
  | .Thead => caseThead n
  | .Tbody => pure Visit.brk
  | .Tr => caseTr n
  | .Th | .Td => caseTd n
  | .Colgroup | .Col => pure Visit.ret
  | .Span => caseSpan n
  | .Font => caseFont n
  | .Details => caseDetails L n
  | .Summary => pure Visit.ret
  | .Iframe | .Audio | .Video => caseMedia L n
  | .Noscript => pure Visit.ret
  | .Script => caseScript n
  | .Figcaption => caseFigcaption n
  | .Figure => caseFigure n
  | _ => pure Visit.brk

/-! ## The adjacent-space normalizer and the second switch -/

/-- The cut set `" Š"` of lines 992 and 999. -/
def spaceCutset : Str := [' ', Char.ofNat 0x160]

/-- Lines 996-1003 of h2m.go: the last text node under the tip loses its trailing
spaces, and is unlinked when nothing is left of it. -/
def trimLastText (tip : Nat) : M Unit := do
  match (Ast.ChildrenByType (← getHeap) tip NodeText).getLast? with
  | some text =>
    let tokens := TrimRight (← anode text).Tokens spaceCutset
    setTokens text tokens
    if tokens.length < 1 then
      unlink text
  | none => pure ()

/-- Lines 978-1013 of h2m.go: lift the leading and trailing spaces of the
element's text out of the decoration at the tip. -/
def liftSpaces (n : Nat) (curText : Str) : M Unit := do
  let tip ← getTip
  let spaces := prefixSpaces curText
  if spaces ≠ [] then
    match (← tipNode).Previous with
    | some previous =>
      let prev ← anode previous
      if prev.Typ = NodeText then
        setTokens previous (prev.Tokens ++ spaces)
      else
        insertAfter previous (astNode NodeText spaces)
    | none =>
      let _ ← tipAppend (astNode NodeText spaces)
    let text ← deref (Ast.ChildByType (← getHeap) tip NodeText)
    setTokens text (TrimLeft (← anode text).Tokens spaceCutset)
  let spaces := suffixSpaces curText
  if spaces ≠ [] then
    trimLastText tip
    match (← hnode n).NextSibling with
    | some next =>
      let nx ← hnode next
      if nx.Typ = .TextNode then
        liftDom (modify (fun d => upd d next (fun x => { x with Data := spaces ++ x.Data })))
      else
        insertAfter tip (astNode NodeText spaces)
    | none => insertAfter tip (astNode NodeText spaces)

/-- The function `appendSpace` of h2m.go. -/
def appendSpace (L : Lute) (n : Nat) : M Unit := do
  let hn ← hnode n
  let dom ← getDom
  if hn.NextSibling = none then
    return
  match DomText dom hn.NextSibling with
  | [] => return
  | c :: _ =>
    if IsSpace c then
      return
    let tip ← getTip
    if L.IsPunct c ∨ L.IsSymbol c then
      insertBefore tip zwspText
      insertAfter tip zwspText
      return
    let curText := DomText dom (some n)
    match curText.getLast? with
    | none => return
    | some lastC =>
      if L.IsPunct lastC ∨ L.IsSymbol lastC then
        match Ast.ChildByType (← getHeap) tip NodeText with
        | some text => setTokens text (Zwsp ++ (← anode text).Tokens ++ Zwsp)
        | none => pure ()
        return
      liftSpaces n curText

/-- The call `node.AppendChild(c)` of the second switch; a `node` that the first
switch did not link into the tree stays outside it. -/
def nodeAppend (node : Option Nat) (c : Sub) : M Unit := do
  match node with
  | some i => let _ ← appendChild i c
  | none => pure ()

/-- The second `switch n.DataAtom` of `genASTByDOM` (lines 889-924). -/
def switchPost (L : Lute) (n : Nat) (a : Atom) (node : Option Nat) : M Unit := do
  match a with
  | .Em | .I =>
    nodeAppend node (astNode NodeEmA6kCloseMarker "*".toList)
    appendSpace L n
  | .Strong | .B =>
    nodeAppend node (astNode NodeStrongA6kCloseMarker "**".toList)
    appendSpace L n
  | .A =>
    let dom ← getDom
    nodeAppend node (astNode NodeCloseBracket)
    nodeAppend node (astNode NodeOpenParen)
    nodeAppend node (astNode NodeLinkDest (DomAttrValue dom (some n) "href".toList))
    let linkTitle := DomAttrValue dom (some n) "title".toList
    if linkTitle ≠ [] then
      nodeAppend node (astNode NodeLinkSpace)
      nodeAppend node (astNode NodeLinkTitle linkTitle)
    nodeAppend node (astNode NodeCloseParen)
  | .Del | .S | .Strike =>
    nodeAppend node (astNode NodeStrikethrough2CloseMarker "~~".toList)
    appendSpace L n
  | .Mark =>
    nodeAppend node (astNode NodeMark2CloseMarker "==".toList)
    appendSpace L n
  | .Sup =>
    nodeAppend node (astNode NodeSupCloseMarker)
    appendSpace L n
  | .Sub =>
    nodeAppend node (astNode NodeSubCloseMarker)
    appendSpace L n
  | .Details =>
    let _ ← tipAppend (astNode NodeHTMLBlock "</details>".toList)
  | _ => pure ()

/-! ## The traversal `genASTByDOM` and the entry points -/

/-- Run the deferred `tree.Context.ParentTip()` calls of a frame. -/
def runDefers : Nat → M Unit
  | 0 => pure ()
  | k + 1 => do ParentTip; runDefers k

/-- The part of `genASTByDOM` from the creation of `node` on (lines 114-925):
the first switch, the children unless the switch returned, the second switch,
and then the deferred calls of the frame. `children` is the loop over the
children of `n`. -/
def visit (L : Lute) (children : Option Nat → M Unit) (n : Nat) (a : Atom) : M Unit := do
  let saved := (← get).defers
  modify (fun s => { s with defers := 0 })
  let v ← switchPre L n a
  if v.returned then
    pure ()
  else
    children (← hnode n).FirstChild
    switchPost L n a v.node
  runDefers (← get).defers
  modify (fun s => { s with defers := saved })

/-- The test of lines 83-105 of h2m.go: the node is ignored with its subtree. -/
def ignorable (dom : Dom) (n : Nat) (hn : HNode) : Bool :=
  let cls := DomAttrValue dom (some n) "class".toList
  hn.Typ = .CommentNode || hn.DataAtom = .Meta || hn.Namespace = "svg".toList ||
    DomAttrValue dom (some n) "data-render".toList = "1".toList ||
    (HasPrefix cls "line-number".toList && !HasPrefix cls "line-numbers".toList) ||
    Contains cls "mw-editsection".toList

mutual
/-- The function `genASTByDOM` of h2m.go: the depth-first walk over the DOM node
`n` that grows the tree; the first argument is the fuel of the embedding. -/
def genASTByDOM (L : Lute) : Nat → Nat → M Unit
  | 0, _ => throw Panic.outOfFuel
  | fuel + 1, n => do
    let hn ← hnode n
    if ignorable (← getDom) n hn then
      pure ()
    else if hn.DataAtom = .zero ∧ hn.Typ = .ElementNode then
      genChildren L fuel hn.FirstChild
    else
      visit L (genChildren L fuel) n hn.DataAtom
/-- The loop `for c := first; c != nil; c = c.NextSibling { genASTByDOM(c, tree) }`. -/
def genChildren (L : Lute) : Nat → Option Nat → M Unit
  | 0, _ => throw Panic.outOfFuel
  | _ + 1, none => pure ()
  | fuel + 1, some c => do
    genASTByDOM L fuel c
    genChildren L fuel (← hnode c).NextSibling
end

/-- The callback of lines 63-77 of h2m.go on entering node `n`: a list whose
parent is a list is unlinked and appended to its previous sibling, if it has
one. -/
def relocateList (h : Heap) (n : Nat) : Heap :=
  match h[n]? with
  | none => h
  | some nd =>
    if nd.Typ = NodeList then
      match nd.Parent with
      | none => h
      | some p =>
        if Ast.typOf h p = NodeList then
          match nd.Previous with
          | none => h
          | some previousLi => Ast.AppendChild (Ast.Unlink h n) previousLi n
        else h
    else h

mutual
/-- Modelled from the spec: `ast.Walk` (not in the analysed files) with the
callback of lines 63-77: a single pre-order walk that enters every node of the
tree. The loop over the children takes the link to the next sibling before the
child is visited, so that a list that the callback moves away does not end the
loop over its former siblings (the spec: "whenever a List is a direct child of
another List"). -/
def Walk : Nat → Heap → Nat → Except Panic Heap
  | 0, _, _ => .error Panic.outOfFuel
  | fuel + 1, h, n =>
    let h := relocateList h n
    match h[n]? with
    | none => .error Panic.nilDeref
    | some nd => walkChildren fuel h nd.FirstChild
/-- The loop over the children of a node: the next sibling is read, the child is
walked, and the loop goes on with the sibling that was read. -/
def walkChildren : Nat → Heap → Option Nat → Except Panic Heap
  | 0, _, _ => .error Panic.outOfFuel
  | _ + 1, h, none => .ok h
  | fuel + 1, h, some c =>
    match h[c]? with
    | none => .error Panic.nilDeref
    | some cd =>
      match Walk fuel h c with
      | .error e => .error e
      | .ok h => walkChildren fuel h cd.Next
end

mutual
/-- Modelled from the spec: `ast.Walk` (not in the analysed files) in the other
reading of its loop, `for c := n.FirstChild; nil != c; c = c.Next`: the link to
the next sibling is read after the child was visited, so that the loop over
the children of a list ends at a list that the callback moved. `HTML2Tree` does
not use this reading; it serves to show that a tree does not depend on the
reading, or how it does. -/
def WalkByNext : Nat → Heap → Nat → Except Panic Heap
  | 0, _, _ => .error Panic.outOfFuel
  | fuel + 1, h, n =>
    let h := relocateList h n
    match h[n]? with
    | none => .error Panic.nilDeref
    | some nd => walkChildrenByNext fuel h nd.FirstChild
/-- The loop `for c := n.FirstChild; nil != c; c = c.Next { Walk(c, walker) }`. -/
def walkChildrenByNext : Nat → Heap → Option Nat → Except Panic Heap
  | 0, _, _ => .error Panic.outOfFuel
  | _ + 1, h, none => .ok h
  | fuel + 1, h, some c =>
    match WalkByNext fuel h c with
    | .error e => .error e
    | .ok h =>
      match h[c]? with
      | none => .error Panic.nilDeref
      | some cd => walkChildrenByNext fuel h cd.Next
end

/-- The Go type `parse.Tree`: the heap of its nodes, `Root` and `Context.Tip`. -/
structure Tree where
  nodes : Heap
  Root : Nat
  Tip : Nat
deriving DecidableEq, Repr

/-- The state of line 56-57 of h2m.go: a tree with the `Document` root, the tip
on it. -/
def initState (dom : Dom) : State :=
  { dom := dom, nodes := [{ Typ := NodeDocument }], Tip := 0, defers := 0 }

/-- Lines 56-60 of h2m.go: the walk over the children of the HTML root (node 0
of the DOM). -/
def genTree (L : Lute) (fuel : Nat) (htmlRoot : Dom) : Except Panic State :=
  match htmlRoot[0]? with
  | none => .error Panic.nilDeref
  | some root =>
    match (genChildren L fuel root.FirstChild).run (initState htmlRoot) with
    | .error e => .error e
    | .ok (_, s) => .ok s

/-- Lines 55-78 of h2m.go: the tree of a DOM, walked and adjusted. -/
def buildTree (L : Lute) (fuel : Nat) (htmlRoot : Dom) : Except Panic Tree :=
  match genTree L fuel htmlRoot with
  | .error e => .error e
  | .ok s =>
    match Walk fuel s.nodes 0 with
    | .error e => .error e
    | .ok h => .ok { nodes := h, Root := 0, Tip := s.Tip }

/-- The function `HTML2Tree` of h2m.go; `none` is the nil tree. -/
def HTML2Tree (L : Lute) (fuel : Nat) (dom : Str) : Except Panic (Option Tree) :=
  match L.parseHTML dom with
  | none => .ok none
  | some htmlRoot =>
    match buildTree L fuel (L.adjustVditorDOM htmlRoot) with
    | .error e => .error e
    | .ok t => .ok (some t)

/-- Modelled from the spec: the Markdown formatter
`render.NewFormatRenderer(tree, ...).Render()` (not in the analysed files): for
an absent root the Markdown is empty (section 7), otherwise it is what the
formatter collaborator writes for the tree. -/
def formatRender (L : Lute) (tree : Option Tree) : Str :=
  match tree with
  | none => []
  | some t => L.Render t.nodes

/-- The function `HTML2Markdown` of h2m.go: the Markdown and the error, which
the function never sets. -/
def HTML2Markdown (L : Lute) (fuel : Nat) (htmlStr : Str) : Except Panic (Str × Option Str) :=
  match HTML2Tree L fuel htmlStr with
  | .error e => .error e
  | .ok tree => .ok (formatRender L tree, none)

/-! ## The link sanitizer of `render/sanitizer.go` -/

/-- The function `SanitizeLinkDest` of render/sanitizer.go; `policy` is the
method `Sanitize` of the bluemonday policy that `newSanitizer` builds and
`TagAttrVal` is `util.TagAttrVal`, both outside the analysed files. -/
def SanitizeLinkDest (policy : Str → Str) (TagAttrVal : Str → Str → Str) (src : Str) : Str :=
  let ret := ReplaceAll src "\"".toList "__@QUOTE@__".toList
  let ret := ReplaceAll ret " ".toList "__@SPACE@__".toList
  let ret := ReplaceAll ret "#".toList "__@HASH@__".toList
  let ret := ReplaceAll ret "&".toList "__@AMP@__".toList
  let ret := ReplaceAll ret "|".toList "__@PIPE@__".toList
  let ret := "<a href=\"".toList ++ ret ++ "\"></a>".toList
  let ret := policy ret
  let ret := TagAttrVal ret "href".toList
  let ret := ReplaceAll ret "__@QUOTE@__".toList "\"".toList
  let ret := ReplaceAll ret "__@SPACE@__".toList " ".toList
  let ret := ReplaceAll ret "__@HASH@__".toList "#".toList
  let ret := ReplaceAll ret "__@AMP@__".toList "&".toList
  let ret := ReplaceAll ret "__@PIPE@__".toList "|".toList
  let ret := TrimSpace ret
  if HasPrefix ret "javascript:".toList then [] else ret

/-- The function `SanitizeLinkDestBytes` of render/sanitizer.go; the
conversions `string(src)` and `[]byte(...)` keep the bytes as they are. -/
def SanitizeLinkDestBytes (policy : Str → Str) (TagAttrVal : Str → Str → Str) (src : Str) : Str :=
  SanitizeLinkDest policy TagAttrVal src

/-! ## The list test of `list.go` -/

/-- The kinds of token that `isList` compares with (the constants `itemSpace`,
`itemTab`, `itemNewline` of the lexer, which is outside the analysed files);
`other` is any other kind. -/
inductive ItemType
  | itemSpace | itemTab | itemNewline | other
deriving DecidableEq, Repr

/-- The Go type `item` of the lexer, with the two fields that `isList` reads. -/
structure Item where
  typ : ItemType
  val : Str
deriving DecidableEq, Repr

/-- The Go type `items`: the tokens of a line. -/
abbrev Items := List Item

/-- The function `Tree.isList` of list.go; `skipWhitespaces` is the method of
that name, outside the analysed files. An index past the end of the line
panics. -/
def isList (skipWhitespaces : Items → Items) (line : Items) : Except Panic Bool :=
  if line.length < 2 then .ok false
  else
    let line := skipWhitespaces line
    match line.get? 0 with
    | none => .error Panic.indexOutOfRange
    | some firstNonWhitespace =>
      if "*".toList ≠ firstNonWhitespace.val ∧ "-".toList ≠ firstNonWhitespace.val ∧
          "+".toList ≠ firstNonWhitespace.val then .ok false
      else
        match line.get? 1 with
        | none => .error Panic.indexOutOfRange
        | some second =>
          if ItemType.itemSpace ≠ second.typ ∧ ItemType.itemTab ≠ second.typ ∧
              ItemType.itemNewline ≠ second.typ then .ok false
          else .ok true

/-! ## The attribute filter of `sanitize` in `render/sanitizer.go` -/

/-- The test of lines 71-74 of render/sanitizer.go: the attribute is `href` or
`src` and its value, trimmed and in lower case, starts with `javascript:` or
`data:`. -/
def unsafeURLAttr (attr : Attribute) : Bool :=
  (attr.Key = "href".toList || attr.Key = "src".toList) &&
    (HasPrefix (ToLower (TrimSpace attr.Val)) "javascript:".toList ||
      HasPrefix (ToLower (TrimSpace attr.Val)) "data:".toList)

/-- The loop `for i := len(n.Attr) - 1; i >= 0; i--` of lines 69-77, entered with
`i + 1` as first argument: the attribute at index `i` is read, and removed by
`append(n.Attr[:i], n.Attr[i+1:]...)` when it is unsafe. -/
def sanitizeAttrs : Nat → List Attribute → Except Panic (List Attribute)
  | 0, attrs => .ok attrs
  | i + 1, attrs =>
    match attrs[i]? with
    | none => .error Panic.indexOutOfRange
    | some attr =>
      if unsafeURLAttr attr then sanitizeAttrs i (attrs.take i ++ attrs.drop (i + 1))
      else sanitizeAttrs i attrs

mutual
/-- The closure `f` of lines 66-82 of render/sanitizer.go on node `n`: the
attributes of an element are filtered, then the children are walked; the first
argument is the fuel of the embedding. -/
def sanitizeNode : Nat → Dom → Nat → Except Panic Dom
  | 0, _, _ => .error Panic.outOfFuel
  | fuel + 1, d, n =>
    match d[n]? with
    | none => .error Panic.nilDeref
    | some hn =>
      match (if hn.Typ = .ElementNode then sanitizeAttrs hn.Attr.length hn.Attr
             else .ok hn.Attr) with
      | .error e => .error e
      | .ok attrs =>
        sanitizeChildren fuel (upd d n (fun x => { x with Attr := attrs })) hn.FirstChild
/-- The loop `for c := n.FirstChild; c != nil; c = c.NextSibling { f(c) }`. -/
def sanitizeChildren : Nat → Dom → Option Nat → Except Panic Dom
  | 0, _, _ => .error Panic.outOfFuel
  | _ + 1, d, none => .ok d
  | fuel + 1, d, some c =>
    match sanitizeNode fuel d c with
    | .error e => .error e
    | .ok d1 =>
      match d1[c]? with
      | none => .error Panic.nilDeref
      | some cn => sanitizeChildren fuel d1 cn.NextSibling
end

/-! ## Reading a tree, and concrete inputs -/

mutual
/-- The outline of the subtree of node `i`: depth, kind and tokens of each node,
in walk order. -/
def outlineNode (h : Heap) : Nat → Nat → Nat → List (Nat × NodeType × Str)
  | 0, _, _ => []
  | fuel + 1, depth, i =>
    match h[i]? with
    | none => []
    | some n => (depth, n.Typ, n.Tokens) :: outlineChain h fuel (depth + 1) n.FirstChild
/-- The outlines of the nodes of a sibling chain. -/
def outlineChain (h : Heap) : Nat → Nat → Option Nat → List (Nat × NodeType × Str)
  | 0, _, _ => []
  | _ + 1, _, none => []
  | fuel + 1, depth, some i =>
    outlineNode h fuel depth i ++
      (match h[i]? with
       | none => []
       | some n => outlineChain h fuel depth n.Next)
end

/-- The outline of a tree from its root. -/
def Tree.outline (t : Tree) : List (Nat × NodeType × Str) :=
  outlineNode t.nodes (2 * t.nodes.length + 2) 0 t.Root

/-- HTML markup, to write down a DOM. -/
inductive Markup where
  | text (data : String)
  | elem (a : Atom) (tag : String) (attrs : List (String × String)) (children : List Markup)

mutual
/-- Append the DOM of a piece of markup as the last child of `parent`. -/
def addMarkup (d : Dom) (parent : Nat) : Markup → Dom
  | .text data =>
    Html.AppendChild (d ++ [{ Typ := .TextNode, Data := data.toList }]) parent d.length
  | .elem a tag attrs cs =>
    addMarkups
      (Html.AppendChild
        (d ++ [{ Typ := .ElementNode, DataAtom := a, Data := tag.toList,
                 Attr := attrs.map (fun kv => { Key := kv.1.toList, Val := kv.2.toList }) }])
        parent d.length)
      d.length cs
/-- Append the DOM of a list of markup as the last children of `parent`. -/
def addMarkups (d : Dom) (parent : Nat) : List Markup → Dom
  | [] => d
  | m :: ms => addMarkups (addMarkup d parent m) parent ms
end

/-- The DOM that `parseHTML` builds for a fragment: the root `&html.Node{Type:
html.ElementNode}` at index 0 and the parsed nodes appended to it. -/
def domOf (ms : List Markup) : Dom := addMarkups [{ Typ := .ElementNode }] 0 ms

/-- The ASCII punctuation of `unicode.IsPunct`. -/
def asciiPunct (c : Char) : Bool := "!\"#%&'()*,-./:;?@[\\]_{}".toList.contains c

/-- The ASCII symbols of `unicode.IsSymbol`. -/
def asciiSymbol (c : Char) : Bool := "$+<=>^`|~".toList.contains c

/-- An engine for inputs of plain ASCII text without marker characters: the
parser yields `dom` for the HTML `html`, the DOM adjustment and the escaping
leave their input as it is. -/
def engine (html : String) (dom : Dom) : Lute :=
  { ProtyleWYSIWYG := false
    parseHTML := fun s => if s = html.toList then some dom else none
    adjustVditorDOM := fun d => d
    EscapeMarkers := fun s => s
    EscapeProtyleMarkers := fun s => s
    EmojiImgTokens := fun _ _ => []
    UnescapeString := fun s => s
    DomHTML := fun _ _ => []
    IsPunct := asciiPunct
    IsSymbol := asciiSymbol
    Render := fun _ => [] }

/-! ## Properties of heaps, states and trees -/

/-- The kind and the tokens of a node. -/
def Node.core (n : Node) : NodeType × Str := (n.Typ, n.Tokens)

/-- Node `i` has in `h'` the kind and the parent that it has in `h`. -/
def Same (i : Nat) (h h' : Heap) : Prop :=
  ∀ nd, h[i]? = some nd → ∃ nd', h'[i]? = some nd' ∧ nd'.Typ = nd.Typ ∧ nd'.Parent = nd.Parent

/-- The root of the tree is a parentless `Document`. -/
def RootOK (h : Heap) : Prop := ∃ nd, h[0]? = some nd ∧ nd.Typ = NodeDocument ∧ nd.Parent = none

/-- Node `i` reaches the root in `k` steps along parent links, through nodes that
are not text nodes. -/
inductive Reach (h : Heap) : Nat → Nat → Prop
  | root : Reach h 0 0
  | step (i p k : Nat) : Ast.parentOf h i = some p → Ast.typOf h i ≠ NodeText → Reach h p k →
      Reach h i (k + 1)

/-- Every node that is not a text node keeps its kind and its parent. -/
def Ext (h h' : Heap) : Prop := ∀ i, Ast.typOf h i ≠ NodeText → Same i h h'

/-- The computation `m` keeps the state property `P`: whenever it ends without
panic from a state with `P`, its final state has `P`. -/
structure Keeps (P : State → Prop) {α : Type} (m : M α) : Prop where
  run : ∀ s a s', P s → m s = .ok (a, s') → P s'

/-- The invariant of the walk: the root is a parentless `Document`, and the tip
reaches it in at most `D` steps more than there are deferred `ParentTip` calls
in the running frame. -/
def Inv (D : Nat) (s : State) : Prop :=
  RootOK s.nodes ∧ ∃ k, k ≤ D + s.defers ∧ Reach s.nodes s.Tip k

/-- The frame property of a visit: `d` deferred calls are pending in the frame
and the tip reaches the root in at most `K` steps. -/
def Framed (K d : Nat) (s : State) : Prop :=
  s.defers = d ∧ RootOK s.nodes ∧ ∃ k, k ≤ K ∧ Reach s.nodes s.Tip k

/-- Node `i` of the heap has kind `t`, and its previous sibling is a text node
that holds the zero-width separator. -/
def SepBefore (h : Heap) (i : Nat) (t : NodeType) : Prop :=
  ∃ x j z, h[i]? = some x ∧ x.Typ = t ∧ x.Previous = some j ∧
    h[j]? = some z ∧ z.Typ = NodeText ∧ z.Tokens = Zwsp

/-- The kind, the tokens and the previous sibling of a node. -/
def Node.back (n : Node) : NodeType × Str × Option Nat := (n.Typ, n.Tokens, n.Previous)

/-- The kinds and tokens of at most `k` nodes met from node `j` backwards along
the links `Previous`, in document order. -/
def backKinds (h : Heap) : Nat → Option Nat → List (NodeType × Str)
  | 0, _ => []
  | _ + 1, none => []
  | k + 1, some j =>
    match h[j]? with
    | none => []
    | some x => backKinds h k x.Previous ++ [(x.Typ, x.Tokens)]

/-- The kinds and tokens of the last `k` children of node `i`, in order; of all
its children, if it has fewer than `k`. -/
def Ast.lastChildren (h : Heap) (i k : Nat) : List (NodeType × Str) :=
  match h[i]? with
  | none => []
  | some n => backKinds h k n.LastChild

/-- The kinds and tokens of the children of node `i`, in order, read from its
last child backwards. -/
def Ast.kids (h : Heap) (i : Nat) : List (NodeType × Str) := Ast.lastChildren h i (h.length + 1)

/-- The value of a test on the tree that `HTML2Tree` returned; `false` without a
tree. -/
def treeHas (r : Except Panic (Option Tree)) (p : Tree → Bool) : Bool :=
  match r with
  | .ok (some t) => p t
  | _ => false

/-- Some node of kind `List` in the tree has a parent of kind `List`. -/
def Tree.listUnderList (t : Tree) : Bool :=
  (Ast.subtree t.nodes t.Root).any (fun i =>
    Ast.typOf t.nodes i = NodeList &&
      (Ast.parentOf t.nodes i).any (fun p => Ast.typOf t.nodes p = NodeList))

/-- Some fence-info marker in the tree carries an info string with a whitespace
character, a hyphen or an underscore. -/
def Tree.infoUnclean (t : Tree) : Bool :=
  (Ast.subtree t.nodes t.Root).any (fun i =>
    match t.nodes[i]? with
    | some n => n.Typ = NodeCodeBlockFenceInfoMarker &&
        n.CodeBlockInfo.any (fun c => IsSpace c || c = '-' || c = '_')
    | none => false)

/-- Two kinds that may not be adjacent: the same inline decoration kind, or
`Emphasis` next to `Strong`. -/
def kindred (a b : NodeType) : Bool :=
  (a = b && [NodeCodeSpan, NodeEmphasis, NodeStrong, NodeStrikethrough, NodeMark, NodeSup,
      NodeSub].contains a) ||
    ((a = NodeEmphasis || a = NodeStrong) && (b = NodeEmphasis || b = NodeStrong))

/-- Some node of the tree and its next sibling are of kindred kinds. -/
def Tree.adjacentKindred (t : Tree) : Bool :=
  (Ast.subtree t.nodes t.Root).any (fun i =>
    match t.nodes[i]? with
    | some n => n.Next.any (fun j => kindred n.Typ (Ast.typOf t.nodes j))
    | none => false)

/-- Some `Paragraph` or `CodeBlock` of the tree lies under a `TableCell`. -/
def Tree.blockUnderCell (t : Tree) : Bool :=
  (Ast.subtree t.nodes t.Root).any (fun i =>
    (Ast.typOf t.nodes i = NodeParagraph || Ast.typOf t.nodes i = NodeCodeBlock) &&
      Ast.ParentIs t.nodes i NodeTableCell)

/-- The input `<p>x<em><strong> a</strong></em>b</p>`. -/
def inSpace : String := "<p>x<em><strong> a</strong></em>b</p>"

/-- The DOM of `inSpace`. -/
def domSpace : Dom :=
  domOf [.elem .P "p" [] [.text "x", .elem .Em "em" [] [.elem .Strong "strong" [] [.text " a"]],
    .text "b"]]

/-- The input `<ul><ul><li>a</li></ul></ul>`. -/
def inNested : String := "<ul><ul><li>a</li></ul></ul>"

/-- The DOM of `inNested`. -/
def domNested : Dom :=
  domOf [.elem .Ul "ul" [] [.elem .Ul "ul" [] [.elem .Li "li" [] [.text "a"]]]]

/-- The input `<div class="highlight-source-c_x">a</div>`. -/
def inSource : String := "<div class=\"highlight-source-c_x\">a</div>"

/-- The DOM of `inSource`. -/
def domSource : Dom :=
  domOf [.elem .Div "div" [("class", "highlight-source-c_x")] [.text "a"]]

/-- The input `<pre><code class="language-a&#9;b">x</code></pre>`: the class
holds a tab. -/
def inTab : String := "<pre><code class=\"language-a&#9;b\">x</code></pre>"

/-- The DOM of `inTab`. -/
def domTab : Dom :=
  domOf [.elem .Pre "pre" [] [.elem .Code "code" [("class", "language-a\tb")] [.text "x"]]]

/-- The input `<p><del>a</del><del>b</del></p>`. -/
def inDel : String := "<p><del>a</del><del>b</del></p>"

/-- The DOM of `inDel`. -/
def domDel : Dom :=
  domOf [.elem .P "p" [] [.elem .Del "del" [] [.text "a"], .elem .Del "del" [] [.text "b"]]]

/-- The input
`<table><tbody><tr><td><ul><li><figure><img src="x"></figure></li></ul></td></tr></tbody></table>`. -/
def inFigure : String :=
  "<table><tbody><tr><td><ul><li><figure><img src=\"x\"></figure></li></ul></td></tr></tbody></table>"

/-- The DOM of `inFigure`. -/
def domFigure : Dom :=
  domOf [.elem .Table "table" [] [.elem .Tbody "tbody" [] [.elem .Tr "tr" [] [.elem .Td "td" []
    [.elem .Ul "ul" [] [.elem .Li "li" [] [.elem .Figure "figure" []
      [.elem .Img "img" [("src", "x")] []]]]]]]]]

/-- The input `<table><tr><td><table><tr><td><pre>x</pre></td></tr></table></td></tr></table>`,
a single-cell table in a cell. -/
def inCellTable : String :=
  "<table><tr><td><table><tr><td><pre>x</pre></td></tr></table></td></tr></table>"

/-- The DOM of `inCellTable`, with the `tbody` elements that the parser adds. -/
def domCellTable : Dom :=
  domOf [.elem .Table "table" [] [.elem .Tbody "tbody" [] [.elem .Tr "tr" [] [.elem .Td "td" []
    [.elem .Table "table" [] [.elem .Tbody "tbody" [] [.elem .Tr "tr" [] [.elem .Td "td" []
      [.elem .Pre "pre" [] [.text "x"]]]]]]]]]]

/-- The final state of a computation, or the state it started from if it
panics. -/
def endState {α : Type} (m : M α) (s : State) : State :=
  match m s with
  | .ok (_, s') => s'
  | .error _ => s

/-- A heap with a list (node 3) under a list (node 1), after a list item (node
2). -/
def heapNested : Heap :=
  [{ Typ := NodeDocument, FirstChild := some 1, LastChild := some 1 },
   { Typ := NodeList, Parent := some 0, FirstChild := some 2, LastChild := some 3 },
   { Typ := NodeListItem, Parent := some 1, Next := some 3 },
   { Typ := NodeList, Parent := some 1, Previous := some 2 }]

/-- The DOM of `<p><strong>a</strong><em>b</em></p>`; the `em` is node 4. -/
def domKin : Dom :=
  domOf [.elem .P "p" [] [.elem .Strong "strong" [] [.text "a"], .elem .Em "em" [] [.text "b"]]]

/-- A state of the walk over `domKin` on entering the `em`: the tip is the
paragraph (node 1) and its last child is the `Strong` (node 2). -/
def stKin : State :=
  { dom := domKin
    nodes := [{ Typ := NodeDocument, FirstChild := some 1, LastChild := some 1 },
              { Typ := NodeParagraph, Parent := some 0, FirstChild := some 2, LastChild := some 2 },
              { Typ := NodeStrong, Parent := some 1 }]
    Tip := 1 }

/-- The DOM of `<table><tbody><tr><td><p>x</p></td></tr></tbody></table>`; the
`p` is node 5. -/
def domCell : Dom :=
  domOf [.elem .Table "table" [] [.elem .Tbody "tbody" [] [.elem .Tr "tr" [] [.elem .Td "td" []
    [.elem .P "p" [] [.text "x"]]]]]]

/-- The state after the first loop of `HTML2Tree` on `domDel`. -/
def stDel : State :=
  match genTree (engine inDel domDel) 100 domDel with
  | .ok s => s
  | .error _ => initState domDel

/-- The tree of `inDel`. -/
def treeDel : Tree :=
  match HTML2Tree (engine inDel domDel) 100 inDel.toList with
  | .ok (some t) => t
  | _ => { nodes := [], Root := 0, Tip := 0 }

/-- The DOM of `<a href="/bar" title="baz">foo</a>`; the `a` is node 1. -/
def domLink : Dom :=
  domOf [.elem .A "a" [("href", "/bar"), ("title", "baz")] [.text "foo"]]

/-- The DOM of `<img src="/bar" alt="foo"/>`; the `img` is node 1. -/
def domImg : Dom :=
  domOf [.elem .Img "img" [("src", "/bar"), ("alt", "foo")] []]

/-- The children of the first row of a table, as lines 709-710 of h2m.go walk
them: the sibling chain from the first child of the first child of the first
child of the `table`. -/
def firstRowCells (dom : Dom) (hn : HNode) : List Nat :=
  domChain dom (domFuel dom) (firstChildAt dom (firstChildAt dom hn.FirstChild))

/-- The element kind of the parent of the parent of a DOM node. -/
def grandAtom (dom : Dom) (hn : HNode) : Option Atom :=
  (hn.Parent.bind (fun p => (dom[p]?).bind (·.Parent))).map (atomOf dom)

/-- The DOM of the state is `d`. -/
def DomIs (d : Dom) (s : State) : Prop := s.dom = d

/-- Started on the DOM `d`, the computation `m` leaves the DOM as it is or ends
on a DOM with the property `R`. -/
structure Leads (d : Dom) (R : Dom → Prop) {α : Type} (m : M α) : Prop where
  run : ∀ s a s', s.dom = d → m s = .ok (a, s') → s'.dom = d ∨ R s'.dom

/-- The DOM `d'` is `d` with the trailing spaces of `curText` put in front of
the data of the text node that follows node `n` (line 1006 of h2m.go). -/
@[reducible] def SpacesLifted (d : Dom) (n : Nat) (curText : Str) (d' : Dom) : Prop :=
  ∃ hn next nx, d[n]? = some hn ∧ hn.NextSibling = some next ∧ d[next]? = some nx ∧
    nx.Typ = .TextNode ∧ suffixSpaces curText ≠ [] ∧
    d' = upd d next (fun x => { x with Data := suffixSpaces curText ++ x.Data })

/-- The DOM `d'` is `d` without the `math/tex` script that follows the `div` of
class `MathJax` at node `n` (line 231 of h2m.go). -/
@[reducible] def ScriptUnlinked (d : Dom) (n : Nat) (hn : HNode) (d' : Dom) : Prop :=
  hn.DataAtom = .Div ∧
    (Contains (DomAttrValue d (some n) "class".toList) "MathJax".toList ∧
      hn.NextSibling ≠ none ∧ (hn.NextSibling.map (atomOf d)) = some .Script ∧
      Contains (DomAttrValue d hn.NextSibling "type".toList) "math/tex".toList) ∧
    ∃ sib, hn.NextSibling = some sib ∧ d' = Html.Unlink d sib

/-- The tree of a result of `HTML2Tree`; the empty tree stands for no tree. -/
def treeOf (r : Except Panic (Option Tree)) : Tree :=
  match r with
  | .ok (some t) => t
  | _ => { nodes := [], Root := 0, Tip := 0 }

/-- The DOM that a run ends on; the empty DOM stands for a panic. -/
def domAfter (r : Except Panic State) : Dom :=
  match r with
  | .ok s => s.dom
  | .error _ => []

/-- The heap that a run ends on; the empty heap stands for a panic. -/
def heapAfter (r : Except Panic State) : Heap :=
  match r with
  | .ok s => s.nodes
  | .error _ => []

/-- The tokens of the link destinations of a tree, in the order of the heap. -/
def Tree.linkDests (t : Tree) : List Str :=
  t.nodes.filterMap (fun nd => if nd.Typ = NodeLinkDest then some nd.Tokens else none)

/-- The markers of the list items of a tree, in the order of the heap. -/
def Tree.itemMarkers (t : Tree) : List Str :=
  t.nodes.filterMap (fun nd =>
    if nd.Typ = NodeListItem then nd.ListData.map (·.Marker) else none)

/-- The input `<img srcset="a.png 2x">`. -/
def inSrcset : String := "<img srcset=\"a.png 2x\">"

/-- The DOM of `inSrcset`; the `img` is node 1. -/
def domSrcset : Dom := domOf [.elem .Img "img" [("srcset", "a.png 2x")] []]

/-- The DOM of `<img srcset="a.png 1x, b.png 2x">`; the `img` is node 1. -/
def domSrcsetTwo : Dom := domOf [.elem .Img "img" [("srcset", "a.png 1x, b.png 2x")] []]

/-- The input `<ul><ol><li data-marker="2.">x</li></ol></ul>`. -/
def inMarker : String := "<ul><ol><li data-marker=\"2.\">x</li></ol></ul>"

/-- The DOM of `inMarker`; the `li` is node 3. -/
def domMarker : Dom :=
  domOf [.elem .Ul "ul" [] [.elem .Ol "ol" [] [.elem .Li "li" [("data-marker", "2.")] [.text "x"]]]]

/-- The input `<ul><ol start="3"><li>x</li></ol></ul>`. -/
def inStart : String := "<ul><ol start=\"3\"><li>x</li></ol></ul>"

/-- The DOM of `inStart`; the `li` is node 3. -/
def domStart : Dom :=
  domOf [.elem .Ul "ul" [] [.elem .Ol "ol" [("start", "3")] [.elem .Li "li" [] [.text "x"]]]]

/-- The DOM of `<h2>foo</h2>`; the `h2` is node 1. -/
def domHead : Dom := domOf [.elem .H2 "h2" [] [.text "foo"]]

/-- The DOM of `<ul><li><input checked="" type="checkbox"> a</li></ul>`; the
`input` is node 3. -/
def domTask : Dom :=
  domOf [.elem .Ul "ul" [] [.elem .Li "li" []
    [.elem .Input "input" [("checked", ""), ("type", "checkbox")] [], .text " a"]]]

/-- A state of the walk over `domTask` on entering the `input`: the tip is the
list item (node 2) of the list (node 1). -/
def stTask : State :=
  { dom := domTask
    nodes := [{ Typ := NodeDocument, FirstChild := some 1, LastChild := some 1 },
              { Typ := NodeList, Parent := some 0, FirstChild := some 2, LastChild := some 2,
                ListData := some { Typ := 0, Tight := true } },
              { Typ := NodeListItem, Parent := some 1,
                ListData := some { Marker := "*".toList, BulletChar := 42 } }]
    Tip := 2 }

/-- The DOM of
`<table><thead><tr><th align="left">a</th><th align="center">b</th></tr></thead></table>`;
the `table` is node 1, the cells are the nodes 4 and 6. -/
def domAlign : Dom :=
  domOf [.elem .Table "table" [] [.elem .Thead "thead" [] [.elem .Tr "tr" []
    [.elem .Th "th" [("align", "left")] [.text "a"],
     .elem .Th "th" [("align", "center")] [.text "b"]]]]]

/-- The DOM of `<p>a<noscript>b</noscript></p>`; the `noscript` is node 3. -/
def domNoscript : Dom :=
  domOf [.elem .P "p" [] [.text "a", .elem .Noscript "noscript" [] [.text "b"]]]

/-- The input `<p><em>a </em>b</p>`. -/
def inTrail : String := "<p><em>a </em>b</p>"

/-- The DOM of `inTrail`; the text `b` is node 4. -/
def domTrail : Dom := domOf [.elem .P "p" [] [.elem .Em "em" [] [.text "a "], .text "b"]]

/-- The input `<div class="MathJax"></div><script type="math/tex">x</script>`. -/
def inMath : String := "<div class=\"MathJax\"></div><script type=\"math/tex\">x</script>"

/-- The DOM of `inMath`; the `div` is node 1, the `script` is node 2. -/
def domMath : Dom :=
  domOf [.elem .Div "div" [("class", "MathJax")] [],
         .elem .Script "script" [("type", "math/tex")] [.text "x"]]

/-- The input
`<ul><li>a</li><ul><li>b</li></ul><ul><li>c</li></ul><li>d</li><ul><li>e</li></ul></ul>`:
three lists under a list. -/
def inLists : String :=
  "<ul><li>a</li><ul><li>b</li></ul><ul><li>c</li></ul><li>d</li><ul><li>e</li></ul></ul>"

/-- The DOM of `inLists`. -/
def domLists : Dom :=
  domOf [.elem .Ul "ul" [] [.elem .Li "li" [] [.text "a"],
    .elem .Ul "ul" [] [.elem .Li "li" [] [.text "b"]],
    .elem .Ul "ul" [] [.elem .Li "li" [] [.text "c"]],
    .elem .Li "li" [] [.text "d"],
    .elem .Ul "ul" [] [.elem .Li "li" [] [.text "e"]]]]

/-- The input `<ul><li>foo<br></li><ul><li>b</li></ul></ul>` of test case 43,
without its attributes. -/
def inFoo : String := "<ul><li>foo<br></li><ul><li>b</li></ul></ul>"

/-- The DOM of `inFoo`. -/
def domFoo : Dom :=
  domOf [.elem .Ul "ul" [] [.elem .Li "li" [] [.text "foo", .elem .Br "br" [] []],
    .elem .Ul "ul" [] [.elem .Li "li" [] [.text "b"]]]]

/-- The tree built for `inFoo` by the walk over the DOM, before the walk of
lines 62-77. -/
def heapFoo : Heap := heapAfter (genTree (engine inFoo domFoo) 100 domFoo)

/-- Every `|` of the string stands right after a backslash. -/
def PipesEscaped (t : Str) : Prop :=
  ∀ i : Nat, t[i]? = some '|' → ∃ j, i = j + 1 ∧ t[j]? = some '\\'

/-- The tokens of a text node after lines 121-147 of h2m.go, for a text that is
neither the lone line break nor the white space of a table: collapsed, trimmed,
without U+00A0 and without line breaks. -/
def textPrepared (inTable : Bool) (data : Str) : Str :=
  let t := Trim (collapseNewlineSpaces data) ['\t', '\n']
  let t := if inTable then ReplaceAll (TrimSpace t) ['\n'] [' '] else t
  ReplaceAll (ReplaceAll t Nbsp [' ']) ['\n'] [' ']

/-- The tokens that the text pipeline hands to the marker escaping (lines
148-156): the prepared tokens, with a zero-width separator at the end when the
tip is a decoration, the tokens end in a space and the text has no next
sibling. -/
def textToEscape (inTable : Bool) (hn : HNode) (tipTyp : NodeType) : Str :=
  if isDecoration tipTyp ∧ HasSuffix (textPrepared inTable hn.Data) [' '] ∧
      hn.NextSibling = none then
    textPrepared inTable hn.Data ++ Zwsp
  else textPrepared inTable hn.Data

/-- The marker escaping of lines 158-168, with the pipe normalisation inside a
table outside the WYSIWYG mode. -/
def textEscaped (L : Lute) (inTable : Bool) (t : Str) : Str :=
  if L.ProtyleWYSIWYG then L.EscapeProtyleMarkers t
  else if inTable then escapePipes (L.EscapeMarkers t) else L.EscapeMarkers t

/-- The input `<table><tr><td>a|b</td></tr></table>`. -/
def inPipe : String := "<table><tr><td>a|b</td></tr></table>"

/-- The DOM of `inPipe`, with the `tbody` that the parser adds; the text is
node 5. -/
def domPipe : Dom :=
  domOf [.elem .Table "table" [] [.elem .Tbody "tbody" [] [.elem .Tr "tr" []
    [.elem .Td "td" [] [.text "a|b"]]]]]

/-- The engine of `engine` in the WYSIWYG mode of Protyle. -/
def engineProtyle (html : String) (dom : Dom) : Lute :=
  { engine html dom with ProtyleWYSIWYG := true }

/-- The tokens of the `Text` nodes of a tree, in the order of the heap. -/
def Tree.texts (t : Tree) : List Str :=
  t.nodes.filterMap (fun nd => if nd.Typ = NodeText then some nd.Tokens else none)

/-- The token that follows the first `language-` of a class, up to the next
space; it is empty for a class without `language-`. -/
def languageToken (cls : Str) : Str :=
  match Index cls "language-".toList with
  | some i => (Split (cls.drop (i + "language-".toList.length)) [' ']).headD []
  | none => []

/-- The first non-empty string of a list, the empty string without one. -/
def firstNonEmpty : List Str → Str
  | [] => []
  | c :: cs => if c = [] then firstNonEmpty cs else c

/-- The fence info as the first non-empty candidate: the token after
`language-` in the class of the child, the same token of the class of the
`pre`, the whole class of the child when it holds no space and the child is a
`code` that was not made from spans, the whole class of the `pre` when it holds
no space; the choice is dropped when it holds a space, a hyphen or an
underscore. -/
def infoByCandidates (childClass preClass : Str) (childIsCode span2Code : Bool) : Str :=
  let chosen := firstNonEmpty
    [languageToken childClass, languageToken preClass,
     if childIsCode = true ∧ span2Code = false ∧ Contains childClass [' '] = false then childClass
     else [],
     if Contains preClass [' '] = false then preClass else []]
  if ContainsAny chosen ['-', '_', ' '] then [] else chosen

/-- The whole class of the `pre` as the fence info: the class when it holds no
space, dropped when it holds a hyphen or an underscore. -/
def infoByPreClass (preClass : Str) : Str :=
  let chosen := if Contains preClass [' '] = false then preClass else []
  if ContainsAny chosen ['-', '_', ' '] then [] else chosen

/-- The fence infos of the code blocks of a tree, in the order of the heap. -/
def Tree.fenceInfos (t : Tree) : List Str :=
  t.nodes.filterMap (fun nd =>
    if nd.Typ = NodeCodeBlockFenceInfoMarker then some nd.CodeBlockInfo else none)

/-- The input `<pre class="language-go"><code class="language-">x</code></pre>`. -/
def inLangPre : String := "<pre class=\"language-go\"><code class=\"language-\">x</code></pre>"

/-- The DOM of `inLangPre`. -/
def domLangPre : Dom :=
  domOf [.elem .Pre "pre" [("class", "language-go")]
    [.elem .Code "code" [("class", "language-")] [.text "x"]]]

/-- The input `<pre class="language-"><code class="go">x</code></pre>`. -/
def inLangCode : String := "<pre class=\"language-\"><code class=\"go\">x</code></pre>"

/-- The DOM of `inLangCode`. -/
def domLangCode : Dom :=
  domOf [.elem .Pre "pre" [("class", "language-")]
    [.elem .Code "code" [("class", "go")] [.text "x"]]]

/-- The input `<pre><code class="language-go">x</code></pre>`. -/
def inGo : String := "<pre><code class=\"language-go\">x</code></pre>"

/-- The DOM of `inGo`. -/
def domGo : Dom :=
  domOf [.elem .Pre "pre" [] [.elem .Code "code" [("class", "language-go")] [.text "x"]]]

/-- The input `<p data-tex="x">y</p>`. -/
def inTexP : String := "<p data-tex=\"x\">y</p>"

/-- The DOM of `inTexP`; the `p` is node 1. -/
def domTexP : Dom := domOf [.elem .P "p" [("data-tex", "x")] [.text "y"]]

/-- The input `<div class="highlight-source-go" data-tex="x">y</div>`. -/
def inTexSource : String := "<div class=\"highlight-source-go\" data-tex=\"x\">y</div>"

/-- The DOM of `inTexSource`. -/
def domTexSource : Dom :=
  domOf [.elem .Div "div" [("class", "highlight-source-go"), ("data-tex", "x")] [.text "y"]]

/-- The DOM of `<div data-tex=" x ">y</div>`; the `div` is node 1. -/
def domTexDiv : Dom := domOf [.elem .Div "div" [("data-tex", " x ")] [.text "y"]]

/-- The math block of `appendMathBlock` for the trimmed formula `tex`. -/
def mathBlock (tex : Str) : Sub :=
  Sub.mk { Typ := NodeMathBlock }
    [astNode NodeMathBlockOpenMarker "$$".toList, astNode NodeMathBlockContent tex,
     astNode NodeMathBlockCloseMarker "$$".toList]

/-- Every node of `h'` is a node of `h` with the kind it has in `h`, or a text
node beyond the nodes of `h`: from `h` to `h'` only text nodes were added, and
no node changed its kind. -/
def TextOnlyAdded (h h' : Heap) : Prop :=
  h.length ≤ h'.length ∧
    ∀ i x, h'[i]? = some x →
      (∃ y, h[i]? = some y ∧ y.Typ = x.Typ) ∨ (h.length ≤ i ∧ x.Typ = NodeText)

/-- The heap of the state has the kinds of `h0` at every index (the kind of a
missing node reads as `NodeText`) and is not shorter. -/
def KindsOf (h0 : Heap) (s : State) : Prop :=
  h0.length ≤ s.nodes.length ∧ ∀ i, Ast.typOf s.nodes i = Ast.typOf h0 i

/-- The input `<p>a<del></del>b</p>`. -/
def inDelEmpty : String := "<p>a<del></del>b</p>"

/-- The DOM of `inDelEmpty`. -/
def domDelEmpty : Dom := domOf [.elem .P "p" [] [.text "a", .elem .Del "del" [] [], .text "b"]]

/-- The input `<p><mark><mark>x</mark></mark></p>`. -/
def inMarkMark : String := "<p><mark><mark>x</mark></mark></p>"

/-- The DOM of `inMarkMark`. -/
def domMarkMark : Dom :=
  domOf [.elem .P "p" [] [.elem .Mark "mark" [] [.elem .Mark "mark" [] [.text "x"]]]]

/-- The DOM of `<p><em> </em>x</p>`; the `em` is node 2. -/
def domEmBlank : Dom := domOf [.elem .P "p" [] [.elem .Em "em" [] [.text " "], .text "x"]]

/-- The kinds of the nodes of a tree, in walk order. -/
def Tree.kinds (t : Tree) : List NodeType := t.outline.map (fun x => x.2.1)

/-- The depth and the kind of the nodes of a tree, in walk order. -/
def Tree.shape (t : Tree) : List (Nat × NodeType) := t.outline.map (fun x => (x.1, x.2.1))

/-- The input `<table><tr><td><pre>x</pre></td></tr><tr><td>y</td></tr></table>`:
a table of two rows, with a `pre` in the first. -/
def inTwoRows : String := "<table><tr><td><pre>x</pre></td></tr><tr><td>y</td></tr></table>"

/-- The DOM of `inTwoRows`, with the `tbody` that the parser adds. -/
def domTwoRows : Dom :=
  domOf [.elem .Table "table" [] [.elem .Tbody "tbody" [] [
    .elem .Tr "tr" [] [.elem .Td "td" [] [.elem .Pre "pre" [] [.text "x"]]],
    .elem .Tr "tr" [] [.elem .Td "td" [] [.text "y"]]]]]

/-- The input `<table><tr><td>y</td><td><pre>x</pre></td></tr></table>`: a table
of one row of two cells, with a `pre` in the second. -/
def inTwoCells : String := "<table><tr><td>y</td><td><pre>x</pre></td></tr></table>"

/-- The DOM of `inTwoCells`, with the `tbody` that the parser adds. -/
def domTwoCells : Dom :=
  domOf [.elem .Table "table" [] [.elem .Tbody "tbody" [] [
    .elem .Tr "tr" [] [.elem .Td "td" [] [.text "y"],
      .elem .Td "td" [] [.elem .Pre "pre" [] [.text "x"]]]]]]

/-- The input `<table><tr><td>a</td></tr><tr><td><pre>x&#10;</pre></td></tr></table>`:
the content of the `pre` is `x` and a line break. -/
def inPreLine : String :=
  "<table><tr><td>a</td></tr><tr><td><pre>x&#10;</pre></td></tr></table>"

/-- The DOM of `inPreLine`, with the `tbody` that the parser adds. -/
def domPreLine : Dom :=
  domOf [.elem .Table "table" [] [.elem .Tbody "tbody" [] [
    .elem .Tr "tr" [] [.elem .Td "td" [] [.text "a"]],
    .elem .Tr "tr" [] [.elem .Td "td" [] [.elem .Pre "pre" [] [.text "x\n"]]]]]]

/-- The input `<table><tr><td>a</td></tr><tr><td><pre>x&#10;y</pre></td></tr></table>`:
the content of the `pre` is the two lines `x` and `y`. -/
def inPreLines : String :=
  "<table><tr><td>a</td></tr><tr><td><pre>x&#10;y</pre></td></tr></table>"

/-- The DOM of `inPreLines`, with the `tbody` that the parser adds. -/
def domPreLines : Dom :=
  domOf [.elem .Table "table" [] [.elem .Tbody "tbody" [] [
    .elem .Tr "tr" [] [.elem .Td "td" [] [.text "a"]],
    .elem .Tr "tr" [] [.elem .Td "td" [] [.elem .Pre "pre" [] [.text "x\ny"]]]]]]

/-- The input `<table><tr><td>a</td></tr><tr><td>b</td></tr></table>`. -/
def inPlainRows : String := "<table><tr><td>a</td></tr><tr><td>b</td></tr></table>"

/-- The DOM of `inPlainRows`, with the `tbody` that the parser adds. -/
def domPlainRows : Dom :=
  domOf [.elem .Table "table" [] [.elem .Tbody "tbody" [] [
    .elem .Tr "tr" [] [.elem .Td "td" [] [.text "a"]],
    .elem .Tr "tr" [] [.elem .Td "td" [] [.text "b"]]]]]

/-- The input `<p>a<em> &#352;k</em>x</p>`: the text of the `em` is a space, the
letter U+0160 and `k`. -/
def inCaron : String := "<p>a<em> &#352;k</em>x</p>"

/-- The DOM of `inCaron`; the `em` is node 3. -/
def domCaron : Dom :=
  domOf [.elem .P "p" [] [.text "a", .elem .Em "em" [] [.text " \u0160k"], .text "x"]]

/-- The input `<p><em>a.</em> b</p>`. -/
def inDotSpace : String := "<p><em>a.</em> b</p>"

/-- The DOM of `inDotSpace`; the `em` is node 2. -/
def domDotSpace : Dom := domOf [.elem .P "p" [] [.elem .Em "em" [] [.text "a."], .text " b"]]

/-- The input `<p><em>a.</em>b</p>`. -/
def inDot : String := "<p><em>a.</em>b</p>"

/-- The DOM of `inDot`; the `em` is node 2. -/
def domDot : Dom := domOf [.elem .P "p" [] [.elem .Em "em" [] [.text "a."], .text "b"]]

/-- The state of the walk over `domDot` when the `em` is closed: the tip is the
`Emphasis` (node 2) with its markers (nodes 3 and 5) around the text (node 4). -/
def stDot : State :=
  { dom := domDot
    nodes := [{ Typ := NodeDocument, FirstChild := some 1, LastChild := some 1 },
              { Typ := NodeParagraph, Tokens := "p".toList, Parent := some 0,
                FirstChild := some 2, LastChild := some 2 },
              { Typ := NodeEmphasis, Tokens := "em".toList, Parent := some 1,
                FirstChild := some 3, LastChild := some 5 },
              { Typ := NodeEmA6kOpenMarker, Tokens := "*".toList, Parent := some 2,
                Next := some 4 },
              { Typ := NodeText, Tokens := "a.".toList, Parent := some 2, Previous := some 3,
                Next := some 5 },
              { Typ := NodeEmA6kCloseMarker, Tokens := "*".toList, Parent := some 2,
                Previous := some 4 }]
    Tip := 2 }

/-- Modelled from the spec: `Tree.skipWhitespaces` (not in the analysed files),
read by its name: the line without its leading space and tab tokens. The list
test takes the method as a parameter; this reading serves on concrete lines. -/
def skipWhitespaces (line : Items) : Items :=
  line.dropWhile (fun t => t.typ = ItemType.itemSpace || t.typ = ItemType.itemTab)

/-- The token of a space. -/
def spaceItem : Item := { typ := .itemSpace, val := " ".toList }

/-- The token of a line break. -/
def newlineItem : Item := { typ := .itemNewline, val := "\n".toList }

/-- The token of the marker `*`. -/
def starItem : Item := { typ := .other, val := "*".toList }

/-- The attributes that the filter keeps. -/
def safeAttrs (attrs : List Attribute) : List Attribute :=
  attrs.filter (fun a => !unsafeURLAttr a)

/-- Node `c` is on the chain of the links `NextSibling` that starts at
`first`. -/
inductive OnChain (d : Dom) : Option Nat → Nat → Prop
  | here (c : Nat) : OnChain d (some c) c
  | next (x c : Nat) (hx : HNode) : d[x]? = some hx → OnChain d hx.NextSibling c →
      OnChain d (some x) c

/-- The call of `f` on node `n` reaches node `j`: `j` is `n` or is reached by
the call on a child of `n`. -/
inductive Visits (d : Dom) : Nat → Nat → Prop
  | self (n : Nat) : Visits d n n
  | child (n c j : Nat) (hn : HNode) : d[n]? = some hn → OnChain d hn.FirstChild c →
      Visits d c j → Visits d n j

/-- The nodes on the chain of the links `NextSibling` from `first`, and all the
nodes under them, are nodes of the DOM and form finite trees (as the nodes of
a parsed document do). -/
inductive Walkable (d : Dom) : Option Nat → Prop
  | done : Walkable d none
  | node (c : Nat) (cn : HNode) : d[c]? = some cn → Walkable d cn.FirstChild →
      Walkable d cn.NextSibling → Walkable d (some c)

/-- From `d` to `d1` nothing changed but attribute lists, every one of which is
as it was or filtered. -/
def AttrsFiltered (d d1 : Dom) : Prop :=
  d1.length = d.length ∧ ∀ (j : Nat) (hj : HNode), d[j]? = some hj →
    d1[j]? = some hj ∨ d1[j]? = some ({ hj with Attr := safeAttrs hj.Attr } : HNode)

/-- Node `j` of `d1` is the element `j` of `d` with its attributes filtered, if
node `j` of `d` is an element. -/
def AttrsClean (d d1 : Dom) (j : Nat) : Prop :=
  ∀ hj : HNode, d[j]? = some hj → hj.Typ = HType.ElementNode →
    d1[j]? = some ({ hj with Attr := safeAttrs hj.Attr } : HNode)

/-- The DOM of `<a href="javascript:x" title="t"><img src=" DATA:y" alt="z"></a>`
under a root; the `a` is node 1 and the `img` node 2. -/
def domUnsafe : Dom :=
  domOf [.elem .A "a" [("href", "javascript:x"), ("title", "t")]
    [.elem .Img "img" [("src", " DATA:y"), ("alt", "z")] []]]

/-- The input `<code>foo</code>` of test case 7. -/
def inCode : String := "<code>foo</code>"

/-- The DOM of `inCode`; the `code` is node 1. -/
def domCode : Dom := domOf [.elem .Code "code" [] [.text "foo"]]

/-- The DOM of `<p><code>a</code><code>b</code></p>`; the second `code` is node
4. -/
def domCodes : Dom :=
  domOf [.elem .P "p" [] [.elem .Code "code" [] [.text "a"], .elem .Code "code" [] [.text "b"]]]

/-- The state of the walk over `domCodes` on entering the second `code`: the
tip is the paragraph (node 1), whose last child is the code span of the first
`code` (node 2). -/
def stCodes : State :=
  { dom := domCodes
    nodes := [{ Typ := NodeDocument, FirstChild := some 1, LastChild := some 1 },
              { Typ := NodeParagraph, Tokens := "p".toList, Parent := some 0,
                FirstChild := some 2, LastChild := some 2 },
              { Typ := NodeCodeSpan, Tokens := "code".toList, Parent := some 1,
                FirstChild := some 3, LastChild := some 5 },
              { Typ := NodeCodeSpanOpenMarker, Tokens := ['`'], Parent := some 2,
                Next := some 4 },
              { Typ := NodeCodeSpanContent, Tokens := "a".toList, Parent := some 2,
                Previous := some 3, Next := some 5 },
              { Typ := NodeCodeSpanCloseMarker, Tokens := ['`'], Parent := some 2,
                Previous := some 4 }]
    Tip := 1 }

/-- The kind, the open marker, the close marker and the marker tokens that the
two switches write for a `strong`/`b`, `em`/`i` or `del`/`s`/`strike` element
(lines 507-510, 527-530, 682-684, 891-914). -/
def decorationMarkers (a : Atom) : Option (NodeType × NodeType × NodeType × Str) :=
  match a with
  | .Em | .I => some (NodeEmphasis, NodeEmA6kOpenMarker, NodeEmA6kCloseMarker, "*".toList)
  | .Strong | .B =>
    some (NodeStrong, NodeStrongA6kOpenMarker, NodeStrongA6kCloseMarker, "**".toList)
  | .Del | .S | .Strike =>
    some (NodeStrikethrough, NodeStrikethrough2OpenMarker, NodeStrikethrough2CloseMarker,
      "~~".toList)
  | _ => none

/-- The input `<p><strong data-marker="__">foo</strong></p>` of test case 15. -/
def inStrongMarker : String := "<p><strong data-marker=\"__\">foo</strong></p>"

/-- The DOM of `inStrongMarker`; the `strong` is node 2. -/
def domStrongMarker : Dom :=
  domOf [.elem .P "p" [] [.elem .Strong "strong" [("data-marker", "__")] [.text "foo"]]]

/-- The input `<p><del data-marker="~">Hi</del> Hello, world!</p>` of test case
25. -/
def inDelMarker : String := "<p><del data-marker=\"~\">Hi</del> Hello, world!</p>"

/-- The DOM of `inDelMarker`; the `del` is node 2. -/
def domDelMarker : Dom :=
  domOf [.elem .P "p" [] [.elem .Del "del" [("data-marker", "~")] [.text "Hi"],
    .text " Hello, world!"]]

/-- The input `<p><em data-marker="_">foo</em></p>`. -/
def inEmMarker : String := "<p><em data-marker=\"_\">foo</em></p>"

/-- The DOM of `inEmMarker`; the `em` is node 2. -/
def domEmMarker : Dom :=
  domOf [.elem .P "p" [] [.elem .Em "em" [("data-marker", "_")] [.text "foo"]]]

/-- The kinds and tokens of the marker nodes of a tree, in walk order. -/
def Tree.markers (t : Tree) : List (NodeType × Str) :=
  (t.outline.map (fun x => x.2)).filter (fun x =>
    [NodeEmA6kOpenMarker, NodeEmA6kCloseMarker, NodeStrongA6kOpenMarker,
     NodeStrongA6kCloseMarker, NodeStrikethrough2OpenMarker,
     NodeStrikethrough2CloseMarker].contains x.1)

/-- The DOM that the traversal of `sanitize` leaves of `domUnsafe`; the empty
DOM stands for a panic. -/
def domUnsafeClean : Dom :=
  match sanitizeNode 10 domUnsafe 0 with
  | .ok d => d
  | .error _ => []

/-- The table pipe normalisation of lines 165-166 over any alphabet: `b` is the
backslash and `p` the pipe. -/
def pipeNormal {α : Type} [DecidableEq α] (b p : α) (x : List α) : List α :=
  ReplaceAll (ReplaceAll x [b, p] [p]) [p] [b, p]

/-- The break that follows the code span of a line of a degraded code block
(lines 474-478 of h2m.go): a `Br` in WYSIWYG mode, a `HardBreak` otherwise. -/
def lineBreak (L : Lute) : Sub :=
  if L.ProtyleWYSIWYG then astNode NodeBr else astNode NodeHardBreak ['\n']

/-- The nodes that the loop of lines 467-482 appends for the lines `lines`, the
first of which has the index `i` among `total` lines. -/
def degradedSubs (L : Lute) (total : Nat) : Nat → List Str → List Sub
  | _, [] => []
  | i, line :: rest =>
    (if 0 < line.length then
      lineCodeSpan line :: (if i < total - 1 then [lineBreak L] else [])
     else []) ++ degradedSubs L total (i + 1) rest

/-- One code span per line, in the order of the lines, and after the code span
of a line one break if the flag of the line is set. -/
def spansAndBreaks (L : Lute) (lines : List Str) (breaks : List Bool) : List Sub :=
  (lines.zip breaks).flatMap
    (fun lb => lineCodeSpan lb.1 :: (if lb.2 then [lineBreak L] else []))

/-- The DOM of `<table><tbody><tr><td>a<p>x</p></td></tr></tbody></table>`; the
`p` is node 6. -/
def domCellText : Dom :=
  domOf [.elem .Table "table" [] [.elem .Tbody "tbody" [] [.elem .Tr "tr" [] [.elem .Td "td" []
    [.text "a", .elem .P "p" [] [.text "x"]]]]]]

/-- A state of the walk over `domCellText` on entering the `p`: the tip is the
table cell (node 4), which holds the text `a` (node 5). -/
def stCellText : State :=
  { dom := domCellText
    nodes := (Ast.AppendNew [{ Typ := NodeDocument }] 0
      (Sub.mk { Typ := NodeTable } [Sub.mk { Typ := NodeTableHead }
        [Sub.mk { Typ := NodeTableRow }
          [Sub.mk { Typ := NodeTableCell } [astNode NodeText "a".toList]]]]))
    Tip := 4 }

/-- A state of a walk in the second row of a table: the tip is the cell of the
second row (node 7), the first row holds a cell with the text `a`. -/
def stRows : State :=
  { dom := domCellText
    nodes := (Ast.AppendNew [{ Typ := NodeDocument }] 0
      (Sub.mk { Typ := NodeTable } [Sub.mk { Typ := NodeTableHead }
        [Sub.mk { Typ := NodeTableRow }
          [Sub.mk { Typ := NodeTableCell } [astNode NodeText "a".toList]]],
        Sub.mk { Typ := NodeTableRow } [Sub.mk { Typ := NodeTableCell } []]]))
    Tip := 7 }

/-- The heap that a walk ends on; the empty heap stands for a panic. -/
def walkedHeap (r : Except Panic Heap) : Heap :=
  match r with
  | .ok h => h
  | .error _ => []

/-! ## Lemmas on the heap and on the walk -/

set_option linter.unusedTactic false
set_option linter.unreachableTactic false
set_option linter.unusedVariables false

theorem length_upd {α : Type} (h : List α) (i : Nat) (f : α → α) : (upd h i f).length = h.length := by
  unfold upd
  split <;> simp

theorem getElem?_upd {α : Type} (h : List α) (i j : Nat) (f : α → α) :
    (upd h i f)[j]? = if j = i then (h[j]?).map f else h[j]? := by
  unfold upd
  cases hi : h[i]? with
  | none =>
    simp only []
    split
    · next hji => subst hji; simp [hi]
    · rfl
  | some x =>
    simp only [List.getElem?_set]
    split
    · next hij =>
      subst hij
      have : i < h.length := by
        rcases Nat.lt_or_ge i h.length with hlt | hge
        · exact hlt
        · rw [List.getElem?_eq_none hge] at hi; cases hi
      simp [this, hi]
    · next hij =>
      have : ¬ j = i := fun e => hij e.symm
      simp [this]

theorem length_updOpt {α : Type} (h : List α) (p : Option Nat) (f : α → α) :
    (updOpt h p f).length = h.length := by
  cases p <;> simp [updOpt, length_upd]

theorem same_refl (i : Nat) (h : Heap) : Same i h h := fun nd hnd => ⟨nd, hnd, rfl, rfl⟩

theorem same_trans {i : Nat} {h1 h2 h3 : Heap} (a : Same i h1 h2) (b : Same i h2 h3) :
    Same i h1 h3 := by
  intro nd hnd
  obtain ⟨nd2, h2, t2, p2⟩ := a nd hnd
  obtain ⟨nd3, h3, t3, p3⟩ := b nd2 h2
  exact ⟨nd3, h3, t3.trans t2, p3.trans p2⟩

theorem Same.upd {i : Nat} {h X : Heap} (j : Nat) (f : Node → Node)
    (hf : i ≠ j ∨ ∀ x, (f x).Typ = x.Typ ∧ (f x).Parent = x.Parent) (a : Same i h X) :
    Same i h (upd X j f) := by
  intro nd hnd
  obtain ⟨nd2, h2, t2, p2⟩ := a nd hnd
  rw [getElem?_upd]
  split
  · next hij =>
    rcases hf with hne | hf
    · exact absurd hij hne
    · exact ⟨f nd2, by simp [h2], (hf nd2).1.trans t2, (hf nd2).2.trans p2⟩
  · exact ⟨nd2, h2, t2, p2⟩

theorem Same.updOpt {i : Nat} {h X : Heap} (p : Option Nat) (f : Node → Node)
    (hf : ∀ x, (f x).Typ = x.Typ ∧ (f x).Parent = x.Parent) (a : Same i h X) :
    Same i h (updOpt X p f) := by
  cases p with
  | none => exact a
  | some j => exact a.upd j f (Or.inr hf)

theorem lt_of_getElem? {α : Type} {h : List α} {i : Nat} {x : α} (hx : h[i]? = some x) :
    i < h.length := by
  rcases Nat.lt_or_ge i h.length with hlt | hge
  · exact hlt
  · rw [List.getElem?_eq_none hge] at hx; cases hx

theorem Same.append {i : Nat} {h X : Heap} (x : Node) (a : Same i h X) : Same i h (X ++ [x]) := by
  intro nd hnd
  obtain ⟨nd2, h2, t2, p2⟩ := a nd hnd
  exact ⟨nd2, by rw [List.getElem?_append_left (lt_of_getElem? h2)]; exact h2, t2, p2⟩

theorem length_link (h : Heap) (p c : Nat) : (Ast.link h p c).length = h.length := by
  unfold Ast.link
  split
  · rfl
  · split <;> simp [length_upd]

theorem Same.link {i : Nat} {h X : Heap} (p c : Nat) (hc : i ≠ c) (a : Same i h X) :
    Same i h (Ast.link X p c) := by
  unfold Ast.link
  split
  · exact a
  · split
    · refine Same.upd _ _ (Or.inr fun _ => ⟨rfl, rfl⟩) ?_
      refine Same.upd _ _ (Or.inr fun _ => ⟨rfl, rfl⟩) ?_
      exact Same.upd _ _ (Or.inl hc) a
    · refine Same.upd _ _ (Or.inr fun _ => ⟨rfl, rfl⟩) ?_
      exact Same.upd _ _ (Or.inl hc) a

mutual
theorem alloc_facts (c : Sub) (X : Heap) :
    X.length < (Ast.alloc X c).length ∧
      ∀ i h, i < X.length → Same i h X → Same i h (Ast.alloc X c) := by
  cases c with
  | mk n cs =>
    unfold Ast.alloc
    have hc := allocChildren_facts cs (X ++ [n.bare]) X.length
    refine ⟨Nat.lt_of_lt_of_le (by simp) hc.1, fun i h hi a => ?_⟩
    exact hc.2 i h (by simp; omega) (a.append _)
theorem allocChildren_facts (cs : List Sub) (X : Heap) (p : Nat) :
    X.length ≤ (Ast.allocChildren X p cs).length ∧
      ∀ i h, i < X.length → Same i h X → Same i h (Ast.allocChildren X p cs) := by
  cases cs with
  | nil => unfold Ast.allocChildren; exact ⟨Nat.le_refl _, fun _ _ _ a => a⟩
  | cons c cs =>
    unfold Ast.allocChildren
    have h1 := alloc_facts c X
    have h3 := allocChildren_facts cs (Ast.link (Ast.alloc X c) p X.length) p
    rw [length_link] at h3
    refine ⟨by omega, fun i h hi a => ?_⟩
    exact h3.2 i h (by omega) ((h1.2 i h hi a).link _ _ (by omega))
end

theorem alloc_new (c : Sub) (X : Heap) :
    ∃ nd, (Ast.alloc X c)[X.length]? = some nd ∧ nd.Typ = c.node.Typ ∧ nd.Parent = none := by
  cases c with
  | mk n cs =>
    unfold Ast.alloc
    have hc := allocChildren_facts cs (X ++ [n.bare]) X.length
    have := hc.2 X.length _ (by simp) (same_refl _ _) n.bare (by simp)
    obtain ⟨nd, h1, h2, h3⟩ := this
    exact ⟨nd, h1, h2, h3⟩

theorem link_new (X : Heap) (p c : Nat) (pn cn : Node) (hp : p ≠ c) (hpn : X[p]? = some pn)
    (hcn : X[c]? = some cn) :
    ∃ nd, (Ast.link X p c)[c]? = some nd ∧ nd.Typ = cn.Typ ∧ nd.Parent = some p := by
  unfold Ast.link
  rw [hpn]
  dsimp only
  have hcp : ¬ c = p := fun e => hp e.symm
  cases hl : pn.LastChild with
  | none =>
    dsimp only
    simp only [getElem?_upd, hcn, hcp, if_false, if_true, Option.map_some']
    exact ⟨_, rfl, rfl, rfl⟩
  | some l =>
    dsimp only
    simp only [getElem?_upd, hcp, if_false]
    by_cases hcl : c = l
    · subst hcl
      simp only [if_true, hcn, Option.map_some']
      exact ⟨_, rfl, rfl, rfl⟩
    · simp only [hcl, if_false, if_true, hcn, Option.map_some']
      exact ⟨_, rfl, rfl, rfl⟩

theorem Same.linkBefore {i : Nat} {h X : Heap} (n sib : Nat) (hs : i ≠ sib) (a : Same i h X) :
    Same i h (Ast.linkBefore X n sib) := by
  unfold Ast.linkBefore
  split
  · exact a
  · dsimp only
    split
    · refine Same.upd _ _ (Or.inr fun _ => ⟨rfl, rfl⟩) ?_
      refine Same.updOpt _ _ (fun _ => ⟨rfl, rfl⟩) ?_
      exact Same.upd _ _ (Or.inl hs) a
    · refine Same.updOpt _ _ (fun _ => ⟨rfl, rfl⟩) ?_
      refine Same.upd _ _ (Or.inr fun _ => ⟨rfl, rfl⟩) ?_
      refine Same.updOpt _ _ (fun _ => ⟨rfl, rfl⟩) ?_
      exact Same.upd _ _ (Or.inl hs) a

theorem Same.linkAfter {i : Nat} {h X : Heap} (n sib : Nat) (hs : i ≠ sib) (a : Same i h X) :
    Same i h (Ast.linkAfter X n sib) := by
  unfold Ast.linkAfter
  split
  · exact a
  · dsimp only
    split
    · refine Same.upd _ _ (Or.inr fun _ => ⟨rfl, rfl⟩) ?_
      refine Same.updOpt _ _ (fun _ => ⟨rfl, rfl⟩) ?_
      exact Same.upd _ _ (Or.inl hs) a
    · refine Same.updOpt _ _ (fun _ => ⟨rfl, rfl⟩) ?_
      refine Same.upd _ _ (Or.inr fun _ => ⟨rfl, rfl⟩) ?_
      refine Same.updOpt _ _ (fun _ => ⟨rfl, rfl⟩) ?_
      exact Same.upd _ _ (Or.inl hs) a

theorem Same.Unlink {i : Nat} {h X : Heap} (x : Nat) (hx : i ≠ x) (a : Same i h X) :
    Same i h (Ast.Unlink X x) := by
  unfold Ast.Unlink
  split
  · exact a
  · dsimp only
    refine Same.upd _ _ (Or.inl hx) ?_
    split
    · split
      · refine Same.upd _ _ (Or.inr fun _ => ⟨rfl, rfl⟩) ?_
        exact Same.upd _ _ (Or.inr fun _ => ⟨rfl, rfl⟩) a
      · refine Same.upd _ _ (Or.inr fun _ => ⟨rfl, rfl⟩) ?_
        exact Same.updOpt _ _ (fun _ => ⟨rfl, rfl⟩) a
    · split
      · refine Same.updOpt _ _ (fun _ => ⟨rfl, rfl⟩) ?_
        exact Same.upd _ _ (Or.inr fun _ => ⟨rfl, rfl⟩) a
      · refine Same.updOpt _ _ (fun _ => ⟨rfl, rfl⟩) ?_
        exact Same.updOpt _ _ (fun _ => ⟨rfl, rfl⟩) a

theorem typOf_eq {h : Heap} {i : Nat} {nd : Node} (hnd : h[i]? = some nd) :
    Ast.typOf h i = nd.Typ := by
  simp [Ast.typOf, hnd]

theorem parentOf_eq {h : Heap} {i : Nat} {nd : Node} (hnd : h[i]? = some nd) :
    Ast.parentOf h i = nd.Parent := by
  simp [Ast.parentOf, hnd]

theorem exists_of_typOf {h : Heap} {i : Nat} (ht : Ast.typOf h i ≠ NodeText) :
    ∃ nd, h[i]? = some nd := by
  cases hi : h[i]? with
  | none => simp [Ast.typOf, hi] at ht
  | some nd => exact ⟨nd, rfl⟩

theorem Same.typOf {i : Nat} {h h' : Heap} (a : Same i h h') (hi : i < h.length) :
    Ast.typOf h' i = Ast.typOf h i := by
  obtain ⟨nd', h1, h2, _⟩ := a h[i] (by simp [hi])
  rw [typOf_eq h1, typOf_eq (show h[i]? = some h[i] by simp [hi]), h2]

theorem Same.parentOf {i : Nat} {h h' : Heap} (a : Same i h h') (hi : i < h.length) :
    Ast.parentOf h' i = Ast.parentOf h i := by
  obtain ⟨nd', h1, _, h3⟩ := a h[i] (by simp [hi])
  rw [parentOf_eq h1, parentOf_eq (show h[i]? = some h[i] by simp [hi]), h3]

theorem ext_refl (h : Heap) : Ext h h := fun i _ => same_refl i h

theorem ext_trans {h1 h2 h3 : Heap} (a : Ext h1 h2) (b : Ext h2 h3) : Ext h1 h3 := by
  intro i hi
  obtain ⟨nd, hnd⟩ := exists_of_typOf hi
  have s12 := a i hi
  have : Ast.typOf h2 i ≠ NodeText := by rw [s12.typOf (lt_of_getElem? hnd)]; exact hi
  exact same_trans s12 (b i this)

theorem rootOK_ext {h h' : Heap} (r : RootOK h) (e : Ext h h') : RootOK h' := by
  obtain ⟨nd, h0, ht, hp⟩ := r
  have : Ast.typOf h 0 ≠ NodeText := by rw [typOf_eq h0, ht]; decide
  obtain ⟨nd', h0', ht', hp'⟩ := e 0 this nd h0
  exact ⟨nd', h0', ht'.trans ht, hp'.trans hp⟩

theorem reach_ext {h h' : Heap} {i k : Nat} (r : Reach h i k) (e : Ext h h') : Reach h' i k := by
  induction r with
  | root => exact Reach.root
  | step i p k hp ht _ ih =>
    obtain ⟨nd, hnd⟩ := exists_of_typOf ht
    have s := e i ht
    refine Reach.step i p k ?_ ?_ ih
    · rw [s.parentOf (lt_of_getElem? hnd)]; exact hp
    · rw [s.typOf (lt_of_getElem? hnd)]; exact ht

theorem ext_upd (h : Heap) (j : Nat) (f : Node → Node)
    (hf : ∀ x, (f x).Typ = x.Typ ∧ (f x).Parent = x.Parent) : Ext h (upd h j f) :=
  fun i _ => Same.upd j f (Or.inr hf) (same_refl i h)

theorem ext_AppendNew (h : Heap) (p : Nat) (c : Sub) : Ext h (Ast.AppendNew h p c) := by
  intro i hi
  obtain ⟨nd, hnd⟩ := exists_of_typOf hi
  have hlt := lt_of_getElem? hnd
  exact Same.link p h.length (by omega) ((alloc_facts c h).2 i h hlt (same_refl i h))

theorem ext_InsertBefore (h : Heap) (n : Nat) (c : Sub) : Ext h (Ast.InsertBefore h n c) := by
  intro i hi
  obtain ⟨nd, hnd⟩ := exists_of_typOf hi
  have hlt := lt_of_getElem? hnd
  exact Same.linkBefore n h.length (by omega) ((alloc_facts c h).2 i h hlt (same_refl i h))

theorem ext_InsertAfter (h : Heap) (n : Nat) (c : Sub) : Ext h (Ast.InsertAfter h n c) := by
  intro i hi
  obtain ⟨nd, hnd⟩ := exists_of_typOf hi
  have hlt := lt_of_getElem? hnd
  exact Same.linkAfter n h.length (by omega) ((alloc_facts c h).2 i h hlt (same_refl i h))

theorem ext_Unlink_text (h : Heap) (x : Nat) (hx : Ast.typOf h x = NodeText) :
    Ext h (Ast.Unlink h x) := by
  intro i hi
  exact Same.Unlink x (fun e => hi (e ▸ hx)) (same_refl i h)

/-- The new node of `AppendNew` has the kind of `c` and the parent `p`. -/
theorem AppendNew_new (h : Heap) (p : Nat) (c : Sub) (hp : p < h.length) :
    Ast.typOf (Ast.AppendNew h p c) h.length = c.node.Typ ∧
      Ast.parentOf (Ast.AppendNew h p c) h.length = some p := by
  obtain ⟨cn, hcn, ht, _⟩ := alloc_new c h
  have hsame := (alloc_facts c h).2 p h hp (same_refl p h)
  obtain ⟨pn, hpn, _, _⟩ := hsame h[p] (by simp [hp])
  obtain ⟨nd, hnd, t, par⟩ := link_new (Ast.alloc h c) p h.length pn cn (by omega) hpn hcn
  unfold Ast.AppendNew
  rw [typOf_eq hnd, parentOf_eq hnd, t, ht, par]
  exact ⟨rfl, rfl⟩

/-! ### Invariants of computations -/

theorem keeps_pure (P : State → Prop) {α : Type} (a : α) : Keeps P (pure a : M α) := by
  constructor
  intro s b s' hP h
  simp [pure, StateT.pure, Except.pure] at h
  obtain ⟨_, rfl⟩ := h
  exact hP

theorem keeps_bind (P : State → Prop) {α β : Type} (m : M α) (f : α → M β)
    (hm : Keeps P m) (hf : ∀ a, Keeps P (f a)) : Keeps P (m >>= f) := by
  constructor
  intro s b s' hP h
  simp only [bind, StateT.bind, Except.bind] at h
  cases hms : m s with
  | error e => rw [hms] at h; cases h
  | ok r =>
    rw [hms] at h
    obtain ⟨a, s1⟩ := r
    exact (hf a).run s1 b s' (hm.run s a s1 hP hms) h

theorem keeps_ite (P : State → Prop) {α : Type} (c : Prop) [Decidable c] (m1 m2 : M α)
    (h1 : Keeps P m1) (h2 : Keeps P m2) : Keeps P (if c then m1 else m2) := by
  split <;> assumption

theorem keeps_throw (P : State → Prop) {α : Type} (e : Panic) : Keeps P (throw e : M α) := by
  constructor
  intro s b s' _ h
  cases h

/-- A computation that does not change the state keeps every property. -/
theorem keeps_of_readonly (P : State → Prop) {α : Type} (m : M α)
    (h : ∀ s a s', m s = .ok (a, s') → s' = s) : Keeps P m :=
  ⟨fun s a s' hP hm => (h s a s' hm) ▸ hP⟩

/-- A computation given by a state update keeps what the update keeps. -/
theorem keeps_modify (P : State → Prop) (f : State → State) (h : ∀ s, P s → P (f s)) :
    Keeps P (modify f : M Unit) := by
  constructor
  intro s a s' hP hm
  simp [modify, modifyGet, MonadStateOf.modifyGet, StateT.modifyGet, pure, Except.pure] at hm
  obtain ⟨_, rfl⟩ := hm
  exact h s hP

theorem keeps_get (P : State → Prop) : Keeps P (get : M State) :=
  keeps_of_readonly P _ (by
    intro s a s' h
    simp [get, getThe, MonadStateOf.get, StateT.get, pure, Except.pure] at h
    exact h.2.symm)

theorem keeps_deref (P : State → Prop) (p : Option Nat) : Keeps P (deref p : M Nat) := by
  cases p with
  | none => exact keeps_throw P _
  | some i => exact keeps_pure P i

theorem keeps_hnode (P : State → Prop) (n : Nat) : Keeps P (hnode n) := by
  unfold hnode
  refine keeps_bind P _ _ (keeps_get P) (fun s => ?_)
  split
  · exact keeps_pure P _
  · exact keeps_throw P _

theorem keeps_anode (P : State → Prop) (n : Nat) : Keeps P (anode n) := by
  unfold anode
  refine keeps_bind P _ _ (keeps_get P) (fun s => ?_)
  split
  · exact keeps_pure P _
  · exact keeps_throw P _

theorem keeps_getDom (P : State → Prop) : Keeps P getDom :=
  keeps_bind P _ _ (keeps_get P) (fun _ => keeps_pure P _)

theorem keeps_getHeap (P : State → Prop) : Keeps P getHeap :=
  keeps_bind P _ _ (keeps_get P) (fun _ => keeps_pure P _)

theorem keeps_getTip (P : State → Prop) : Keeps P getTip :=
  keeps_bind P _ _ (keeps_get P) (fun _ => keeps_pure P _)

theorem keeps_tipNode (P : State → Prop) : Keeps P tipNode :=
  keeps_bind P _ _ (keeps_getTip P) (fun _ => keeps_anode P _)

theorem keeps_tipLastChildTyp (P : State → Prop) : Keeps P tipLastChildTyp :=
  keeps_bind P _ _ (keeps_getHeap P) (fun _ =>
    keeps_bind P _ _ (keeps_tipNode P) (fun _ => keeps_pure P _))

theorem inv_ext {D : Nat} {s : State} (i : Inv D s) (h' : Heap) (e : Ext s.nodes h') :
    Inv D { s with nodes := h' } := by
  obtain ⟨r, k, hk, hr⟩ := i
  exact ⟨rootOK_ext r e, k, hk, reach_ext hr e⟩

theorem keeps_liftDom (D : Nat) {α : Type} (m : DomM α) : Keeps (Inv D) (liftDom m) := by
  constructor
  intro s a s' hP h
  unfold liftDom at h
  split at h
  · cases h; exact hP
  · cases h

theorem keeps_appendChild (D : Nat) (p : Nat) (c : Sub) : Keeps (Inv D) (appendChild p c) := by
  constructor
  intro s a s' hP h
  simp [appendChild, bind, StateT.bind, get, getThe, MonadStateOf.get, StateT.get, set, StateT.set,
    pure, StateT.pure, Except.pure, Except.bind] at h
  obtain ⟨_, rfl⟩ := h
  exact inv_ext hP _ (ext_AppendNew _ _ _)

theorem keeps_tipAppend (D : Nat) (c : Sub) : Keeps (Inv D) (tipAppend c) :=
  keeps_bind _ _ _ (keeps_getTip _) (fun _ => keeps_appendChild D _ c)

theorem keeps_insertBefore (D : Nat) (n : Nat) (c : Sub) : Keeps (Inv D) (insertBefore n c) :=
  keeps_modify _ _ (fun _ hP => inv_ext hP _ (ext_InsertBefore _ _ _))

theorem keeps_insertAfter (D : Nat) (n : Nat) (c : Sub) : Keeps (Inv D) (insertAfter n c) :=
  keeps_modify _ _ (fun _ hP => inv_ext hP _ (ext_InsertAfter _ _ _))

theorem keeps_setTokens (D : Nat) (n : Nat) (t : Str) : Keeps (Inv D) (setTokens n t) :=
  keeps_modify _ _ (fun _ hP => inv_ext hP _ (ext_upd _ _ _ (fun _ => ⟨rfl, rfl⟩)))

theorem keeps_setListData (D : Nat) (n : Nat) (d : ListData) : Keeps (Inv D) (setListData n d) :=
  keeps_modify _ _ (fun _ hP => inv_ext hP _ (ext_upd _ _ _ (fun _ => ⟨rfl, rfl⟩)))

theorem Reach.inv {h : Heap} {i k : Nat} (r : Reach h i k) :
    (i = 0 ∧ k = 0) ∨
      ∃ p j, k = j + 1 ∧ Ast.parentOf h i = some p ∧ Ast.typOf h i ≠ NodeText ∧ Reach h p j := by
  cases r with
  | root => exact Or.inl ⟨rfl, rfl⟩
  | step i p k hp ht hr => exact Or.inr ⟨p, k, rfl, hp, ht, hr⟩

theorem Reach.lt {h : Heap} {i k : Nat} (r : Reach h i k) (ok : RootOK h) : i < h.length := by
  rcases r.inv with ⟨rfl, _⟩ | ⟨p, j, _, _, ht, _⟩
  · obtain ⟨nd, h0, _⟩ := ok; exact lt_of_getElem? h0
  · obtain ⟨nd, hnd⟩ := exists_of_typOf ht
    exact lt_of_getElem? hnd

/-- After `p.AppendChild(c)` with `p` the tip, the new node reaches the root in
one step more than the tip. -/
theorem Inv.push {D : Nat} {s : State} (i : Inv D s) (c : Sub) (hc : c.node.Typ ≠ NodeText) :
    Inv D { s with nodes := Ast.AppendNew s.nodes s.Tip c, Tip := s.nodes.length,
                   defers := s.defers + 1 } := by
  obtain ⟨r, k, hk, hr⟩ := i
  have e := ext_AppendNew s.nodes s.Tip c
  obtain ⟨ht, hp⟩ := AppendNew_new s.nodes s.Tip c (hr.lt r)
  refine ⟨rootOK_ext r e, k + 1, by simp only []; omega, ?_⟩
  exact Reach.step _ _ _ hp (by rw [ht]; exact hc) (reach_ext hr e)

theorem keeps_pushTip (D : Nat) (c : Sub) (hc : c.node.Typ ≠ NodeText) :
    Keeps (Inv D) (pushTip c) := by
  constructor
  intro s a s' hP h
  simp [pushTip, tipAppend, appendChild, getTip, setTip, deferParentTip, bind, StateT.bind, get,
    getThe, MonadStateOf.get, StateT.get, set, StateT.set, modify, modifyGet,
    MonadStateOf.modifyGet, StateT.modifyGet, pure, StateT.pure, Except.pure, Except.bind] at h
  obtain ⟨_, rfl⟩ := h
  exact hP.push c hc

theorem Inv.parentTip {D : Nat} {s : State} (i : Inv D s) :
    Inv D (match Ast.parentOf s.nodes s.Tip with
      | some p => { s with Tip := p }
      | none => s) := by
  obtain ⟨r, k, hk, hr⟩ := i
  rcases hr.inv with ⟨h0, _⟩ | ⟨p, j, hj, hp, _, hr'⟩
  · have r' := r
    obtain ⟨nd, hn, _, hp⟩ := r'
    rw [h0, parentOf_eq hn, hp]
    exact ⟨r, k, hk, hr⟩
  · rw [hp]
    exact ⟨r, j, by simp only []; omega, hr'⟩

theorem keeps_ParentTip (D : Nat) : Keeps (Inv D) ParentTip :=
  keeps_modify _ _ (fun _ hP => hP.parentTip)

theorem keeps_appendBack (D : Nat) (c : Sub) :
    Keeps (Inv D) (do let i ← tipAppend c; setTip i; ParentTip : M Unit) := by
  constructor
  intro s a s' hP h
  simp [tipAppend, appendChild, getTip, setTip, ParentTip, bind, StateT.bind, get,
    getThe, MonadStateOf.get, StateT.get, set, StateT.set, modify, modifyGet,
    MonadStateOf.modifyGet, StateT.modifyGet, pure, StateT.pure, Except.pure, Except.bind] at h
  obtain ⟨_, rfl⟩ := h
  obtain ⟨r, k, hk, hr⟩ := hP
  rw [(AppendNew_new s.nodes s.Tip c (hr.lt r)).2]
  exact inv_ext ⟨r, k, hk, hr⟩ _ (ext_AppendNew _ _ _)

theorem keeps_appendMathBlock (D : Nat) (tex : Str) : Keeps (Inv D) (appendMathBlock tex) := by
  unfold appendMathBlock
  dsimp only
  repeat (with_reducible first
    | apply keeps_pure
    | apply keeps_appendBack
    | apply keeps_bind
    | apply keeps_ite
    | intro _)

theorem keeps_appendInlineMath (D : Nat) (tex : Str) : Keeps (Inv D) (appendInlineMath tex) := by
  unfold appendInlineMath
  dsimp only
  repeat (with_reducible first
    | apply keeps_pure
    | apply keeps_appendBack
    | apply keeps_bind
    | apply keeps_ite
    | intro _)

theorem keeps_degradeLines (D : Nat) (L : Lute) (total : Nat) (lines : List Str) (i : Nat) :
    Keeps (Inv D) (degradeLines L total i lines) := by
  induction lines generalizing i with
  | nil => exact keeps_pure _ _
  | cons line rest ih =>
    unfold degradeLines
    dsimp only
    repeat (with_reducible first
      | apply keeps_pure
      | apply ih
      | apply keeps_tipAppend
      | apply keeps_bind
      | apply keeps_ite
      | intro _)

theorem RootOK.parent_none {h : Heap} (r : RootOK h) : Ast.parentOf h 0 = none := by
  obtain ⟨nd, h0, _, hp⟩ := r
  rw [parentOf_eq h0, hp]

theorem RootOK.typ {h : Heap} (r : RootOK h) : Ast.typOf h 0 = NodeDocument := by
  obtain ⟨nd, h0, ht, _⟩ := r
  rw [typOf_eq h0, ht]

theorem Reach.unique {h : Heap} (ok : RootOK h) {i a : Nat} (ra : Reach h i a) :
    ∀ b, Reach h i b → a = b := by
  induction ra with
  | root =>
    intro b rb
    rcases rb.inv with ⟨_, hb⟩ | ⟨p, j, _, hp, _, _⟩
    · exact hb.symm
    · rw [ok.parent_none] at hp; cases hp
  | step i p k hp ht _ ih =>
    intro b rb
    rcases rb.inv with ⟨h0, _⟩ | ⟨p', j, hb, hp', _, hr'⟩
    · subst h0; rw [ok.parent_none] at hp; cases hp
    · rw [hp] at hp'
      cases hp'
      rw [hb, ih j hr']

/-- Every member of the list of ancestors of a node that reaches the root in `k`
steps reaches the root in fewer steps. -/
theorem Reach.of_mem_ancestors {h : Heap} (ok : RootOK h) (fuel : Nat) :
    ∀ (i k x : Nat), Reach h i k → x ∈ Ast.ancestors h fuel (Ast.parentOf h i) →
      ∃ j, j < k ∧ Reach h x j := by
  induction fuel with
  | zero => intro i k x _ hx; simp [Ast.ancestors] at hx
  | succ fuel ih =>
    intro i k x r hx
    rcases r.inv with ⟨h0, _⟩ | ⟨p, j, hk, hp, _, hr'⟩
    · subst h0; rw [ok.parent_none] at hx; simp [Ast.ancestors] at hx
    · rw [hp] at hx
      unfold Ast.ancestors at hx
      cases hpn : h[p]? with
      | none => rw [hpn] at hx; simp at hx
      | some pn =>
        rw [hpn] at hx
        simp only [List.mem_cons] at hx
        rcases hx with rfl | hx
        · exact ⟨j, by omega, hr'⟩
        · rw [← parentOf_eq hpn] at hx
          obtain ⟨j', hj', r'⟩ := ih p j x hr' hx
          exact ⟨j', by omega, r'⟩

/-- A node keeps reaching the root when the only node whose parent link changes
lies farther from the root. -/
theorem Reach.avoid {h h' : Heap} (ok : RootOK h) (x : Nat)
    (hsame : ∀ i, i ≠ x → Same i h h') {i k : Nat} (r : Reach h i k) :
    (∀ j, Reach h x j → k < j) → Reach h' i k := by
  induction r with
  | root => intro _; exact Reach.root
  | step i p k hp ht hr ih =>
    intro hfar
    have hix : i ≠ x := by
      intro e
      subst e
      exact Nat.lt_irrefl _ (hfar (k + 1) (Reach.step i p k hp ht hr))
    obtain ⟨nd, hnd⟩ := exists_of_typOf ht
    have s := hsame i hix
    refine Reach.step i p k ?_ ?_ (ih (fun j rj => Nat.lt_of_succ_lt (hfar j rj)))
    · rw [s.parentOf (lt_of_getElem? hnd)]; exact hp
    · rw [s.typOf (lt_of_getElem? hnd)]; exact ht

theorem findSingleCellTable_some (h : Heap) (l : List Nat) (table : Nat)
    (hf : findSingleCellTable h l = .ok (some table)) :
    table ∈ l ∧ Ast.typOf h table = NodeTable := by
  induction l with
  | nil => simp [findSingleCellTable] at hf
  | cons a rest ih =>
    unfold findSingleCellTable at hf
    split at hf
    · next hT =>
      split at hf
      · cases hf
      · simp at hf; subst hf; exact ⟨List.mem_cons_self _ _, hT⟩
      · obtain ⟨h1, h2⟩ := ih hf; exact ⟨List.mem_cons_of_mem _ h1, h2⟩
    · obtain ⟨h1, h2⟩ := ih hf; exact ⟨List.mem_cons_of_mem _ h1, h2⟩

/-- The new node of `InsertBefore` has the kind of `c` and the parent of `n`. -/
theorem InsertBefore_new (h : Heap) (n : Nat) (c : Sub) (hn : n < h.length) :
    Ast.typOf (Ast.InsertBefore h n c) h.length = c.node.Typ ∧
      Ast.parentOf (Ast.InsertBefore h n c) h.length = Ast.parentOf h n := by
  obtain ⟨cn, hcn, ht, _⟩ := alloc_new c h
  have hsame := (alloc_facts c h).2 n h hn (same_refl n h)
  obtain ⟨nn, hnn, _, hpar⟩ := hsame h[n] (by simp [hn])
  have hp0 : Ast.parentOf h n = nn.Parent := by
    rw [parentOf_eq (show h[n]? = some h[n] by simp [hn]), hpar]
  have key : Same h.length
      (upd (Ast.alloc h c) h.length (fun x =>
        { x with Previous := nn.Previous, Next := some n, Parent := nn.Parent }))
      (Ast.InsertBefore h n c) := by
    unfold Ast.InsertBefore Ast.linkBefore
    rw [hnn]
    dsimp only
    split
    · refine Same.upd _ _ (Or.inr fun _ => ⟨rfl, rfl⟩) ?_
      refine Same.updOpt _ _ (fun _ => ⟨rfl, rfl⟩) ?_
      exact same_refl _ _
    · refine Same.updOpt _ _ (fun _ => ⟨rfl, rfl⟩) ?_
      refine Same.upd _ _ (Or.inr fun _ => ⟨rfl, rfl⟩) ?_
      refine Same.updOpt _ _ (fun _ => ⟨rfl, rfl⟩) ?_
      exact same_refl _ _
  obtain ⟨nd, hnd, t, par⟩ := key _ (by rw [getElem?_upd, if_pos rfl, hcn]; rfl)
  rw [typOf_eq hnd, parentOf_eq hnd, t, par, hp0]
  exact ⟨ht, rfl⟩

/-- Lines 457-459 of h2m.go keep the invariant: the code block that replaces an
enclosing table reaches the root in fewer steps than the tip did. -/
theorem Inv.replaceTable {D : Nat} {s : State} (i : Inv D s) (c : Sub) (table fuel : Nat)
    (hc : c.node.Typ ≠ NodeText)
    (hmem : table ∈ Ast.ancestors s.nodes fuel (Ast.parentOf s.nodes s.Tip))
    (htyp : Ast.typOf s.nodes table = NodeTable) :
    Inv D { s with nodes := Ast.Unlink (Ast.InsertBefore s.nodes table c) table,
                   Tip := s.nodes.length } := by
  obtain ⟨r, k, hk, hr⟩ := i
  obtain ⟨j, hj, rt⟩ := Reach.of_mem_ancestors r fuel _ _ _ hr hmem
  rcases rt.inv with ⟨h0, _⟩ | ⟨tp, j', hj', hpar, htx, rtp⟩
  · subst h0; rw [r.typ] at htyp; cases htyp
  have hlt := rt.lt r
  have e := ext_InsertBefore s.nodes table c
  have r1 := rootOK_ext r e
  obtain ⟨tnew, pnew⟩ := InsertBefore_new s.nodes table c hlt
  rw [hpar] at pnew
  have hsame : ∀ i, i ≠ table → Same i (Ast.InsertBefore s.nodes table c)
      (Ast.Unlink (Ast.InsertBefore s.nodes table c) table) :=
    fun i hi => Same.Unlink table hi (same_refl _ _)
  have hnewlt : s.nodes.length < (Ast.InsertBefore s.nodes table c).length := by
    unfold Ast.InsertBefore Ast.linkBefore
    have := (alloc_facts c s.nodes).1
    split
    · exact this
    · dsimp only
      split <;> simp only [length_upd, length_updOpt] <;> exact this
  have hne : s.nodes.length ≠ table := by omega
  have rt1 : Reach (Ast.InsertBefore s.nodes table c) table (j' + 1) := by
    rw [← hj']; exact reach_ext rt e
  have rtp2 : Reach (Ast.Unlink (Ast.InsertBefore s.nodes table c) table) tp j' :=
    Reach.avoid r1 table hsame (reach_ext rtp e) (fun j2 rj2 => by
      have := Reach.unique r1 rt1 j2 rj2
      omega)
  have r2 : RootOK (Ast.Unlink (Ast.InsertBefore s.nodes table c) table) := by
    have h0 : (0 : Nat) ≠ table := by
      intro e0
      rw [← e0, r.typ] at htyp
      cases htyp
    obtain ⟨nd, hn0, ht0, hp0⟩ := r1
    obtain ⟨nd', hn', ht', hp'⟩ := hsame 0 h0 nd hn0
    exact ⟨nd', hn', ht'.trans ht0, hp'.trans hp0⟩
  refine ⟨r2, j' + 1, by simp only []; omega, ?_⟩
  have sn := hsame s.nodes.length hne
  refine Reach.step _ tp j' ?_ ?_ rtp2
  · show Ast.parentOf _ s.nodes.length = some tp
    rw [sn.parentOf hnewlt]; exact pnew
  · show Ast.typOf _ s.nodes.length ≠ NodeText
    rw [sn.typOf hnewlt, tnew]; exact hc

theorem keeps_placeCodeBlock (D : Nat) (L : Lute) (node : Sub) (content : Str)
    (hc : node.node.Typ ≠ NodeText) : Keeps (Inv D) (placeCodeBlock L node content) := by
  constructor
  intro s a s' hP h
  simp only [placeCodeBlock, getHeap, getTip, bind, StateT.bind, get, getThe, MonadStateOf.get,
    StateT.get, pure, StateT.pure, Except.pure, Except.bind] at h
  by_cases hpi : Ast.ParentIs s.nodes s.Tip NodeTable
  · rw [if_pos hpi] at h
    cases hfind : findSingleCellTable s.nodes
        (Ast.ancestors s.nodes (s.nodes.length + 1) (Ast.parentOf s.nodes s.Tip)) with
    | error e => rw [hfind] at h; cases h
    | ok r =>
      rw [hfind] at h
      cases r with
      | none => exact (keeps_degradeLines D L _ _ _).run s a s' hP h
      | some table =>
        obtain ⟨hm, ht⟩ := findSingleCellTable_some _ _ _ hfind
        simp [insertBefore, unlink, setTip, bind, StateT.bind, modify, modifyGet,
          MonadStateOf.modifyGet, StateT.modifyGet, pure, StateT.pure, Except.pure,
          Except.bind] at h
        obtain ⟨_, rfl⟩ := h
        exact hP.replaceTable node table _ hc hm ht
  · rw [if_neg hpi] at h
    exact (keeps_bind _ _ _ (keeps_tipAppend D node) (fun _ => keeps_pure _ _)).run s a s' hP h

theorem keeps_caseP (D : Nat) (n : Nat) : Keeps (Inv D) (caseP n) := by
  unfold caseP
  dsimp only
  repeat (first
    | (with_reducible first
        | apply keeps_pure
        | apply keeps_throw
        | apply keeps_hnode
        | apply keeps_anode
        | apply keeps_getDom
        | apply keeps_getHeap
        | apply keeps_getTip
        | apply keeps_tipNode
        | apply keeps_tipLastChildTyp
        | apply keeps_deref
        | apply keeps_liftDom
        | apply keeps_tipAppend
        | apply keeps_appendMathBlock
        | apply keeps_appendInlineMath
        | apply keeps_setListData
        | apply keeps_pushTip
        | apply keeps_bind
        | apply keeps_ite)
    | focus (show _ ≠ _; simp [Sub.node, leaf, astNode]; done)
    | (with_reducible first
        | intro _
        | split))

theorem typOf_upd_tokens (h : Heap) (n i : Nat) (t : Str) :
    Ast.typOf (upd h n (fun x => { x with Tokens := t })) i = Ast.typOf h i := by
  unfold Ast.typOf
  rw [getElem?_upd]
  by_cases e : i = n
  · rw [if_pos e]; cases h[i]? <;> rfl
  · rw [if_neg e]

theorem keeps_trimLastText (D : Nat) (tip : Nat) : Keeps (Inv D) (trimLastText tip) := by
  constructor
  intro s a s' hP h
  simp only [trimLastText, getHeap, bind, StateT.bind, get, getThe, MonadStateOf.get,
    StateT.get, pure, StateT.pure, Except.pure, Except.bind] at h
  cases hl : (Ast.ChildrenByType s.nodes tip NodeText).getLast? with
  | none => rw [hl] at h; cases h; exact hP
  | some text =>
    rw [hl] at h
    have hm := List.mem_of_getLast?_eq_some hl
    simp only [Ast.ChildrenByType, List.mem_filter, decide_eq_true_eq] at hm
    simp only [bind, StateT.bind, Except.bind] at h
    cases ha : anode text s with
    | error e => rw [ha] at h; cases h
    | ok r =>
      obtain ⟨nd, s1⟩ := r
      have e1 : s1 = s := (keeps_anode (fun x => x = s) text).run s nd s1 rfl ha
      subst e1
      rw [ha] at h
      simp only [setTokens, unlink, modify, modifyGet, MonadStateOf.modifyGet,
        StateT.modifyGet, pure, Except.pure] at h
      have i1 : Inv D { s1 with nodes := upd s1.nodes text (fun x =>
          { x with Tokens := TrimRight nd.Tokens spaceCutset }) } :=
        inv_ext hP _ (ext_upd _ _ _ (fun _ => ⟨rfl, rfl⟩))
      split at h
      · cases h
        refine inv_ext i1 _ (ext_Unlink_text _ _ ?_)
        show Ast.typOf (upd _ _ _) _ = _
        rw [typOf_upd_tokens]
        exact hm.2
      · cases h
        exact i1

theorem keeps_nodeAppend (D : Nat) (node : Option Nat) (c : Sub) :
    Keeps (Inv D) (nodeAppend node c) := by
  unfold nodeAppend
  split
  · exact keeps_bind _ _ _ (keeps_appendChild D _ c) (fun _ => keeps_pure _ _)
  · exact keeps_pure _ _

theorem keeps_liftSpaces (D : Nat) (n : Nat) (curText : Str) :
    Keeps (Inv D) (liftSpaces n curText) := by
  unfold liftSpaces
  dsimp only
  repeat (first
    | (with_reducible first
        | apply keeps_pure | apply keeps_throw | apply keeps_hnode | apply keeps_anode
        | apply keeps_getDom | apply keeps_getHeap | apply keeps_getTip | apply keeps_tipNode
        | apply keeps_tipLastChildTyp | apply keeps_deref | apply keeps_liftDom
        | apply keeps_tipAppend | apply keeps_setTokens | apply keeps_insertAfter
        | apply keeps_insertBefore | apply keeps_trimLastText
        | apply keeps_bind | apply keeps_ite)
    | (with_reducible first | intro _ | split))

theorem keeps_appendSpace (D : Nat) (L : Lute) (n : Nat) : Keeps (Inv D) (appendSpace L n) := by
  unfold appendSpace
  dsimp only
  repeat (first
    | (with_reducible first
        | apply keeps_pure | apply keeps_throw | apply keeps_hnode | apply keeps_anode
        | apply keeps_getDom | apply keeps_getHeap | apply keeps_getTip | apply keeps_tipNode
        | apply keeps_deref | apply keeps_liftDom
        | apply keeps_tipAppend | apply keeps_setTokens | apply keeps_insertAfter
        | apply keeps_insertBefore | apply keeps_liftSpaces
        | apply keeps_bind | apply keeps_ite)
    | (with_reducible first | intro _ | split))

theorem keeps_switchPost (D : Nat) (L : Lute) (n : Nat) (a : Atom) (node : Option Nat) :
    Keeps (Inv D) (switchPost L n a node) := by
  unfold switchPost
  dsimp only
  repeat (first
    | (with_reducible first
        | apply keeps_pure | apply keeps_throw | apply keeps_hnode | apply keeps_anode
        | apply keeps_getDom | apply keeps_getHeap | apply keeps_getTip | apply keeps_tipNode
        | apply keeps_deref | apply keeps_liftDom
        | apply keeps_tipAppend | apply keeps_nodeAppend | apply keeps_appendSpace
        | apply keeps_bind | apply keeps_ite)
    | (with_reducible first | intro _ | split))

theorem keeps_caseDecoration (D : Nat) (n : Nat) (t o : NodeType) (marker : Str)
    (ht : t ≠ NodeText) : Keeps (Inv D) (caseDecoration n t o marker) := by
  unfold caseDecoration
  refine keeps_bind _ _ _ (keeps_hnode _ _) (fun hn => ?_)
  refine keeps_bind _ _ _ (keeps_pushTip D _ ?_) (fun i => keeps_pure _ _)
  exact ht

/-- Every case of the first switch keeps the invariant of the tip. -/
theorem keeps_cases (D : Nat) (L : Lute) (n : Nat) :
    (Keeps (Inv D) (caseText L n) ∧ Keeps (Inv D) (caseHeading n) ∧ Keeps (Inv D) (caseHr n) ∧
      Keeps (Inv D) (caseBlockquote n) ∧ Keeps (Inv D) (caseList n) ∧ Keeps (Inv D) (caseLi n) ∧
      Keeps (Inv D) (casePre L n) ∧ Keeps (Inv D) (caseEm n) ∧ Keeps (Inv D) (caseStrong n)) ∧
    (Keeps (Inv D) (caseCode L n) ∧ Keeps (Inv D) (caseBr L n) ∧ Keeps (Inv D) (caseA n) ∧
      Keeps (Inv D) (caseImg L n) ∧ Keeps (Inv D) (caseInput n) ∧ Keeps (Inv D) (caseTable n) ∧
      Keeps (Inv D) (caseThead n) ∧ Keeps (Inv D) (caseTr n) ∧ Keeps (Inv D) (caseTd n)) ∧
    (Keeps (Inv D) (caseSpan n) ∧ Keeps (Inv D) (caseFont n) ∧ Keeps (Inv D) (caseDetails L n) ∧
      Keeps (Inv D) (caseMedia L n) ∧ Keeps (Inv D) (caseScript n) ∧
      Keeps (Inv D) (caseFigcaption n) ∧ Keeps (Inv D) (caseFigure n)) := by
  refine ⟨⟨?_, ?_, ?_, ?_, ?_, ?_, ?_, ?_, ?_⟩, ⟨?_, ?_, ?_, ?_, ?_, ?_, ?_, ?_, ?_⟩,
    ⟨?_, ?_, ?_, ?_, ?_, ?_, ?_⟩⟩
  all_goals (with_reducible first
    | unfold caseText | unfold caseHeading | unfold caseHr | unfold caseBlockquote
    | unfold caseList | unfold caseLi | unfold casePre | unfold caseEm | unfold caseStrong
    | unfold caseCode | unfold caseBr | unfold caseA | unfold caseImg | unfold caseInput
    | unfold caseTable | unfold caseThead | unfold caseTr
    | unfold caseTd | unfold caseSpan | unfold caseFont | unfold caseDetails
    | unfold caseMedia | unfold caseScript | unfold caseFigcaption | unfold caseFigure)
  all_goals try dsimp only
  all_goals repeat (first
    | (with_reducible first
        | apply keeps_pure | apply keeps_throw | apply keeps_hnode | apply keeps_anode
        | apply keeps_getDom | apply keeps_getHeap | apply keeps_getTip | apply keeps_tipNode
        | apply keeps_tipLastChildTyp | apply keeps_deref | apply keeps_liftDom
        | apply keeps_tipAppend | apply keeps_appendMathBlock | apply keeps_appendInlineMath
        | apply keeps_setListData | apply keeps_setTokens | apply keeps_insertAfter
        | apply keeps_insertBefore | apply keeps_placeCodeBlock | apply keeps_degradeLines
        | apply keeps_pushTip | apply keeps_bind | apply keeps_ite)
    | focus (show _ ≠ _; simp [Sub.node, leaf, astNode, codeSpan, imageNode, emojiNode,
        divCodeBlock, lineCodeSpan, preCodeBlock, Sub.append, Sub.set, Sub.setLast]; done)
    | (with_reducible first | intro _ | split))

theorem keeps_switchPre (D : Nat) (L : Lute) (n : Nat) (a : Atom) :
    Keeps (Inv D) (switchPre L n a) := by
  obtain ⟨⟨c1, c2, c3, c4, c5, c6, c7, c8, c9⟩, ⟨d1, d2, d3, d4, d5, d6, d7, d8, d9⟩,
    ⟨e1, e2, e3, e4, e5, e6, e7⟩⟩ := keeps_cases D L n
  unfold switchPre
  split <;> with_reducible first
    | assumption
    | exact keeps_pure _ _
    | exact keeps_caseP D n
    | exact keeps_caseDecoration D n _ _ _ (by decide)

theorem bind_ok {α β : Type} {m : M α} {f : α → M β} {s s' : State} {b : β}
    (h : (m >>= f) s = .ok (b, s')) : ∃ a s1, m s = .ok (a, s1) ∧ f a s1 = .ok (b, s') := by
  simp only [bind, StateT.bind, Except.bind] at h
  cases hms : m s with
  | error e => rw [hms] at h; cases h
  | ok r =>
    rw [hms] at h
    exact ⟨r.1, r.2, rfl, h⟩

theorem runDefers_depth (j : Nat) : ∀ (K : Nat) (s s' : State) (a : Unit),
    RootOK s.nodes → (∃ k, k ≤ K + j ∧ Reach s.nodes s.Tip k) → runDefers j s = .ok (a, s') →
    s'.defers = s.defers ∧ RootOK s'.nodes ∧ ∃ k, k ≤ K ∧ Reach s'.nodes s'.Tip k := by
  induction j with
  | zero =>
    intro K s s' a r hk h
    simp only [runDefers, pure, StateT.pure, Except.pure] at h
    cases h
    exact ⟨rfl, r, hk⟩
  | succ j ih =>
    intro K s s' a r hk h
    unfold runDefers at h
    obtain ⟨u, s1, h1, h2⟩ := bind_ok h
    simp only [ParentTip, modify, modifyGet, MonadStateOf.modifyGet, StateT.modifyGet, pure,
      Except.pure] at h1
    cases h1
    obtain ⟨k, hk, hr⟩ := hk
    rcases hr.inv with ⟨h0, hk0⟩ | ⟨p, i, hi, hp, _, hr'⟩
    · rw [h0, r.parent_none] at h2
      exact ih K s s' a r ⟨k, by omega, hr⟩ h2
    · rw [hp] at h2
      have := ih K { s with Tip := p } s' a r ⟨i, by omega, hr'⟩ h2
      exact this

theorem visit_tail (K d : Nat) (s3 s' : State) (u : Unit) (i3 : Inv K s3)
    (h : (do let x ← get; runDefers x.defers; modify (fun s1 => { s1 with defers := d }) : M Unit)
      s3 = .ok (u, s')) : Framed K d s' := by
  obtain ⟨s3', sy, e3, h⟩ := bind_ok h
  simp only [get, getThe, MonadStateOf.get, StateT.get, pure, Except.pure] at e3
  cases e3
  obtain ⟨_, s4, h4, h⟩ := bind_ok h
  obtain ⟨_, r4, hk4⟩ := runDefers_depth _ K _ s4 _ i3.1 i3.2 h4
  simp only [modify, modifyGet, MonadStateOf.modifyGet, StateT.modifyGet, pure,
    Except.pure] at h
  cases h
  exact ⟨rfl, r4, hk4⟩

theorem keeps_visit (L : Lute) (children : Option Nat → M Unit)
    (hch : ∀ K d p, Keeps (Framed K d) (children p)) (n : Nat) (a : Atom) (K d : Nat) :
    Keeps (Framed K d) (visit L children n a) := by
  constructor
  intro s u s' hP h
  obtain ⟨hd, r, k, hk, hr⟩ := hP
  unfold visit at h
  obtain ⟨s0, sx, h0, h⟩ := bind_ok h
  simp only [get, getThe, MonadStateOf.get, StateT.get, pure, Except.pure] at h0
  cases h0
  obtain ⟨_, s0, h0, h⟩ := bind_ok h
  simp only [modify, modifyGet, MonadStateOf.modifyGet, StateT.modifyGet, pure,
    Except.pure] at h0
  cases h0
  obtain ⟨v, s1, h1, h⟩ := bind_ok h
  have i1 : Inv K s1 :=
    (keeps_switchPre K L n a).run { s with defers := 0 } v s1 ⟨r, k, hk, hr⟩ h1
  dsimp only at h
  rw [hd] at h
  split at h
  · obtain ⟨_, s3, h3, h⟩ := bind_ok h
    simp only [pure, StateT.pure, Except.pure] at h3
    cases h3
    exact visit_tail K d _ s' u i1 h
  · obtain ⟨hn, s1', e1, g1⟩ := bind_ok h
    have e : s1' = s1 := (keeps_hnode (fun x => x = s1) n).run s1 hn s1' rfl e1
    rw [e] at g1
    obtain ⟨_, s2, h2, g2⟩ := bind_ok g1
    have f2 := (hch (K + s1.defers) s1.defers hn.FirstChild).run s1 _ s2
      ⟨rfl, i1.1, i1.2⟩ h2
    have i2 : Inv K s2 := ⟨f2.2.1, by rw [f2.1]; exact f2.2.2⟩
    obtain ⟨_, s3, h3, g3⟩ := bind_ok g2
    have i3 := (keeps_switchPost K L n a v.node).run s2 _ s3 i2 h3
    exact visit_tail K d _ s' u i3 g3

theorem keeps_gen (L : Lute) (fuel : Nat) :
    (∀ K d n, Keeps (Framed K d) (genASTByDOM L fuel n)) ∧
      (∀ K d p, Keeps (Framed K d) (genChildren L fuel p)) := by
  induction fuel with
  | zero =>
    constructor
    · intro K d n
      unfold genASTByDOM
      exact keeps_throw _ _
    · intro K d p
      unfold genChildren
      exact keeps_throw _ _
  | succ fuel ih =>
    constructor
    · intro K d n
      unfold genASTByDOM
      refine keeps_bind _ _ _ (keeps_hnode _ _) (fun hn => ?_)
      refine keeps_bind _ _ _ (keeps_getDom _) (fun dom => ?_)
      split
      · exact keeps_pure _ _
      · split
        · exact ih.2 K d _
        · exact keeps_visit L _ ih.2 n _ K d
    · intro K d p
      cases p with
      | none =>
        unfold genChildren
        exact keeps_pure _ _
      | some c =>
        unfold genChildren
        refine keeps_bind _ _ _ (ih.1 K d c) (fun _ => ?_)
        refine keeps_bind _ _ _ (keeps_hnode _ _) (fun hn => ?_)
        exact ih.2 K d _

theorem genTree_framed (L : Lute) (fuel : Nat) (dom : Dom) (s : State)
    (h : genTree L fuel dom = .ok s) : Framed 0 0 s := by
  unfold genTree at h
  split at h
  · cases h
  · next root _ =>
    cases hg : (genChildren L fuel root.FirstChild).run (initState dom) with
    | error e => rw [hg] at h; cases h
    | ok r =>
      rw [hg] at h
      cases h
      refine ((keeps_gen L fuel).2 0 0 root.FirstChild).run (initState dom) r.1 r.2 ?_ hg
      exact ⟨rfl, ⟨_, rfl, rfl, rfl⟩, 0, Nat.le_refl 0, Reach.root⟩

theorem Framed.tip {d : Nat} {s : State} (f : Framed 0 d s) : s.Tip = 0 := by
  obtain ⟨_, _, k, hk, hr⟩ := f
  rcases hr.inv with ⟨h0, _⟩ | ⟨p, j, hj, _⟩
  · exact h0
  · omega

theorem RootOK.same {h h' : Heap} (r : RootOK h) (s : Same 0 h h') : RootOK h' := by
  obtain ⟨nd, h0, ht, hp⟩ := r
  obtain ⟨nd', h0', ht', hp'⟩ := s nd h0
  exact ⟨nd', h0', ht'.trans ht, hp'.trans hp⟩

theorem rootOK_relocateList {h : Heap} (r : RootOK h) (n : Nat) : RootOK (relocateList h n) := by
  unfold relocateList
  split
  · exact r
  · next nd hnd =>
    split
    · next ht =>
      have hn0 : (0 : Nat) ≠ n := by
        intro e
        subst e
        obtain ⟨nd0, h0, ht0, _⟩ := r
        rw [h0] at hnd
        cases hnd
        rw [ht0] at ht
        cases ht
      split
      · exact r
      · split
        · split
          · exact r
          · refine r.same ?_
            unfold Ast.AppendChild
            refine Same.link _ _ hn0 ?_
            refine Same.Unlink _ hn0 ?_
            exact Same.Unlink _ hn0 (same_refl _ _)
        · exact r
    · exact r

theorem rootOK_Walk (fuel : Nat) :
    (∀ h n h', RootOK h → Walk fuel h n = .ok h' → RootOK h') ∧
      (∀ h c h', RootOK h → walkChildren fuel h c = .ok h' → RootOK h') := by
  induction fuel with
  | zero =>
    constructor
    · intro h n h' _ hw
      unfold Walk at hw
      cases hw
    · intro h c h' _ hw
      unfold walkChildren at hw
      cases hw
  | succ fuel ih =>
    constructor
    · intro h n h' r hw
      unfold Walk at hw
      dsimp only at hw
      split at hw
      · cases hw
      · exact ih.2 _ _ _ (rootOK_relocateList r n) hw
    · intro h c h' r hw
      cases c with
      | none =>
        unfold walkChildren at hw
        cases hw
        exact r
      | some c =>
        unfold walkChildren at hw
        split at hw
        · cases hw
        · split at hw
          · cases hw
          · next h1 hw1 => exact ih.2 _ _ _ (ih.1 _ _ _ r hw1) hw

theorem buildTree_root (L : Lute) (fuel : Nat) (dom : Dom) (t : Tree)
    (h : buildTree L fuel dom = .ok t) : t.Root = 0 ∧ t.Tip = 0 ∧ RootOK t.nodes := by
  unfold buildTree at h
  split at h
  · cases h
  · next s hs =>
    have f := genTree_framed L fuel dom s hs
    split at h
    · cases h
    · next h' hw =>
      cases h
      exact ⟨rfl, f.tip, (rootOK_Walk fuel).1 _ _ _ f.2.1 hw⟩

theorem HTML2Tree_root (L : Lute) (fuel : Nat) (html : Str) (t : Tree)
    (h : HTML2Tree L fuel html = .ok (some t)) : t.Root = 0 ∧ t.Tip = 0 ∧ RootOK t.nodes := by
  unfold HTML2Tree at h
  split at h
  · cases h
  · split at h
    · cases h
    · next t' ht =>
      cases h
      exact buildTree_root L fuel _ _ ht

/-- The linking half of `AppendChild` leaves every node alone but `c`, `p` and
the former last child of `p`. -/
theorem link_frame (X : Heap) (p c i : Nat) (hc : i ≠ c) (hp : i ≠ p)
    (hl : ∀ pn, X[p]? = some pn → pn.LastChild ≠ some i) : (Ast.link X p c)[i]? = X[i]? := by
  unfold Ast.link
  cases hpn : X[p]? with
  | none => rfl
  | some pn =>
    dsimp only
    cases hlc : pn.LastChild with
    | none =>
      dsimp only
      rw [getElem?_upd, if_neg hp, getElem?_upd, if_neg hc]
    | some l =>
      dsimp only
      have hil : i ≠ l := fun e => hl pn hpn (by rw [hlc, e])
      rw [getElem?_upd, if_neg hp, getElem?_upd, if_neg hil, getElem?_upd, if_neg hc]

/-- After the linking half of `AppendChild`, `c` is the last child of `p`. -/
theorem link_last (X : Heap) (p c : Nat) (pn' : Node) (hp : p < X.length)
    (h : (Ast.link X p c)[p]? = some pn') : pn'.LastChild = some c := by
  unfold Ast.link at h
  have hpn : X[p]? = some X[p] := by simp [hp]
  rw [hpn] at h
  dsimp only at h
  cases hlc : (X[p]).LastChild with
  | none =>
    rw [hlc] at h
    dsimp only at h
    rw [getElem?_upd, if_pos rfl] at h
    cases hx : (upd X c fun x => { x with Parent := some p })[p]? with
    | none => rw [hx] at h; cases h
    | some y => rw [hx] at h; cases h; rfl
  | some l =>
    rw [hlc] at h
    dsimp only at h
    rw [getElem?_upd, if_pos rfl] at h
    cases hx : (upd (upd X c fun x => { x with Parent := some p, Previous := some l }) l
        fun x => { x with Next := some c })[p]? with
    | none => rw [hx] at h; cases h
    | some y => rw [hx] at h; cases h; rfl

mutual
/-- Putting a node under construction on the heap leaves the nodes of the heap
as they are. -/
theorem alloc_frame (c : Sub) (X : Heap) :
    ∀ i, i < X.length → (Ast.alloc X c)[i]? = X[i]? := by
  cases c with
  | mk n cs =>
    unfold Ast.alloc
    intro i hi
    have hc := allocChildren_frame cs (X ++ [n.bare]) X.length (by simp)
      (fun pn l hpn hl => by
        simp at hpn
        subst hpn
        simp [Node.bare] at hl) i hi
    rw [hc, List.getElem?_append_left hi]
theorem allocChildren_frame (cs : List Sub) (Y : Heap) (p : Nat) (hp : p < Y.length)
    (hl : ∀ pn l, Y[p]? = some pn → pn.LastChild = some l → p ≤ l) :
    ∀ i, i < p → (Ast.allocChildren Y p cs)[i]? = Y[i]? := by
  cases cs with
  | nil => unfold Ast.allocChildren; exact fun _ _ => rfl
  | cons c cs =>
    unfold Ast.allocChildren
    intro i hi
    have h1 := alloc_frame c Y
    have hlen := (alloc_facts c Y).1
    have h3 := allocChildren_frame cs (Ast.link (Ast.alloc Y c) p Y.length) p
      (by rw [length_link]; omega)
      (fun pn l hpn hl2 => by
        have := link_last (Ast.alloc Y c) p Y.length pn (by omega) hpn
        rw [this] at hl2
        cases hl2
        omega) i hi
    rw [h3, link_frame _ _ _ _ (by omega) (by omega), h1 i (by omega)]
    intro pn hpn hlc
    rw [h1 p hp] at hpn
    have := hl pn i hpn hlc
    omega
end

theorem core_upd (X : Heap) (j i : Nat) (f : Node → Node) (hf : ∀ x, (f x).core = x.core) :
    ((upd X j f)[i]?).map Node.core = (X[i]?).map Node.core := by
  rw [getElem?_upd]
  split
  · cases X[i]? with
    | none => rfl
    | some x => simp [hf]
  · rfl

theorem core_link (X : Heap) (p c i : Nat) :
    ((Ast.link X p c)[i]?).map Node.core = (X[i]?).map Node.core := by
  unfold Ast.link
  split
  · rfl
  · dsimp only
    split
    · refine (core_upd _ _ _ _ ?_).trans ((core_upd _ _ _ _ ?_).trans (core_upd _ _ _ _ ?_)) <;>
        exact fun _ => rfl
    · refine (core_upd _ _ _ _ ?_).trans (core_upd _ _ _ _ ?_) <;> exact fun _ => rfl

/-- The call `p.AppendChild(c)` keeps the kind and the tokens of every node of
the heap. -/
theorem core_AppendNew (h : Heap) (p : Nat) (c : Sub) (i : Nat) (hi : i < h.length) :
    ((Ast.AppendNew h p c)[i]?).map Node.core = (h[i]?).map Node.core := by
  unfold Ast.AppendNew
  rw [core_link, alloc_frame c h i hi]

/-- The node that `p.AppendChild(c)` links: its kind is that of `c`, its parent
is `p`, its previous sibling is the former last child of `p`, and it is the last
child of `p`. -/
theorem AppendNew_links (h : Heap) (p : Nat) (c : Sub) (pn : Node) (hp : h[p]? = some pn) :
    (∃ x, (Ast.AppendNew h p c)[h.length]? = some x ∧ x.Typ = c.node.Typ ∧
        x.Parent = some p ∧ (∀ l, pn.LastChild = some l → x.Previous = some l)) ∧
      (∃ y, (Ast.AppendNew h p c)[p]? = some y ∧ y.LastChild = some h.length) := by
  have hlt := lt_of_getElem? hp
  obtain ⟨cn, hcn, hct, _⟩ := alloc_new c h
  have hZp : (Ast.alloc h c)[p]? = some pn := by rw [alloc_frame c h p hlt, hp]
  have hne : ¬ h.length = p := by omega
  unfold Ast.AppendNew Ast.link
  rw [hZp]
  dsimp only
  cases hlc : pn.LastChild with
  | none =>
    dsimp only
    constructor
    · refine ⟨{ cn with Parent := some p }, ?_, hct, rfl, fun l hl => by cases hl⟩
      rw [getElem?_upd, if_neg hne, getElem?_upd, if_pos rfl, hcn]
      rfl
    · rw [getElem?_upd, if_pos rfl, getElem?_upd, if_neg (fun e => hne e.symm), hZp]
      exact ⟨_, rfl, rfl⟩
  | some l =>
    dsimp only
    constructor
    · rw [getElem?_upd, if_neg hne, getElem?_upd]
      split
      · rw [getElem?_upd, if_pos rfl, hcn]
        exact ⟨_, rfl, hct, rfl, fun l' hl' => by cases hl'; rfl⟩
      · rw [getElem?_upd, if_pos rfl, hcn]
        exact ⟨_, rfl, hct, rfl, fun l' hl' => by cases hl'; rfl⟩
    · rw [getElem?_upd, if_pos rfl, getElem?_upd]
      split
      · next e =>
        rw [getElem?_upd, if_neg (fun e => hne e.symm), hZp]
        exact ⟨_, rfl, rfl⟩
      · rw [getElem?_upd, if_neg (fun e => hne e.symm), hZp]
        exact ⟨_, rfl, rfl⟩

theorem run_hnode {n : Nat} {s s' : State} {hn : HNode} (h : hnode n s = .ok (hn, s')) :
    s' = s ∧ s.dom[n]? = some hn := by
  simp only [hnode, bind, StateT.bind, get, getThe, MonadStateOf.get, StateT.get, pure,
    StateT.pure, Except.pure, Except.bind] at h
  cases hx : s.dom[n]? with
  | none => rw [hx] at h; cases h
  | some x =>
    rw [hx] at h
    simp only [pure, StateT.pure, Except.pure] at h
    cases h
    exact ⟨rfl, rfl⟩

theorem run_anode {n : Nat} {s s' : State} {nd : Node} (h : anode n s = .ok (nd, s')) :
    s' = s ∧ s.nodes[n]? = some nd := by
  simp only [anode, bind, StateT.bind, get, getThe, MonadStateOf.get, StateT.get, pure,
    StateT.pure, Except.pure, Except.bind] at h
  cases hx : s.nodes[n]? with
  | none => rw [hx] at h; cases h
  | some x =>
    rw [hx] at h
    simp only [pure, StateT.pure, Except.pure] at h
    cases h
    exact ⟨rfl, rfl⟩

theorem run_tipNode {s s' : State} {nd : Node} (h : tipNode s = .ok (nd, s')) :
    s' = s ∧ s.nodes[s.Tip]? = some nd := by
  unfold tipNode at h
  obtain ⟨t, s1, h1, h2⟩ := bind_ok h
  simp only [getTip, bind, StateT.bind, get, getThe, MonadStateOf.get, StateT.get, pure,
    StateT.pure, Except.pure, Except.bind] at h1
  cases h1
  exact run_anode h2

theorem run_getDom {s s' : State} {d : Dom} (h : getDom s = .ok (d, s')) : s' = s ∧ d = s.dom := by
  simp only [getDom, bind, StateT.bind, get, getThe, MonadStateOf.get, StateT.get, pure,
    StateT.pure, Except.pure, Except.bind] at h
  cases h
  exact ⟨rfl, rfl⟩

theorem run_tipAppend {c : Sub} {s s' : State} {i : Nat} (h : tipAppend c s = .ok (i, s')) :
    i = s.nodes.length ∧ s' = { s with nodes := Ast.AppendNew s.nodes s.Tip c } := by
  simp only [tipAppend, appendChild, getTip, bind, StateT.bind, get, getThe, MonadStateOf.get,
    StateT.get, set, StateT.set, pure, StateT.pure, Except.pure, Except.bind] at h
  cases h
  exact ⟨rfl, rfl⟩

theorem run_pushTip {c : Sub} {s s' : State} {i : Nat} (h : pushTip c s = .ok (i, s')) :
    i = s.nodes.length ∧
      s' = { s with nodes := Ast.AppendNew s.nodes s.Tip c, Tip := s.nodes.length,
                    defers := s.defers + 1 } := by
  simp only [pushTip, tipAppend, appendChild, getTip, setTip, deferParentTip, bind, StateT.bind,
    get, getThe, MonadStateOf.get, StateT.get, set, StateT.set, modify, modifyGet,
    MonadStateOf.modifyGet, StateT.modifyGet, pure, StateT.pure, Except.pure, Except.bind] at h
  cases h
  exact ⟨rfl, rfl⟩

theorem run_pure {α : Type} {a b : α} {s s' : State} (h : (pure a : M α) s = .ok (b, s')) :
    b = a ∧ s' = s := by
  simp only [pure, StateT.pure, Except.pure] at h
  cases h
  exact ⟨rfl, rfl⟩

/-- In a table, `p`, `div` and `section` emit no block: nothing, or one `Br`. -/
theorem caseP_in_table (n : Nat) (s s' : State) (v : Visit)
    (ht : parentIs s.dom n [.Table] = true) (h : caseP n s = .ok (v, s')) :
    v = Visit.brk ∧ s'.Tip = s.Tip ∧
      (s'.nodes = s.nodes ∨ s'.nodes = Ast.AppendNew s.nodes s.Tip (astNode NodeBr)) := by
  unfold caseP at h
  obtain ⟨hn, s1, h1, g1⟩ := bind_ok h
  obtain ⟨rfl, _⟩ := run_hnode h1
  obtain ⟨dom, s2, h2, g2⟩ := bind_ok g1
  obtain ⟨rfl, rfl⟩ := run_getDom h2
  obtain ⟨tn, s3, h3, g3⟩ := bind_ok g2
  obtain ⟨rfl, _⟩ := run_tipNode h3
  dsimp only at g3
  split at g3
  · obtain ⟨rfl, rfl⟩ := run_pure g3
    exact ⟨rfl, rfl, Or.inl rfl⟩
  · simp only [pure_bind, ht, if_true] at g3
    split at g3
    · obtain ⟨rfl, rfl⟩ := run_pure g3
      exact ⟨rfl, rfl, Or.inl rfl⟩
    · split at g3
      · obtain ⟨rfl, rfl⟩ := run_pure g3
        exact ⟨rfl, rfl, Or.inl rfl⟩
      · obtain ⟨tn2, s4, h4, g4⟩ := bind_ok g3
        obtain ⟨rfl, _⟩ := run_tipNode h4
        split at g4
        · obtain ⟨rfl, rfl⟩ := run_pure g4
          exact ⟨rfl, rfl, Or.inl rfl⟩
        · obtain ⟨j, s5, h5, g5⟩ := bind_ok g4
          obtain ⟨_, rfl⟩ := run_tipAppend h5
          obtain ⟨rfl, rfl⟩ := run_pure g5
          exact ⟨rfl, rfl, Or.inr rfl⟩

theorem length_AppendNew_leaf (h : Heap) (p : Nat) (n : Node) :
    (Ast.AppendNew h p (leaf n)).length = h.length + 1 := by
  unfold Ast.AppendNew
  rw [length_link]
  simp [leaf, Ast.alloc, Ast.allocChildren]

theorem core_AppendNew_leaf (h : Heap) (p : Nat) (n : Node) :
    ((Ast.AppendNew h p (leaf n))[h.length]?).map Node.core = some n.core := by
  unfold Ast.AppendNew
  rw [core_link]
  simp [leaf, Ast.alloc, Ast.allocChildren, Node.core, Node.bare]

/-- After `p.AppendChild(zwsp)` and `p.AppendChild(c)` the previous sibling of
the node of `c` is the separator. -/
theorem sep_AppendNew (h : Heap) (p : Nat) (c : Sub) (pn : Node) (hp : h[p]? = some pn) :
    SepBefore (Ast.AppendNew (Ast.AppendNew h p zwspText) p c) (h.length + 1) c.node.Typ := by
  obtain ⟨_, y, hy, hyl⟩ := AppendNew_links h p zwspText pn hp
  have hlen : (Ast.AppendNew h p zwspText).length = h.length + 1 :=
    length_AppendNew_leaf h p _
  obtain ⟨⟨x, hx, hxt, _, hxp⟩, _⟩ := AppendNew_links (Ast.AppendNew h p zwspText) p c y hy
  rw [hlen] at hx
  have hc := core_AppendNew (Ast.AppendNew h p zwspText) p c h.length (by omega)
  have hz0 : ((Ast.AppendNew h p zwspText)[h.length]?).map Node.core = some (NodeText, Zwsp) :=
    core_AppendNew_leaf h p _
  rw [hz0] at hc
  cases hz : (Ast.AppendNew (Ast.AppendNew h p zwspText) p c)[h.length]? with
  | none => rw [hz] at hc; cases hc
  | some z =>
    rw [hz] at hc
    simp only [Option.map_some', Option.some.injEq, Node.core, Prod.mk.injEq] at hc
    exact ⟨x, h.length, z, hx, hxt, hxp _ hyl, hz, hc.1, hc.2⟩

theorem run_getHeap {s s' : State} {x : Heap} (h : getHeap s = .ok (x, s')) :
    s' = s ∧ x = s.nodes := by
  simp only [getHeap, bind, StateT.bind, get, getThe, MonadStateOf.get, StateT.get, pure,
    StateT.pure, Except.pure, Except.bind] at h
  cases h
  exact ⟨rfl, rfl⟩

theorem run_getTip {s s' : State} {x : Nat} (h : getTip s = .ok (x, s')) :
    s' = s ∧ x = s.Tip := by
  simp only [getTip, bind, StateT.bind, get, getThe, MonadStateOf.get, StateT.get, pure,
    StateT.pure, Except.pure, Except.bind] at h
  cases h
  exact ⟨rfl, rfl⟩

theorem run_tipLastChildTyp {s s' : State} {r : Option NodeType}
    (h : tipLastChildTyp s = .ok (r, s')) :
    s' = s ∧ ∃ tn, s.nodes[s.Tip]? = some tn ∧ r = tn.LastChild.map (Ast.typOf s.nodes) := by
  unfold tipLastChildTyp at h
  obtain ⟨x, s1, h1, g1⟩ := bind_ok h
  obtain ⟨rfl, rfl⟩ := run_getHeap h1
  obtain ⟨tn, s2, h2, g2⟩ := bind_ok g1
  obtain ⟨rfl, htn⟩ := run_tipNode h2
  obtain ⟨rfl, rfl⟩ := run_pure g2
  exact ⟨rfl, tn, htn, rfl⟩

/-- The separator of lines 502-505: an `em` whose node is emitted while the last
child of the tip is a `Strong` or an `Emphasis` gets the separator before it. -/
theorem caseEm_sep (n : Nat) (s s' : State) (i : Nat) (tn : Node) (l : Nat)
    (htip : s.nodes[s.Tip]? = some tn) (hl : tn.LastChild = some l)
    (ht : Ast.typOf s.nodes l = NodeStrong ∨ Ast.typOf s.nodes l = NodeEmphasis)
    (h : caseEm n s = .ok (Visit.opened i, s')) :
    s'.Tip = i ∧ SepBefore s'.nodes i NodeEmphasis := by
  unfold caseEm at h
  obtain ⟨hn, s1, h1, g1⟩ := bind_ok h
  obtain ⟨rfl, _⟩ := run_hnode h1
  obtain ⟨dom, s2, h2, g2⟩ := bind_ok g1
  obtain ⟨rfl, rfl⟩ := run_getDom h2
  dsimp only at g2
  split at g2
  · obtain ⟨e, _⟩ := run_pure g2
    cases e
  · simp only [pure_bind] at g2
    obtain ⟨x, s3, h3, g3⟩ := bind_ok g2
    obtain ⟨rfl, rfl⟩ := run_getHeap h3
    obtain ⟨t, s4, h4, g4⟩ := bind_ok g3
    obtain ⟨rfl, rfl⟩ := run_getTip h4
    obtain ⟨tn', s5, h5, g5⟩ := bind_ok g4
    obtain ⟨rfl, htn'⟩ := run_tipNode h5
    try dsimp only at g5
    split at g5
    · obtain ⟨e, _⟩ := run_pure g5
      cases e
    · obtain ⟨last, s6, h6, g6⟩ := bind_ok g5
      obtain ⟨rfl, tn2, htn2, rfl⟩ := run_tipLastChildTyp h6
      rw [htip] at htn2
      cases htn2
      rw [hl, if_pos (by simpa using ht)] at g6
      obtain ⟨_, s7, h7, g7⟩ := bind_ok g6
      obtain ⟨_, rfl⟩ := run_tipAppend h7
      obtain ⟨j, s9, h9, g9⟩ := bind_ok g7
      obtain ⟨rfl, rfl⟩ := run_pushTip h9
      obtain ⟨e, rfl⟩ := run_pure g9
      cases e
      have := sep_AppendNew s6.nodes s6.Tip
        (Sub.mk { Typ := NodeEmphasis, Tokens := hn.Data } [astNode NodeEmA6kOpenMarker "*".toList])
        tn htip
      have hlen : (Ast.AppendNew s6.nodes s6.Tip zwspText).length = s6.nodes.length + 1 :=
        length_AppendNew_leaf _ _ _
      refine ⟨rfl, ?_⟩
      show SepBefore _ (Ast.AppendNew s6.nodes s6.Tip zwspText).length _
      rw [hlen]
      exact this

/-- The separator of line 522: a `strong` whose node is emitted while the last
child of the tip is a `Strong` or an `Emphasis` gets the separator before it. -/
theorem caseStrong_sep (n : Nat) (s s' : State) (i : Nat) (tn : Node) (l : Nat)
    (htip : s.nodes[s.Tip]? = some tn) (hl : tn.LastChild = some l)
    (ht : Ast.typOf s.nodes l = NodeStrong ∨ Ast.typOf s.nodes l = NodeEmphasis)
    (h : caseStrong n s = .ok (Visit.opened i, s')) :
    s'.Tip = i ∧ SepBefore s'.nodes i NodeStrong := by
  unfold caseStrong at h
  obtain ⟨hn, s1, h1, g1⟩ := bind_ok h
  obtain ⟨rfl, _⟩ := run_hnode h1
  obtain ⟨dom, s2, h2, g2⟩ := bind_ok g1
  obtain ⟨rfl, rfl⟩ := run_getDom h2
  dsimp only at g2
  split at g2
  · obtain ⟨e, _⟩ := run_pure g2
    cases e
  · simp only [pure_bind] at g2
    obtain ⟨x, s3, h3, g3⟩ := bind_ok g2
    obtain ⟨rfl, rfl⟩ := run_getHeap h3
    obtain ⟨t, s4, h4, g4⟩ := bind_ok g3
    obtain ⟨rfl, rfl⟩ := run_getTip h4
    obtain ⟨tn', s5, h5, g5⟩ := bind_ok g4
    obtain ⟨rfl, htn'⟩ := run_tipNode h5
    try dsimp only at g5
    split at g5
    · obtain ⟨e, _⟩ := run_pure g5
      cases e
    · obtain ⟨last, s6, h6, g6⟩ := bind_ok g5
      obtain ⟨rfl, tn2, htn2, rfl⟩ := run_tipLastChildTyp h6
      rw [htip] at htn2
      cases htn2
      rw [hl, if_pos (by simpa using ht)] at g6
      obtain ⟨_, s7, h7, g7⟩ := bind_ok g6
      obtain ⟨_, rfl⟩ := run_tipAppend h7
      obtain ⟨j, s9, h9, g9⟩ := bind_ok g7
      obtain ⟨rfl, rfl⟩ := run_pushTip h9
      obtain ⟨e, rfl⟩ := run_pure g9
      cases e
      have := sep_AppendNew s6.nodes s6.Tip
        (Sub.mk { Typ := NodeStrong, Tokens := hn.Data } [astNode NodeStrongA6kOpenMarker "**".toList])
        tn htip
      have hlen : (Ast.AppendNew s6.nodes s6.Tip zwspText).length = s6.nodes.length + 1 :=
        length_AppendNew_leaf _ _ _
      refine ⟨rfl, ?_⟩
      show SepBefore _ (Ast.AppendNew s6.nodes s6.Tip zwspText).length _
      rw [hlen]
      exact this

/-- The separator of lines 534-536: a `code` with a child, met while the last
child of the tip is a `CodeSpan`, gets the separator before its code span. -/
theorem caseCode_sep (L : Lute) (n : Nat) (s s' : State) (v : Visit) (tn : Node) (l : Nat)
    (hn : HNode) (hdom : s.dom[n]? = some hn) (hfc : hn.FirstChild ≠ none)
    (htip : s.nodes[s.Tip]? = some tn) (hl : tn.LastChild = some l)
    (ht : Ast.typOf s.nodes l = NodeCodeSpan)
    (h : caseCode L n s = .ok (v, s')) :
    SepBefore s'.nodes s'.Tip NodeCodeSpan := by
  unfold caseCode at h
  obtain ⟨hn', s1, h1, g1⟩ := bind_ok h
  obtain ⟨rfl, hdom'⟩ := run_hnode h1
  rw [hdom] at hdom'
  cases hdom'
  dsimp only at g1
  rw [if_neg hfc] at g1
  simp only [pure_bind] at g1
  obtain ⟨last, s6, h6, g6⟩ := bind_ok g1
  obtain ⟨rfl, tn2, htn2, rfl⟩ := run_tipLastChildTyp h6
  rw [htip] at htn2
  cases htn2
  rw [hl, if_pos (by simpa using ht)] at g6
  obtain ⟨_, s7, h7, g7⟩ := bind_ok g6
  obtain ⟨_, rfl⟩ := run_tipAppend h7
  obtain ⟨dom, s8, h8, g8⟩ := bind_ok g7
  obtain ⟨rfl, rfl⟩ := run_getDom h8
  obtain ⟨j, s9, h9, g9⟩ := bind_ok g8
  obtain ⟨rfl, rfl⟩ := run_pushTip h9
  obtain ⟨_, rfl⟩ := run_pure g9
  have := sep_AppendNew s6.nodes s6.Tip (codeSpan hn.Data (codeContent L s6.dom n hn)) tn htip
  have hlen : (Ast.AppendNew s6.nodes s6.Tip zwspText).length = s6.nodes.length + 1 :=
    length_AppendNew_leaf _ _ _
  dsimp only
  rw [hlen]
  exact this

theorem run_appendChild {p : Nat} {c : Sub} {s s' : State} {i : Nat}
    (h : appendChild p c s = .ok (i, s')) :
    i = s.nodes.length ∧ s' = { s with nodes := Ast.AppendNew s.nodes p c } := by
  simp only [appendChild, bind, StateT.bind, get, getThe, MonadStateOf.get,
    StateT.get, set, StateT.set, pure, StateT.pure, Except.pure, Except.bind] at h
  cases h
  exact ⟨rfl, rfl⟩

theorem run_nodeAppend {p : Nat} {c : Sub} {s s' : State} {u : Unit}
    (h : nodeAppend (some p) c s = .ok (u, s')) :
    s' = { s with nodes := Ast.AppendNew s.nodes p c } := by
  unfold nodeAppend at h
  dsimp only at h
  obtain ⟨_, s1, h1, g1⟩ := bind_ok h
  obtain ⟨_, rfl⟩ := run_appendChild h1
  obtain ⟨_, rfl⟩ := run_pure g1
  rfl

/-- The `a` case of the first switch emits a `Link` whose one child is the open
bracket and moves the tip to it. -/
theorem caseA_opened (n : Nat) (s s' : State) (i : Nat)
    (h : caseA n s = .ok (Visit.opened i, s')) :
    i = s.nodes.length ∧ s'.Tip = i ∧ ∃ tok, s'.nodes =
      Ast.AppendNew s.nodes s.Tip (Sub.mk { Typ := NodeLink, Tokens := tok }
        [astNode NodeOpenBracket]) := by
  unfold caseA at h
  obtain ⟨hn, s1, h1, g1⟩ := bind_ok h
  obtain ⟨rfl, _⟩ := run_hnode h1
  obtain ⟨dom, s2, h2, g2⟩ := bind_ok g1
  obtain ⟨rfl, rfl⟩ := run_getDom h2
  dsimp only at g2
  split at g2
  · obtain ⟨e, _⟩ := run_pure g2
    cases e
  · simp only [pure_bind] at g2
    split at g2
    · obtain ⟨e, _⟩ := run_pure g2
      cases e
    · obtain ⟨j, s3, h3, g3⟩ := bind_ok g2
      obtain ⟨rfl, rfl⟩ := run_pushTip h3
      obtain ⟨e, rfl⟩ := run_pure g3
      cases e
      exact ⟨rfl, rfl, _, rfl⟩

/-- The `a` case of the second switch appends the tail of the link to the node
of the element. -/
theorem switchPost_A (L : Lute) (n : Nat) (s s' : State) (i : Nat) (u : Unit)
    (h : switchPost L n .A (some i) s = .ok (u, s')) :
    s'.Tip = s.Tip ∧ s'.nodes = List.foldl (fun hp c => Ast.AppendNew hp i c) s.nodes
      ([astNode NodeCloseBracket, astNode NodeOpenParen,
        astNode NodeLinkDest (DomAttrValue s.dom (some n) "href".toList)] ++
       (if DomAttrValue s.dom (some n) "title".toList ≠ [] then
          [astNode NodeLinkSpace, astNode NodeLinkTitle (DomAttrValue s.dom (some n) "title".toList)]
        else []) ++
       [astNode NodeCloseParen]) := by
  unfold switchPost at h
  dsimp only at h
  obtain ⟨dom, s1, h1, g1⟩ := bind_ok h
  obtain ⟨rfl, rfl⟩ := run_getDom h1
  obtain ⟨_, s2, h2, g2⟩ := bind_ok g1
  have e2 := run_nodeAppend h2
  obtain ⟨_, s3, h3, g3⟩ := bind_ok g2
  have e3 := run_nodeAppend h3
  obtain ⟨_, s4, h4, g4⟩ := bind_ok g3
  have e4 := run_nodeAppend h4
  subst e2 e3 e4
  dsimp only at g4
  split at g4
  · next ht =>
    obtain ⟨_, s5, h5, g5⟩ := bind_ok g4
    have e5 := run_nodeAppend h5
    obtain ⟨_, s6, h6, g6⟩ := bind_ok g5
    have e6 := run_nodeAppend h6
    have e7 := run_nodeAppend g6
    subst e5 e6 e7
    rw [if_pos ht]
    dsimp only [List.cons_append, List.nil_append, List.foldl_cons, List.foldl_nil]
    exact ⟨rfl, rfl⟩
  · next ht =>
    simp only [pure_bind] at g4
    have e9 := run_nodeAppend g4
    subst e9
    rw [if_neg ht]
    dsimp only [List.cons_append, List.nil_append, List.foldl_cons, List.foldl_nil]
    exact ⟨rfl, rfl⟩

theorem length_Unlink (h : Heap) (i : Nat) : (Ast.Unlink h i).length = h.length := by
  unfold Ast.Unlink
  split
  · rfl
  · dsimp only
    rw [length_upd]
    split <;> split <;> simp only [length_upd, length_updOpt]

/-- The callback of lines 63-77 on a list under a list: with a previous sibling
the list becomes a child of that sibling, without one the tree stays as it is. -/
theorem relocateList_moves (h : Heap) (n p : Nat) (nd : Node) (hn : h[n]? = some nd)
    (ht : nd.Typ = NodeList) (hp : nd.Parent = some p) (hpt : Ast.typOf h p = NodeList) :
    (∀ prev, nd.Previous = some prev → prev ≠ n → prev < h.length →
        Ast.parentOf (relocateList h n) n = some prev) ∧
      (nd.Previous = none → relocateList h n = h) := by
  constructor
  · intro prev hprev hne hlt
    unfold relocateList
    rw [hn]
    dsimp only
    rw [if_pos ht, hp]
    dsimp only
    rw [if_pos hpt, hprev]
    dsimp only
    unfold Ast.AppendChild
    have hl : (Ast.Unlink (Ast.Unlink h n) n).length = h.length := by
      rw [length_Unlink, length_Unlink]
    have hnl := lt_of_getElem? hn
    have hlp : prev < (Ast.Unlink (Ast.Unlink h n) n).length := by omega
    have hln : n < (Ast.Unlink (Ast.Unlink h n) n).length := by omega
    obtain ⟨x, hx, _, hxp⟩ := link_new (Ast.Unlink (Ast.Unlink h n) n) prev n
      (Ast.Unlink (Ast.Unlink h n) n)[prev] (Ast.Unlink (Ast.Unlink h n) n)[n] hne
      (List.getElem?_eq_getElem hlp) (List.getElem?_eq_getElem hln)
    rw [parentOf_eq hx, hxp]
  · intro hprev
    unfold relocateList
    rw [hn]
    dsimp only
    rw [if_pos ht, hp]
    dsimp only
    rw [if_pos hpt, hprev]

/-- The info string of the code block of a `pre` holds no hyphen, no underscore
and no space. -/
theorem preInfo_clean (childClass preClass : Str) (childIsCode span2Code : Bool) :
    ContainsAny (preInfo childClass preClass childIsCode span2Code) ['-', '_', ' '] = false := by
  have key : ∀ info : Str,
      ContainsAny (if ContainsAny info ['-', '_', ' '] then [] else info) ['-', '_', ' '] =
        false := by
    intro info
    cases h : ContainsAny info ['-', '_', ' ']
    · simpa using h
    · rfl
  unfold preInfo
  exact key _

/-- Without a root from the HTML collaborator the tree is the null tree and the
Markdown is empty, with a nil error. -/
theorem no_root (L : Lute) (fuel : Nat) (html : Str) (h : L.parseHTML html = none) :
    HTML2Tree L fuel html = .ok none ∧ HTML2Markdown L fuel html = .ok ([], none) := by
  have h1 : HTML2Tree L fuel html = .ok none := by
    unfold HTML2Tree
    rw [h]
  refine ⟨h1, ?_⟩
  unfold HTML2Markdown
  rw [h1]
  rfl

theorem back_upd (X : Heap) (j i : Nat) (f : Node → Node) (hf : ∀ x, (f x).back = x.back) :
    ((upd X j f)[i]?).map Node.back = (X[i]?).map Node.back := by
  rw [getElem?_upd]
  split
  · cases X[i]? with
    | none => rfl
    | some x => simp [hf]
  · rfl

theorem back_link (X : Heap) (p c i : Nat) (hc : i ≠ c) :
    ((Ast.link X p c)[i]?).map Node.back = (X[i]?).map Node.back := by
  unfold Ast.link
  split
  · rfl
  · dsimp only
    split
    · refine (back_upd _ _ _ _ ?_).trans ((back_upd _ _ _ _ ?_).trans ?_)
      · exact fun _ => rfl
      · exact fun _ => rfl
      · rw [getElem?_upd, if_neg hc]
    · refine (back_upd _ _ _ _ ?_).trans ?_
      · exact fun _ => rfl
      · rw [getElem?_upd, if_neg hc]

/-- The call `p.AppendChild(c)` keeps the kind, the tokens and the previous
sibling of every node of the heap. -/
theorem back_AppendNew (h : Heap) (p : Nat) (c : Sub) (i : Nat) (hi : i < h.length) :
    ((Ast.AppendNew h p c)[i]?).map Node.back = (h[i]?).map Node.back := by
  unfold Ast.AppendNew
  rw [back_link _ _ _ _ (by omega), alloc_frame c h i hi]

/-- The node that `p.AppendChild(&ast.Node{...})` links. -/
theorem back_AppendNew_leaf (h : Heap) (p : Nat) (n pn : Node) (hp : h[p]? = some pn) :
    ((Ast.AppendNew h p (leaf n))[h.length]?).map Node.back =
      some (n.Typ, n.Tokens, pn.LastChild) := by
  have hlt := lt_of_getElem? hp
  have hne : ¬ h.length = p := by omega
  have hZp : (h ++ [n.bare])[p]? = some pn := by rw [List.getElem?_append_left hlt, hp]
  have hZc : (h ++ [n.bare])[h.length]? = some n.bare := by simp
  unfold Ast.AppendNew Ast.link
  simp only [leaf, Ast.alloc, Ast.allocChildren]
  rw [hZp]
  dsimp only
  cases hlc : pn.LastChild with
  | none =>
    dsimp only
    rw [getElem?_upd, if_neg hne, getElem?_upd, if_pos rfl, hZc]
    rfl
  | some l =>
    dsimp only
    rw [getElem?_upd, if_neg hne, getElem?_upd]
    split
    · rw [getElem?_upd, if_pos rfl, hZc]
      rfl
    · rw [getElem?_upd, if_pos rfl, hZc]
      rfl

/-- Appending the leaves `ns` to node `p`, one call of `AppendChild` each: the
new nodes lie at the end of the heap in the order of `ns`, each after the one
before it, the first after the former last child of `p`; the last of them is the
last child of `p`. -/
theorem appendLeaves (p : Nat) (ns : List Node) :
    ∀ (h : Heap) (pn : Node), h[p]? = some pn →
      (List.foldl (fun hp c => Ast.AppendNew hp p c) h (ns.map leaf)).length =
          h.length + ns.length ∧
        (∀ i, i < h.length →
          ((List.foldl (fun hp c => Ast.AppendNew hp p c) h (ns.map leaf))[i]?).map Node.back =
            (h[i]?).map Node.back) ∧
        (∀ j n, ns[j]? = some n →
          ((List.foldl (fun hp c => Ast.AppendNew hp p c) h (ns.map leaf))[h.length + j]?).map
              Node.back =
            some (n.Typ, n.Tokens, if j = 0 then pn.LastChild else some (h.length + j - 1))) ∧
        ∃ y, (List.foldl (fun hp c => Ast.AppendNew hp p c) h (ns.map leaf))[p]? = some y ∧
          y.LastChild = if ns.length = 0 then pn.LastChild else some (h.length + ns.length - 1) := by
  induction ns with
  | nil =>
    intro h pn hp
    refine ⟨rfl, fun _ _ => rfl, fun j n hj => by simp at hj, pn, hp, rfl⟩
  | cons a ns ih =>
    intro h pn hp
    simp only [List.map_cons, List.foldl_cons]
    obtain ⟨_, y, hy, hyl⟩ := AppendNew_links h p (leaf a) pn hp
    have hlen : (Ast.AppendNew h p (leaf a)).length = h.length + 1 := length_AppendNew_leaf h p a
    obtain ⟨i1, i2, i3, z, hz, hzl⟩ := ih (Ast.AppendNew h p (leaf a)) y hy
    refine ⟨by rw [i1, hlen, List.length_cons]; omega, fun i hi => ?_, fun j n hj => ?_,
      z, hz, ?_⟩
    · rw [i2 i (by omega), back_AppendNew h p (leaf a) i hi]
    · cases j with
      | zero =>
        simp only [List.getElem?_cons_zero, Option.some.injEq] at hj
        subst hj
        rw [Nat.add_zero, i2 h.length (by omega), back_AppendNew_leaf h p _ pn hp]
        rfl
      | succ j =>
        simp only [List.getElem?_cons_succ] at hj
        have := i3 j n hj
        rw [hlen] at this
        rw [show h.length + (j + 1) = h.length + 1 + j by omega, this, hyl]
        congr 3
        split
        · next e => subst e; rfl
        · rw [if_neg (by omega)]
    · rw [hzl, hlen, hyl, List.length_cons]
      split
      · next e => rw [if_neg (by omega), e]; rfl
      · rw [if_neg (by omega)]
        congr 1
        omega

theorem backKinds_step (H : Heap) (k j : Nat) (x : Node) (hx : H[j]? = some x) :
    backKinds H (k + 1) (some j) = backKinds H k x.Previous ++ [(x.Typ, x.Tokens)] := by
  rw [backKinds, hx]

/-- A run of nodes `base, base + 1, ...` that carry the kinds and tokens of `ns`
and are linked backwards to each other, the first to `first`, is read by
`backKinds` in the order of `ns`. -/
theorem backKinds_chain (H : Heap) (base : Nat) (ns : List Node) (first : Option Nat)
    (hf : ∀ j n, ns[j]? = some n → (H[base + j]?).map Node.back =
      some (n.Typ, n.Tokens, if j = 0 then first else some (base + j - 1)))
    (extra : Nat) :
    ∀ m, m ≤ ns.length →
      backKinds H (m + extra) (if m = 0 then first else some (base + m - 1)) =
        backKinds H extra first ++ (ns.take m).map (fun n => (n.Typ, n.Tokens)) := by
  intro m
  induction m with
  | zero => intro _; simp
  | succ m ih =>
    intro hm
    have hlt : m < ns.length := by omega
    have hn : ns[m]? = some ns[m] := List.getElem?_eq_getElem hlt
    have hb := hf m ns[m] hn
    cases hx : H[base + m]? with
    | none => rw [hx] at hb; cases hb
    | some x =>
      rw [hx] at hb
      simp only [Option.map_some', Option.some.injEq, Node.back, Prod.mk.injEq] at hb
      obtain ⟨h1, h2, h3⟩ := hb
      rw [if_neg (by omega), show m + 1 + extra = (m + extra) + 1 by omega,
        show base + (m + 1) - 1 = base + m by omega]
      rw [backKinds_step H _ _ x hx, h3, ih (by omega), h1, h2, List.append_assoc]
      congr 1
      rw [List.take_succ, hn]
      simp only [Option.toList, List.map_append, List.map_cons, List.map_nil]

theorem allocChildren_foldl (cs : List Sub) :
    ∀ (Y : Heap) (p : Nat),
      Ast.allocChildren Y p cs = List.foldl (fun hp c => Ast.AppendNew hp p c) Y cs := by
  induction cs with
  | nil => intro Y p; unfold Ast.allocChildren; rfl
  | cons c cs ih =>
    intro Y p
    unfold Ast.allocChildren
    rw [ih]
    rfl

/-- The last children of `p` after the leaves `ns` were appended to it: the
leaves, in their order, after what came before. -/
theorem lastChildren_appendLeaves (h : Heap) (p : Nat) (pn : Node) (ns : List Node)
    (extra : Nat) (hp : h[p]? = some pn) (hns : ns ≠ []) :
    Ast.lastChildren (List.foldl (fun hp c => Ast.AppendNew hp p c) h (ns.map leaf)) p
        (ns.length + extra) =
      backKinds (List.foldl (fun hp c => Ast.AppendNew hp p c) h (ns.map leaf)) extra
          pn.LastChild ++ ns.map (fun n => (n.Typ, n.Tokens)) := by
  obtain ⟨_, _, i3, y, hy, hyl⟩ := appendLeaves p ns h pn hp
  have hpos : 0 < ns.length := List.length_pos.mpr hns
  unfold Ast.lastChildren
  rw [hy]
  dsimp only
  rw [hyl, if_neg (by omega)]
  have := backKinds_chain _ h.length ns pn.LastChild i3 extra ns.length (Nat.le_refl _)
  rw [if_neg (by omega), List.take_length] at this
  exact this

theorem last_upd (X : Heap) (j i : Nat) (f : Node → Node)
    (hf : ∀ x, (f x).LastChild = x.LastChild) :
    ((upd X j f)[i]?).map (fun x => x.LastChild) = (X[i]?).map (fun x => x.LastChild) := by
  rw [getElem?_upd]
  split
  · cases X[i]? with
    | none => rfl
    | some x => simp [hf]
  · rfl

theorem last_link (X : Heap) (p c : Nat) (hc : c ≠ p) :
    ((Ast.link X p c)[c]?).map (fun x => x.LastChild) = (X[c]?).map (fun x => x.LastChild) := by
  unfold Ast.link
  split
  · rfl
  · dsimp only
    split
    · rw [getElem?_upd, if_neg hc]
      refine (last_upd _ _ _ _ ?_).trans (last_upd _ _ _ _ ?_) <;> exact fun _ => rfl
    · rw [getElem?_upd, if_neg hc]
      exact last_upd _ _ _ _ (fun _ => rfl)

theorem backKinds_none (H : Heap) (k : Nat) : backKinds H k none = [] := by
  cases k <;> rfl

/-- The node that `t.AppendChild(node)` links, for a `node` built from `n` by
appending the leaves `ns`: its kind is that of `n` and its children are the
leaves, in their order. -/
theorem kids_AppendNew (hp : Heap) (t : Nat) (n : Node) (ns : List Node)
    (ht : t < hp.length) (hns : ns ≠ []) :
    Ast.typOf (Ast.AppendNew hp t (Sub.mk n (ns.map leaf))) hp.length = n.Typ ∧
      Ast.kids (Ast.AppendNew hp t (Sub.mk n (ns.map leaf))) hp.length =
        ns.map (fun x => (x.Typ, x.Tokens)) := by
  have hpos : 0 < ns.length := List.length_pos.mpr hns
  have hA : Ast.alloc hp (Sub.mk n (ns.map leaf)) =
      List.foldl (fun h c => Ast.AppendNew h hp.length c) (hp ++ [n.bare]) (ns.map leaf) := by
    rw [Ast.alloc, allocChildren_foldl]
  have hb : (hp ++ [n.bare])[hp.length]? = some n.bare := by simp
  obtain ⟨i1, _, i3, y, hy, hyl⟩ := appendLeaves hp.length ns (hp ++ [n.bare]) n.bare hb
  rw [← hA] at i1 i3 hy
  have hne : hp.length ≠ t := by omega
  constructor
  · exact (AppendNew_new hp t (Sub.mk n (ns.map leaf)) ht).1
  · have hl := last_link (Ast.alloc hp (Sub.mk n (ns.map leaf))) t hp.length hne
    rw [hy] at hl
    unfold Ast.kids Ast.lastChildren Ast.AppendNew
    cases hz : (Ast.link (Ast.alloc hp (Sub.mk n (ns.map leaf))) t hp.length)[hp.length]? with
    | none => rw [hz] at hl; cases hl
    | some z =>
      rw [hz] at hl
      simp only [Option.map_some', Option.some.injEq] at hl
      dsimp only
      rw [hl, hyl, if_neg (by omega), length_link, i1]
      have hf : ∀ j x, ns[j]? = some x →
          ((Ast.link (Ast.alloc hp (Sub.mk n (ns.map leaf))) t hp.length)[hp.length + 1 + j]?).map
              Node.back =
            some (x.Typ, x.Tokens, if j = 0 then none else some (hp.length + 1 + j - 1)) := by
        intro j x hj
        rw [back_link _ _ _ _ (by omega)]
        have := i3 j x hj
        simp only [List.length_append, List.length_singleton] at this
        rw [this]
        rfl
      have := backKinds_chain _ (hp.length + 1) ns none hf (hp.length + 2) ns.length
        (Nat.le_refl _)
      rw [if_neg (by omega), List.take_length, backKinds_none, List.nil_append] at this
      simp only [List.length_append, List.length_singleton]
      rw [show hp.length + 1 + ns.length + 1 = ns.length + (hp.length + 2) by omega, this]

/-- The `img` case of the first switch, for a class other than `emoji`: the tip
moves to a new `Image` node with the children of lines 620-658. -/
theorem caseImg_kids (L : Lute) (n : Nat) (s s' : State) (v : Visit)
    (hc : DomAttrValue s.dom (some n) "class".toList ≠ "emoji".toList)
    (h : caseImg L n s = .ok (v, s')) :
    v = Visit.opened s'.Tip ∧ Ast.typOf s'.nodes s'.Tip = NodeImage ∧
      Ast.kids s'.nodes s'.Tip =
        [(NodeBang, []), (NodeOpenBracket, [])] ++
        (if DomAttrValue s.dom (some n) "alt".toList ≠ [] then
           [(NodeLinkText, DomAttrValue s.dom (some n) "alt".toList)] else []) ++
        [(NodeCloseBracket, []), (NodeOpenParen, []), (NodeLinkDest, imgSrc s.dom n)] ++
        (if DomAttrValue s.dom (some n) "title".toList ≠ [] then
           [(NodeLinkSpace, []), (NodeLinkTitle, DomAttrValue s.dom (some n) "title".toList)]
         else []) ++
        [(NodeCloseParen, [])] := by
  have key : ∀ (hp : Heap) (t : Nat) (tok : Str) (ns : List Node), t < hp.length →
      ns = [{ Typ := NodeBang }, { Typ := NodeOpenBracket }] ++
           (if DomAttrValue s.dom (some n) "alt".toList ≠ [] then
              [{ Typ := NodeLinkText, Tokens := DomAttrValue s.dom (some n) "alt".toList }]
            else []) ++
           [{ Typ := NodeCloseBracket }, { Typ := NodeOpenParen },
            { Typ := NodeLinkDest, Tokens := imgSrc s.dom n }] ++
           (if DomAttrValue s.dom (some n) "title".toList ≠ [] then
              [{ Typ := NodeLinkSpace },
               { Typ := NodeLinkTitle, Tokens := DomAttrValue s.dom (some n) "title".toList }]
            else []) ++
           [{ Typ := NodeCloseParen }] →
      Ast.typOf (Ast.AppendNew hp t (imageNode s.dom n tok)) hp.length = NodeImage ∧
        Ast.kids (Ast.AppendNew hp t (imageNode s.dom n tok)) hp.length =
          ns.map (fun x => (x.Typ, x.Tokens)) := by
    intro hp t tok ns ht hns
    have e : imageNode s.dom n tok = Sub.mk { Typ := NodeImage, Tokens := tok }
        (List.map leaf ns) := by
      subst hns
      unfold imageNode
      dsimp only
      split <;> split <;> rfl
    have hne : ns ≠ [] := by
      subst hns
      simp
    rw [e]
    exact kids_AppendNew hp t { Typ := NodeImage, Tokens := tok } ns ht hne
  have fin : ∀ (hp : Heap) (t : Nat) (tok : Str), t < hp.length →
      Ast.typOf (Ast.AppendNew hp t (imageNode s.dom n tok)) hp.length = NodeImage ∧
      Ast.kids (Ast.AppendNew hp t (imageNode s.dom n tok)) hp.length =
        [(NodeBang, []), (NodeOpenBracket, [])] ++
        (if DomAttrValue s.dom (some n) "alt".toList ≠ [] then
           [(NodeLinkText, DomAttrValue s.dom (some n) "alt".toList)] else []) ++
        [(NodeCloseBracket, []), (NodeOpenParen, []), (NodeLinkDest, imgSrc s.dom n)] ++
        (if DomAttrValue s.dom (some n) "title".toList ≠ [] then
           [(NodeLinkSpace, []), (NodeLinkTitle, DomAttrValue s.dom (some n) "title".toList)]
         else []) ++
        [(NodeCloseParen, [])] := by
    intro hp t tok ht
    obtain ⟨k1, k2⟩ := key hp t tok _ ht rfl
    refine ⟨k1, ?_⟩
    rw [k2]
    split <;> split <;> rfl
  unfold caseImg at h
  obtain ⟨hn, s1, h1, g1⟩ := bind_ok h
  obtain ⟨rfl, _⟩ := run_hnode h1
  obtain ⟨dom, s2, h2, g2⟩ := bind_ok g1
  obtain ⟨rfl, rfl⟩ := run_getDom h2
  obtain ⟨tn, s3, h3, g3⟩ := bind_ok g2
  obtain ⟨rfl, htn⟩ := run_tipNode h3
  have htl := lt_of_getElem? htn
  dsimp only at g3
  split at g3
  · obtain ⟨_, s4, h4, g4⟩ := bind_ok g3
    obtain ⟨_, rfl⟩ := run_pushTip h4
    simp only [pure_bind, if_neg hc] at g4
    obtain ⟨j, s5, h5, g5⟩ := bind_ok g4
    obtain ⟨rfl, rfl⟩ := run_pushTip h5
    obtain ⟨rfl, rfl⟩ := run_pure g5
    dsimp only
    have hlen : (Ast.AppendNew s3.nodes s3.Tip (astNode NodeParagraph)).length =
        s3.nodes.length + 1 := length_AppendNew_leaf _ _ _
    exact ⟨rfl, fin _ _ _ (by omega)⟩
  · simp only [pure_bind, if_neg hc] at g3
    obtain ⟨j, s5, h5, g5⟩ := bind_ok g3
    obtain ⟨rfl, rfl⟩ := run_pushTip h5
    obtain ⟨rfl, rfl⟩ := run_pure g5
    dsimp only
    exact ⟨rfl, fin _ _ _ htl⟩

/-- The `a` case of the first switch, when it emits a node: the tip moves to a
new `Link` node whose only child is the open bracket. -/
theorem caseA_kids (n : Nat) (s s' : State) (i : Nat) (htip : s.Tip < s.nodes.length)
    (h : caseA n s = .ok (Visit.opened i, s')) :
    s'.Tip = i ∧ Ast.typOf s'.nodes i = NodeLink ∧
      Ast.kids s'.nodes i = [(NodeOpenBracket, [])] := by
  obtain ⟨hi, ht, tok, hn⟩ := caseA_opened n s s' i h
  have e : (Sub.mk { Typ := NodeLink, Tokens := tok } [astNode NodeOpenBracket] : Sub) =
      Sub.mk { Typ := NodeLink, Tokens := tok } (List.map leaf [{ Typ := NodeOpenBracket }]) :=
    rfl
  rw [e] at hn
  obtain ⟨k1, k2⟩ := kids_AppendNew s.nodes s.Tip { Typ := NodeLink, Tokens := tok }
    [{ Typ := NodeOpenBracket }] htip (by simp)
  rw [hn, hi]
  exact ⟨ht.trans hi, k1, k2⟩

/-- The `a` case of the second switch on the `Link` node `i`: the last children
of the node are then the tail of the link, in its order. -/
theorem switchPost_A_kids (L : Lute) (n : Nat) (s s' : State) (i : Nat) (u : Unit) (y : Node)
    (hi : s.nodes[i]? = some y) (h : switchPost L n .A (some i) s = .ok (u, s')) :
    (DomAttrValue s.dom (some n) "title".toList = [] →
        Ast.lastChildren s'.nodes i 4 =
          [(NodeCloseBracket, []), (NodeOpenParen, []),
           (NodeLinkDest, DomAttrValue s.dom (some n) "href".toList), (NodeCloseParen, [])]) ∧
      (DomAttrValue s.dom (some n) "title".toList ≠ [] →
        Ast.lastChildren s'.nodes i 6 =
          [(NodeCloseBracket, []), (NodeOpenParen, []),
           (NodeLinkDest, DomAttrValue s.dom (some n) "href".toList), (NodeLinkSpace, []),
           (NodeLinkTitle, DomAttrValue s.dom (some n) "title".toList), (NodeCloseParen, [])]) := by
  obtain ⟨_, hn⟩ := switchPost_A L n s s' i u h
  constructor
  · intro ht
    rw [if_neg (by simpa using ht)] at hn
    rw [hn]
    exact lastChildren_appendLeaves s.nodes i y
      [{ Typ := NodeCloseBracket }, { Typ := NodeOpenParen },
       { Typ := NodeLinkDest, Tokens := DomAttrValue s.dom (some n) "href".toList },
       { Typ := NodeCloseParen }] 0 hi (by simp)
  · intro ht
    rw [if_pos ht] at hn
    rw [hn]
    exact lastChildren_appendLeaves s.nodes i y
      [{ Typ := NodeCloseBracket }, { Typ := NodeOpenParen },
       { Typ := NodeLinkDest, Tokens := DomAttrValue s.dom (some n) "href".toList },
       { Typ := NodeLinkSpace },
       { Typ := NodeLinkTitle, Tokens := DomAttrValue s.dom (some n) "title".toList },
       { Typ := NodeCloseParen }] 0 hi (by simp)

/-- The loop of lines 467-482 appends to the tip, and only code spans and
breaks. -/
theorem degradeLines_appends (L : Lute) (total : Nat) (lines : List Str) :
    ∀ (i : Nat) (s s' : State) (u : Unit), degradeLines L total i lines s = .ok (u, s') →
      s'.Tip = s.Tip ∧ ∃ cs : List Sub,
        (∀ c, c ∈ cs → c.node.Typ = NodeCodeSpan ∨ c.node.Typ = NodeBr ∨
          c.node.Typ = NodeHardBreak) ∧
        s'.nodes = List.foldl (fun h c => Ast.AppendNew h s.Tip c) s.nodes cs := by
  induction lines with
  | nil =>
    intro i s s' u h
    unfold degradeLines at h
    obtain ⟨_, rfl⟩ := run_pure h
    exact ⟨rfl, [], fun _ hc => (List.not_mem_nil _ hc).elim, rfl⟩
  | cons line rest ih =>
    intro i s s' u h
    have fin : ∀ (s1 : State) (ds : List Sub),
        (∀ c, c ∈ ds → c.node.Typ = NodeCodeSpan ∨ c.node.Typ = NodeBr ∨
          c.node.Typ = NodeHardBreak) →
        s1.Tip = s.Tip →
        degradeLines L total (i + 1) rest s1 = .ok (u, s') →
        s1.nodes = List.foldl (fun h c => Ast.AppendNew h s.Tip c) s.nodes ds →
        s'.Tip = s.Tip ∧ ∃ cs : List Sub,
          (∀ c, c ∈ cs → c.node.Typ = NodeCodeSpan ∨ c.node.Typ = NodeBr ∨
            c.node.Typ = NodeHardBreak) ∧
          s'.nodes = List.foldl (fun h c => Ast.AppendNew h s.Tip c) s.nodes cs := by
      intro s1 ds hds kt g kn
      obtain ⟨ht, cs, hcs, hn⟩ := ih (i + 1) s1 s' u g
      refine ⟨ht.trans kt, ds ++ cs, ?_, ?_⟩
      · intro c hc
        rcases List.mem_append.mp hc with hc | hc
        · exact hds c hc
        · exact hcs c hc
      · rw [hn, kn, kt, List.foldl_append]
    unfold degradeLines at h
    dsimp only at h
    split at h
    · obtain ⟨_, s2, h2, g2⟩ := bind_ok h
      obtain ⟨_, e2⟩ := run_tipAppend h2
      have t2 : s2.Tip = s.Tip := by rw [e2]
      have n2 : s2.nodes = Ast.AppendNew s.nodes s.Tip (lineCodeSpan line) := by rw [e2]
      split at g2
      · split at g2
        · obtain ⟨_, s3, h3, g3⟩ := bind_ok g2
          obtain ⟨_, e3⟩ := run_tipAppend h3
          have t3 : s3.Tip = s.Tip := by rw [e3]; exact t2
          have n3 : s3.nodes = List.foldl (fun h c => Ast.AppendNew h s.Tip c) s.nodes
              [lineCodeSpan line, astNode NodeBr] := by
            rw [e3]
            dsimp only [List.foldl_cons, List.foldl_nil]
            rw [n2, t2]
          simp only [pure_bind] at g3
          refine fin s3 [lineCodeSpan line, astNode NodeBr] ?_ t3 g3 n3
          intro c hc
          simp only [List.mem_cons, List.mem_singleton, List.not_mem_nil, or_false] at hc
          rcases hc with rfl | rfl
          · exact Or.inl rfl
          · exact Or.inr (Or.inl rfl)
        · obtain ⟨_, s3, h3, g3⟩ := bind_ok g2
          obtain ⟨_, e3⟩ := run_tipAppend h3
          have t3 : s3.Tip = s.Tip := by rw [e3]; exact t2
          have n3 : s3.nodes = List.foldl (fun h c => Ast.AppendNew h s.Tip c) s.nodes
              [lineCodeSpan line, astNode NodeHardBreak ['\n']] := by
            rw [e3]
            dsimp only [List.foldl_cons, List.foldl_nil]
            rw [n2, t2]
          simp only [pure_bind] at g3
          refine fin s3 [lineCodeSpan line, astNode NodeHardBreak ['\n']] ?_ t3 g3 n3
          intro c hc
          simp only [List.mem_cons, List.mem_singleton, List.not_mem_nil, or_false] at hc
          rcases hc with rfl | rfl
          · exact Or.inl rfl
          · exact Or.inr (Or.inr rfl)
      · simp only [pure_bind] at g2
        have n2f : s2.nodes = List.foldl (fun h c => Ast.AppendNew h s.Tip c) s.nodes
            [lineCodeSpan line] := by
          dsimp only [List.foldl_cons, List.foldl_nil]
          exact n2
        refine fin s2 [lineCodeSpan line] ?_ t2 g2 n2f
        intro c hc
        simp only [List.mem_singleton] at hc
        subst hc
        exact Or.inl rfl
    · simp only [pure_bind] at h
      exact fin s [] (fun _ hc => (List.not_mem_nil _ hc).elim) rfl h rfl

/-- A `pre` met while the tip has a `Table` ancestor, none of them a
single-cell table: the tip gets code spans and breaks, not the code block. -/
theorem placeCodeBlock_degrades (L : Lute) (node : Sub) (content : Str) (s s' : State) (u : Unit)
    (ht : Ast.ParentIs s.nodes s.Tip NodeTable = true)
    (hf : findSingleCellTable s.nodes
      (Ast.ancestors s.nodes (s.nodes.length + 1) (Ast.parentOf s.nodes s.Tip)) = .ok none)
    (h : placeCodeBlock L node content s = .ok (u, s')) :
    s'.Tip = s.Tip ∧ ∃ cs : List Sub,
      (∀ c, c ∈ cs → c.node.Typ = NodeCodeSpan ∨ c.node.Typ = NodeBr ∨
        c.node.Typ = NodeHardBreak) ∧
      s'.nodes = List.foldl (fun h c => Ast.AppendNew h s.Tip c) s.nodes cs := by
  unfold placeCodeBlock at h
  obtain ⟨x, s1, h1, g1⟩ := bind_ok h
  obtain ⟨rfl, rfl⟩ := run_getHeap h1
  obtain ⟨t, s2, h2, g2⟩ := bind_ok g1
  obtain ⟨rfl, rfl⟩ := run_getTip h2
  rw [if_pos ht, hf] at g2
  exact degradeLines_appends L _ _ 0 s2 s' u g2

/-! ### Emitted nodes, the DOM frame and the relocation of lists -/

set_option maxRecDepth 8000

theorem bare_upd (X : Heap) (j i : Nat) (f : Node → Node) (hf : ∀ x, (f x).bare = x.bare) :
    ((upd X j f)[i]?).map Node.bare = (X[i]?).map Node.bare := by
  rw [getElem?_upd]
  split
  · cases X[i]? with
    | none => rfl
    | some x => simp [hf]
  · rfl

theorem bare_link (X : Heap) (p c i : Nat) :
    ((Ast.link X p c)[i]?).map Node.bare = (X[i]?).map Node.bare := by
  unfold Ast.link
  split
  · rfl
  · dsimp only
    split
    · refine (bare_upd _ _ _ _ ?_).trans ((bare_upd _ _ _ _ ?_).trans (bare_upd _ _ _ _ ?_)) <;>
        exact fun _ => rfl
    · refine (bare_upd _ _ _ _ ?_).trans (bare_upd _ _ _ _ ?_) <;> exact fun _ => rfl

theorem bare_allocChildren (cs : List Sub) : ∀ (Y : Heap) (p i : Nat), i < Y.length →
    ((Ast.allocChildren Y p cs)[i]?).map Node.bare = (Y[i]?).map Node.bare := by
  induction cs with
  | nil => intro Y p i _; unfold Ast.allocChildren; rfl
  | cons c cs ih =>
    intro Y p i hi
    unfold Ast.allocChildren
    have hlen := (alloc_facts c Y).1
    rw [ih _ p i (by rw [length_link]; omega), bare_link, alloc_frame c Y i hi]

/-- The node that `p.AppendChild(c)` links carries the fields of `c`. -/
theorem bare_AppendNew_new (h : Heap) (p : Nat) (c : Sub) :
    ((Ast.AppendNew h p c)[h.length]?).map Node.bare = some c.node.bare := by
  unfold Ast.AppendNew
  rw [bare_link]
  cases c with
  | mk n cs =>
    unfold Ast.alloc
    rw [bare_allocChildren cs _ _ _ (by simp)]
    simp [Node.bare, Sub.node]

/-- The call `p.AppendChild(c)` keeps the fields of every node of the heap, its
links apart. -/
theorem bare_AppendNew (h : Heap) (p : Nat) (c : Sub) (i : Nat) (hi : i < h.length) :
    ((Ast.AppendNew h p c)[i]?).map Node.bare = (h[i]?).map Node.bare := by
  unfold Ast.AppendNew
  rw [bare_link, alloc_frame c h i hi]

theorem of_bare {X : Heap} {i : Nat} {n : Node} (h : (X[i]?).map Node.bare = some n.bare) :
    ∃ x, X[i]? = some x ∧ x.bare = n.bare := by
  cases hx : X[i]? with
  | none => rw [hx] at h; cases h
  | some x =>
    rw [hx] at h
    simp only [Option.map_some', Option.some.injEq] at h
    exact ⟨x, rfl, h⟩

/-- The `li` case of the first switch links a `ListItem` with the marker and the
bullet character of lines 288-307. -/
theorem caseLi_item (n : Nat) (s s' : State) (v : Visit) (hn : HNode)
    (hd : s.dom[n]? = some hn) (h : caseLi n s = .ok (v, s')) :
    v = Visit.opened s.nodes.length ∧
    ∃ x, s'.nodes[s.nodes.length]? = some x ∧ x.Typ = NodeListItem ∧
      x.ListData = some { Marker := (liMarker s.dom n hn).1,
                          BulletChar := (liMarker s.dom n hn).2 } := by
  unfold caseLi at h
  obtain ⟨hn', s1, h1, g1⟩ := bind_ok h
  obtain ⟨rfl, hd'⟩ := run_hnode h1
  rw [hd] at hd'
  cases hd'
  obtain ⟨dom, s2, h2, g2⟩ := bind_ok g1
  obtain ⟨rfl, rfl⟩ := run_getDom h2
  dsimp only at g2
  obtain ⟨j, s5, h5, g5⟩ := bind_ok g2
  obtain ⟨rfl, rfl⟩ := run_pushTip h5
  obtain ⟨rfl, rfl⟩ := run_pure g5
  dsimp only
  obtain ⟨x, hx, hb⟩ := of_bare (bare_AppendNew_new s2.nodes s2.Tip _)
  exact ⟨rfl, x, hx, congrArg Node.Typ hb, congrArg Node.ListData hb⟩

theorem bind_run {α β : Type} {m : M α} {f : α → M β} {s s1 : State} {a : α}
    (h : m s = .ok (a, s1)) : (m >>= f) s = f a s1 := by
  show (m s >>= fun p => f p.1 p.2) = _
  rw [h]
  rfl

theorem hnode_ok {n : Nat} {s : State} {hn : HNode} (h : s.dom[n]? = some hn) :
    hnode n s = .ok (hn, s) := by
  simp only [hnode, bind, StateT.bind, get, getThe, MonadStateOf.get, StateT.get, pure,
    StateT.pure, Except.pure, Except.bind, h]

theorem anode_ok {n : Nat} {s : State} {nd : Node} (h : s.nodes[n]? = some nd) :
    anode n s = .ok (nd, s) := by
  simp only [anode, bind, StateT.bind, get, getThe, MonadStateOf.get, StateT.get, pure,
    StateT.pure, Except.pure, Except.bind, h]

theorem tipNode_ok {s : State} {nd : Node} (h : s.nodes[s.Tip]? = some nd) :
    tipNode s = .ok (nd, s) := by
  simp only [tipNode, getTip, anode, bind, StateT.bind, get, getThe, MonadStateOf.get, StateT.get,
    pure, StateT.pure, Except.pure, Except.bind, h]

theorem getDom_ok (s : State) : getDom s = .ok (s.dom, s) := rfl

theorem pushTip_ok (c : Sub) (s : State) :
    pushTip c s = .ok (s.nodes.length,
      { s with nodes := Ast.AppendNew s.nodes s.Tip c, Tip := s.nodes.length,
               defers := s.defers + 1 }) := rfl

theorem tipAppend_ok (c : Sub) (s : State) :
    tipAppend c s = .ok (s.nodes.length, { s with nodes := Ast.AppendNew s.nodes s.Tip c }) := rfl

theorem byteSub_digit (k : Nat) (h1 : 1 ≤ k) (h6 : k ≤ 6) : byteSub (Char.ofNat (48 + k)) = k := by
  interval_cases k <;> rfl

/-- The heading case of the first switch, outside a link: the tip moves to a new
`Heading` node of the level of the digit, whose only child is the marker. -/
theorem caseHeading_emits (n k : Nat) (s : State) (hn : HNode) (tn : Node)
    (hd : s.dom[n]? = some hn) (hdata : hn.Data = ['h', Char.ofNat (48 + k)])
    (h1 : 1 ≤ k) (h6 : k ≤ 6) (ht : s.nodes[s.Tip]? = some tn) (hl : tn.Typ ≠ NodeLink) :
    ∃ s', caseHeading n s = .ok (Visit.opened s.nodes.length, s') ∧ s'.Tip = s.nodes.length ∧
      (∃ x, s'.nodes[s.nodes.length]? = some x ∧ x.Typ = NodeHeading ∧ x.HeadingLevel = k) ∧
      Ast.kids s'.nodes s.nodes.length = [(NodeHeadingC8hMarker, List.replicate k '#')] := by
  have hb : hn.Data[1]? = some (Char.ofNat (48 + k)) := by rw [hdata]; rfl
  have e : caseHeading n s = .ok (Visit.opened s.nodes.length,
      { s with nodes := Ast.AppendNew s.nodes s.Tip
                 (Sub.mk { Typ := NodeHeading, Tokens := hn.Data, HeadingLevel := k }
                   [astNode NodeHeadingC8hMarker (List.replicate k '#')]),
               Tip := s.nodes.length, defers := s.defers + 1 }) := by
    unfold caseHeading
    rw [bind_run (hnode_ok hd), bind_run (tipNode_ok ht)]
    simp only [if_neg hl, pure_bind]
    rw [hb]
    dsimp only
    rw [byteSub_digit k h1 h6, bind_run (pushTip_ok _ _)]
    rfl
  refine ⟨_, e, rfl, ?_, ?_⟩
  · dsimp only
    obtain ⟨x, hx, hbx⟩ := of_bare (bare_AppendNew_new s.nodes s.Tip
      (Sub.mk { Typ := NodeHeading, Tokens := hn.Data, HeadingLevel := k }
                   [astNode NodeHeadingC8hMarker (List.replicate k '#')]))
    exact ⟨x, hx, congrArg Node.Typ hbx, congrArg Node.HeadingLevel hbx⟩
  · dsimp only
    exact (kids_AppendNew s.nodes s.Tip { Typ := NodeHeading, Tokens := hn.Data, HeadingLevel := k }
      [{ Typ := NodeHeadingC8hMarker, Tokens := List.replicate k '#' }] (lt_of_getElem? ht)
      (by simp)).2

theorem alignCode_le (a : Str) : alignCode a ≤ 3 := by
  unfold alignCode
  split
  · decide
  · split
    · decide
    · split <;> decide

theorem deref_ok (p : Nat) (s : State) : (deref (some p) : M Nat) s = .ok (p, s) := rfl

theorem setListData_ok (n : Nat) (d : ListData) (s : State) :
    setListData n d s = .ok ((), { s with nodes := (upd s.nodes n
      (fun x => { x with ListData := some d })) }) := rfl

/-- The `input` case of the first switch under a list item of a list: the
marker is linked as the last child of the tip, the list becomes a task list. -/
theorem caseInput_marks (n : Nat) (s : State) (hn : HNode) (tn ln : Node) (l : Nat)
    (hd : s.dom[n]? = some hn) (ht : s.nodes[s.Tip]? = some tn) (htt : tn.Typ = NodeListItem)
    (hp : tn.Parent = some l) (hl : s.nodes[l]? = some ln) (hlt : ln.Typ = NodeList) :
    ∃ s', caseInput n s = .ok (Visit.brk, s') ∧ s'.Tip = s.Tip ∧
      (∃ m, s'.nodes[s.nodes.length]? = some m ∧ m.Typ = NodeTaskListItemMarker ∧
        m.Parent = some s.Tip ∧ m.TaskListItemChecked = hasAttr s.dom n "checked".toList) ∧
      (∃ y, s'.nodes[s.Tip]? = some y ∧ y.Typ = NodeListItem ∧
        y.LastChild = some s.nodes.length) ∧
      (∃ g d, s'.nodes[l]? = some g ∧ g.Typ = NodeList ∧ g.ListData = some d ∧ d.Typ = 3 ∧
        ∀ d0, ln.ListData = some d0 → d = { d0 with Typ := 3 }) := by
  have htl := lt_of_getElem? ht
  have hll := lt_of_getElem? hl
  have hne : s.Tip ≠ l := by
    intro e
    rw [e, hl] at ht
    cases ht
    rw [hlt] at htt
    cases htt
  obtain ⟨⟨x, hx, hxt, hxp, _⟩, ⟨y, hy, hyl⟩⟩ := AppendNew_links s.nodes s.Tip
    (leaf { Typ := NodeTaskListItemMarker, Tokens := hn.Data,
            TaskListItemChecked := hasAttr s.dom n "checked".toList }) tn ht
  have hbx := bare_AppendNew_new s.nodes s.Tip
    (leaf { Typ := NodeTaskListItemMarker, Tokens := hn.Data,
            TaskListItemChecked := hasAttr s.dom n "checked".toList })
  rw [hx] at hbx
  simp only [Option.map_some', Option.some.injEq] at hbx
  have hby := bare_AppendNew s.nodes s.Tip
    (leaf { Typ := NodeTaskListItemMarker, Tokens := hn.Data,
            TaskListItemChecked := hasAttr s.dom n "checked".toList }) s.Tip htl
  rw [hy, ht] at hby
  simp only [Option.map_some', Option.some.injEq] at hby
  have hyp : y.Parent = some l := by
    have e := ext_AppendNew s.nodes s.Tip
      (leaf { Typ := NodeTaskListItemMarker, Tokens := hn.Data,
              TaskListItemChecked := hasAttr s.dom n "checked".toList }) s.Tip
      (by rw [typOf_eq ht, htt]; decide) tn ht
    obtain ⟨y', hy', _, hp'⟩ := e
    rw [hy] at hy'
    cases hy'
    rw [hp', hp]
  obtain ⟨g, hg, hbg⟩ := of_bare ((bare_AppendNew s.nodes s.Tip
    (leaf { Typ := NodeTaskListItemMarker, Tokens := hn.Data,
            TaskListItemChecked := hasAttr s.dom n "checked".toList }) l hll).trans
    (by rw [hl]; rfl))
  have hlen : ¬ s.nodes.length = l := by omega
  have e : ∀ d, d = (match g.ListData with
        | none => ({ Typ := 3 } : ListData)
        | some d0 => { d0 with Typ := 3 }) →
      caseInput n s = .ok (Visit.brk,
        { s with nodes := (upd (Ast.AppendNew s.nodes s.Tip
            (leaf { Typ := NodeTaskListItemMarker, Tokens := hn.Data,
                    TaskListItemChecked := hasAttr s.dom n "checked".toList })) l
            (fun x => { x with ListData := some d })) }) := by
    intro d hdd
    unfold caseInput
    rw [bind_run (hnode_ok hd), bind_run (getDom_ok s), bind_run (tipAppend_ok _ _),
      bind_run (anode_ok hx), hxp, bind_run (deref_ok _ _), bind_run (anode_ok hy), hyp]
    dsimp only
    rw [bind_run (anode_ok hg)]
    cases hgd : g.ListData with
    | none =>
      rw [hgd] at hdd
      dsimp only at hdd ⊢
      rw [bind_run (setListData_ok _ _ _), hdd]
      rfl
    | some d0 =>
      rw [hgd] at hdd
      dsimp only at hdd ⊢
      rw [bind_run (setListData_ok _ _ _), hdd]
      rfl
  refine ⟨_, e _ rfl, rfl, ?_, ?_, ?_⟩
  · refine ⟨x, ?_, hxt, hxp, congrArg Node.TaskListItemChecked hbx⟩
    dsimp only
    rw [getElem?_upd, if_neg hlen, hx]
  · refine ⟨y, ?_, (congrArg Node.Typ hby).trans htt, hyl⟩
    dsimp only
    rw [getElem?_upd, if_neg hne, hy]
  · refine ⟨{ g with ListData := some (match g.ListData with
        | none => ({ Typ := 3 } : ListData)
        | some d0 => { d0 with Typ := 3 }) }, _, ?_, ?_, rfl, ?_, ?_⟩
    · dsimp only
      rw [getElem?_upd, if_pos rfl, hg]
      rfl
    · exact (congrArg Node.Typ hbg).trans hlt
    · cases g.ListData <;> rfl
    · intro d0 hd0
      have hgl : g.bare.ListData = ln.bare.ListData := congrArg Node.ListData hbg
      have hgl2 : g.ListData = some d0 := hgl.trans hd0
      rw [hgl2]

theorem caseTable_ok (n : Nat) (s : State) (hn : HNode) (hd : s.dom[n]? = some hn) :
    caseTable n s = .ok (Visit.opened s.nodes.length,
      { s with nodes := Ast.AppendNew s.nodes s.Tip
                 (leaf { Typ := NodeTable, Tokens := hn.Data,
                         TableAligns := tableAligns s.dom hn }),
               Tip := s.nodes.length, defers := s.defers + 1 }) := by
  unfold caseTable
  rw [bind_run (hnode_ok hd), bind_run (getDom_ok s), bind_run (pushTip_ok _ _)]
  rfl

theorem caseTd_ok (n : Nat) (s : State) (hn : HNode) (hd : s.dom[n]? = some hn) :
    caseTd n s = .ok (Visit.opened s.nodes.length,
      { s with nodes := Ast.AppendNew s.nodes s.Tip
                 (leaf { Typ := NodeTableCell, Tokens := hn.Data,
                         TableCellAlign := alignCode (DomAttrValue s.dom (some n) "align".toList) }),
               Tip := s.nodes.length, defers := s.defers + 1 }) := by
  unfold caseTd
  rw [bind_run (hnode_ok hd), bind_run (getDom_ok s), bind_run (pushTip_ok _ _)]
  rfl

theorem genASTByDOM_ignored (L : Lute) (fuel n : Nat) (s : State) (hn : HNode)
    (hd : s.dom[n]? = some hn) (hi : ignorable s.dom n hn = true) :
    genASTByDOM L (fuel + 1) n s = .ok ((), s) := by
  unfold genASTByDOM
  rw [bind_run (hnode_ok hd), bind_run (getDom_ok s), if_pos hi]
  rfl

theorem genASTByDOM_returns (L : Lute) (fuel n : Nat) (s : State) (hn : HNode)
    (hd : s.dom[n]? = some hn)
    (ha : hn.DataAtom = .Noscript ∨ hn.DataAtom = .Colgroup ∨ hn.DataAtom = .Col ∨
      hn.DataAtom = .Summary) :
    genASTByDOM L (fuel + 1) n s = .ok ((), s) := by
  by_cases hi : ignorable s.dom n hn = true
  · exact genASTByDOM_ignored L fuel n s hn hd hi
  · unfold genASTByDOM
    rw [bind_run (hnode_ok hd), bind_run (getDom_ok s), if_neg hi]
    have hz : ¬ (hn.DataAtom = .zero ∧ hn.Typ = .ElementNode) := by
      rintro ⟨h0, _⟩
      rw [h0] at ha
      simp at ha
    rw [if_neg hz]
    rcases ha with ha | ha | ha | ha <;> rw [ha] <;> rfl

theorem domIs_appendChild (d : Dom) (p : Nat) (c : Sub) : Keeps (DomIs d) (appendChild p c) := by
  constructor
  intro s a s' hP h
  simp [appendChild, bind, StateT.bind, get, getThe, MonadStateOf.get, StateT.get, set, StateT.set,
    pure, StateT.pure, Except.pure, Except.bind] at h
  obtain ⟨_, rfl⟩ := h
  exact hP

theorem domIs_tipAppend (d : Dom) (c : Sub) : Keeps (DomIs d) (tipAppend c) :=
  keeps_bind _ _ _ (keeps_getTip _) (fun _ => domIs_appendChild d _ c)

theorem domIs_insertBefore (d : Dom) (n : Nat) (c : Sub) : Keeps (DomIs d) (insertBefore n c) :=
  keeps_modify _ _ (fun _ hP => hP)

theorem domIs_insertAfter (d : Dom) (n : Nat) (c : Sub) : Keeps (DomIs d) (insertAfter n c) :=
  keeps_modify _ _ (fun _ hP => hP)

theorem domIs_unlink (d : Dom) (n : Nat) : Keeps (DomIs d) (unlink n) :=
  keeps_modify _ _ (fun _ hP => hP)

theorem domIs_setTokens (d : Dom) (n : Nat) (t : Str) : Keeps (DomIs d) (setTokens n t) :=
  keeps_modify _ _ (fun _ hP => hP)

theorem domIs_setListData (d : Dom) (n : Nat) (x : ListData) :
    Keeps (DomIs d) (setListData n x) :=
  keeps_modify _ _ (fun _ hP => hP)

theorem domIs_setTip (d : Dom) (i : Nat) : Keeps (DomIs d) (setTip i) :=
  keeps_modify _ _ (fun _ hP => hP)

theorem domIs_deferParentTip (d : Dom) : Keeps (DomIs d) deferParentTip :=
  keeps_modify _ _ (fun _ hP => hP)

theorem domIs_ParentTip (d : Dom) : Keeps (DomIs d) ParentTip := by
  refine keeps_modify _ _ (fun s hP => ?_)
  split
  · exact hP
  · exact hP

theorem domIs_pushTip (d : Dom) (c : Sub) : Keeps (DomIs d) (pushTip c) := by
  unfold pushTip
  exact keeps_bind _ _ _ (domIs_tipAppend d c) (fun _ =>
    keeps_bind _ _ _ (domIs_setTip d _) (fun _ =>
      keeps_bind _ _ _ (domIs_deferParentTip d) (fun _ => keeps_pure _ _)))

theorem domIs_appendMathBlock (d : Dom) (tex : Str) : Keeps (DomIs d) (appendMathBlock tex) := by
  unfold appendMathBlock
  dsimp only
  repeat (with_reducible first
    | apply keeps_pure
    | apply domIs_tipAppend
    | apply domIs_setTip
    | apply domIs_ParentTip
    | apply keeps_bind
    | apply keeps_ite
    | intro _)

theorem domIs_appendInlineMath (d : Dom) (tex : Str) :
    Keeps (DomIs d) (appendInlineMath tex) := by
  unfold appendInlineMath
  dsimp only
  repeat (with_reducible first
    | apply keeps_pure
    | apply domIs_tipAppend
    | apply domIs_setTip
    | apply domIs_ParentTip
    | apply keeps_bind
    | apply keeps_ite
    | intro _)

theorem domIs_trimLastText (d : Dom) (tip : Nat) : Keeps (DomIs d) (trimLastText tip) := by
  unfold trimLastText
  dsimp only
  repeat (first
    | (with_reducible first
        | apply keeps_pure | apply keeps_anode | apply keeps_getHeap
        | apply domIs_setTokens | apply domIs_unlink
        | apply keeps_bind | apply keeps_ite)
    | (with_reducible first | intro _ | split))

theorem domIs_nodeAppend (d : Dom) (node : Option Nat) (c : Sub) :
    Keeps (DomIs d) (nodeAppend node c) := by
  unfold nodeAppend
  split
  · exact keeps_bind _ _ _ (domIs_appendChild d _ c) (fun _ => keeps_pure _ _)
  · exact keeps_pure _ _

theorem domIs_caseDecoration (d : Dom) (n : Nat) (t o : NodeType) (marker : Str) :
    Keeps (DomIs d) (caseDecoration n t o marker) := by
  unfold caseDecoration
  refine keeps_bind _ _ _ (keeps_hnode _ _) (fun hn => ?_)
  exact keeps_bind _ _ _ (domIs_pushTip d _) (fun i => keeps_pure _ _)

/-- Every case of the first switch but `pre`, `p`, `div` and `section` leaves
the DOM as it is. -/
theorem domIs_cases (d : Dom) (L : Lute) (n : Nat) :
    (Keeps (DomIs d) (caseText L n) ∧ Keeps (DomIs d) (caseHeading n) ∧
      Keeps (DomIs d) (caseHr n) ∧ Keeps (DomIs d) (caseBlockquote n) ∧
      Keeps (DomIs d) (caseList n) ∧ Keeps (DomIs d) (caseLi n) ∧
      Keeps (DomIs d) (caseEm n) ∧ Keeps (DomIs d) (caseStrong n)) ∧
    (Keeps (DomIs d) (caseCode L n) ∧ Keeps (DomIs d) (caseBr L n) ∧ Keeps (DomIs d) (caseA n) ∧
      Keeps (DomIs d) (caseImg L n) ∧ Keeps (DomIs d) (caseInput n) ∧
      Keeps (DomIs d) (caseTable n) ∧ Keeps (DomIs d) (caseThead n) ∧
      Keeps (DomIs d) (caseTr n) ∧ Keeps (DomIs d) (caseTd n)) ∧
    (Keeps (DomIs d) (caseSpan n) ∧ Keeps (DomIs d) (caseFont n) ∧
      Keeps (DomIs d) (caseDetails L n) ∧ Keeps (DomIs d) (caseMedia L n) ∧
      Keeps (DomIs d) (caseScript n) ∧ Keeps (DomIs d) (caseFigcaption n) ∧
      Keeps (DomIs d) (caseFigure n)) := by
  refine ⟨⟨?_, ?_, ?_, ?_, ?_, ?_, ?_, ?_⟩, ⟨?_, ?_, ?_, ?_, ?_, ?_, ?_, ?_, ?_⟩,
    ⟨?_, ?_, ?_, ?_, ?_, ?_, ?_⟩⟩
  all_goals (with_reducible first
    | unfold caseText | unfold caseHeading | unfold caseHr | unfold caseBlockquote
    | unfold caseList | unfold caseLi | unfold caseEm | unfold caseStrong
    | unfold caseCode | unfold caseBr | unfold caseA | unfold caseImg | unfold caseInput
    | unfold caseTable | unfold caseThead | unfold caseTr
    | unfold caseTd | unfold caseSpan | unfold caseFont | unfold caseDetails
    | unfold caseMedia | unfold caseScript | unfold caseFigcaption | unfold caseFigure)
  all_goals try dsimp only
  all_goals repeat (first
    | (with_reducible first
        | apply keeps_pure | apply keeps_throw | apply keeps_hnode | apply keeps_anode
        | apply keeps_getDom | apply keeps_getHeap | apply keeps_getTip | apply keeps_tipNode
        | apply keeps_tipLastChildTyp | apply keeps_deref
        | apply domIs_tipAppend | apply domIs_appendMathBlock | apply domIs_appendInlineMath
        | apply domIs_setListData | apply domIs_setTokens | apply domIs_insertAfter
        | apply domIs_insertBefore
        | apply domIs_pushTip | apply keeps_bind | apply keeps_ite)
    | (with_reducible first | intro _ | split))

theorem leads_of_keeps (d : Dom) (R : Dom → Prop) {α : Type} (m : M α)
    (h : Keeps (DomIs d) m) : Leads d R m :=
  ⟨fun s a s' hs hm => Or.inl (h.run s a s' hs hm)⟩

theorem leads_bind (d : Dom) (R : Dom → Prop) {α β : Type} (m : M α) (f : α → M β)
    (hm : Keeps (DomIs d) m) (hf : ∀ a, Leads d R (f a)) : Leads d R (m >>= f) := by
  constructor
  intro s b s' hs h
  obtain ⟨a, s1, h1, g1⟩ := bind_ok h
  exact (hf a).run s1 b s' (hm.run s a s1 hs h1) g1

theorem leads_hnode (d : Dom) (R : Dom → Prop) {β : Type} (n : Nat) (f : HNode → M β)
    (hf : ∀ hn, d[n]? = some hn → Leads d R (f hn)) : Leads d R (hnode n >>= f) := by
  constructor
  intro s b s' hs h
  obtain ⟨a, s1, h1, g1⟩ := bind_ok h
  obtain ⟨e1, e2⟩ := run_hnode h1
  rw [hs] at e2
  rw [e1] at g1
  exact (hf a e2).run s b s' hs g1

theorem leads_getDom (d : Dom) (R : Dom → Prop) {β : Type} (f : Dom → M β)
    (hf : Leads d R (f d)) : Leads d R (getDom >>= f) := by
  constructor
  intro s b s' hs h
  obtain ⟨a, s1, h1, g1⟩ := bind_ok h
  obtain ⟨e1, e2⟩ := run_getDom h1
  rw [e1, e2, hs] at g1
  exact hf.run s b s' hs g1

theorem leads_deref (d : Dom) (R : Dom → Prop) {β : Type} (p : Option Nat) (f : Nat → M β)
    (hf : ∀ i, p = some i → Leads d R (f i)) : Leads d R ((deref p : M Nat) >>= f) := by
  cases p with
  | none =>
    constructor
    intro s b s' hs h
    obtain ⟨a, s1, h1, g1⟩ := bind_ok h
    cases h1
  | some i =>
    constructor
    intro s b s' hs h
    exact (hf i rfl).run s b s' hs h

theorem leads_liftDom (d : Dom) (R : Dom → Prop) (f : Dom → Dom) (hR : R (f d)) :
    Leads d R (liftDom (modify f : DomM Unit)) := by
  constructor
  intro s b s' hs h
  simp only [liftDom, modify, modifyGet, MonadStateOf.modifyGet, StateT.modifyGet, pure,
    Except.pure] at h
  cases h
  right
  dsimp only
  rw [hs]
  exact hR

theorem leads_liftDom_pure (d : Dom) (R : Dom → Prop) {β : Type} (f : Dom → Dom) (b : β)
    (hR : R (f d)) :
    Leads d R (liftDom (modify f : DomM Unit) >>= fun _ => (pure b : M β)) := by
  constructor
  intro s b' s' hs h
  obtain ⟨a, s1, h1, g1⟩ := bind_ok h
  obtain ⟨_, e⟩ := run_pure g1
  rw [e]
  exact (leads_liftDom d R f hR).run s a s1 hs h1

theorem leads_ite (d : Dom) (R : Dom → Prop) {α : Type} (c : Prop) [Decidable c] (m1 m2 : M α)
    (h1 : c → Leads d R m1) (h2 : ¬ c → Leads d R m2) : Leads d R (if c then m1 else m2) := by
  split
  · exact h1 ‹_›
  · exact h2 ‹_›

/-- The `p`, `div` and `section` case of the first switch leaves the DOM as it
is, but for the `div` of class `MathJax` in front of a `math/tex` script, which
unlinks the script. -/
theorem leads_caseP (d : Dom) (n : Nat) (hn : HNode) (hd : d[n]? = some hn) :
    Leads d (fun d' => hn.DataAtom = .Div ∧
        (Contains (DomAttrValue d (some n) "class".toList) "MathJax".toList ∧
          hn.NextSibling ≠ none ∧ (hn.NextSibling.map (atomOf d)) = some .Script ∧
          Contains (DomAttrValue d hn.NextSibling "type".toList) "math/tex".toList) ∧
        ∃ sib, hn.NextSibling = some sib ∧ d' = Html.Unlink d sib) (caseP n) := by
  unfold caseP
  refine leads_hnode _ _ _ _ (fun hn' h' => ?_)
  rw [hd] at h'
  cases h'
  refine leads_getDom _ _ _ ?_
  dsimp only
  repeat (first
    | (with_reducible first
        | apply keeps_pure | apply keeps_throw | apply keeps_hnode | apply keeps_anode
        | apply keeps_getDom | apply keeps_getHeap | apply keeps_getTip | apply keeps_tipNode
        | apply domIs_tipAppend | apply domIs_appendMathBlock | apply domIs_pushTip
        | apply keeps_bind | apply keeps_ite
        | apply leads_ite
        | apply leads_deref
        | apply leads_liftDom_pure
        | apply leads_liftDom
        | apply leads_bind
        | (apply leads_of_keeps; apply keeps_pure))
    | (refine ⟨?_, ?_, _, ?_, rfl⟩ <;> assumption)
    | (with_reducible first | intro _ | split))

theorem leads_liftSpaces (d : Dom) (n : Nat) (curText : Str) :
    Leads d (SpacesLifted d n curText) (liftSpaces n curText) := by
  unfold liftSpaces
  dsimp only
  repeat (first
    | (with_reducible first
        | apply keeps_pure | apply keeps_throw | apply keeps_anode
        | apply keeps_getDom | apply keeps_getHeap | apply keeps_getTip | apply keeps_tipNode
        | apply keeps_deref
        | apply domIs_tipAppend | apply domIs_setTokens | apply domIs_insertAfter
        | apply domIs_insertBefore | apply domIs_trimLastText
        | apply keeps_bind | apply keeps_ite
        | apply leads_hnode
        | apply leads_getDom
        | apply leads_deref
        | apply leads_liftDom_pure
        | apply leads_liftDom
        | apply leads_ite
        | apply leads_bind)
    | exact ⟨_, _, _, by assumption, by assumption, by assumption, by assumption,
        by assumption, rfl⟩
    | (with_reducible first | intro _ | split)
    | apply leads_of_keeps)

theorem leads_appendSpace (d : Dom) (L : Lute) (n : Nat) :
    Leads d (SpacesLifted d n (DomText d (some n))) (appendSpace L n) := by
  unfold appendSpace
  dsimp only
  repeat (first
    | (with_reducible first
        | apply keeps_pure | apply keeps_throw | apply keeps_anode
        | apply keeps_getDom | apply keeps_getHeap | apply keeps_getTip | apply keeps_tipNode
        | apply keeps_deref
        | apply domIs_tipAppend | apply domIs_setTokens | apply domIs_insertAfter
        | apply domIs_insertBefore
        | apply keeps_bind | apply keeps_ite
        | apply leads_liftSpaces
        | apply leads_hnode
        | apply leads_getDom
        | apply leads_ite
        | apply leads_bind)
    | (with_reducible first | intro _ | split)
    | apply leads_of_keeps)

theorem leads_switchPost (d : Dom) (L : Lute) (n : Nat) (a : Atom) (node : Option Nat) :
    Leads d (SpacesLifted d n (DomText d (some n))) (switchPost L n a node) := by
  unfold switchPost
  dsimp only
  repeat (first
    | (with_reducible first
        | apply keeps_pure | apply keeps_throw | apply keeps_anode
        | apply keeps_getDom | apply keeps_getHeap | apply keeps_getTip | apply keeps_tipNode
        | apply keeps_deref
        | apply domIs_tipAppend | apply domIs_nodeAppend
        | apply keeps_bind | apply keeps_ite
        | apply leads_appendSpace
        | apply leads_getDom
        | apply leads_ite
        | apply leads_bind)
    | (with_reducible first | intro _ | split)
    | apply leads_of_keeps)

theorem leads_switchPre (d : Dom) (L : Lute) (n : Nat) (a : Atom) (hn : HNode)
    (hd : d[n]? = some hn) (ha : a ≠ .Pre) :
    Leads d (ScriptUnlinked d n hn) (switchPre L n a) := by
  obtain ⟨⟨c1, c2, c3, c4, c5, c6, c8, c9⟩, ⟨d1, d2, d3, d4, d5, d6, d7, d8, d9⟩,
    ⟨e1, e2, e3, e4, e5, e6, e7⟩⟩ := domIs_cases d L n
  have hP := leads_caseP d n hn hd
  unfold switchPre
  split <;> with_reducible first
    | exact hP
    | exact absurd rfl ha
    | (apply leads_of_keeps; first
        | assumption
        | exact keeps_pure _ _
        | exact domIs_caseDecoration d n _ _ _)

theorem upd_fix {α : Type} (h : List α) (i : Nat) (f : α → α)
    (hf : ∀ x, h[i]? = some x → f x = x) : upd h i f = h := by
  apply List.ext_getElem?
  intro j
  rw [getElem?_upd]
  split
  · next e =>
    subst e
    cases hx : h[j]? with
    | none => rfl
    | some x => simp [hf x hx]
  · rfl

/-- Unlinking a node that has no parent and no siblings changes nothing. -/
theorem Unlink_detached (h : Heap) (n : Nat) (x : Node) (hx : h[n]? = some x)
    (h1 : x.Parent = none) (h2 : x.Previous = none) (h3 : x.Next = none) :
    Ast.Unlink h n = h := by
  unfold Ast.Unlink
  rw [hx]
  simp only [h1, h2, h3, updOpt]
  apply upd_fix
  intro y hy
  rw [hx] at hy
  cases hy
  cases x
  simp only at h1 h2 h3
  subst h1 h2 h3
  rfl

/-- The heap after `n.Unlink()` for a node with a previous sibling `i` and a
parent `p`. -/
theorem Unlink_prev (h : Heap) (n i p : Nat) (nd : Node) (hn : h[n]? = some nd)
    (hi : nd.Previous = some i) (hp : nd.Parent = some p) :
    Ast.Unlink h n =
      upd (match nd.Next with
        | some q => upd (upd h i (fun x => { x with Next := nd.Next })) q
            (fun x => { x with Previous := some i })
        | none => upd (upd h i (fun x => { x with Next := nd.Next })) p
            (fun x => { x with LastChild := some i })) n
        (fun x => { x with Parent := none, Next := none, Previous := none }) := by
  unfold Ast.Unlink
  rw [hn]
  simp only [hi, hp, updOpt]
  try (cases nd.Next <;> rfl)

/-- The callback of lines 63-77 on a list `n` under the list `p`, after the
node `i` of any kind: `n` becomes the last child of `i` and leaves the children
of `p`; the other nodes keep their links. -/
theorem relocateList_after (h : Heap) (n p i : Nat) (nd pd id : Node)
    (hn : h[n]? = some nd) (ht : nd.Typ = NodeList) (hp : nd.Parent = some p)
    (hpd : h[p]? = some pd) (hpt : pd.Typ = NodeList) (hi : nd.Previous = some i)
    (hid : h[i]? = some id) (hni : n ≠ i) (hip : i ≠ p) (hnp : n ≠ p)
    (hln : id.LastChild ≠ some n) :
    (relocateList h n).length = h.length ∧
    (∃ x, (relocateList h n)[n]? = some x ∧ x.Parent = some i ∧
      x.Previous = id.LastChild ∧ x.Next = none) ∧
    (∃ y, (relocateList h n)[i]? = some y ∧ y.LastChild = some n ∧
      (id.LastChild ≠ some i → y.Next = nd.Next)) ∧
    (∃ z, (relocateList h n)[p]? = some z ∧ z.FirstChild = pd.FirstChild ∧
      (nd.Next = none → z.LastChild = some i) ∧ (nd.Next ≠ none → z.LastChild = pd.LastChild)) ∧
    (∀ j : Nat, j ≠ n → j ≠ i → j ≠ p → nd.Next ≠ some j → id.LastChild ≠ some j →
      (relocateList h n)[j]? = h[j]?) ∧
    (∀ j : Nat, ((relocateList h n)[j]?).map Node.core = (h[j]?).map Node.core) := by
  have hin : ¬ i = n := fun e => hni e.symm
  have hpi : ¬ p = i := fun e => hip e.symm
  have hpn : ¬ p = n := fun e => hnp e.symm
  have hU := Unlink_prev h n i p nd hn hi hp
  have hlenU : (Ast.Unlink h n).length = h.length := length_Unlink h n
  have hnl := lt_of_getElem? hn
  -- the node `n` after the first unlink
  have hUn : ∃ xn, (Ast.Unlink h n)[n]? = some xn ∧ xn.Parent = none ∧ xn.Previous = none ∧
      xn.Next = none := by
    rw [hU, getElem?_upd, if_pos rfl]
    cases hq : nd.Next with
    | none =>
      dsimp only
      rw [getElem?_upd, if_neg (show ¬ n = p from hnp), getElem?_upd, if_neg (show ¬ n = i from hni), hn]
      exact ⟨_, rfl, rfl, rfl, rfl⟩
    | some q =>
      dsimp only
      rw [getElem?_upd, getElem?_upd, if_neg (show ¬ n = i from hni), hn]
      split <;> exact ⟨_, rfl, rfl, rfl, rfl⟩
  obtain ⟨xn, hxn, hx1, hx2, hx3⟩ := hUn
  have eR : relocateList h n = Ast.link (Ast.Unlink h n) i n := by
    unfold relocateList
    rw [hn]
    dsimp only
    rw [if_pos ht, hp]
    dsimp only
    rw [if_pos (by rw [typOf_eq hpd]; exact hpt), hi]
    dsimp only
    unfold Ast.AppendChild
    rw [Unlink_detached _ n xn hxn hx1 hx2 hx3]
  have hUi : ∃ yi, (Ast.Unlink h n)[i]? = some yi ∧ yi.LastChild = id.LastChild ∧
      yi.Next = nd.Next := by
    rw [hU, getElem?_upd, if_neg hin]
    cases hq : nd.Next with
    | none =>
      dsimp only
      rw [getElem?_upd, if_neg (show ¬ i = p from hip), getElem?_upd, if_pos rfl, hid]
      exact ⟨_, rfl, rfl, rfl⟩
    | some q =>
      dsimp only
      rw [getElem?_upd, getElem?_upd, if_pos rfl, hid]
      split <;> exact ⟨_, rfl, rfl, rfl⟩
  obtain ⟨yi, hyi, hy1, hy2⟩ := hUi
  have hUp : ∃ zp, (Ast.Unlink h n)[p]? = some zp ∧ zp.FirstChild = pd.FirstChild ∧
      (nd.Next = none → zp.LastChild = some i) ∧
      (nd.Next ≠ none → zp.LastChild = pd.LastChild) := by
    rw [hU, getElem?_upd, if_neg hpn]
    cases hq : nd.Next with
    | none =>
      dsimp only
      rw [getElem?_upd, if_pos rfl, getElem?_upd, if_neg hpi, hpd]
      exact ⟨_, rfl, rfl, fun _ => rfl, fun c => absurd rfl c⟩
    | some q =>
      dsimp only
      rw [getElem?_upd, getElem?_upd, if_neg hpi, hpd]
      split <;> exact ⟨_, rfl, rfl, fun c => (by cases c), fun _ => rfl⟩
  obtain ⟨zp, hzp, hz1, hz2, hz3⟩ := hUp
  have hUf : ∀ j : Nat, j ≠ n → j ≠ i → j ≠ p → nd.Next ≠ some j →
      (Ast.Unlink h n)[j]? = h[j]? := by
    intro j j1 j2 j3 j4
    rw [hU, getElem?_upd, if_neg j1]
    cases hq : nd.Next with
    | none =>
      dsimp only
      rw [getElem?_upd, if_neg j3, getElem?_upd, if_neg j2]
    | some q =>
      dsimp only
      rw [hq] at j4
      have : ¬ j = q := fun e => j4 (by rw [e])
      rw [getElem?_upd, if_neg this, getElem?_upd, if_neg j2]
  have hUc : ∀ j : Nat, ((Ast.Unlink h n)[j]?).map Node.core = (h[j]?).map Node.core := by
    intro j
    rw [hU]
    refine (core_upd _ _ _ _ ?_).trans ?_
    · exact fun _ => rfl
    cases hq : nd.Next with
    | none =>
      dsimp only
      refine (core_upd _ _ _ _ ?_).trans (core_upd _ _ _ _ ?_) <;> exact fun _ => rfl
    | some q =>
      dsimp only
      refine (core_upd _ _ _ _ ?_).trans (core_upd _ _ _ _ ?_) <;> exact fun _ => rfl
  rw [eR]
  refine ⟨by rw [length_link, hlenU], ?_, ?_, ?_, ?_, ?_⟩
  · unfold Ast.link
    rw [hyi]
    dsimp only
    cases hl : yi.LastChild with
    | none =>
      dsimp only
      rw [getElem?_upd, if_neg (show ¬ n = i from hni), getElem?_upd, if_pos rfl, hxn]
      refine ⟨_, rfl, rfl, ?_, hx3⟩
      dsimp only
      rw [hx2, ← hy1, hl]
    | some l =>
      dsimp only
      have hl' : ¬ n = l := by
        intro e
        rw [hy1] at hl
        exact hln (by rw [hl, e])
      rw [getElem?_upd, if_neg (show ¬ n = i from hni), getElem?_upd, if_neg hl', getElem?_upd, if_pos rfl, hxn]
      refine ⟨_, rfl, rfl, ?_, hx3⟩
      dsimp only
      rw [← hy1, hl]
  · unfold Ast.link
    rw [hyi]
    dsimp only
    cases hl : yi.LastChild with
    | none =>
      dsimp only
      rw [getElem?_upd, if_pos rfl, getElem?_upd, if_neg hin, hyi]
      exact ⟨_, rfl, rfl, fun _ => hy2⟩
    | some l =>
      dsimp only
      rw [getElem?_upd, if_pos rfl, getElem?_upd, getElem?_upd, if_neg hin, hyi]
      split
      · next e =>
        refine ⟨_, rfl, rfl, fun c => ?_⟩
        exact absurd (by rw [← hy1, hl, e]) c
      · exact ⟨_, rfl, rfl, fun _ => hy2⟩
  · unfold Ast.link
    rw [hyi]
    dsimp only
    cases hl : yi.LastChild with
    | none =>
      dsimp only
      rw [getElem?_upd, if_neg hpi, getElem?_upd,
        if_neg hpn, hzp]
      exact ⟨_, rfl, hz1, hz2, hz3⟩
    | some l =>
      dsimp only
      rw [getElem?_upd, if_neg hpi, getElem?_upd, getElem?_upd,
        if_neg hpn, hzp]
      split
      · exact ⟨_, rfl, hz1, hz2, hz3⟩
      · exact ⟨_, rfl, hz1, hz2, hz3⟩
  · intro j j1 j2 j3 j4 j5
    rw [link_frame _ _ _ _ j1 j2, hUf j j1 j2 j3 j4]
    intro pn hpn
    rw [hyi] at hpn
    cases hpn
    rw [hy1]
    exact j5
  · intro j
    rw [core_link, hUc]

/-- The callback of lines 63-77 on a list `n` under the list `p`, after the
list item `i`: `n` becomes the last child of `i` and leaves the children of
`p`; the other nodes keep their links. -/
theorem relocateList_step (h : Heap) (n p i : Nat) (nd pd id : Node)
    (hn : h[n]? = some nd) (ht : nd.Typ = NodeList) (hp : nd.Parent = some p)
    (hpd : h[p]? = some pd) (hpt : pd.Typ = NodeList) (hi : nd.Previous = some i)
    (hid : h[i]? = some id) (hit : id.Typ = NodeListItem) (hnp : n ≠ p)
    (hln : id.LastChild ≠ some n) :
    (relocateList h n).length = h.length ∧
    (∃ x, (relocateList h n)[n]? = some x ∧ x.Parent = some i ∧
      x.Previous = id.LastChild ∧ x.Next = none) ∧
    (∃ y, (relocateList h n)[i]? = some y ∧ y.LastChild = some n ∧
      (id.LastChild ≠ some i → y.Next = nd.Next)) ∧
    (∃ z, (relocateList h n)[p]? = some z ∧ z.FirstChild = pd.FirstChild ∧
      (nd.Next = none → z.LastChild = some i) ∧ (nd.Next ≠ none → z.LastChild = pd.LastChild)) ∧
    (∀ j : Nat, j ≠ n → j ≠ i → j ≠ p → nd.Next ≠ some j → id.LastChild ≠ some j →
      (relocateList h n)[j]? = h[j]?) ∧
    (∀ j : Nat, ((relocateList h n)[j]?).map Node.core = (h[j]?).map Node.core) := by
  have hni : n ≠ i := by
    intro e
    rw [e, hid] at hn
    cases hn
    rw [ht] at hit
    cases hit
  have hip : i ≠ p := by
    intro e
    rw [e, hpd] at hid
    cases hid
    rw [hpt] at hit
    cases hit
  exact relocateList_after h n p i nd pd id hn ht hp hpd hpt hi hid hni hip hnp hln

/-- The callback of lines 63-77 leaves the tree as it is on a node that is not
a list, on a node without a parent, on a node whose parent is not a list, and
on a node without a previous sibling. -/
theorem relocateList_idle (h : Heap) (n : Nat) (nd : Node) (hn : h[n]? = some nd)
    (hc : nd.Typ ≠ NodeList ∨ nd.Parent = none ∨
      (∃ p, nd.Parent = some p ∧ Ast.typOf h p ≠ NodeList) ∨ nd.Previous = none) :
    relocateList h n = h := by
  unfold relocateList
  rw [hn]
  dsimp only
  by_cases ht : nd.Typ = NodeList
  · rw [if_pos ht]
    cases hp : nd.Parent with
    | none => rfl
    | some p =>
      dsimp only
      by_cases hpt : Ast.typOf h p = NodeList
      · rw [if_pos hpt]
        cases hv : nd.Previous with
        | none => rfl
        | some i =>
          exfalso
          rcases hc with c | c | ⟨q, c1, c2⟩ | c
          · exact c ht
          · rw [hp] at c; cases c
          · rw [hp] at c1; cases c1; exact c2 hpt
          · rw [hv] at c; cases c
      · rw [if_neg hpt]
  · rw [if_neg ht]

/-! ### The text pipeline, the fence info, math blocks and the space normalizer -/

theorem isPrefixOf_single {α : Type} [DecidableEq α] (a c : α) (cs : List α) :
    [a].isPrefixOf (c :: cs) = decide (a = c) := by
  simp only [List.isPrefixOf, Bool.and_true]
  rfl

theorem replaceAllAux_single {α : Type} [DecidableEq α] (a : α) (new s : List α) :
    replaceAllAux [a] new 0 s = s.flatMap (fun c => if c = a then new else [c]) := by
  induction s with
  | nil => rfl
  | cons c cs ih =>
    unfold replaceAllAux
    rw [isPrefixOf_single]
    by_cases h : a = c
    · subst h
      simp [ih]
    · have h' : ¬ c = a := fun e => h e.symm
      simp [h, h', ih]

/-- Replacing a single character: every character that equals `a` becomes `new`. -/
theorem ReplaceAll_single {α : Type} [DecidableEq α] (s : List α) (a : α) (new : List α) :
    ReplaceAll s [a] new = s.flatMap (fun c => if c = a then new else [c]) := by
  unfold ReplaceAll
  simp only [List.isEmpty_cons, Bool.false_eq_true, if_false]
  exact replaceAllAux_single a new s

theorem mem_ReplaceAll_single {α : Type} [DecidableEq α] (s : List α) (a b x : α)
    (h : x ∈ ReplaceAll s [a] [b]) : (x ∈ s ∧ x ≠ a) ∨ x = b := by
  rw [ReplaceAll_single] at h
  obtain ⟨c, hc, hx⟩ := List.mem_flatMap.mp h
  by_cases e : c = a
  · rw [if_pos e] at hx
    right
    simpa using hx
  · rw [if_neg e] at hx
    left
    have : x = c := by simpa using hx
    rw [this]
    exact ⟨hc, e⟩


theorem pipesEscaped_flatMap (u : Str) :
    PipesEscaped (u.flatMap (fun c => if c = '|' then ['\\', '|'] else [c])) := by
  induction u with
  | nil =>
    intro i hi
    simp at hi
  | cons c cs ih =>
    intro i hi
    rw [List.flatMap_cons] at hi ⊢
    by_cases hc : c = '|'
    · rw [if_pos hc] at hi ⊢
      match i, hi with
      | 0, hi => simp at hi
      | 1, _ => exact ⟨0, rfl, rfl⟩
      | k + 2, hi =>
        have hk : (List.flatMap cs (fun c => if c = '|' then ['\\', '|'] else [c]))[k]? =
            some '|' := by simpa using hi
        obtain ⟨j, hj, hjv⟩ := ih k hk
        exact ⟨j + 2, by omega, by simpa using hjv⟩
    · rw [if_neg hc] at hi ⊢
      match i, hi with
      | 0, hi =>
        simp at hi
        exact absurd hi hc
      | k + 1, hi =>
        have hk : (List.flatMap cs (fun c => if c = '|' then ['\\', '|'] else [c]))[k]? =
            some '|' := by simpa using hi
        obtain ⟨j, hj, hjv⟩ := ih k hk
        exact ⟨j + 1, by omega, by simpa using hjv⟩

/-- After the pipe normalisation every `|` stands right after a backslash. -/
theorem escapePipes_escaped (t : Str) : PipesEscaped (escapePipes t) := by
  unfold escapePipes
  rw [ReplaceAll_single]
  exact pipesEscaped_flatMap _

theorem isPrefixOf_pair (c : Char) (cs : Str) :
    ['\\', '|'].isPrefixOf (c :: cs) = true ↔ c = '\\' ∧ ∃ r, cs = '|' :: r := by
  cases cs with
  | nil => simp [List.isPrefixOf]
  | cons d ds =>
    simp only [List.isPrefixOf, Bool.and_true, Bool.and_eq_true, beq_iff_eq, List.cons.injEq]
    constructor
    · rintro ⟨h1, h2⟩
      exact ⟨h1.symm, ds, h2.symm, rfl⟩
    · rintro ⟨h1, r, h2, _⟩
      exact ⟨h1.symm, h2.symm⟩

theorem unescape_escape : ∀ (k : Nat) (t : Str), t.length ≤ k → PipesEscaped t →
    (replaceAllAux ['\\', '|'] ['|'] 0 t).flatMap
      (fun c => if c = '|' then ['\\', '|'] else [c]) = t := by
  intro k
  induction k with
  | zero =>
    intro t hl _
    have : t = [] := List.length_eq_zero.mp (Nat.le_zero.mp hl)
    subst this
    rfl
  | succ k ih =>
    intro t hl he
    cases t with
    | nil => rfl
    | cons c cs =>
      unfold replaceAllAux
      by_cases hp : ['\\', '|'].isPrefixOf (c :: cs) = true
      · rw [if_pos hp]
        obtain ⟨hc, r, hr⟩ := (isPrefixOf_pair c cs).mp hp
        subst hc hr
        have hr' : PipesEscaped r := by
          intro i hi
          obtain ⟨j, hj, hjv⟩ := he (i + 2) (by simpa using hi)
          match i, hi, hj, hjv with
          | 0, _, hj, hjv =>
            have : j = 1 := by omega
            subst this
            simp at hjv
          | m + 1, _, hj, hjv =>
            have : j = m + 2 := by omega
            subst this
            exact ⟨m, rfl, by simpa using hjv⟩
        have hlen : r.length ≤ k := by simp at hl; omega
        have e := ih r hlen hr'
        show List.flatMap (['|'] ++ replaceAllAux ['\\', '|'] ['|'] (2 - 1) ('|' :: r)) _ = _
        have e2 : replaceAllAux ['\\', '|'] ['|'] (2 - 1) ('|' :: r) =
            replaceAllAux ['\\', '|'] ['|'] 0 r := by
          show replaceAllAux ['\\', '|'] ['|'] (0 + 1) ('|' :: r) = _
          rw [replaceAllAux]
        rw [e2, List.flatMap_append, e]
        rfl
      · rw [if_neg hp]
        have hc : c ≠ '|' := by
          intro e
          obtain ⟨j, hj, _⟩ := he 0 (by simp [e])
          omega
        have hcs : PipesEscaped cs := by
          intro i hi
          obtain ⟨j, hj, hjv⟩ := he (i + 1) (by simpa using hi)
          have : j = i := by omega
          subst this
          match j, hi, hjv with
          | 0, hi, hjv =>
            exfalso
            apply hp
            rw [isPrefixOf_pair]
            refine ⟨by simpa using hjv, ?_⟩
            cases cs with
            | nil => simp at hi
            | cons d ds =>
              simp at hi
              exact ⟨ds, by rw [hi]⟩
          | m + 1, _, hjv => exact ⟨m, rfl, by simpa using hjv⟩
        have hlen : cs.length ≤ k := by simp at hl; omega
        rw [List.flatMap_cons, if_neg hc, ih cs hlen hcs]
        rfl

/-- The pipe normalisation leaves a string alone whose pipes are all escaped. -/
theorem escapePipes_fixed (t : Str) (h : PipesEscaped t) : escapePipes t = t := by
  unfold escapePipes
  rw [ReplaceAll_single]
  unfold ReplaceAll
  simp only [List.isEmpty_cons, Bool.false_eq_true, if_false]
  exact unescape_escape t.length t (Nat.le_refl _) h

theorem pure_ok {α : Type} (a : α) (s : State) : (pure a : M α) s = .ok (a, s) := rfl

/-- The text pipeline on a text that is neither the lone line break nor the
white space of a table: the text is dropped, or one node with the escaped
tokens is appended to the tip. -/
theorem caseText_run (L : Lute) (n : Nat) (s : State) (hn : HNode) (tn : Node)
    (hd : s.dom[n]? = some hn) (ht : s.nodes[s.Tip]? = some tn)
    (h1 : ¬ (parentIs s.dom n [Atom.Table] = true ∧ hn.Data = ['\n']))
    (h2 : ¬ (parentIs s.dom n [Atom.Table] = true ∧ TrimSpace hn.Data = [])) :
    caseText L n s =
      if Ast.IsBlock tn.Typ = true ∧ hn.Parent ≠ none ∧ parentAtom s.dom hn ≠ some Atom.Span ∧
          (TrimWhitespace (textEscaped L (parentIs s.dom n [Atom.Table])
            (textToEscape (parentIs s.dom n [Atom.Table]) hn tn.Typ))).length < 1 then
        .ok (Visit.ret, s)
      else
        .ok (Visit.brk, { s with nodes := (Ast.AppendNew s.nodes s.Tip
          (leaf { Typ := (if parentAtom s.dom hn = some Atom.A then NodeLinkText else NodeText),
                  Tokens := (textEscaped L (parentIs s.dom n [Atom.Table])
                    (textToEscape (parentIs s.dom n [Atom.Table]) hn tn.Typ)) })) }) := by
  unfold caseText textEscaped textToEscape textPrepared
  rw [bind_run (hnode_ok hd), bind_run (getDom_ok s)]
  by_cases hA : parentAtom s.dom hn = some Atom.A <;>
    simp only [hA, if_true, if_false] <;>
    rw [if_neg h1, bind_run (pure_ok _ _), if_neg h2, bind_run (pure_ok _ _),
      bind_run (tipNode_ok ht)] <;>
    cases hT : parentIs s.dom n [Atom.Table] <;>
    simp only [Bool.false_eq_true, if_false, if_true] <;>
    cases hW : L.ProtyleWYSIWYG <;>
    simp only [Bool.false_eq_true, if_false, if_true] <;>
    split_ifs <;> rfl

theorem unescape_hit (r : Str) :
    replaceAllAux ['\\', '|'] ['|'] 0 ('\\' :: '|' :: r) =
      '|' :: replaceAllAux ['\\', '|'] ['|'] 0 r := by
  have hp : ['\\', '|'].isPrefixOf ('\\' :: '|' :: r) = true :=
    (isPrefixOf_pair _ _).mpr ⟨rfl, r, rfl⟩
  conv_lhs => unfold replaceAllAux
  rw [if_pos hp]
  rfl

theorem unescape_miss (c : Char) (cs : Str) (hp : ¬ ['\\', '|'].isPrefixOf (c :: cs) = true) :
    replaceAllAux ['\\', '|'] ['|'] 0 (c :: cs) = c :: replaceAllAux ['\\', '|'] ['|'] 0 cs := by
  conv_lhs => unfold replaceAllAux
  rw [if_neg hp]

theorem unescape_append : ∀ (k : Nat) (a b : Str), a.length ≤ k →
    replaceAllAux ['\\', '|'] ['|'] 0 (a ++ ['\\', '|'] ++ b) =
      replaceAllAux ['\\', '|'] ['|'] 0 a ++ ['|'] ++ replaceAllAux ['\\', '|'] ['|'] 0 b := by
  intro k
  induction k with
  | zero =>
    intro a b hl
    have : a = [] := List.length_eq_zero.mp (Nat.le_zero.mp hl)
    subst this
    show replaceAllAux ['\\', '|'] ['|'] 0 ('\\' :: '|' :: b) = _
    rw [unescape_hit]
    rfl
  | succ k ih =>
    intro a b hl
    cases a with
    | nil => exact ih [] b (Nat.zero_le _)
    | cons c cs =>
      by_cases hp : ['\\', '|'].isPrefixOf (c :: cs) = true
      · obtain ⟨hc, r, hr⟩ := (isPrefixOf_pair c cs).mp hp
        subst hc hr
        have hlen : r.length ≤ k := by simp at hl; omega
        show replaceAllAux ['\\', '|'] ['|'] 0 ('\\' :: '|' :: (r ++ ['\\', '|'] ++ b)) =
          replaceAllAux ['\\', '|'] ['|'] 0 ('\\' :: '|' :: r) ++ ['|'] ++ _
        rw [unescape_hit, unescape_hit, ih r b hlen]
        simp
      · have hp' : ¬ ['\\', '|'].isPrefixOf (c :: (cs ++ ['\\', '|'] ++ b)) = true := by
          intro h
          apply hp
          obtain ⟨hc, r, hr⟩ := (isPrefixOf_pair c _).mp h
          rw [isPrefixOf_pair]
          refine ⟨hc, ?_⟩
          cases cs with
          | nil => simp at hr
          | cons d ds =>
            simp at hr
            exact ⟨ds, by rw [hr.1]⟩
        have hlen : cs.length ≤ k := by simp at hl; omega
        show replaceAllAux ['\\', '|'] ['|'] 0 (c :: (cs ++ ['\\', '|'] ++ b)) =
          replaceAllAux ['\\', '|'] ['|'] 0 (c :: cs) ++ ['|'] ++ _
        rw [unescape_miss _ _ hp', unescape_miss _ _ hp, ih cs b hlen]
        simp

/-- The pipe normalisation keeps an escaped pipe as it is, and normalises the
text before it and the text after it. -/
theorem escapePipes_append (a b : Str) :
    escapePipes (a ++ ['\\', '|'] ++ b) = escapePipes a ++ ['\\', '|'] ++ escapePipes b := by
  unfold escapePipes
  rw [ReplaceAll_single, ReplaceAll_single, ReplaceAll_single]
  unfold ReplaceAll
  simp only [List.isEmpty_cons, Bool.false_eq_true, if_false]
  rw [unescape_append a.length a b (Nat.le_refl _)]
  simp [List.flatMap_append]

/-- The prepared tokens of a text hold no line break and no U+00A0. -/
theorem textPrepared_clean (b : Bool) (data : Str) :
    '\n' ∉ textPrepared b data ∧ Char.ofNat 0xA0 ∉ textPrepared b data := by
  unfold textPrepared Nbsp
  dsimp only
  constructor
  · intro h
    rcases mem_ReplaceAll_single _ _ _ _ h with ⟨_, h2⟩ | h2
    · exact h2 rfl
    · exact absurd h2 (by decide)
  · intro h
    rcases mem_ReplaceAll_single _ _ _ _ h with ⟨h1, _⟩ | h2
    · rcases mem_ReplaceAll_single _ _ _ _ h1 with ⟨_, h3⟩ | h3
      · exact h3 rfl
      · exact absurd h3 (by decide)
    · exact absurd h2 (by decide)

/-- The tokens handed to the marker escaping hold no line break and no
U+00A0. -/
theorem textToEscape_clean (b : Bool) (hn : HNode) (t : NodeType) :
    '\n' ∉ textToEscape b hn t ∧ Char.ofNat 0xA0 ∉ textToEscape b hn t := by
  obtain ⟨h1, h2⟩ := textPrepared_clean b hn.Data
  unfold textToEscape Zwsp
  split
  · constructor
    · intro h
      rcases List.mem_append.mp h with h | h
      · exact h1 h
      · exact absurd (List.mem_singleton.mp h) (by decide)
    · intro h
      rcases List.mem_append.mp h with h | h
      · exact h2 h
      · exact absurd (List.mem_singleton.mp h) (by decide)
  · exact ⟨h1, h2⟩

/-- The text pipeline returns: it drops the text, or appends one node to the
tip, at the end of the heap, whose tokens are the escaped tokens. -/
theorem caseText_emits (L : Lute) (n : Nat) (s : State) (hn : HNode) (tn : Node)
    (hd : s.dom[n]? = some hn) (ht : s.nodes[s.Tip]? = some tn)
    (h1 : ¬ (parentIs s.dom n [Atom.Table] = true ∧ hn.Data = ['\n']))
    (h2 : ¬ (parentIs s.dom n [Atom.Table] = true ∧ TrimSpace hn.Data = [])) :
    ∃ v s', caseText L n s = .ok (v, s') ∧
      (s' = s ∨
        ∃ x, s'.nodes[s.nodes.length]? = some x ∧ s'.nodes.length = s.nodes.length + 1 ∧
          x.Tokens = textEscaped L (parentIs s.dom n [Atom.Table])
            (textToEscape (parentIs s.dom n [Atom.Table]) hn tn.Typ)) := by
  rw [caseText_run L n s hn tn hd ht h1 h2]
  split
  · exact ⟨_, _, rfl, Or.inl rfl⟩
  · refine ⟨_, _, rfl, Or.inr ?_⟩
    obtain ⟨x, hx, hb⟩ := of_bare (bare_AppendNew_new s.nodes s.Tip (leaf
      { Typ := (if parentAtom s.dom hn = some Atom.A then NodeLinkText else NodeText),
        Tokens := (textEscaped L (parentIs s.dom n [Atom.Table])
          (textToEscape (parentIs s.dom n [Atom.Table]) hn tn.Typ)) }))
    exact ⟨x, hx, length_AppendNew_leaf _ _ _, congrArg Node.Tokens hb⟩

theorem languageToken_none (cls : Str) (h : Contains cls "language-".toList = false) :
    languageToken cls = [] := by
  unfold Contains at h
  unfold languageToken
  cases hi : Index cls "language-".toList with
  | none => rfl
  | some i => rw [hi] at h; cases h

theorem firstNonEmpty_cons_nil (cs : List Str) : firstNonEmpty ([] :: cs) = firstNonEmpty cs := rfl

theorem firstNonEmpty_cons (c : Str) (cs : List Str) (h : c ≠ []) :
    firstNonEmpty (c :: cs) = c := by
  unfold firstNonEmpty
  rw [if_neg h]

/-- The info string of the `pre` case, with the token of a class written as
`languageToken`. -/
theorem preInfo_eq (cc pc : Str) (code s2c : Bool) :
    preInfo cc pc code s2c =
      (let cls := if !Contains cc "language-".toList then pc else cc
       let info :=
         if Contains cls "language-".toList then languageToken cls
         else if code && !s2c then (if !Contains cc [' '] then cc else [])
         else []
       let info :=
         if info.length < 1 then (if !Contains pc [' '] then pc else info) else info
       if ContainsAny info ['-', '_', ' '] then [] else info) := rfl

theorem length_lt_one (t : Str) : t.length < 1 ↔ t = [] := by
  cases t <;> simp

/-- The info string by cases on the class that holds `language-`. -/
theorem preInfo_cases (cc pc : Str) (code s2c : Bool) :
    (Contains cc "language-".toList = true → languageToken cc ≠ [] →
      preInfo cc pc code s2c = infoByCandidates cc pc code s2c) ∧
    (Contains cc "language-".toList = false → Contains pc "language-".toList = true →
      languageToken pc ≠ [] → preInfo cc pc code s2c = infoByCandidates cc pc code s2c) ∧
    (Contains cc "language-".toList = false → Contains pc "language-".toList = false →
      preInfo cc pc code s2c = infoByCandidates cc pc code s2c) ∧
    (Contains cc "language-".toList = true → languageToken cc = [] →
      preInfo cc pc code s2c = infoByPreClass pc) ∧
    (Contains cc "language-".toList = false → Contains pc "language-".toList = true →
      languageToken pc = [] → preInfo cc pc code s2c = infoByPreClass pc) := by
  refine ⟨?_, ?_, ?_, ?_, ?_⟩
  · intro h1 h2
    rw [preInfo_eq]
    unfold infoByCandidates
    simp only [h1, Bool.not_true, Bool.false_eq_true, if_false, if_true]
    rw [firstNonEmpty_cons _ _ h2]
    simp only [length_lt_one, if_neg h2]
  · intro h1 h2 h3
    rw [preInfo_eq]
    unfold infoByCandidates
    simp only [h1, h2, Bool.not_false, if_true]
    rw [languageToken_none cc h1, firstNonEmpty_cons_nil,
      firstNonEmpty_cons _ _ h3]
    simp only [length_lt_one, if_neg h3]
  · intro h1 h2
    rw [preInfo_eq]
    unfold infoByCandidates
    simp only [h1, h2, Bool.not_false, if_true, Bool.false_eq_true, if_false]
    rw [languageToken_none cc h1, languageToken_none pc h2, firstNonEmpty_cons_nil,
      firstNonEmpty_cons_nil]
    cases code <;> cases s2c <;> cases hc : Contains cc [' '] <;> cases hp : Contains pc [' '] <;>
      cases cc <;> cases pc <;>
      simp [firstNonEmpty, hc, hp] at *
  · intro h1 h2
    rw [preInfo_eq]
    unfold infoByPreClass
    simp only [h1, Bool.not_true, Bool.false_eq_true, if_false, if_true]
    rw [h2]
    cases hp : Contains pc [' '] <;> simp
  · intro h1 h2 h3
    rw [preInfo_eq]
    unfold infoByPreClass
    simp only [h1, h2, Bool.not_false, if_true]
    rw [h3]
    cases hp : Contains pc [' '] <;> simp

theorem TrimSpace_idem (s : Str) : TrimSpace (TrimSpace s) = TrimSpace s := by
  have e : ∀ t, TrimSpace t = List.rdropWhile IsSpace (List.dropWhile IsSpace t) := fun t => rfl
  rw [e, e]
  have h1 : List.dropWhile IsSpace (List.rdropWhile IsSpace (List.dropWhile IsSpace s)) =
      List.rdropWhile IsSpace (List.dropWhile IsSpace s) := by
    rw [List.dropWhile_eq_self_iff]
    intro hl
    obtain ⟨t, ht⟩ := List.rdropWhile_prefix IsSpace (List.dropWhile IsSpace s)
    have h0 : List.dropWhile IsSpace (List.dropWhile IsSpace s) = List.dropWhile IsSpace s :=
      List.dropWhile_idempotent _ _
    rw [List.dropWhile_eq_self_iff] at h0
    have hl' : 0 < (List.dropWhile IsSpace s).length := by
      rw [← ht, List.length_append]
      omega
    have h2 := h0 hl'
    have h3 : (List.dropWhile IsSpace s)[0]? =
        (List.rdropWhile IsSpace (List.dropWhile IsSpace s))[0]? := by
      conv_lhs => rw [← ht]
      rw [List.getElem?_append_left hl]
    rw [List.getElem?_eq_getElem hl', List.getElem?_eq_getElem hl] at h3
    simp only [Option.some.injEq] at h3
    simpa [← h3] using h2
  rw [h1, List.rdropWhile_idempotent]

theorem setTip_ok (i : Nat) (s : State) : setTip i s = .ok ((), { s with Tip := i }) := rfl

theorem ParentTip_ok (s : State) (p : Nat) (h : Ast.parentOf s.nodes s.Tip = some p) :
    ParentTip s = .ok ((), { s with Tip := p }) := by
  simp only [ParentTip, modify, modifyGet, MonadStateOf.modifyGet, StateT.modifyGet, pure,
    Except.pure, h]

/-- The function `appendMathBlock` on a formula that is not white space only:
the math block becomes the last child of the tip, which stays. -/
theorem appendMathBlock_ok (tex : Str) (s : State) (tn : Node) (ht : s.nodes[s.Tip]? = some tn)
    (h : TrimSpace tex ≠ []) :
    appendMathBlock tex s =
      .ok ((), { s with nodes := Ast.AppendNew s.nodes s.Tip (mathBlock (TrimSpace tex)) }) := by
  unfold appendMathBlock
  dsimp only
  rw [if_neg h, bind_run (pure_ok _ _), bind_run (tipAppend_ok _ _), bind_run (setTip_ok _ _)]
  rw [ParentTip_ok _ s.Tip (AppendNew_new s.nodes s.Tip _ (lt_of_getElem? ht)).2]
  rfl

/-- The `div` case outside a link, a table and a heading, for a `div` whose
class names no language and that is no MathJax container before a script: a
formula in `data-tex` becomes a math block under the tip, the case returns
without a paragraph. -/
theorem caseP_div_tex (n : Nat) (s : State) (hn : HNode) (tn : Node)
    (hd : s.dom[n]? = some hn) (ht : s.nodes[s.Tip]? = some tn)
    (hdiv : hn.DataAtom = Atom.Div) (hl : tn.Typ ≠ NodeLink)
    (htab : parentIs s.dom n [Atom.Table] = false) (hh : tn.Typ ≠ NodeHeading)
    (hlang : divLanguage (DomAttrValue s.dom (some n) "class".toList) = [])
    (hmj : ¬ (Contains (DomAttrValue s.dom (some n) "class".toList) "MathJax".toList = true ∧
      hn.NextSibling ≠ none ∧ (hn.NextSibling.map (atomOf s.dom)) = some Atom.Script ∧
      Contains (DomAttrValue s.dom hn.NextSibling "type".toList) "math/tex".toList = true))
    (htex : TrimSpace (DomAttrValue s.dom (some n) "data-tex".toList) ≠ []) :
    caseP n s = .ok (Visit.ret, { s with nodes := (Ast.AppendNew s.nodes s.Tip
      (mathBlock (TrimSpace (DomAttrValue s.dom (some n) "data-tex".toList)))) }) := by
  have htex2 : TrimSpace (TrimSpace (DomAttrValue s.dom (some n) "data-tex".toList)) ≠ [] := by
    rw [TrimSpace_idem]
    exact htex
  unfold caseP
  rw [bind_run (hnode_ok hd), bind_run (getDom_ok s), bind_run (tipNode_ok ht)]
  simp only [if_neg hl, pure_bind, htab, Bool.false_eq_true, if_false]
  rw [bind_run (tipNode_ok ht)]
  simp only [if_neg hh, pure_bind, hdiv, if_true, hlang, ne_eq, not_true_eq_false, if_false,
    if_neg hmj, htex, not_false_eq_true]
  rw [bind_run (appendMathBlock_ok _ s tn ht htex2), TrimSpace_idem]
  rfl

/-- The math block that `p.AppendChild` links: its kind, its parent and its
children. -/
theorem mathBlock_linked (h : Heap) (p : Nat) (tex : Str) (hp : p < h.length) :
    Ast.typOf (Ast.AppendNew h p (mathBlock tex)) h.length = NodeMathBlock ∧
      Ast.parentOf (Ast.AppendNew h p (mathBlock tex)) h.length = some p ∧
      Ast.kids (Ast.AppendNew h p (mathBlock tex)) h.length =
        [(NodeMathBlockOpenMarker, "$$".toList), (NodeMathBlockContent, tex),
         (NodeMathBlockCloseMarker, "$$".toList)] :=
  ⟨(AppendNew_new h p (mathBlock tex) hp).1, (AppendNew_new h p (mathBlock tex) hp).2,
    (kids_AppendNew h p { Typ := NodeMathBlock }
      [{ Typ := NodeMathBlockOpenMarker, Tokens := "$$".toList },
       { Typ := NodeMathBlockContent, Tokens := tex },
       { Typ := NodeMathBlockCloseMarker, Tokens := "$$".toList }] hp (by simp)).2⟩


theorem getTip_ok (s : State) : getTip s = .ok (s.Tip, s) := rfl

theorem getHeap_ok (s : State) : getHeap s = .ok (s.nodes, s) := rfl

theorem setTokens_ok (n : Nat) (t : Str) (s : State) :
    setTokens n t s = .ok ((), { s with nodes := (upd s.nodes n
      (fun x => { x with Tokens := t })) }) := rfl

/-- The function `appendSpace` when the text after the element starts with white
space: nothing changes. -/
theorem appendSpace_space (L : Lute) (n : Nat) (s : State) (hn : HNode) (c : Char) (rest : Str)
    (hd : s.dom[n]? = some hn)
    (hc : DomText s.dom hn.NextSibling = c :: rest) (hsp : IsSpace c = true) :
    appendSpace L n s = .ok ((), s) := by
  unfold appendSpace
  rw [bind_run (hnode_ok hd), bind_run (getDom_ok s)]
  by_cases hnx : hn.NextSibling = none
  · rw [if_pos hnx]
    rfl
  · rw [if_neg hnx, bind_run (pure_ok _ _), hc]
    dsimp only
    rw [if_pos hsp]
    rfl

/-- The function `appendSpace` when the text after the element starts with a
character that is no white space, no punctuation and no symbol, and the text of
the element ends in a punctuation or a symbol: the first text child of the tip
is wrapped in zero-width separators. -/
theorem appendSpace_wraps (L : Lute) (n : Nat) (s : State) (hn : HNode) (c l : Char) (rest : Str)
    (text : Nat) (tx : Node)
    (hd : s.dom[n]? = some hn)
    (hc : DomText s.dom hn.NextSibling = c :: rest) (hsp : IsSpace c = false)
    (hpc : ¬ (L.IsPunct c = true ∨ L.IsSymbol c = true))
    (hl : (DomText s.dom (some n)).getLast? = some l)
    (hpl : L.IsPunct l = true ∨ L.IsSymbol l = true)
    (hch : Ast.ChildByType s.nodes s.Tip NodeText = some text) (htx : s.nodes[text]? = some tx) :
    appendSpace L n s = .ok ((), { s with nodes := (upd s.nodes text
      (fun x => { x with Tokens := Zwsp ++ tx.Tokens ++ Zwsp })) }) := by
  have hnx : ¬ hn.NextSibling = none := by
    intro e
    rw [e] at hc
    cases hc
  unfold appendSpace
  rw [bind_run (hnode_ok hd), bind_run (getDom_ok s), if_neg hnx, bind_run (pure_ok _ _), hc]
  dsimp only
  rw [hsp]
  simp only [Bool.false_eq_true, if_false]
  rw [bind_run (pure_ok _ _), bind_run (getTip_ok s), if_neg hpc, bind_run (pure_ok _ _), hl]
  dsimp only
  rw [if_pos hpl, bind_run (getHeap_ok s), hch]
  dsimp only
  rw [bind_run (anode_ok htx), bind_run (setTokens_ok _ _ _)]
  rfl

theorem typOf_upd (h : Heap) (n i : Nat) (f : Node → Node) (hf : ∀ x, (f x).Typ = x.Typ) :
    Ast.typOf (upd h n f) i = Ast.typOf h i := by
  unfold Ast.typOf
  rw [getElem?_upd]
  by_cases e : i = n
  · rw [if_pos e]
    cases h[i]? with
    | none => rfl
    | some x => exact hf x
  · rw [if_neg e]

theorem typOf_updOpt (h : Heap) (p : Option Nat) (i : Nat) (f : Node → Node)
    (hf : ∀ x, (f x).Typ = x.Typ) : Ast.typOf (updOpt h p f) i = Ast.typOf h i := by
  cases p with
  | none => rfl
  | some n => exact typOf_upd h n i f hf

theorem typOf_link (h : Heap) (p c i : Nat) : Ast.typOf (Ast.link h p c) i = Ast.typOf h i := by
  unfold Ast.link
  split
  · rfl
  · split <;>
    repeat (first
      | rfl
      | (refine (typOf_upd _ _ _ _ ?_).trans ?_; exact fun _ => rfl)
      | (refine (typOf_updOpt _ _ _ _ ?_).trans ?_; exact fun _ => rfl))

theorem typOf_linkBefore (h : Heap) (n c i : Nat) :
    Ast.typOf (Ast.linkBefore h n c) i = Ast.typOf h i := by
  unfold Ast.linkBefore
  split
  · rfl
  · dsimp only
    split <;>
    repeat (first
      | rfl
      | (refine (typOf_upd _ _ _ _ ?_).trans ?_; exact fun _ => rfl)
      | (refine (typOf_updOpt _ _ _ _ ?_).trans ?_; exact fun _ => rfl))

theorem typOf_linkAfter (h : Heap) (n c i : Nat) :
    Ast.typOf (Ast.linkAfter h n c) i = Ast.typOf h i := by
  unfold Ast.linkAfter
  split
  · rfl
  · dsimp only
    split <;>
    repeat (first
      | rfl
      | (refine (typOf_upd _ _ _ _ ?_).trans ?_; exact fun _ => rfl)
      | (refine (typOf_updOpt _ _ _ _ ?_).trans ?_; exact fun _ => rfl))

theorem typOf_Unlink (h : Heap) (n i : Nat) : Ast.typOf (Ast.Unlink h n) i = Ast.typOf h i := by
  unfold Ast.Unlink
  split
  · rfl
  · dsimp only
    refine (typOf_upd _ _ _ _ ?_).trans ?_
    · exact fun _ => rfl
    split <;> split <;>
    repeat (first
      | rfl
      | (refine (typOf_upd _ _ _ _ ?_).trans ?_; exact fun _ => rfl)
      | (refine (typOf_updOpt _ _ _ _ ?_).trans ?_; exact fun _ => rfl))

theorem length_linkBefore (h : Heap) (n c : Nat) : (Ast.linkBefore h n c).length = h.length := by
  unfold Ast.linkBefore
  split
  · rfl
  · dsimp only
    split <;> simp only [length_upd, length_updOpt]

theorem length_linkAfter (h : Heap) (n c : Nat) : (Ast.linkAfter h n c).length = h.length := by
  unfold Ast.linkAfter
  split
  · rfl
  · dsimp only
    split <;> simp only [length_upd, length_updOpt]

theorem alloc_text (h : Heap) (t : Str) :
    Ast.alloc h (astNode NodeText t) = h ++ [{ Typ := NodeText, Tokens := t }] := by
  simp [astNode, leaf, Ast.alloc, Ast.allocChildren, Node.bare]

theorem typOf_alloc_text (h : Heap) (t : Str) (i : Nat) :
    Ast.typOf (Ast.alloc h (astNode NodeText t)) i = Ast.typOf h i := by
  rw [alloc_text]
  unfold Ast.typOf
  rcases Nat.lt_trichotomy i h.length with hi | hi | hi
  · rw [List.getElem?_append_left hi]
  · subst hi
    simp
  · rw [List.getElem?_eq_none (by simp; omega), List.getElem?_eq_none (by omega)]

theorem length_alloc_text (h : Heap) (t : Str) :
    (Ast.alloc h (astNode NodeText t)).length = h.length + 1 := by
  rw [alloc_text]
  simp

theorem kindsOf_textOnly {h0 : Heap} {s : State} (k : KindsOf h0 s) :
    TextOnlyAdded h0 s.nodes := by
  refine ⟨k.1, fun i x hx => ?_⟩
  have e := k.2 i
  rw [typOf_eq hx] at e
  by_cases hi : i < h0.length
  · left
    refine ⟨h0[i], List.getElem?_eq_getElem hi, ?_⟩
    rw [typOf_eq (List.getElem?_eq_getElem hi)] at e
    exact e.symm
  · right
    refine ⟨by omega, ?_⟩
    rw [e]
    unfold Ast.typOf
    rw [List.getElem?_eq_none (by omega)]

/-- A heap operation that keeps the kinds and does not shrink the heap. -/
theorem kinds_heap (h0 : Heap) (f : Heap → Heap)
    (hf : ∀ h, h.length ≤ (f h).length ∧ ∀ i, Ast.typOf (f h) i = Ast.typOf h i) :
    Keeps (KindsOf h0) (modify (fun s => { s with nodes := f s.nodes }) : M Unit) :=
  keeps_modify _ _ (fun s k =>
    ⟨Nat.le_trans k.1 (hf s.nodes).1, fun i => ((hf s.nodes).2 i).trans (k.2 i)⟩)

theorem kinds_insertBefore (h0 : Heap) (n : Nat) (t : Str) :
    Keeps (KindsOf h0) (insertBefore n (astNode NodeText t)) :=
  kinds_heap h0 (fun h => Ast.InsertBefore h n (astNode NodeText t)) (fun h => by
    unfold Ast.InsertBefore
    refine ⟨?_, fun i => ?_⟩
    · rw [length_linkBefore, length_alloc_text]
      omega
    · rw [typOf_linkBefore, typOf_alloc_text])

theorem kinds_insertAfter (h0 : Heap) (n : Nat) (t : Str) :
    Keeps (KindsOf h0) (insertAfter n (astNode NodeText t)) :=
  kinds_heap h0 (fun h => Ast.InsertAfter h n (astNode NodeText t)) (fun h => by
    unfold Ast.InsertAfter
    refine ⟨?_, fun i => ?_⟩
    · rw [length_linkAfter, length_alloc_text]
      omega
    · rw [typOf_linkAfter, typOf_alloc_text])

theorem kinds_setTokens (h0 : Heap) (n : Nat) (t : Str) : Keeps (KindsOf h0) (setTokens n t) :=
  kinds_heap h0 (fun h => upd h n (fun x => { x with Tokens := t })) (fun h =>
    ⟨by rw [length_upd], fun i => typOf_upd _ _ _ _ (fun _ => rfl)⟩)

theorem kinds_unlink (h0 : Heap) (n : Nat) : Keeps (KindsOf h0) (unlink n) :=
  kinds_heap h0 (fun h => Ast.Unlink h n) (fun h =>
    ⟨by rw [length_Unlink], fun i => typOf_Unlink _ _ _⟩)

theorem kinds_tipAppend (h0 : Heap) (t : Str) :
    Keeps (KindsOf h0) (tipAppend (astNode NodeText t)) := by
  constructor
  intro s a s' k h
  obtain ⟨_, rfl⟩ := run_tipAppend h
  refine ⟨?_, fun i => ?_⟩
  · show h0.length ≤ (Ast.AppendNew s.nodes s.Tip (astNode NodeText t)).length
    unfold Ast.AppendNew
    rw [length_link, length_alloc_text]
    exact Nat.le_succ_of_le k.1
  · show Ast.typOf (Ast.AppendNew s.nodes s.Tip (astNode NodeText t)) i = _
    unfold Ast.AppendNew
    rw [typOf_link, typOf_alloc_text]
    exact k.2 i

theorem kinds_liftDom (h0 : Heap) {α : Type} (m : DomM α) : Keeps (KindsOf h0) (liftDom m) := by
  constructor
  intro s a s' hP h
  unfold liftDom at h
  split at h
  · cases h; exact hP
  · cases h

theorem kinds_trimLastText (h0 : Heap) (tip : Nat) : Keeps (KindsOf h0) (trimLastText tip) := by
  unfold trimLastText
  repeat (first
    | (with_reducible first
        | apply keeps_pure | apply keeps_throw | apply keeps_hnode | apply keeps_anode
        | apply keeps_getDom | apply keeps_getHeap | apply keeps_getTip | apply keeps_tipNode
        | apply keeps_deref | apply kinds_liftDom
        | apply kinds_tipAppend | apply kinds_setTokens | apply kinds_insertAfter
        | apply kinds_insertBefore | apply kinds_unlink
        | apply keeps_bind | apply keeps_ite)
    | (with_reducible first | intro _ | split))

theorem kinds_liftSpaces (h0 : Heap) (n : Nat) (curText : Str) :
    Keeps (KindsOf h0) (liftSpaces n curText) := by
  unfold liftSpaces
  dsimp only
  repeat (first
    | (with_reducible first
        | apply keeps_pure | apply keeps_throw | apply keeps_hnode | apply keeps_anode
        | apply keeps_getDom | apply keeps_getHeap | apply keeps_getTip | apply keeps_tipNode
        | apply keeps_deref | apply kinds_liftDom
        | apply kinds_tipAppend | apply kinds_setTokens | apply kinds_insertAfter
        | apply kinds_insertBefore | apply kinds_trimLastText
        | apply keeps_bind | apply keeps_ite)
    | (with_reducible first | intro _ | split))

theorem kinds_appendSpace (h0 : Heap) (L : Lute) (n : Nat) :
    Keeps (KindsOf h0) (appendSpace L n) := by
  unfold appendSpace zwspText
  dsimp only
  repeat (first
    | (with_reducible first
        | apply keeps_pure | apply keeps_throw | apply keeps_hnode | apply keeps_anode
        | apply keeps_getDom | apply keeps_getHeap | apply keeps_getTip | apply keeps_tipNode
        | apply keeps_deref | apply kinds_liftDom
        | apply kinds_tipAppend | apply kinds_setTokens | apply kinds_insertAfter
        | apply kinds_insertBefore | apply kinds_liftSpaces
        | apply keeps_bind | apply keeps_ite)
    | (with_reducible first | intro _ | split))

/-- The function `appendSpace` adds text nodes only, and changes no kind. -/
theorem appendSpace_textOnly (L : Lute) (n : Nat) (s s' : State)
    (h : appendSpace L n s = .ok ((), s')) : TextOnlyAdded s.nodes s'.nodes :=
  kindsOf_textOnly ((kinds_appendSpace s.nodes L n).run s () s' ⟨Nat.le_refl _, fun _ => rfl⟩ h)

/-- The `em` case skips an element without text, and an element under an
emphasis: nothing changes. -/
theorem caseEm_skip (n : Nat) (s : State) (hn : HNode) (tn : Node)
    (hd : s.dom[n]? = some hn) (ht : s.nodes[s.Tip]? = some tn)
    (h : TrimSpace (DomText s.dom (some n)) = [] ∨ tn.Typ = NodeEmphasis ∨
      Ast.ParentIs s.nodes s.Tip NodeEmphasis = true) :
    caseEm n s = .ok (Visit.brk, s) := by
  unfold caseEm
  rw [bind_run (hnode_ok hd), bind_run (getDom_ok s)]
  dsimp only
  by_cases h1 : TrimSpace (DomText s.dom (some n)) = []
  · rw [if_pos h1]
    rfl
  · rw [if_neg h1, bind_run (pure_ok _ _), bind_run ((rfl : getHeap s = .ok (s.nodes, s))), bind_run ((rfl : getTip s = .ok (s.Tip, s))),
      bind_run (tipNode_ok ht)]
    have h2 : tn.Typ = NodeEmphasis ∨ Ast.ParentIs s.nodes s.Tip NodeEmphasis = true := by
      rcases h with h | h
      · exact absurd h h1
      · exact h
    rw [if_pos h2]
    rfl

/-- The `strong` case skips an element without text, and an element under a
strong emphasis: nothing changes. -/
theorem caseStrong_skip (n : Nat) (s : State) (hn : HNode) (tn : Node)
    (hd : s.dom[n]? = some hn) (ht : s.nodes[s.Tip]? = some tn)
    (h : TrimSpace (DomText s.dom (some n)) = [] ∨ tn.Typ = NodeStrong ∨
      Ast.ParentIs s.nodes s.Tip NodeStrong = true) :
    caseStrong n s = .ok (Visit.brk, s) := by
  unfold caseStrong
  rw [bind_run (hnode_ok hd), bind_run (getDom_ok s)]
  dsimp only
  by_cases h1 : TrimSpace (DomText s.dom (some n)) = []
  · rw [if_pos h1]
    rfl
  · rw [if_neg h1, bind_run (pure_ok _ _), bind_run ((rfl : getHeap s = .ok (s.nodes, s))), bind_run ((rfl : getTip s = .ok (s.Tip, s))),
      bind_run (tipNode_ok ht)]
    have h2 : tn.Typ = NodeStrong ∨ Ast.ParentIs s.nodes s.Tip NodeStrong = true := by
      rcases h with h | h
      · exact absurd h h1
      · exact h
    rw [if_pos h2]
    rfl

/-! ### Loops of replacements, the code span, decoration markers, the list test and the attribute filter -/


theorem replaceAllAux_skip {α : Type} [DecidableEq α] (old new : List α) :
    ∀ (k : Nat) (cs : List α), replaceAllAux old new k cs = replaceAllAux old new 0 (cs.drop k) := by
  intro k
  induction k with
  | zero => intro cs; rfl
  | succ k ih =>
    intro cs
    cases cs with
    | nil => simp [replaceAllAux]
    | cons c cs =>
      rw [replaceAllAux, ih cs]
      rfl

theorem replaceAllAux_hit {α : Type} [DecidableEq α] (old new : List α) (c : α) (cs : List α)
    (ho : old ≠ []) (h : old.isPrefixOf (c :: cs) = true) :
    replaceAllAux old new 0 (c :: cs) =
      new ++ replaceAllAux old new 0 ((c :: cs).drop old.length) := by
  conv_lhs => unfold replaceAllAux
  rw [if_pos h, replaceAllAux_skip]
  cases old with
  | nil => exact absurd rfl ho
  | cons o os => rfl

theorem replaceAllAux_miss {α : Type} [DecidableEq α] (old new : List α) (c : α) (cs : List α)
    (h : ¬ old.isPrefixOf (c :: cs) = true) :
    replaceAllAux old new 0 (c :: cs) = c :: replaceAllAux old new 0 cs := by
  conv_lhs => unfold replaceAllAux
  rw [if_neg h]

theorem ReplaceAll_cons {α : Type} [DecidableEq α] (s : List α) (o : α) (os new : List α) :
    ReplaceAll s (o :: os) new = replaceAllAux (o :: os) new 0 s := by
  unfold ReplaceAll
  simp

theorem Contains_nil (sub : Str) (h : sub ≠ []) : Contains [] sub = false := by
  cases sub with
  | nil => exact absurd rfl h
  | cons a as => rfl

theorem Contains_cons (c : Char) (cs sub : Str) :
    Contains (c :: cs) sub = (sub.isPrefixOf (c :: cs) || Contains cs sub) := by
  unfold Contains
  conv_lhs => unfold Index
  by_cases h : sub.isPrefixOf (c :: cs) = true
  · simp [h]
  · simp [h]

/-- Replacing by a string that is not longer does not lengthen. -/
theorem length_replaceAllAux_le {α : Type} [DecidableEq α] (old new : List α)
    (hn : new.length ≤ old.length) (ho : old ≠ []) :
    ∀ (k : Nat) (s : List α), s.length ≤ k → (replaceAllAux old new 0 s).length ≤ s.length := by
  intro k
  induction k with
  | zero =>
    intro s hs
    have : s = [] := List.length_eq_zero.mp (Nat.le_zero.mp hs)
    subst this
    simp [replaceAllAux]
  | succ k ih =>
    intro s hs
    cases s with
    | nil => simp [replaceAllAux]
    | cons c cs =>
      by_cases h : old.isPrefixOf (c :: cs) = true
      · rw [replaceAllAux_hit old new c cs ho h]
        have hpos : 0 < old.length := List.length_pos.mpr ho
        have hle : old.length ≤ (c :: cs).length := (List.isPrefixOf_iff_prefix.mp h).length_le
        have hd : ((c :: cs).drop old.length).length ≤ k := by
          rw [List.length_drop]
          simp only [List.length_cons] at hs hle ⊢
          omega
        have := ih _ hd
        rw [List.length_append]
        rw [List.length_drop] at this
        omega
      · rw [replaceAllAux_miss old new c cs h]
        have := ih cs (by simp at hs; omega)
        simp only [List.length_cons]
        omega

/-- Replacing by a shorter string shortens a string that contains the
pattern. -/
theorem length_replaceAllAux_lt (old new : Str) (hn : new.length < old.length) :
    ∀ (s : Str), Contains s old = true → (replaceAllAux old new 0 s).length < s.length := by
  have ho : old ≠ [] := by
    intro e
    rw [e] at hn
    simp at hn
  intro s
  induction s with
  | nil =>
    intro h
    rw [Contains_nil old ho] at h
    cases h
  | cons c cs ih =>
    intro hc
    by_cases h : old.isPrefixOf (c :: cs) = true
    · rw [replaceAllAux_hit old new c cs ho h]
      have hle : old.length ≤ (c :: cs).length := (List.isPrefixOf_iff_prefix.mp h).length_le
      have := length_replaceAllAux_le old new (Nat.le_of_lt hn) ho _ ((c :: cs).drop old.length)
        (Nat.le_refl _)
      rw [List.length_append]
      rw [List.length_drop] at this
      omega
    · rw [replaceAllAux_miss old new c cs h]
      rw [Contains_cons] at hc
      simp only [h, Bool.false_or] at hc
      have := ih hc
      simp only [List.length_cons]
      omega

/-- A round of a loop that replaces a pattern by a shorter string shortens the
string. -/
theorem length_ReplaceAll_lt (s old new : Str) (hn : new.length < old.length)
    (h : Contains s old = true) : (ReplaceAll s old new).length < s.length := by
  cases old with
  | nil => simp at hn
  | cons o os =>
    rw [ReplaceAll_cons]
    exact length_replaceAllAux_lt (o :: os) new hn s h

/-- With as many rounds as the string has characters the loop ends because the
pattern is gone. -/
theorem replaceLoop_done (old new : Str) (hn : new.length < old.length) :
    ∀ (fuel : Nat) (s : Str), s.length ≤ fuel → Contains (replaceLoop old new fuel s) old = false := by
  have ho : old ≠ [] := by
    intro e
    rw [e] at hn
    simp at hn
  intro fuel
  induction fuel with
  | zero =>
    intro s hs
    have : s = [] := List.length_eq_zero.mp (Nat.le_zero.mp hs)
    subst this
    exact Contains_nil old ho
  | succ fuel ih =>
    intro s hs
    unfold replaceLoop
    by_cases h : Contains s old = true
    · rw [if_pos h]
      exact ih _ (by have := length_ReplaceAll_lt s old new hn h; omega)
    · rw [if_neg h]
      simpa using h

/-- More rounds than the string has characters change nothing. -/
theorem replaceLoop_more (old new : Str) (hn : new.length < old.length) :
    ∀ (fuel : Nat) (s : Str), s.length ≤ fuel →
      replaceLoop old new (fuel + 1) s = replaceLoop old new fuel s := by
  have ho : old ≠ [] := by
    intro e
    rw [e] at hn
    simp at hn
  intro fuel
  induction fuel with
  | zero =>
    intro s hs
    have : s = [] := List.length_eq_zero.mp (Nat.le_zero.mp hs)
    subst this
    unfold replaceLoop
    rw [Contains_nil old ho]
    rfl
  | succ fuel ih =>
    intro s hs
    conv_lhs => unfold replaceLoop
    conv_rhs => unfold replaceLoop
    by_cases h : Contains s old = true
    · rw [if_pos h, if_pos h]
      exact ih _ (by have := length_ReplaceAll_lt s old new hn h; omega)
    · rw [if_neg h, if_neg h]

theorem replaceLoop_fuel (old new : Str) (hn : new.length < old.length) (s : Str) :
    ∀ k, replaceLoop old new (s.length + k) s = replaceLoop old new s.length s := by
  intro k
  induction k with
  | zero => rfl
  | succ k ih =>
    rw [← Nat.add_assoc, replaceLoop_more old new hn (s.length + k) s (by omega), ih]

theorem collapseLoop_eq : ∀ (fuel : Nat) (s : Str),
    collapseLoop fuel s = replaceLoop ['\n', ' ', ' '] ['\n', ' '] fuel s := by
  intro fuel
  induction fuel with
  | zero => intro s; rfl
  | succ fuel ih =>
    intro s
    unfold collapseLoop replaceLoop
    rw [ih]

theorem head_replaceAllAux_pair (a b : Char) (s : Str) :
    (replaceAllAux [a, b] [a] 0 s).head? = s.head? := by
  cases s with
  | nil => rfl
  | cons c cs =>
    by_cases h : [a, b].isPrefixOf (c :: cs) = true
    · rw [replaceAllAux_hit _ _ _ _ (by simp) h]
      have : a = c := by
        cases cs with
        | nil => simp [List.isPrefixOf] at h
        | cons d ds =>
          simp only [List.isPrefixOf, Bool.and_eq_true, beq_iff_eq] at h
          exact h.1
      simp [this]
    · rw [replaceAllAux_miss _ _ _ _ h]
      rfl

theorem isPrefixOf_two (a b c : Char) (cs : Str) :
    [a, b].isPrefixOf (c :: cs) = true ↔ a = c ∧ cs.head? = some b := by
  cases cs with
  | nil => simp [List.isPrefixOf]
  | cons d ds =>
    simp only [List.isPrefixOf, Bool.and_true, Bool.and_eq_true, beq_iff_eq, List.head?_cons,
      Option.some.injEq]
    constructor
    · rintro ⟨h1, h2⟩; exact ⟨h1, h2.symm⟩
    · rintro ⟨h1, h2⟩; exact ⟨h1, h2.symm⟩

theorem isPrefixOf_three (a b c : Char) (cs : Str) :
    [a, b, b].isPrefixOf (c :: cs) = true ↔ a = c ∧ [b, b].isPrefixOf cs = true := by
  cases cs with
  | nil => simp [List.isPrefixOf]
  | cons d ds => simp [List.isPrefixOf]

/-- After `a b` is replaced by `a` in a string without `a b b`, no `a b` is
left. -/
theorem no_pair_after : ∀ (k : Nat) (a b : Char) (s : Str), s.length ≤ k →
    Contains s [a, b, b] = false → Contains (replaceAllAux [a, b] [a] 0 s) [a, b] = false := by
  intro k
  induction k with
  | zero =>
    intro a b s hs _
    have : s = [] := List.length_eq_zero.mp (Nat.le_zero.mp hs)
    subst this
    rfl
  | succ k ih =>
    intro a b s hs hc
    cases s with
    | nil => rfl
    | cons c cs =>
      rw [Contains_cons] at hc
      simp only [Bool.or_eq_false_iff] at hc
      obtain ⟨hc1, hc2⟩ := hc
      by_cases h : [a, b].isPrefixOf (c :: cs) = true
      · rw [replaceAllAux_hit _ _ _ _ (by simp) h]
        obtain ⟨hac, hhd⟩ := (isPrefixOf_two a b c cs).mp h
        cases cs with
        | nil => simp at hhd
        | cons d r =>
          simp only [List.head?_cons, Option.some.injEq] at hhd
          subst hhd hac
          show Contains (a :: replaceAllAux [a, d] [a] 0 r) [a, d] = false
          rw [Contains_cons] at hc2
          simp only [Bool.or_eq_false_iff] at hc2
          have hr := ih a d r (by simp at hs; omega) hc2.2
          rw [Contains_cons, hr, Bool.or_false]
          cases hp : [a, d].isPrefixOf (a :: replaceAllAux [a, d] [a] 0 r) with
          | false => rfl
          | true =>
            exfalso
            have h2 := ((isPrefixOf_two a d a _).mp hp).2
            rw [head_replaceAllAux_pair] at h2
            have h3 : [a, d, d].isPrefixOf (a :: d :: r) = true := by
              rw [isPrefixOf_three]
              refine ⟨rfl, ?_⟩
              cases r with
              | nil => simp at h2
              | cons e r2 =>
                simp only [List.head?_cons, Option.some.injEq] at h2
                subst h2
                simp [List.isPrefixOf]
            rw [h3] at hc1
            cases hc1
      · rw [replaceAllAux_miss _ _ _ _ h]
        have hr := ih a b cs (by simp at hs; omega) hc2
        rw [Contains_cons, hr, Bool.or_false]
        cases hp : [a, b].isPrefixOf (c :: replaceAllAux [a, b] [a] 0 cs) with
        | false => rfl
        | true =>
          exfalso
          apply h
          obtain ⟨h1, h2⟩ := (isPrefixOf_two a b c _).mp hp
          rw [head_replaceAllAux_pair] at h2
          exact (isPrefixOf_two a b c cs).mpr ⟨h1, h2⟩

/-- The collapse of lines 122-125 leaves no line break followed by a space. -/
theorem collapseNewlineSpaces_clean (s : Str) :
    Contains (collapseNewlineSpaces s) ['\n', ' '] = false := by
  unfold collapseNewlineSpaces
  rw [ReplaceAll_cons, collapseLoop_eq]
  exact no_pair_after _ '\n' ' ' _ (Nat.le_refl _)
    (replaceLoop_done _ _ (by decide) s.length s (Nat.le_refl _))

/-- The second replacement undoes the first: escaping every `p` of a string by
`b` and then replacing every `b p` by `p` gives the string back. -/
theorem unescape_of_escape {α : Type} [DecidableEq α] (b p : α) (hbp : b ≠ p) (y : List α) :
    ReplaceAll (ReplaceAll y [p] [b, p]) [b, p] [p] = y := by
  rw [ReplaceAll_single, ReplaceAll_cons]
  have hhead : ∀ r : List α, (r.flatMap (fun c => if c = p then [b, p] else [c])).head? ≠ some p := by
    intro r
    cases r with
    | nil => simp
    | cons d ds =>
      rw [List.flatMap_cons]
      by_cases hd : d = p
      · simp [hd, hbp]
      · simp [hd]
  induction y with
  | nil => rfl
  | cons c cs ih =>
    rw [List.flatMap_cons]
    by_cases hc : c = p
    · rw [if_pos hc]
      show replaceAllAux [b, p] [p] 0 (b :: (p :: cs.flatMap _)) = _
      rw [replaceAllAux_hit _ _ _ _ (by simp) (by simp [List.isPrefixOf])]
      show [p] ++ replaceAllAux [b, p] [p] 0 (cs.flatMap _) = _
      rw [ih, hc]
      rfl
    · rw [if_neg hc]
      show replaceAllAux [b, p] [p] 0 (c :: cs.flatMap _) = _
      have hm : ¬ [b, p].isPrefixOf (c :: cs.flatMap (fun c => if c = p then [b, p] else [c])) = true := by
        intro h
        have hh := hhead cs
        cases hf : cs.flatMap (fun c => if c = p then [b, p] else [c]) with
        | nil => rw [hf] at h; simp [List.isPrefixOf] at h
        | cons e es =>
          rw [hf] at h hh
          simp only [List.isPrefixOf, Bool.and_true, Bool.and_eq_true, beq_iff_eq] at h
          apply hh
          simp [h.2]
      rw [replaceAllAux_miss _ _ _ _ hm, ih]

theorem tipLastChildTyp_ok {s : State} {tn : Node} (ht : s.nodes[s.Tip]? = some tn) :
    tipLastChildTyp s = .ok (tn.LastChild.map (Ast.typOf s.nodes), s) := by
  unfold tipLastChildTyp
  rw [bind_run (getHeap_ok s), bind_run (tipNode_ok ht)]
  rfl

theorem get_ok (s : State) : (get : M State) s = .ok (s, s) := rfl

theorem modify_ok (f : State → State) (s : State) : (modify f : M Unit) s = .ok ((), f s) := rfl

/-- The `code` case for an element with a child, when the last child of the tip
is a code span: a separator and the code span are appended to the tip, the tip
moves to the code span, and the case returns. -/
theorem caseCode_sep_run (L : Lute) (n : Nat) (s : State) (hn : HNode) (tn : Node)
    (hd : s.dom[n]? = some hn) (hfc : hn.FirstChild ≠ none) (ht : s.nodes[s.Tip]? = some tn)
    (hl : tn.LastChild.map (Ast.typOf s.nodes) = some NodeCodeSpan) :
    caseCode L n s = .ok (Visit.ret,
      { s with nodes := (Ast.AppendNew (Ast.AppendNew s.nodes s.Tip zwspText) s.Tip
                 (codeSpan hn.Data (codeContent L s.dom n hn))),
               Tip := s.nodes.length + 1, defers := s.defers + 1 }) := by
  unfold caseCode
  rw [bind_run (hnode_ok hd)]
  dsimp only
  rw [if_neg hfc, bind_run (pure_ok _ _), bind_run (tipLastChildTyp_ok ht), if_pos hl,
    bind_run (tipAppend_ok _ _), bind_run (pure_ok _ _), bind_run (getDom_ok _),
    bind_run (pushTip_ok _ _)]
  show Except.ok (Visit.ret, _) = Except.ok (Visit.ret, _)
  rw [show (Ast.AppendNew s.nodes s.Tip zwspText).length = s.nodes.length + 1 from
    length_AppendNew_leaf _ _ _]

/-- The `code` case for an element with a child, when the last child of the tip
is no code span: the code span is appended to the tip, the tip moves to it,
and the case returns. -/
theorem caseCode_run (L : Lute) (n : Nat) (s : State) (hn : HNode) (tn : Node)
    (hd : s.dom[n]? = some hn) (hfc : hn.FirstChild ≠ none) (ht : s.nodes[s.Tip]? = some tn)
    (hl : tn.LastChild.map (Ast.typOf s.nodes) ≠ some NodeCodeSpan) :
    caseCode L n s = .ok (Visit.ret,
      { s with nodes := (Ast.AppendNew s.nodes s.Tip
                 (codeSpan hn.Data (codeContent L s.dom n hn))),
               Tip := s.nodes.length, defers := s.defers + 1 }) := by
  unfold caseCode
  rw [bind_run (hnode_ok hd)]
  dsimp only
  rw [if_neg hfc, bind_run (pure_ok _ _), bind_run (tipLastChildTyp_ok ht), if_neg hl,
    bind_run (pure_ok _ _), bind_run (getDom_ok _), bind_run (pushTip_ok _ _)]
  rfl

/-- A visit whose first switch returns after one `defer`: the children are not
visited, the deferred call moves the tip to the parent of the tip that the
switch left, and the count of the caller is restored. -/
theorem visit_returned (L : Lute) (children : Option Nat → M Unit) (n : Nat) (a : Atom)
    (s : State) (h1 : Heap) (t p : Nat)
    (hsw : switchPre L n a { s with defers := 0 } =
      .ok (Visit.ret, { s with nodes := h1, Tip := t, defers := 1 }))
    (hp : Ast.parentOf h1 t = some p) :
    visit L children n a s = .ok ((), { s with nodes := h1, Tip := p }) := by
  unfold visit
  rw [bind_run (get_ok s), bind_run (modify_ok _ _), bind_run hsw]
  show ((pure () : M Unit) >>= _) _ = _
  rw [bind_run (pure_ok _ _)]
  show ((get : M State) >>= _) _ = _
  rw [bind_run (get_ok _)]
  show (runDefers 1 >>= _) _ = _
  unfold runDefers
  rw [bind_run (bind_run (ParentTip_ok _ p hp))]
  rfl

/-- The list test on a line that keeps at least two tokens after the skip: it
holds when the first is a bullet marker and the second a space, a tab or a line
break. -/
theorem isList_of_two (skip : Items → Items) (line : Items) (a b : Item) (r : Items)
    (hl : 2 ≤ line.length) (hs : skip line = a :: b :: r) :
    isList skip line = .ok (decide
      ((a.val = "*".toList ∨ a.val = "-".toList ∨ a.val = "+".toList) ∧
        (b.typ = ItemType.itemSpace ∨ b.typ = ItemType.itemTab ∨
          b.typ = ItemType.itemNewline))) := by
  have e1 : ("*".toList ≠ a.val ∧ "-".toList ≠ a.val ∧ "+".toList ≠ a.val) ↔
      ¬ (a.val = "*".toList ∨ a.val = "-".toList ∨ a.val = "+".toList) := by
    constructor
    · rintro ⟨x, y, z⟩ (h | h | h)
      · exact x h.symm
      · exact y h.symm
      · exact z h.symm
    · intro h
      exact ⟨fun e => h (Or.inl e.symm), fun e => h (Or.inr (Or.inl e.symm)),
        fun e => h (Or.inr (Or.inr e.symm))⟩
  have e2 : (ItemType.itemSpace ≠ b.typ ∧ ItemType.itemTab ≠ b.typ ∧
      ItemType.itemNewline ≠ b.typ) ↔
      ¬ (b.typ = ItemType.itemSpace ∨ b.typ = ItemType.itemTab ∨
        b.typ = ItemType.itemNewline) := by
    constructor
    · rintro ⟨x, y, z⟩ (h | h | h)
      · exact x h.symm
      · exact y h.symm
      · exact z h.symm
    · intro h
      exact ⟨fun e => h (Or.inl e.symm), fun e => h (Or.inr (Or.inl e.symm)),
        fun e => h (Or.inr (Or.inr e.symm))⟩
  unfold isList
  rw [if_neg (by omega)]
  simp only [hs, List.get?_cons_zero, List.get?_cons_succ]
  by_cases hm : a.val = "*".toList ∨ a.val = "-".toList ∨ a.val = "+".toList
  · rw [if_neg (fun h => e1.mp h hm)]
    by_cases hw : b.typ = ItemType.itemSpace ∨ b.typ = ItemType.itemTab ∨
        b.typ = ItemType.itemNewline
    · rw [if_neg (fun h => e2.mp h hw), decide_eq_true (And.intro hm hw)]
    · rw [if_pos (e2.mpr hw), decide_eq_false (fun h => hw h.2)]
  · rw [if_pos (e1.mpr hm), decide_eq_false (fun h => hm h.1)]

/-- The list test on a line of fewer than two tokens. -/
theorem isList_short (skip : Items → Items) (line : Items) (hl : line.length < 2) :
    isList skip line = .ok false := by
  unfold isList
  rw [if_pos hl]

theorem safeAttrs_idem (l : List Attribute) : safeAttrs (safeAttrs l) = safeAttrs l := by
  unfold safeAttrs
  rw [List.filter_filter]
  simp

theorem safeAttrs_clean (l : List Attribute) (a : Attribute) (h : a ∈ safeAttrs l) :
    unsafeURLAttr a = false := by
  unfold safeAttrs at h
  have := (List.mem_filter.mp h).2
  simpa using this

/-- The loop over the indices below `i`: the attributes below `i` are filtered,
the others stay. -/
theorem sanitizeAttrs_take : ∀ (i : Nat) (attrs : List Attribute), i ≤ attrs.length →
    sanitizeAttrs i attrs = .ok (safeAttrs (attrs.take i) ++ attrs.drop i) := by
  intro i
  induction i with
  | zero =>
    intro attrs _
    simp [sanitizeAttrs, safeAttrs]
  | succ i ih =>
    intro attrs hi
    have hlt : i < attrs.length := hi
    unfold sanitizeAttrs
    rw [List.getElem?_eq_getElem hlt]
    dsimp only
    have htake : attrs.take (i + 1) = attrs.take i ++ [attrs[i]] := by
      rw [List.take_succ, List.getElem?_eq_getElem hlt]
      rfl
    have hdrop : attrs.drop i = attrs[i] :: attrs.drop (i + 1) := by
      rw [List.drop_eq_getElem_cons hlt]
    by_cases hu : unsafeURLAttr attrs[i] = true
    · rw [if_pos hu, ih _ (by simp; omega)]
      have e1 : (attrs.take i ++ attrs.drop (i + 1)).take i = attrs.take i := by
        rw [List.take_append_of_le_length (by simp; omega)]
        simp [List.take_take]
      have e2 : (attrs.take i ++ attrs.drop (i + 1)).drop i = attrs.drop (i + 1) := by
        rw [List.drop_append_of_le_length (by simp; omega)]
        have : (attrs.take i).length = i := by simp; omega
        conv_lhs => rw [show List.drop i (List.take i attrs) = [] from by
          rw [List.drop_eq_nil_iff]; omega]
        rfl
      rw [e1, e2, htake]
      unfold safeAttrs
      rw [List.filter_append]
      simp [hu]
    · rw [if_neg hu, ih _ (Nat.le_of_lt hlt), htake, hdrop]
      unfold safeAttrs
      rw [List.filter_append]
      simp [hu]

/-- The loop of lines 69-77 never indexes past the list, and leaves the
attributes that are not unsafe, in their order. -/
theorem sanitizeAttrs_eq (attrs : List Attribute) :
    sanitizeAttrs attrs.length attrs = .ok (safeAttrs attrs) := by
  rw [sanitizeAttrs_take _ _ (Nat.le_refl _)]
  simp

theorem attrsFiltered_refl (d : Dom) : AttrsFiltered d d := ⟨rfl, fun _ _ h => Or.inl h⟩

theorem attrsFiltered_trans {d d1 d2 : Dom} (a : AttrsFiltered d d1) (b : AttrsFiltered d1 d2) :
    AttrsFiltered d d2 := by
  refine ⟨b.1.trans a.1, fun j hj h => ?_⟩
  rcases a.2 j hj h with h1 | h1
  · exact b.2 j hj h1
  · rcases b.2 j _ h1 with h2 | h2
    · exact Or.inr h2
    · right
      rw [h2]
      simp only [safeAttrs_idem]

theorem attrsClean_after {d d1 d2 : Dom} {j : Nat} (a : AttrsClean d d1 j)
    (b : AttrsFiltered d1 d2) : AttrsClean d d2 j := by
  intro hj h he
  rcases b.2 j _ (a hj h he) with h2 | h2
  · exact h2
  · rw [h2]
    simp only [safeAttrs_idem]

theorem attrsClean_before {d d1 d2 : Dom} {j : Nat} (a : AttrsFiltered d d1)
    (b : AttrsClean d1 d2 j) : AttrsClean d d2 j := by
  intro hj h he
  rcases a.2 j hj h with h1 | h1
  · exact b hj h1 he
  · have := b _ h1 he
    rw [this]
    simp only [safeAttrs_idem]

theorem onChain_filtered {d d1 : Dom} (a : AttrsFiltered d d1) {f : Option Nat} {c : Nat}
    (h : OnChain d f c) : OnChain d1 f c := by
  induction h with
  | here c => exact OnChain.here c
  | next x c hx hdx _ ih =>
    rcases a.2 x hx hdx with h1 | h1
    · exact OnChain.next x c hx h1 ih
    · exact OnChain.next x c _ h1 ih

theorem visits_filtered {d d1 : Dom} (a : AttrsFiltered d d1) {n j : Nat}
    (h : Visits d n j) : Visits d1 n j := by
  induction h with
  | self n => exact Visits.self n
  | child n c j hn hdn hc _ ih =>
    rcases a.2 n hn hdn with h1 | h1
    · exact Visits.child n c j hn h1 (onChain_filtered a hc) ih
    · exact Visits.child n c j _ h1 (onChain_filtered a hc) ih

/-- The step of `f` on node `n`: nothing changes but the attributes of `n`. -/
theorem attrsFiltered_step (d : Dom) (n : Nat) (hn : HNode) (hd : d[n]? = some hn) :
    AttrsFiltered d (upd d n (fun x => { x with
      Attr := (if hn.Typ = HType.ElementNode then safeAttrs hn.Attr else hn.Attr) })) ∧
    AttrsClean d (upd d n (fun x => { x with
      Attr := (if hn.Typ = HType.ElementNode then safeAttrs hn.Attr else hn.Attr) })) n := by
  refine ⟨⟨length_upd _ _ _, fun j hj h => ?_⟩, fun hj h he => ?_⟩
  · rw [getElem?_upd]
    by_cases e : j = n
    · subst e
      rw [if_pos rfl, h]
      rw [hd] at h
      cases h
      by_cases he : hn.Typ = HType.ElementNode
      · right
        simp [he]
      · left
        simp [he]
    · rw [if_neg e]
      exact Or.inl h
  · rw [getElem?_upd, if_pos rfl, h]
    rw [hd] at h
    cases h
    simp [he]

/-- The traversal of `sanitize`: nothing changes but attribute lists, and every
element that the traversal reaches has its attributes filtered. -/
theorem sanitize_walk : ∀ (fuel : Nat),
    (∀ (d : Dom) (n : Nat) (d2 : Dom), sanitizeNode fuel d n = .ok d2 →
      AttrsFiltered d d2 ∧ ∀ j, Visits d n j → AttrsClean d d2 j) ∧
    (∀ (d : Dom) (f : Option Nat) (d2 : Dom), sanitizeChildren fuel d f = .ok d2 →
      AttrsFiltered d d2 ∧ ∀ c j, OnChain d f c → Visits d c j → AttrsClean d d2 j) := by
  intro fuel
  induction fuel with
  | zero =>
    constructor
    · intro d n d2 h
      simp [sanitizeNode] at h
    · intro d f d2 h
      simp [sanitizeChildren] at h
  | succ fuel ih =>
    obtain ⟨ihN, ihC⟩ := ih
    constructor
    · intro d n d2 h
      unfold sanitizeNode at h
      cases hd : d[n]? with
      | none => rw [hd] at h; cases h
      | some hn =>
        rw [hd] at h
        dsimp only at h
        have hattrs : (if hn.Typ = HType.ElementNode then sanitizeAttrs hn.Attr.length hn.Attr
            else Except.ok hn.Attr) =
            Except.ok (if hn.Typ = HType.ElementNode then safeAttrs hn.Attr else hn.Attr) := by
          split
          · exact sanitizeAttrs_eq _
          · rfl
        rw [hattrs] at h
        dsimp only at h
        obtain ⟨hf, hc⟩ := attrsFiltered_step d n hn hd
        obtain ⟨hf2, hv2⟩ := ihC _ _ _ h
        refine ⟨attrsFiltered_trans hf hf2, fun j hv => ?_⟩
        cases hv with
        | self => exact attrsClean_after hc hf2
        | child _ c _ hn' hdn hch hvc =>
          rw [hd] at hdn
          cases hdn
          exact attrsClean_before hf (hv2 c j (onChain_filtered hf hch) (visits_filtered hf hvc))
    · intro d f d2 h
      cases f with
      | none =>
        simp only [sanitizeChildren] at h
        cases h
        exact ⟨attrsFiltered_refl d, fun c j hc => by cases hc⟩
      | some c =>
        unfold sanitizeChildren at h
        cases h1 : sanitizeNode fuel d c with
        | error e => rw [h1] at h; cases h
        | ok d1 =>
          rw [h1] at h
          dsimp only at h
          obtain ⟨hf1, hv1⟩ := ihN _ _ _ h1
          cases hc1 : d1[c]? with
          | none => rw [hc1] at h; cases h
          | some cn =>
            rw [hc1] at h
            dsimp only at h
            obtain ⟨hf2, hv2⟩ := ihC _ _ _ h
            refine ⟨attrsFiltered_trans hf1 hf2, fun c' j hch hv => ?_⟩
            cases hch with
            | here => exact attrsClean_after (hv1 j hv) hf2
            | next _ _ hx hdx hrest =>
              have hnext : cn.NextSibling = hx.NextSibling := by
                rcases hf1.2 c hx hdx with e | e <;> rw [hc1] at e <;> cases e <;> rfl
              rw [hnext] at hv2
              exact attrsClean_before hf1
                (hv2 c' j (onChain_filtered hf1 hrest) (visits_filtered hf1 hv))

/-- More fuel does not change the result of the traversal. -/
theorem sanitize_fuel_succ : ∀ (fuel : Nat),
    (∀ (d : Dom) (n : Nat) (d2 : Dom), sanitizeNode fuel d n = .ok d2 →
      sanitizeNode (fuel + 1) d n = .ok d2) ∧
    (∀ (d : Dom) (f : Option Nat) (d2 : Dom), sanitizeChildren fuel d f = .ok d2 →
      sanitizeChildren (fuel + 1) d f = .ok d2) := by
  intro fuel
  induction fuel with
  | zero =>
    constructor
    · intro d n d2 h
      simp [sanitizeNode] at h
    · intro d f d2 h
      simp [sanitizeChildren] at h
  | succ fuel ih =>
    obtain ⟨ihN, ihC⟩ := ih
    constructor
    · intro d n d2 h
      unfold sanitizeNode at h ⊢
      cases hd : d[n]? with
      | none => rw [hd] at h; cases h
      | some hn =>
        rw [hd] at h
        dsimp only at h ⊢
        cases ha : (if hn.Typ = HType.ElementNode then sanitizeAttrs hn.Attr.length hn.Attr
            else Except.ok hn.Attr) with
        | error e => rw [ha] at h; cases h
        | ok attrs =>
          rw [ha] at h
          dsimp only at h ⊢
          exact ihC _ _ _ h
    · intro d f d2 h
      cases f with
      | none =>
        simp only [sanitizeChildren] at h ⊢
        exact h
      | some c =>
        unfold sanitizeChildren at h ⊢
        cases h1 : sanitizeNode fuel d c with
        | error e => rw [h1] at h; cases h
        | ok d1 =>
          rw [h1] at h
          rw [ihN _ _ _ h1]
          dsimp only at h ⊢
          cases hc1 : d1[c]? with
          | none => rw [hc1] at h; cases h
          | some cn =>
            rw [hc1] at h
            dsimp only at h ⊢
            exact ihC _ _ _ h

theorem sanitizeNode_fuel (fuel k : Nat) (d : Dom) (n : Nat) (d2 : Dom)
    (h : sanitizeNode fuel d n = .ok d2) : sanitizeNode (fuel + k) d n = .ok d2 := by
  induction k with
  | zero => exact h
  | succ k ih => exact (sanitize_fuel_succ _).1 _ _ _ ih

theorem sanitizeChildren_fuel (fuel k : Nat) (d : Dom) (f : Option Nat) (d2 : Dom)
    (h : sanitizeChildren fuel d f = .ok d2) : sanitizeChildren (fuel + k) d f = .ok d2 := by
  induction k with
  | zero => exact h
  | succ k ih => exact (sanitize_fuel_succ _).2 _ _ _ ih

/-- The step of `f` on a node of the DOM, with fuel for its children. -/
theorem sanitizeNode_step (fuel : Nat) (d : Dom) (n : Nat) (hn : HNode)
    (hd : d[n]? = some hn) :
    sanitizeNode (fuel + 1) d n = sanitizeChildren fuel (upd d n (fun x => { x with
      Attr := (if hn.Typ = HType.ElementNode then safeAttrs hn.Attr else hn.Attr) }))
      hn.FirstChild := by
  unfold sanitizeNode
  rw [hd]
  dsimp only
  have hattrs : (if hn.Typ = HType.ElementNode then sanitizeAttrs hn.Attr.length hn.Attr
      else Except.ok hn.Attr) =
      Except.ok (if hn.Typ = HType.ElementNode then safeAttrs hn.Attr else hn.Attr) := by
    split
    · exact sanitizeAttrs_eq _
    · rfl
  rw [hattrs]

/-- On finite trees the traversal returns: from some amount of fuel on, the
walk over a chain of siblings gives a DOM, also when attribute lists were
filtered before. -/
theorem sanitizeChildren_returns {d : Dom} {f : Option Nat} (w : Walkable d f) :
    ∀ d1, AttrsFiltered d d1 → ∃ fuel d2, sanitizeChildren fuel d1 f = .ok d2 := by
  induction w with
  | done => exact fun d1 _ => ⟨1, d1, rfl⟩
  | node c cn hc _ _ ih1 ih2 =>
    intro d1 a
    obtain ⟨cn1, hc1, hfc, -⟩ : ∃ cn1, d1[c]? = some cn1 ∧ cn1.FirstChild = cn.FirstChild ∧
        cn1.NextSibling = cn.NextSibling := by
      rcases a.2 c cn hc with e | e
      · exact ⟨_, e, rfl, rfl⟩
      · exact ⟨_, e, rfl, rfl⟩
    obtain ⟨hs, -⟩ := attrsFiltered_step d1 c cn1 hc1
    obtain ⟨k1, d2, h1⟩ := ih1 _ (attrsFiltered_trans a hs)
    rw [← hfc, ← sanitizeNode_step k1 d1 c cn1 hc1] at h1
    have a2 : AttrsFiltered d d2 := attrsFiltered_trans a ((sanitize_walk _).1 _ _ _ h1).1
    obtain ⟨cn2, hc2, hns⟩ : ∃ cn2, d2[c]? = some cn2 ∧ cn2.NextSibling = cn.NextSibling := by
      rcases a2.2 c cn hc with e | e
      · exact ⟨_, e, rfl⟩
      · exact ⟨_, e, rfl⟩
    obtain ⟨k2, d3, h2⟩ := ih2 _ a2
    refine ⟨(k1 + 1 + k2) + 1, d3, ?_⟩
    unfold sanitizeChildren
    rw [sanitizeNode_fuel _ k2 _ _ _ h1]
    dsimp only
    rw [hc2]
    dsimp only
    rw [hns, Nat.add_comm (k1 + 1) k2]
    exact sanitizeChildren_fuel _ _ _ _ _ h2

/-- On a finite tree the call of `f` on its root returns, with any fuel from
some amount on. -/
theorem sanitizeNode_returns (d : Dom) (n : Nat) (hn : HNode) (hd : d[n]? = some hn)
    (w : Walkable d hn.FirstChild) :
    ∃ fuel d2, ∀ k, sanitizeNode (fuel + k) d n = .ok d2 := by
  obtain ⟨k1, d2, h1⟩ := sanitizeChildren_returns w _ (attrsFiltered_step d n hn hd).1
  rw [← sanitizeNode_step k1 d n hn hd] at h1
  exact ⟨k1 + 1, d2, fun k => sanitizeNode_fuel _ k _ _ _ h1⟩

/-- A decoration with its open marker, linked by `pushTip`: its kind and its
only child. -/
theorem pushed_decoration (h : Heap) (p : Nat) (data : Str) (k o : NodeType) (m : Str)
    (hp : p < h.length) :
    Ast.typOf (Ast.AppendNew h p (Sub.mk { Typ := k, Tokens := data } [astNode o m]))
        h.length = k ∧
      Ast.kids (Ast.AppendNew h p (Sub.mk { Typ := k, Tokens := data } [astNode o m]))
        h.length = [(o, m)] :=
  kids_AppendNew h p { Typ := k, Tokens := data } [{ Typ := o, Tokens := m }] hp (by simp)

theorem caseStrong_opens (n : Nat) (s : State) (hn : HNode) (tn : Node)
    (hd : s.dom[n]? = some hn) (ht : s.nodes[s.Tip]? = some tn)
    (h1 : TrimSpace (DomText s.dom (some n)) ≠ []) (h2 : tn.Typ ≠ NodeStrong)
    (h3 : Ast.ParentIs s.nodes s.Tip NodeStrong = false) :
    ∃ i s', caseStrong n s = .ok (Visit.opened i, s') ∧ s'.Tip = i ∧
      Ast.typOf s'.nodes i = NodeStrong ∧
      Ast.kids s'.nodes i = [(NodeStrongA6kOpenMarker, "**".toList)] := by
  have hlt := lt_of_getElem? ht
  have hg : ¬ (tn.Typ = NodeStrong ∨ Ast.ParentIs s.nodes s.Tip NodeStrong = true) := by
    rintro (h | h)
    · exact h2 h
    · rw [h3] at h; cases h
  unfold caseStrong
  rw [bind_run (hnode_ok hd), bind_run (getDom_ok s)]
  dsimp only
  rw [if_neg h1, bind_run (pure_ok _ _), bind_run (getHeap_ok s), bind_run (getTip_ok s),
    bind_run (tipNode_ok ht), if_neg hg, bind_run (pure_ok _ _),
    bind_run (tipLastChildTyp_ok ht)]
  by_cases hl : tn.LastChild.map (Ast.typOf s.nodes) = some NodeStrong ∨
      tn.LastChild.map (Ast.typOf s.nodes) = some NodeEmphasis
  · rw [if_pos hl, bind_run (tipAppend_ok _ _), bind_run (pure_ok _ _),
      bind_run (pushTip_ok _ _)]
    have hlen : (Ast.AppendNew s.nodes s.Tip zwspText).length = s.nodes.length + 1 :=
      length_AppendNew_leaf _ _ _
    exact ⟨_, _, rfl, rfl, pushed_decoration _ s.Tip _ _ _ _ (by rw [hlen]; omega)⟩
  · rw [if_neg hl, bind_run (pure_ok _ _), bind_run (pushTip_ok _ _)]
    exact ⟨_, _, rfl, rfl, pushed_decoration _ s.Tip _ _ _ _ hlt⟩

theorem caseEm_opens (n : Nat) (s : State) (hn : HNode) (tn : Node)
    (hd : s.dom[n]? = some hn) (ht : s.nodes[s.Tip]? = some tn)
    (h1 : TrimSpace (DomText s.dom (some n)) ≠ []) (h2 : tn.Typ ≠ NodeEmphasis)
    (h3 : Ast.ParentIs s.nodes s.Tip NodeEmphasis = false) :
    ∃ i s', caseEm n s = .ok (Visit.opened i, s') ∧ s'.Tip = i ∧
      Ast.typOf s'.nodes i = NodeEmphasis ∧
      Ast.kids s'.nodes i = [(NodeEmA6kOpenMarker, "*".toList)] := by
  have hlt := lt_of_getElem? ht
  have hg : ¬ (tn.Typ = NodeEmphasis ∨ Ast.ParentIs s.nodes s.Tip NodeEmphasis = true) := by
    rintro (h | h)
    · exact h2 h
    · rw [h3] at h; cases h
  unfold caseEm
  rw [bind_run (hnode_ok hd), bind_run (getDom_ok s)]
  dsimp only
  rw [if_neg h1, bind_run (pure_ok _ _), bind_run (getHeap_ok s), bind_run (getTip_ok s),
    bind_run (tipNode_ok ht), if_neg hg, bind_run (pure_ok _ _),
    bind_run (tipLastChildTyp_ok ht)]
  by_cases hl : tn.LastChild.map (Ast.typOf s.nodes) = some NodeStrong ∨
      tn.LastChild.map (Ast.typOf s.nodes) = some NodeEmphasis
  · rw [if_pos hl, bind_run (tipAppend_ok _ _), bind_run (pure_ok _ _),
      bind_run (pushTip_ok _ _)]
    have hlen : (Ast.AppendNew s.nodes s.Tip zwspText).length = s.nodes.length + 1 :=
      length_AppendNew_leaf _ _ _
    exact ⟨_, _, rfl, rfl, pushed_decoration _ s.Tip _ _ _ _ (by rw [hlen]; omega)⟩
  · rw [if_neg hl, bind_run (pure_ok _ _), bind_run (pushTip_ok _ _)]
    exact ⟨_, _, rfl, rfl, pushed_decoration _ s.Tip _ _ _ _ hlt⟩

theorem caseDecoration_opens (n : Nat) (s : State) (hn : HNode) (tn : Node) (k o : NodeType)
    (m : Str) (hd : s.dom[n]? = some hn) (ht : s.nodes[s.Tip]? = some tn) :
    ∃ i s', caseDecoration n k o m s = .ok (Visit.opened i, s') ∧ s'.Tip = i ∧
      Ast.typOf s'.nodes i = k ∧ Ast.kids s'.nodes i = [(o, m)] := by
  unfold caseDecoration
  rw [bind_run (hnode_ok hd), bind_run (pushTip_ok _ _)]
  exact ⟨_, _, rfl, rfl, pushed_decoration _ s.Tip _ _ _ _ (lt_of_getElem? ht)⟩

theorem nodeAppend_ok (i : Nat) (c : Sub) (s : State) :
    nodeAppend (some i) c s = .ok ((), { s with nodes := Ast.AppendNew s.nodes i c }) := rfl

/-- The second switch on a decoration that the first switch linked as node `i`:
the close marker of the table is appended to it, then `appendSpace` runs. -/
theorem switchPost_closes (L : Lute) (n : Nat) (a : Atom) (k o c : NodeType) (m : Str) (i : Nat)
    (s : State) (ha : decorationMarkers a = some (k, o, c, m)) :
    switchPost L n a (some i) s =
      appendSpace L n { s with nodes := Ast.AppendNew s.nodes i (astNode c m) } := by
  cases a <;> simp only [decorationMarkers] at ha <;> cases ha <;>
    (unfold switchPost
     dsimp only
     rw [bind_run (nodeAppend_ok _ _ _)])

/-- The close marker that `node.AppendChild` links: its kind, its tokens and its
parent. -/
theorem close_marker_linked (h : Heap) (i : Nat) (c : NodeType) (m : Str) (hi : i < h.length) :
    ∃ x, (Ast.AppendNew h i (astNode c m))[h.length]? = some x ∧ x.Typ = c ∧ x.Tokens = m ∧
      Ast.parentOf (Ast.AppendNew h i (astNode c m)) h.length = some i := by
  obtain ⟨x, hx, hb⟩ := of_bare (bare_AppendNew_new h i (astNode c m))
  exact ⟨x, hx, congrArg Node.Typ hb, congrArg Node.Tokens hb,
    (AppendNew_new h i (astNode c m) hi).2⟩

/-- A string without `a b` has no `a` right before a `b`. -/
theorem no_pair_at (a b : Char) : ∀ (s : Str), Contains s [a, b] = false →
    ∀ i, s[i]? = some a → s[i + 1]? ≠ some b := by
  intro s
  induction s with
  | nil => intro _ i h; simp at h
  | cons c cs ih =>
    intro hc i hi
    rw [Contains_cons] at hc
    simp only [Bool.or_eq_false_iff] at hc
    cases i with
    | zero =>
      intro h1
      simp only [List.getElem?_cons_zero, Option.some.injEq] at hi
      have : [a, b].isPrefixOf (c :: cs) = true := by
        rw [isPrefixOf_two]
        refine ⟨hi.symm, ?_⟩
        cases cs with
        | nil => simp at h1
        | cons d ds => simpa using h1
      rw [this] at hc
      cases hc.1
    | succ j =>
      have h2 : cs[j]? = some a := by simpa using hi
      have := ih hc.2 j h2
      simpa using this

/-- The pipe normalisation is idempotent, and it does not change what is left
when every backslash right before a pipe is removed. -/
theorem pipeNormal_idem {α : Type} [DecidableEq α] (b p : α) (hbp : b ≠ p) (x : List α) :
    pipeNormal b p (pipeNormal b p x) = pipeNormal b p x ∧
      ReplaceAll (pipeNormal b p x) [b, p] [p] = ReplaceAll x [b, p] [p] := by
  unfold pipeNormal
  rw [unescape_of_escape b p hbp]
  exact ⟨rfl, rfl⟩

/-! ### Blocks in a table -/

/-- The loop of lines 467-482 returns, and appends the nodes of `degradedSubs`
to the tip. -/
theorem degradeLines_run (L : Lute) (total : Nat) (lines : List Str) :
    ∀ (i : Nat) (s : State), degradeLines L total i lines s =
      .ok ((), { s with nodes := (List.foldl (fun h c => Ast.AppendNew h s.Tip c) s.nodes
        (degradedSubs L total i lines)) }) := by
  induction lines with
  | nil => intro i s; rfl
  | cons line rest ih =>
    intro i s
    unfold degradeLines degradedSubs
    by_cases h0 : 0 < line.length
    · rw [if_pos h0, if_pos h0, bind_run (tipAppend_ok _ s)]
      by_cases h1 : i < total - 1
      · rw [if_pos h1, if_pos h1]
        unfold lineBreak
        cases hw : L.ProtyleWYSIWYG
        · simp only [Bool.false_eq_true, if_false]
          rw [bind_run (tipAppend_ok _ _)]
          simp only [pure_bind]
          rw [ih]
          simp only [List.cons_append, List.nil_append, List.foldl_cons]
        · simp only [if_true]
          rw [bind_run (tipAppend_ok _ _)]
          simp only [pure_bind]
          rw [ih]
          simp only [List.cons_append, List.nil_append, List.foldl_cons]
      · rw [if_neg h1, if_neg h1]
        simp only [pure_bind]
        rw [ih]
        simp only [List.cons_append, List.nil_append, List.foldl_cons]
    · rw [if_neg h0, if_neg h0]
      simp only [pure_bind]
      rw [ih]
      simp only [List.nil_append]

/-- The nodes of `degradedSubs` are the code spans of the non-empty lines, in
the order of the lines, each followed by at most one break. -/
theorem degradedSubs_spans (L : Lute) (total : Nat) (lines : List Str) :
    ∀ i : Nat, ∃ breaks : List Bool,
      breaks.length = (lines.filter (fun l => decide (l ≠ []))).length ∧
      degradedSubs L total i lines =
        spansAndBreaks L (lines.filter (fun l => decide (l ≠ []))) breaks := by
  induction lines with
  | nil => exact fun _ => ⟨[], rfl, rfl⟩
  | cons line rest ih =>
    intro i
    obtain ⟨bs, hl, hs⟩ := ih (i + 1)
    unfold degradedSubs
    cases line with
    | nil =>
      refine ⟨bs, ?_, ?_⟩
      · simpa using hl
      · simpa using hs
    | cons c cs =>
      refine ⟨decide (i < total - 1) :: bs, ?_, ?_⟩
      · simp [hl]
      · rw [hs]
        by_cases h1 : i < total - 1 <;> simp [spansAndBreaks, h1]

/-- A `pre` met while the tip has a `Table` ancestor, none of them a single-cell
table: `placeCodeBlock` returns, the tip stays, and the tip gets the code spans
of the non-empty lines of the content, each followed by at most one break. -/
theorem placeCodeBlock_spans (L : Lute) (node : Sub) (content : Str) (s : State)
    (ht : Ast.ParentIs s.nodes s.Tip NodeTable = true)
    (hf : findSingleCellTable s.nodes
      (Ast.ancestors s.nodes (s.nodes.length + 1) (Ast.parentOf s.nodes s.Tip)) = .ok none) :
    ∃ breaks : List Bool,
      breaks.length = ((Split content ['\n']).filter (fun l => decide (l ≠ []))).length ∧
      placeCodeBlock L node content s =
        .ok ((), { s with nodes := (List.foldl (fun h c => Ast.AppendNew h s.Tip c) s.nodes
          (spansAndBreaks L ((Split content ['\n']).filter (fun l => decide (l ≠ [])))
            breaks)) }) := by
  obtain ⟨bs, hl, hs⟩ := degradedSubs_spans L (Split content ['\n']).length
    (Split content ['\n']) 0
  refine ⟨bs, hl, ?_⟩
  unfold placeCodeBlock
  rw [bind_run (getHeap_ok s), bind_run (getTip_ok s), if_pos ht, hf]
  dsimp only
  rw [degradeLines_run, hs]

/-- In a table, `p`, `div` and `section` return to the loop over the children
with the tree as it was or with one `Br` more under the tip. -/
theorem caseP_table_run (n : Nat) (s : State) (hn : HNode) (tn : Node)
    (hd : s.dom[n]? = some hn) (ht : s.nodes[s.Tip]? = some tn)
    (hp : parentIs s.dom n [Atom.Table] = true) :
    caseP n s = .ok (Visit.brk,
      if tn.Typ = NodeLink ∨
          (hn.PrevSibling ≠ none ∧ Contains (dataOf s.dom hn.PrevSibling) ['\n'] = true) ∨
          (hn.NextSibling ≠ none ∧ Contains (dataOf s.dom hn.NextSibling) ['\n'] = true) ∨
          tn.FirstChild = none then s
      else { s with nodes := (Ast.AppendNew s.nodes s.Tip (astNode NodeBr)) }) := by
  unfold caseP
  rw [bind_run (hnode_ok hd), bind_run (getDom_ok s), bind_run (tipNode_ok ht)]
  by_cases h1 : tn.Typ = NodeLink
  · rw [if_pos h1, if_pos (Or.inl h1)]
    rfl
  · simp only [if_neg h1, pure_bind, hp, if_true]
    by_cases h2 : hn.PrevSibling ≠ none ∧ Contains (dataOf s.dom hn.PrevSibling) ['\n'] = true
    · rw [if_pos h2, if_pos (Or.inr (Or.inl h2))]
      rfl
    · rw [if_neg h2]
      try simp only [pure_bind]
      by_cases h3 : hn.NextSibling ≠ none ∧ Contains (dataOf s.dom hn.NextSibling) ['\n'] = true
      · rw [if_pos h3, if_pos (Or.inr (Or.inr (Or.inl h3)))]
        rfl
      · rw [if_neg h3]
        try simp only [pure_bind]
        rw [bind_run (tipNode_ok ht)]
        by_cases h4 : tn.FirstChild = none
        · rw [if_pos h4, if_pos (Or.inr (Or.inr (Or.inr h4)))]
          rfl
        · rw [if_neg h4, if_neg (by tauto)]
          try simp only [pure_bind]
          rw [bind_run (tipAppend_ok _ s)]
          rfl

/-! ## The claims -/

/-- C1 (code bug): on the input `<p>x<em><strong> a</strong></em>b</p>` the
conversion panics: `appendSpace` dereferences the absent text child of the
`Emphasis` node at the tip (line 992 of h2m.go). -/
theorem appendSpace_nil_deref :
    HTML2Tree (engine inSpace domSpace) 100 inSpace.toList = .error Panic.nilDeref := by
  decide!

/-- C2 (counterexample): the tree of `<ul><ul><li>a</li></ul></ul>` has a `List`
whose parent is a `List`. -/
theorem nested_list_stays :
    treeHas (HTML2Tree (engine inNested domNested) 100 inNested.toList)
      Tree.listUnderList = true := by
  decide!

/-- C2 (amended): a call of the callback of lines 63-77 on entering node `n`.
On a `List` whose parent `p` is a `List` and which has a previous sibling `i`,
the call unlinks the list and makes it the last child of `i`: its parent is `i`,
it comes after the former last child of `i` and has no next sibling, the next
sibling of `i` is the former next sibling of the list, and `p` keeps its first
child and ends with `i` if it ended with the list. On a node that is not a
`List`, that has no parent, whose parent is not a `List`, or that has no
previous sibling, the call leaves the tree as it is. -/
theorem list_relocation (h : Heap) (n : Nat) (nd : Node) (hn : h[n]? = some nd) :
    (∀ (p i : Nat) (pd id : Node), nd.Typ = NodeList → nd.Parent = some p →
      h[p]? = some pd → pd.Typ = NodeList → nd.Previous = some i → h[i]? = some id →
      n ≠ i → i ≠ p → n ≠ p → id.LastChild ≠ some n →
      (∃ x, (relocateList h n)[n]? = some x ∧ x.Parent = some i ∧
        x.Previous = id.LastChild ∧ x.Next = none) ∧
      (∃ y, (relocateList h n)[i]? = some y ∧ y.LastChild = some n ∧
        (id.LastChild ≠ some i → y.Next = nd.Next)) ∧
      (∃ z, (relocateList h n)[p]? = some z ∧ z.FirstChild = pd.FirstChild ∧
        (nd.Next = none → z.LastChild = some i) ∧
        (nd.Next ≠ none → z.LastChild = pd.LastChild))) ∧
    ((nd.Typ ≠ NodeList ∨ nd.Parent = none ∨
        (∃ p, nd.Parent = some p ∧ Ast.typOf h p ≠ NodeList) ∨ nd.Previous = none) →
      relocateList h n = h) := by
  refine ⟨fun p i pd id ht hp hpd hpt hi hid hni hip hnp hln => ?_,
    fun hc => relocateList_idle h n nd hn hc⟩
  obtain ⟨_, hx, hy, hz, _⟩ :=
    relocateList_after h n p i nd pd id hn ht hp hpd hpt hi hid hni hip hnp hln
  exact ⟨hx, hy, hz⟩

/-- Witness of `list_relocation`: in `heapNested` the inner list (node 3) moves
from the outer list (node 1) under the list item before it (node 2), which gets
it as its last child, and the outer list ends with the list item; a call on the
list item leaves the heap as it is. -/
theorem list_relocation_witness :
    ((∃ x, (relocateList heapNested 3)[3]? = some x ∧ x.Parent = some 2 ∧
        x.Previous = none ∧ x.Next = none) ∧
      (∃ y, (relocateList heapNested 3)[2]? = some y ∧ y.LastChild = some 3 ∧
        y.Next = none) ∧
      (∃ z, (relocateList heapNested 3)[1]? = some z ∧ z.FirstChild = some 2 ∧
        z.LastChild = some 2)) ∧
    relocateList heapNested 2 = heapNested := by
  obtain ⟨⟨x, hx, h1, h2, h3⟩, ⟨y, hy, h4, h5⟩, ⟨z, hz, h6, h7, _⟩⟩ :=
    (list_relocation heapNested 3 (heapNested.getD 3 {}) (by decide)).1 1 2
      (heapNested.getD 1 {}) (heapNested.getD 2 {}) (by decide) (by decide) (by decide)
      (by decide) (by decide) (by decide) (by decide) (by decide) (by decide) (by decide)
  exact ⟨⟨⟨x, hx, h1, h2, h3⟩, ⟨y, hy, h4, h5 (by decide)⟩, ⟨z, hz, h6, h7 (by decide)⟩⟩,
    (list_relocation heapNested 2 (heapNested.getD 2 {}) (by decide)).2 (Or.inl (by decide))⟩

/-- C3 (counterexample): the code block of `<div class="highlight-source-c_x">`
carries the info string `c_x`, with an underscore, and the code block of
`<pre><code class="language-a&#9;b">` the info string `a&#9;b`, with a tab. -/
theorem info_unclean :
    treeHas (HTML2Tree (engine inSource domSource) 100 inSource.toList)
        Tree.infoUnclean = true ∧
      treeHas (HTML2Tree (engine inTab domTab) 100 inTab.toList) Tree.infoUnclean = true := by
  decide!

/-- C3 (amended): the info string that the `pre` case computes for the fence-info
marker of its code block contains no hyphen, no underscore and no space. -/
theorem pre_info_filtered (childClass preClass : Str) (childIsCode span2Code : Bool) :
    ContainsAny (preInfo childClass preClass childIsCode span2Code) ['-', '_', ' '] = false :=
  preInfo_clean childClass preClass childIsCode span2Code

/-- C4 (counterexample): in the tree of `<p><del>a</del><del>b</del></p>` two
`Strikethrough` nodes are adjacent siblings. -/
theorem adjacent_strikethrough :
    treeHas (HTML2Tree (engine inDel domDel) 100 inDel.toList)
      Tree.adjacentKindred = true := by
  decide!

/-- C4 (amended): when the last child of the tip is a `Strong` or an `Emphasis`,
the `Emphasis` or `Strong` node that the cases `em`/`i` and `strong`/`b` emit has
a zero-width-separator text node as its previous sibling; when it is a
`CodeSpan`, so has the `CodeSpan` that the case `code` emits for an element with
a child. -/
theorem kindred_separator (L : Lute) (n : Nat) (s : State) (tn : Node) (l : Nat)
    (htip : s.nodes[s.Tip]? = some tn) (hl : tn.LastChild = some l) :
    (∀ s' i, (Ast.typOf s.nodes l = NodeStrong ∨ Ast.typOf s.nodes l = NodeEmphasis) →
        caseEm n s = .ok (Visit.opened i, s') → s'.Tip = i ∧ SepBefore s'.nodes i NodeEmphasis) ∧
      (∀ s' i, (Ast.typOf s.nodes l = NodeStrong ∨ Ast.typOf s.nodes l = NodeEmphasis) →
        caseStrong n s = .ok (Visit.opened i, s') → s'.Tip = i ∧ SepBefore s'.nodes i NodeStrong) ∧
      (∀ s' v hn, Ast.typOf s.nodes l = NodeCodeSpan → s.dom[n]? = some hn →
        hn.FirstChild ≠ none → caseCode L n s = .ok (v, s') →
        SepBefore s'.nodes s'.Tip NodeCodeSpan) :=
  ⟨fun s' i ht h => caseEm_sep n s s' i tn l htip hl ht h,
   fun s' i ht h => caseStrong_sep n s s' i tn l htip hl ht h,
   fun s' v hn ht hdom hfc h => caseCode_sep L n s s' v tn l hn hdom hfc htip hl ht h⟩

/-- Witness of `kindred_separator`: on entering the `em` of
`<p><strong>a</strong><em>b</em></p>` the separator (node 3) comes before the
`Emphasis` (node 4). -/
theorem kindred_separator_witness :
    (endState (caseEm 4) stKin).Tip = 4 ∧
      SepBefore (endState (caseEm 4) stKin).nodes 4 NodeEmphasis :=
  (kindred_separator (engine inDel domDel) 4 stKin
    { Typ := NodeParagraph, Parent := some 0, FirstChild := some 2, LastChild := some 2 } 2
    rfl rfl).1 (endState (caseEm 4) stKin) 4 (Or.inl (by decide)) (by decide!)

/-- C5 (counterexample): in the tree of
`<table><tbody><tr><td><ul><li><figure><img src="x"></figure></li></ul></td></tr></tbody></table>`
a `Paragraph` lies under a `TableCell`, and in the tree of `inCellTable` a
`CodeBlock` does. -/
theorem block_under_cell :
    treeHas (HTML2Tree (engine inFigure domFigure) 100 inFigure.toList)
        Tree.blockUnderCell = true ∧
      treeHas (HTML2Tree (engine inCellTable domCellTable) 100 inCellTable.toList)
        Tree.blockUnderCell = true := by
  decide!

/-- C5 (amended): for a `p`, `div` or `section` element with a `table` ancestor
the first switch emits no `Paragraph` and no `CodeBlock`: it returns to the loop
over the children with the tree as it was, or with one `Br` appended to the
tip when the tip is not a `Link` and has a child and neither DOM sibling of the
element holds a line break. For a `pre` met while the tip has a `Table`
ancestor, none of them a single-cell table, `placeCodeBlock` returns with the
tip where it was and appends to the tip, instead of the code block, one code
span for every non-empty line of the content, in the order of the lines, each
followed by at most one break, and nothing else. -/
theorem table_blocks_collapse (L : Lute) (n : Nat) (node : Sub) (content : Str)
    (s : State) (tn : Node) (ht : s.nodes[s.Tip]? = some tn) :
    (∀ hn, s.dom[n]? = some hn → parentIs s.dom n [.Table] = true →
      caseP n s = .ok (Visit.brk,
        if tn.Typ = NodeLink ∨
            (hn.PrevSibling ≠ none ∧ Contains (dataOf s.dom hn.PrevSibling) ['\n'] = true) ∨
            (hn.NextSibling ≠ none ∧ Contains (dataOf s.dom hn.NextSibling) ['\n'] = true) ∨
            tn.FirstChild = none then s
        else { s with nodes := (Ast.AppendNew s.nodes s.Tip (astNode NodeBr)) })) ∧
    (Ast.ParentIs s.nodes s.Tip NodeTable = true →
      findSingleCellTable s.nodes
        (Ast.ancestors s.nodes (s.nodes.length + 1) (Ast.parentOf s.nodes s.Tip)) = .ok none →
      ∃ breaks : List Bool,
        breaks.length = ((Split content ['\n']).filter (fun l => decide (l ≠ []))).length ∧
        placeCodeBlock L node content s =
          .ok ((), { s with nodes := (List.foldl (fun h c => Ast.AppendNew h s.Tip c) s.nodes
            ((((Split content ['\n']).filter (fun l => decide (l ≠ []))).zip breaks).flatMap
              (fun lb => lineCodeSpan lb.1 ::
                (if lb.2 then
                  [if L.ProtyleWYSIWYG then astNode NodeBr else astNode NodeHardBreak ['\n']]
                 else [])))) })) :=
  ⟨fun hn hd hp => caseP_table_run n s hn tn hd ht hp,
   fun hp hf => placeCodeBlock_spans L node content s hp hf⟩

/-- Witness of `table_blocks_collapse`: the `p` of
`<table><tbody><tr><td>a<p>x</p></td></tr></tbody></table>`, met while the tip is
the cell with the text `a`, appends a `Br` to the cell; the code block of the
content `x`, line break, `y`, met in the cell of the second row of a table,
becomes the code span of `x`, a `HardBreak` and the code span of `y` under the
cell. -/
theorem table_blocks_collapse_witness :
    caseP 6 stCellText = .ok (Visit.brk, { stCellText with
        nodes := (Ast.AppendNew stCellText.nodes stCellText.Tip (astNode NodeBr)) }) ∧
      (∃ breaks : List Bool, breaks.length = 2 ∧
        placeCodeBlock (engine inDel domDel) (astNode NodeCodeBlock) "x\ny".toList stRows =
          .ok ((), { stRows with
            nodes := (List.foldl (fun h c => Ast.AppendNew h stRows.Tip c) stRows.nodes
              ((["x".toList, "y".toList].zip breaks).flatMap
                (fun lb => lineCodeSpan lb.1 ::
                  (if lb.2 then [astNode NodeHardBreak ['\n']] else [])))) })) ∧
      placeCodeBlock (engine inDel domDel) (astNode NodeCodeBlock) "x\ny".toList stRows =
        .ok ((), { stRows with
          nodes := (List.foldl (fun h c => Ast.AppendNew h stRows.Tip c) stRows.nodes
            [lineCodeSpan "x".toList, astNode NodeHardBreak ['\n'],
             lineCodeSpan "y".toList]) }) :=
  ⟨((table_blocks_collapse (engine inDel domDel) 6 (astNode NodeCodeBlock) []
      stCellText (stCellText.nodes.getD 4 {}) (by decide!)).1
      (domCellText.getD 6 {}) (by decide!) (by decide!)).trans (by decide!),
   (table_blocks_collapse (engine inDel domDel) 6 (astNode NodeCodeBlock) "x\ny".toList
      stRows (stRows.nodes.getD 7 {}) (by decide!)).2 (by decide!) (by decide!),
   by decide!⟩

/-- C6: when the loop over the children of the HTML root ends, the tip is node
0, the `Document` root that the builder started from. -/
theorem tip_returns_to_document (L : Lute) (fuel : Nat) (dom : Dom) (s : State)
    (h : genTree L fuel dom = .ok s) :
    s.Tip = 0 ∧ Ast.typOf s.nodes s.Tip = NodeDocument := by
  have f := genTree_framed L fuel dom s h
  rw [f.tip]
  exact ⟨rfl, f.2.1.typ⟩

/-- Witness of `tip_returns_to_document`: the input
`<p><del>a</del><del>b</del></p>`. -/
theorem tip_returns_to_document_witness :
    stDel.Tip = 0 ∧ Ast.typOf stDel.nodes stDel.Tip = NodeDocument :=
  tip_returns_to_document (engine inDel domDel) 100 domDel stDel (by decide!)

/-- C7: the root of a tree that `HTML2Tree` returns is a node of kind `Document`
without a parent. -/
theorem root_is_document (L : Lute) (fuel : Nat) (html : Str) (t : Tree)
    (h : HTML2Tree L fuel html = .ok (some t)) :
    ∃ nd, t.nodes[t.Root]? = some nd ∧ nd.Typ = NodeDocument ∧ nd.Parent = none := by
  obtain ⟨hr, _, nd, h0, ht, hp⟩ := HTML2Tree_root L fuel html t h
  rw [hr]
  exact ⟨nd, h0, ht, hp⟩

/-- Witness of `root_is_document`: the tree of `<p><del>a</del><del>b</del></p>`. -/
theorem root_is_document_witness :
    ∃ nd, treeDel.nodes[treeDel.Root]? = some nd ∧ nd.Typ = NodeDocument ∧ nd.Parent = none :=
  root_is_document (engine inDel domDel) 100 inDel.toList treeDel (by decide!)

/-- C8: when `parseHTML` yields no root, `HTML2Tree` returns the null tree and
`HTML2Markdown` the empty Markdown with a nil error. -/
theorem absent_root (L : Lute) (fuel : Nat) (html : Str) (h : L.parseHTML html = none) :
    HTML2Tree L fuel html = .ok none ∧ HTML2Markdown L fuel html = .ok ([], none) :=
  no_root L fuel html h

/-- Witness of `absent_root`: an engine whose parser has no root for `x`. -/
theorem absent_root_witness :
    HTML2Tree (engine inDel domDel) 7 "x".toList = .ok none ∧
      HTML2Markdown (engine inDel domDel) 7 "x".toList = .ok ([], none) :=
  absent_root (engine inDel domDel) 7 "x".toList (by decide)

/-- C9: for an `a` element the first switch, when it emits a node, moves the tip
to a new `Link` node whose only child is the `OpenBracket`, so that the nodes of
the label go under it; the second switch then makes the last children of that
node, in this order, `CloseBracket`, `OpenParen`, `LinkDest` with the `href`,
`LinkSpace` and `LinkTitle` with the title if and only if the title is not
empty, and `CloseParen`. -/
theorem link_children (L : Lute) (n : Nat) (s1 s2 s3 s4 : State) (i : Nat) (y : Node)
    (htip : s1.Tip < s1.nodes.length) (hpre : caseA n s1 = .ok (Visit.opened i, s2))
    (hi : s3.nodes[i]? = some y) (hpost : switchPost L n .A (some i) s3 = .ok ((), s4)) :
    (s2.Tip = i ∧ Ast.typOf s2.nodes i = NodeLink ∧
        Ast.kids s2.nodes i = [(NodeOpenBracket, [])]) ∧
      (DomAttrValue s3.dom (some n) "title".toList = [] →
        Ast.lastChildren s4.nodes i 4 =
          [(NodeCloseBracket, []), (NodeOpenParen, []),
           (NodeLinkDest, DomAttrValue s3.dom (some n) "href".toList), (NodeCloseParen, [])]) ∧
      (DomAttrValue s3.dom (some n) "title".toList ≠ [] →
        Ast.lastChildren s4.nodes i 6 =
          [(NodeCloseBracket, []), (NodeOpenParen, []),
           (NodeLinkDest, DomAttrValue s3.dom (some n) "href".toList), (NodeLinkSpace, []),
           (NodeLinkTitle, DomAttrValue s3.dom (some n) "title".toList),
           (NodeCloseParen, [])]) :=
  ⟨caseA_kids n s1 s2 i htip hpre, switchPost_A_kids L n s3 s4 i () y hi hpost⟩

/-- Witness of `link_children`: the element `<a href="/bar" title="baz">foo</a>`
at the root, the second switch run right after the first. -/
theorem link_children_witness :
    Ast.lastChildren
        (endState (switchPost (engine inDel domDel) 1 .A (some 1))
          (endState (caseA 1) (initState domLink))).nodes 1 6 =
      [(NodeCloseBracket, []), (NodeOpenParen, []), (NodeLinkDest, "/bar".toList),
       (NodeLinkSpace, []), (NodeLinkTitle, "baz".toList), (NodeCloseParen, [])] :=
  (link_children (engine inDel domDel) 1 (initState domLink) (endState (caseA 1) (initState domLink))
    (endState (caseA 1) (initState domLink))
    (endState (switchPost (engine inDel domDel) 1 .A (some 1))
      (endState (caseA 1) (initState domLink))) 1
    { Typ := NodeLink, Tokens := "a".toList, Parent := some 0, FirstChild := some 2,
      LastChild := some 2 }
    (by decide) (by decide!) (by decide!) (by decide!)).2.2 (by decide)

/-- C10: for an `img` whose class is not `emoji` the first switch moves the tip
to a new `Image` node whose children are, in this order, `Bang`, `OpenBracket`,
`LinkText` with the `alt` if and only if the `alt` is not empty, `CloseBracket`,
`OpenParen`, `LinkDest` with the resolved source, `LinkSpace` and `LinkTitle`
with the title if and only if the title is not empty, and `CloseParen`. -/
theorem image_children (L : Lute) (n : Nat) (s s' : State) (v : Visit)
    (hc : DomAttrValue s.dom (some n) "class".toList ≠ "emoji".toList)
    (h : caseImg L n s = .ok (v, s')) :
    v = Visit.opened s'.Tip ∧ Ast.typOf s'.nodes s'.Tip = NodeImage ∧
      Ast.kids s'.nodes s'.Tip =
        [(NodeBang, []), (NodeOpenBracket, [])] ++
        (if DomAttrValue s.dom (some n) "alt".toList ≠ [] then
           [(NodeLinkText, DomAttrValue s.dom (some n) "alt".toList)] else []) ++
        [(NodeCloseBracket, []), (NodeOpenParen, []), (NodeLinkDest, imgSrc s.dom n)] ++
        (if DomAttrValue s.dom (some n) "title".toList ≠ [] then
           [(NodeLinkSpace, []), (NodeLinkTitle, DomAttrValue s.dom (some n) "title".toList)]
         else []) ++
        [(NodeCloseParen, [])] :=
  caseImg_kids L n s s' v hc h

/-- Witness of `image_children`: the element `<img src="/bar" alt="foo"/>` at
the root. -/
theorem image_children_witness :
    Ast.kids (endState (caseImg (engine inDel domDel) 1) (initState domImg)).nodes
        (endState (caseImg (engine inDel domDel) 1) (initState domImg)).Tip =
      [(NodeBang, []), (NodeOpenBracket, []), (NodeLinkText, "foo".toList),
       (NodeCloseBracket, []), (NodeOpenParen, []), (NodeLinkDest, "/bar".toList),
       (NodeCloseParen, [])] :=
  (image_children (engine inDel domDel) 1 (initState domImg)
    (endState (caseImg (engine inDel domDel) 1) (initState domImg)) (Visit.opened 2)
    (by decide) (by decide!)).2.2

/-- C11: for `<img srcset="a.png 2x">`, an `img` without `src` whose `srcset`
holds one candidate, the `LinkDest` of the image is empty and not `a.png`: the
branch of lines 644-649 trims the empty `src` where the branch of lines 639-643
takes the candidate from `srcset`. For the two candidates `a.png 1x, b.png 2x`
the destination is `b.png`. -/
theorem srcset_single_candidate :
    imgSrc domSrcset 1 = [] ∧
      (treeOf (HTML2Tree (engine inSrcset domSrcset) 100 inSrcset.toList)).linkDests = [[]] ∧
      imgSrc domSrcsetTwo 1 = "b.png".toList := by
  decide!

/-- C12: for an element `h1` ... `h6` whose tag name ends in the digit `k`,
processed while the tip is no `Link`, the first switch emits a `Heading` of
level `k` with `1 <= k <= 6` and moves the tip to it; its children are exactly
one `HeadingC8hMarker` whose tokens are `k` characters `#`. -/
theorem heading_level (L : Lute) (n k : Nat) (a : Atom) (s : State) (hn : HNode) (tn : Node)
    (ha : a ∈ [Atom.H1, Atom.H2, Atom.H3, Atom.H4, Atom.H5, Atom.H6])
    (hd : s.dom[n]? = some hn) (hdata : hn.Data = ['h', Char.ofNat (48 + k)])
    (h1 : 1 ≤ k) (h6 : k ≤ 6) (ht : s.nodes[s.Tip]? = some tn) (hl : tn.Typ ≠ NodeLink) :
    ∃ s', switchPre L n a s = .ok (Visit.opened s.nodes.length, s') ∧
      s'.Tip = s.nodes.length ∧
      (∃ x, s'.nodes[s.nodes.length]? = some x ∧ x.Typ = NodeHeading ∧ x.HeadingLevel = k) ∧
      Ast.kids s'.nodes s.nodes.length = [(NodeHeadingC8hMarker, List.replicate k '#')] := by
  have e : switchPre L n a = caseHeading n := by
    simp only [List.mem_cons, List.mem_singleton, List.not_mem_nil, or_false] at ha
    rcases ha with rfl | rfl | rfl | rfl | rfl | rfl <;> rfl
  rw [e]
  exact caseHeading_emits n k s hn tn hd hdata h1 h6 ht hl

/-- Witness of `heading_level`: the element `<h2>foo</h2>` at the root gives
level 2 and the marker `##`. -/
theorem heading_level_witness :
    ∃ s', switchPre (engine inDel domDel) 1 Atom.H2 (initState domHead) =
        .ok (Visit.opened 1, s') ∧ s'.Tip = 1 ∧
      (∃ x, s'.nodes[1]? = some x ∧ x.Typ = NodeHeading ∧ x.HeadingLevel = 2) ∧
      Ast.kids s'.nodes 1 = [(NodeHeadingC8hMarker, ['#', '#'])] :=
  heading_level (engine inDel domDel) 1 2 Atom.H2 (initState domHead) _ _ (by decide) rfl rfl
    (by decide) (by decide) rfl (by decide)

/-- C13, counterexample: in `<ul><ol><li data-marker="2.">x</li></ol></ul>` the
`data-marker` of the `li` is `2.`, and the marker of the `ListItem` is `1.`. -/
theorem marker_overridden :
    DomAttrValue domMarker (some 3) "data-marker".toList = "2.".toList ∧
      (treeOf (HTML2Tree (engine inMarker domMarker) 100 inMarker.toList)).itemMarkers =
        ["1.".toList] := by
  decide!

/-- C13, amended: the `li` case emits a `ListItem` whose marker is the
`data-marker` attribute when it is non-empty, except that a `data-marker` other
than `1.` under an `ol` parent whose parent is an `ol` or `ul` gives `1.`; with
an empty `data-marker`, under an `ol` parent the marker is the `start` of the
parent followed by `.` (`1.` without `start`), and under any other parent it is
`*` with the bullet character `*` (byte 42). -/
theorem li_marker (L : Lute) (n : Nat) (s s' : State) (v : Visit) (hn : HNode)
    (hd : s.dom[n]? = some hn) (h : switchPre L n Atom.Li s = .ok (v, s')) :
    ∃ x d, s'.nodes[s.nodes.length]? = some x ∧ x.Typ = NodeListItem ∧ x.ListData = some d ∧
      (DomAttrValue s.dom (some n) "data-marker".toList ≠ [] →
        d.BulletChar = 0 ∧
        d.Marker =
          if DomAttrValue s.dom (some n) "data-marker".toList ≠ "1.".toList ∧
              parentAtom s.dom hn = some Atom.Ol ∧
              (grandAtom s.dom hn = some Atom.Ol ∨ grandAtom s.dom hn = some Atom.Ul) then
            "1.".toList
          else DomAttrValue s.dom (some n) "data-marker".toList) ∧
      (DomAttrValue s.dom (some n) "data-marker".toList = [] →
        parentAtom s.dom hn = some Atom.Ol →
        d.BulletChar = 0 ∧
        d.Marker =
          if DomAttrValue s.dom hn.Parent "start".toList = [] then "1.".toList
          else DomAttrValue s.dom hn.Parent "start".toList ++ ".".toList) ∧
      (DomAttrValue s.dom (some n) "data-marker".toList = [] →
        parentAtom s.dom hn ≠ some Atom.Ol →
        d.BulletChar = 42 ∧ d.Marker = "*".toList) := by
  obtain ⟨_, x, hx, hxt, hxd⟩ := caseLi_item n s s' v hn hd h
  refine ⟨x, _, hx, hxt, hxd, ?_, ?_, ?_⟩
  · intro hm
    unfold liMarker grandAtom
    dsimp only
    rw [if_neg hm]
    by_cases hc : hn.Parent ≠ none ∧
        DomAttrValue s.dom (some n) "data-marker".toList ≠ "1.".toList ∧
        parentAtom s.dom hn = some Atom.Ol ∧
        (hn.Parent.bind (fun p => (s.dom[p]?).bind (·.Parent))) ≠ none ∧
        ((hn.Parent.bind (fun p => (s.dom[p]?).bind (·.Parent))).map (atomOf s.dom) =
            some Atom.Ol ∨
          (hn.Parent.bind (fun p => (s.dom[p]?).bind (·.Parent))).map (atomOf s.dom) =
            some Atom.Ul)
    · rw [if_pos hc, if_pos ⟨hc.2.1, hc.2.2.1, hc.2.2.2.2⟩]
      exact ⟨rfl, rfl⟩
    · rw [if_neg hc, if_neg]
      · exact ⟨rfl, rfl⟩
      · rintro ⟨c1, c2, c3⟩
        apply hc
        refine ⟨?_, c1, c2, ?_, c3⟩
        · intro e
          rw [parentAtom, e] at c2
          cases c2
        · intro e
          rw [e] at c3
          rcases c3 with c3 | c3 <;> cases c3
  · intro hm hp
    unfold liMarker
    dsimp only
    rw [if_pos hm, if_pos hp]
    split <;> exact ⟨rfl, rfl⟩
  · intro hm hp
    unfold liMarker
    dsimp only
    rw [if_pos hm, if_neg hp]
    exact ⟨rfl, rfl⟩

/-- Witness of `li_marker`: the `li` of `<ul><ol><li data-marker="2.">x</li></ol></ul>`
processed at the root gets the marker `1.`. -/
theorem li_marker_witness :
    ∃ x d, (endState (switchPre (engine inMarker domMarker) 3 Atom.Li)
        (initState domMarker)).nodes[1]? = some x ∧ x.ListData = some d ∧
      d.Marker = "1.".toList := by
  obtain ⟨x, d, hx, _, hxd, h1, _, _⟩ := li_marker (engine inMarker domMarker) 3
    (initState domMarker)
    (endState (switchPre (engine inMarker domMarker) 3 Atom.Li) (initState domMarker))
    (Visit.opened 1) _ rfl (by decide!)
  exact ⟨x, d, hx, hxd, (h1 (by decide)).2.trans (by decide)⟩

/-- C14 (code bug): in `<ul><ol start="3"><li>x</li></ol></ul>` the `li` has an
`ol` parent and a `ul` grandparent, and the marker of the `ListItem` is `3.`,
not `1.`: the branch of the empty `data-marker` (lines 290-297 of h2m.go) takes
the `start` of the parent and has no test of the grandparent, which line 303
has for a `data-marker`. -/
theorem start_kept :
    parentAtom domStart (domStart.getD 3 {}) = some Atom.Ol ∧
      grandAtom domStart (domStart.getD 3 {}) = some Atom.Ul ∧
      (treeOf (HTML2Tree (engine inStart domStart) 100 inStart.toList)).itemMarkers =
        ["3.".toList] := by
  decide!

/-- The marker of a `li` whose parent is an `ol` and whose grandparent is an
`ol` or `ul`: `1.` whenever the `data-marker` attribute is non-empty; with an
empty `data-marker` it is the `start` of the parent followed by `.`, and `1.`
without `start`. -/
theorem nested_item_marker (L : Lute) (n : Nat) (s s' : State) (v : Visit) (hn : HNode)
    (hd : s.dom[n]? = some hn) (hp : parentAtom s.dom hn = some Atom.Ol)
    (hg : grandAtom s.dom hn = some Atom.Ol ∨ grandAtom s.dom hn = some Atom.Ul)
    (h : switchPre L n Atom.Li s = .ok (v, s')) :
    ∃ x d, s'.nodes[s.nodes.length]? = some x ∧ x.Typ = NodeListItem ∧ x.ListData = some d ∧
      (DomAttrValue s.dom (some n) "data-marker".toList ≠ [] → d.Marker = "1.".toList) ∧
      (DomAttrValue s.dom (some n) "data-marker".toList = [] →
        d.Marker =
          if DomAttrValue s.dom hn.Parent "start".toList = [] then "1.".toList
          else DomAttrValue s.dom hn.Parent "start".toList ++ ".".toList) := by
  obtain ⟨_, x, hx, hxt, hxd⟩ := caseLi_item n s s' v hn hd h
  have hpn : hn.Parent ≠ none := by
    intro e
    rw [parentAtom, e] at hp
    cases hp
  have hgn : (hn.Parent.bind (fun p => (s.dom[p]?).bind (·.Parent))) ≠ none := by
    intro e
    rw [grandAtom, e] at hg
    rcases hg with c | c <;> cases c
  refine ⟨x, _, hx, hxt, hxd, ?_, ?_⟩
  · intro hm
    unfold liMarker
    dsimp only
    rw [if_neg hm]
    by_cases h1 : DomAttrValue s.dom (some n) "data-marker".toList = "1.".toList
    · rw [if_neg (fun c => c.2.1 h1)]
      exact h1
    · rw [if_pos ⟨hpn, h1, hp, hgn, hg⟩]
  · intro hm
    unfold liMarker
    dsimp only
    rw [if_pos hm, if_pos hp]
    split <;> rfl

/-- Witness of `nested_item_marker`: the `li` of
`<ul><ol start="3"><li>x</li></ol></ul>` processed at the root gets the marker
`3.`. -/
theorem nested_item_marker_witness :
    ∃ x d, (endState (switchPre (engine inStart domStart) 3 Atom.Li)
        (initState domStart)).nodes[1]? = some x ∧ x.ListData = some d ∧
      d.Marker = "3.".toList := by
  obtain ⟨x, d, hx, _, hxd, _, h2⟩ := nested_item_marker (engine inStart domStart) 3
    (initState domStart)
    (endState (switchPre (engine inStart domStart) 3 Atom.Li) (initState domStart))
    (Visit.opened 1) _ rfl (by decide) (by decide) (by decide!)
  exact ⟨x, d, hx, hxd, (h2 (by decide)).trans (by decide)⟩

/-- C15: an `input` processed while the tip is a `ListItem` whose parent is a
`List`: the first switch returns without panic, the tip stays where it is, a
`TaskListItemMarker` is linked as the last child of the tip, checked if and
only if the element has a `checked` attribute, and the list data of the `List`
gets the type 3 while its other fields, the tight flag among them, stay as they
are. -/
theorem task_marker (L : Lute) (n : Nat) (s : State) (hn : HNode) (tn ln : Node) (l : Nat)
    (hd : s.dom[n]? = some hn) (ht : s.nodes[s.Tip]? = some tn) (htt : tn.Typ = NodeListItem)
    (hp : tn.Parent = some l) (hl : s.nodes[l]? = some ln) (hlt : ln.Typ = NodeList) :
    ∃ s', switchPre L n Atom.Input s = .ok (Visit.brk, s') ∧ s'.Tip = s.Tip ∧
      (∃ m, s'.nodes[s.nodes.length]? = some m ∧ m.Typ = NodeTaskListItemMarker ∧
        m.Parent = some s.Tip ∧
        (m.TaskListItemChecked = true ↔ hasAttr s.dom n "checked".toList = true)) ∧
      (∃ y, s'.nodes[s.Tip]? = some y ∧ y.Typ = NodeListItem ∧
        y.LastChild = some s.nodes.length) ∧
      (∃ g d, s'.nodes[l]? = some g ∧ g.Typ = NodeList ∧ g.ListData = some d ∧ d.Typ = 3 ∧
        ∀ d0, ln.ListData = some d0 → d = { d0 with Typ := 3 } ∧ d.Tight = d0.Tight) := by
  obtain ⟨s', h, h1, ⟨m, hm, hmt, hmp, hmc⟩, h3, g, d, hg, hgt, hgd, hd3, hd0⟩ :=
    caseInput_marks n s hn tn ln l hd ht htt hp hl hlt
  refine ⟨s', h, h1, ⟨m, hm, hmt, hmp, by rw [hmc]⟩, h3, g, d, hg, hgt, hgd, hd3, ?_⟩
  intro d0 e
  have := hd0 d0 e
  exact ⟨this, by rw [this]⟩

/-- Witness of `task_marker`: the checked `input` of
`<ul><li><input checked="" type="checkbox"> a</li></ul>`, processed with the tip
on the list item. -/
theorem task_marker_witness :
    ∃ s', switchPre (engine inDel domDel) 3 Atom.Input stTask = .ok (Visit.brk, s') ∧
      s'.Tip = 2 ∧
      (∃ m, s'.nodes[3]? = some m ∧ m.Typ = NodeTaskListItemMarker ∧ m.Parent = some 2 ∧
        m.TaskListItemChecked = true) ∧
      (∃ g d, s'.nodes[1]? = some g ∧ g.ListData = some d ∧ d.Typ = 3 ∧ d.Tight = true) := by
  obtain ⟨s', h, h1, ⟨m, hm, hmt, hmp, hmc⟩, _, g, d, hg, _, hgd, hd3, hd0⟩ :=
    task_marker (engine inDel domDel) 3 stTask _ _ _ 1 rfl rfl rfl rfl rfl rfl
  exact ⟨s', h, h1, ⟨m, hm, hmt, hmp, hmc.mpr (by decide)⟩, g, d, hg, hgd, hd3,
    (hd0 _ rfl).2⟩

/-- C16: for a `table` the first switch emits a `Table` whose aligns have one
entry for each child of the first row (the first child of the first child of
the `table`), each entry at most 3; the entry `i` is the align of the
`TableCell` that the first switch emits for the `i`-th cell of that row, a `th`
or `td`, namely the code of its `align` attribute: 1 for `left`, 2 for
`center`, 3 for `right`, 0 for anything else. -/
theorem table_aligns (L : Lute) (n c i : Nat) (a : Atom) (s t : State) (hn ct : HNode)
    (hd : s.dom[n]? = some hn) (hc : (firstRowCells s.dom hn)[i]? = some c)
    (ha : a = Atom.Th ∨ a = Atom.Td) (hct : t.dom[c]? = some ct)
    (hattr : DomAttrValue t.dom (some c) "align".toList =
      DomAttrValue s.dom (some c) "align".toList) :
    (∃ s' t' tbl cell,
      switchPre L n Atom.Table s = .ok (Visit.opened s.nodes.length, s') ∧
      switchPre L c a t = .ok (Visit.opened t.nodes.length, t') ∧
      s'.nodes[s.nodes.length]? = some tbl ∧ tbl.Typ = NodeTable ∧
      tbl.TableAligns.length = (firstRowCells s.dom hn).length ∧
      (∀ x ∈ tbl.TableAligns, x ≤ 3) ∧
      t'.nodes[t.nodes.length]? = some cell ∧ cell.Typ = NodeTableCell ∧
      tbl.TableAligns[i]? = some cell.TableCellAlign ∧
      cell.TableCellAlign = alignCode (DomAttrValue s.dom (some c) "align".toList)) ∧
    alignCode "left".toList = 1 ∧ alignCode "center".toList = 2 ∧
    alignCode "right".toList = 3 ∧
    ∀ al, al ≠ "left".toList → al ≠ "center".toList → al ≠ "right".toList →
      alignCode al = 0 := by
  refine ⟨?_, by decide, by decide, by decide, ?_⟩
  · have e1 : switchPre L n Atom.Table s = caseTable n s := rfl
    have e2 : switchPre L c a t = caseTd c t := by
      rcases ha with rfl | rfl <;> rfl
    obtain ⟨tbl, htbl, hb1⟩ := of_bare (bare_AppendNew_new s.nodes s.Tip
      (leaf { Typ := NodeTable, Tokens := hn.Data, TableAligns := tableAligns s.dom hn }))
    obtain ⟨cell, hcell, hb2⟩ := of_bare (bare_AppendNew_new t.nodes t.Tip
      (leaf { Typ := NodeTableCell, Tokens := ct.Data,
              TableCellAlign := alignCode (DomAttrValue t.dom (some c) "align".toList) }))
    have ha1 : tbl.TableAligns = (firstRowCells s.dom hn).map
        (fun c => alignCode (DomAttrValue s.dom (some c) "align".toList)) :=
      congrArg Node.TableAligns hb1
    have ha2 : cell.TableCellAlign = alignCode (DomAttrValue t.dom (some c) "align".toList) :=
      congrArg Node.TableCellAlign hb2
    refine ⟨_, _, tbl, cell, e1.trans (caseTable_ok n s hn hd), e2.trans (caseTd_ok c t ct hct),
      htbl, congrArg Node.Typ hb1, ?_, ?_, hcell, congrArg Node.Typ hb2, ?_, ?_⟩
    · rw [ha1, List.length_map]
    · intro x hx
      rw [ha1] at hx
      obtain ⟨y, _, rfl⟩ := List.mem_map.mp hx
      exact alignCode_le _
    · rw [ha1, List.getElem?_map, hc, ha2, hattr]
      rfl
    · rw [ha2, hattr]
  · intro al h1 h2 h3
    unfold alignCode
    rw [if_neg h1, if_neg h2, if_neg h3]

/-- Witness of `table_aligns`: the second cell of the first row of
`<table><thead><tr><th align="left">a</th><th align="center">b</th></tr></thead></table>`
has the code 2, the second entry of the aligns of the table. -/
theorem table_aligns_witness :
    ∃ s' t' tbl cell,
      switchPre (engine inDel domDel) 1 Atom.Table (initState domAlign) =
        .ok (Visit.opened 1, s') ∧
      switchPre (engine inDel domDel) 6 Atom.Th (initState domAlign) =
        .ok (Visit.opened 1, t') ∧
      s'.nodes[1]? = some tbl ∧ tbl.TableAligns.length = 2 ∧
      t'.nodes[1]? = some cell ∧ tbl.TableAligns[1]? = some cell.TableCellAlign ∧
      cell.TableCellAlign = 2 := by
  obtain ⟨⟨s', t', tbl, cell, h1, h2, h3, _, h5, _, h7, _, h9, h10⟩, _⟩ :=
    table_aligns (engine inDel domDel) 1 6 1 Atom.Th (initState domAlign) (initState domAlign)
      _ _ rfl (by decide) (Or.inl rfl) rfl rfl
  exact ⟨s', t', tbl, cell, h1, h2, h3, h5.trans (by decide), h7, h9, h10.trans (by decide)⟩

/-- C17: for a DOM node that is a comment, is in the `svg` namespace, is a
`meta`, carries `data-render="1"`, has a class that starts with `line-number`
but not with `line-numbers`, has a class that contains `mw-editsection`, or is
a `noscript`, `colgroup`, `col` or `summary`, `genASTByDOM` returns with the
state it started from, the tree and the tip included, whatever the fuel: also
with the fuel 1, which no visit of a child can be run with. -/
theorem ignored_nodes (L : Lute) (fuel n : Nat) (s : State) (hn : HNode)
    (hd : s.dom[n]? = some hn)
    (hc : hn.Typ = HType.CommentNode ∨ hn.Namespace = "svg".toList ∨ hn.DataAtom = Atom.Meta ∨
      DomAttrValue s.dom (some n) "data-render".toList = "1".toList ∨
      (HasPrefix (DomAttrValue s.dom (some n) "class".toList) "line-number".toList = true ∧
        HasPrefix (DomAttrValue s.dom (some n) "class".toList) "line-numbers".toList = false) ∨
      Contains (DomAttrValue s.dom (some n) "class".toList) "mw-editsection".toList = true ∨
      hn.DataAtom = Atom.Noscript ∨ hn.DataAtom = Atom.Colgroup ∨ hn.DataAtom = Atom.Col ∨
      hn.DataAtom = Atom.Summary) :
    genASTByDOM L (fuel + 1) n s = .ok ((), s) := by
  have hi : (hn.Typ = HType.CommentNode ∨ hn.Namespace = "svg".toList ∨
      hn.DataAtom = Atom.Meta ∨
      DomAttrValue s.dom (some n) "data-render".toList = "1".toList ∨
      (HasPrefix (DomAttrValue s.dom (some n) "class".toList) "line-number".toList = true ∧
        HasPrefix (DomAttrValue s.dom (some n) "class".toList) "line-numbers".toList = false) ∨
      Contains (DomAttrValue s.dom (some n) "class".toList) "mw-editsection".toList = true) →
      ignorable s.dom n hn = true := by
    intro c
    simp only [ignorable, Bool.or_eq_true, Bool.and_eq_true, decide_eq_true_eq,
      Bool.not_eq_true']
    tauto
  rcases hc with c | c | c | c | c | c | c
  · exact genASTByDOM_ignored L fuel n s hn hd (hi (Or.inl c))
  · exact genASTByDOM_ignored L fuel n s hn hd (hi (Or.inr (Or.inl c)))
  · exact genASTByDOM_ignored L fuel n s hn hd (hi (Or.inr (Or.inr (Or.inl c))))
  · exact genASTByDOM_ignored L fuel n s hn hd (hi (Or.inr (Or.inr (Or.inr (Or.inl c)))))
  · exact genASTByDOM_ignored L fuel n s hn hd
      (hi (Or.inr (Or.inr (Or.inr (Or.inr (Or.inl c))))))
  · exact genASTByDOM_ignored L fuel n s hn hd
      (hi (Or.inr (Or.inr (Or.inr (Or.inr (Or.inr c))))))
  · exact genASTByDOM_returns L fuel n s hn hd c

/-- Witness of `ignored_nodes`: the `noscript` of `<p>a<noscript>b</noscript></p>`,
with the fuel 1. -/
theorem ignored_nodes_witness :
    genASTByDOM (engine inDel domDel) 1 3 (initState domNoscript) =
      .ok ((), initState domNoscript) :=
  ignored_nodes (engine inDel domDel) 0 3 (initState domNoscript) _ rfl
    (Or.inr (Or.inr (Or.inr (Or.inr (Or.inr (Or.inr (Or.inl rfl)))))))

/-- C18: whatever the sanitizing policy and the attribute reader are, the
result of `SanitizeLinkDest` does not start with `javascript:`, and
`SanitizeLinkDestBytes` returns the bytes of `SanitizeLinkDest` on the same
input. -/
theorem sanitized_link_dest (policy : Str → Str) (TagAttrVal : Str → Str → Str) (src : Str) :
    HasPrefix (SanitizeLinkDest policy TagAttrVal src) "javascript:".toList = false ∧
      SanitizeLinkDestBytes policy TagAttrVal src = SanitizeLinkDest policy TagAttrVal src := by
  refine ⟨?_, rfl⟩
  unfold SanitizeLinkDest
  dsimp only
  split
  · decide
  · next h => simpa using h

/-- C19, counterexample: the walk over `<p><em>a </em>b</p>` turns the data `b`
of the text node after the `em` into ` b`, and the walk over
`<div class="MathJax"></div><script type="math/tex">x</script>` unlinks the
`script`: the `div` has no next sibling any more and is the last child of the
root. Neither input holds a `pre`. -/
theorem dom_rewritten :
    dataOf domTrail (some 4) = "b".toList ∧
      dataOf (domAfter (genTree (engine inTrail domTrail) 100 domTrail)) (some 4) =
        " b".toList ∧
      (domMath[1]?).bind (·.NextSibling) = some 2 ∧
      ((domAfter (genTree (engine inMath domMath) 100 domMath))[1]?).bind (·.NextSibling) =
        none ∧
      ((domAfter (genTree (engine inMath domMath) 100 domMath))[0]?).bind (·.LastChild) =
        some 1 := by
  decide!

/-- C19, amended: for a node other than a `pre`, the first switch leaves the
DOM as it is, except that a `div` of class `MathJax` in front of a `math/tex`
script unlinks that script; the second switch, `appendSpace` included, leaves
the DOM as it is, except that the trailing spaces of the text of the element
are put in front of the data of the text node that follows it. -/
theorem dom_frame (L : Lute) (n : Nat) (a : Atom) (s s' : State) (hn : HNode)
    (hd : s.dom[n]? = some hn) (ha : a ≠ Atom.Pre) :
    (∀ v, switchPre L n a s = .ok (v, s') →
      s'.dom = s.dom ∨ ScriptUnlinked s.dom n hn s'.dom) ∧
    (∀ node u, switchPost L n a node s = .ok (u, s') →
      s'.dom = s.dom ∨ SpacesLifted s.dom n (DomText s.dom (some n)) s'.dom) ∧
    (∀ u, appendSpace L n s = .ok (u, s') →
      s'.dom = s.dom ∨ SpacesLifted s.dom n (DomText s.dom (some n)) s'.dom) :=
  ⟨fun v h => (leads_switchPre s.dom L n a hn hd ha).run s v s' rfl h,
   fun node u h => (leads_switchPost s.dom L n a node).run s u s' rfl h,
   fun u h => (leads_appendSpace s.dom L n).run s u s' rfl h⟩

/-- Witness of `dom_frame`: the `div` of
`<div class="MathJax"></div><script type="math/tex">x</script>`, processed at
the root, unlinks the script (node 2). -/
theorem dom_frame_witness :
    (endState (switchPre (engine inMath domMath) 1 Atom.Div) (initState domMath)).dom =
      Html.Unlink domMath 2 := by
  rcases (dom_frame (engine inMath domMath) 1 Atom.Div (initState domMath)
    (endState (switchPre (engine inMath domMath) 1 Atom.Div) (initState domMath)) _ rfl
    (by decide)).1 (Visit.ret) (by decide!) with h | ⟨_, _, sib, h1, h2⟩
  · exact absurd h (by decide!)
  · cases h1
    exact h2

/-- C20, counterexample: in the tree built for
`<ul><li>a</li><ul><li>b</li></ul><ul><li>c</li></ul><li>d</li><ul><li>e</li></ul></ul>`
the children of the outer list (node 1) are the item of `a` (node 2), the lists
of `b` (node 4) and of `c` (node 7), the item of `d` (node 10) and the list of
`e` (node 12). After the walk of `HTML2Tree` the list of `b`, which came right
after the item of `a`, is not the last child of that item: the list of `c` was
appended after it. In the other reading of the loop of the walk, which ends at
the relocated list of `b`, the list of `e`, which came right after the item of
`d`, stays a child of the outer list. -/
theorem relocated_list_not_last :
    Ast.childrenOf (heapAfter (genTree (engine inLists domLists) 100 domLists)) 1 =
        [2, 4, 7, 10, 12] ∧
      (heapAfter (genTree (engine inLists domLists) 100 domLists)).map (fun nd => nd.Typ) =
        [NodeDocument, NodeList, NodeListItem, NodeText, NodeList, NodeListItem, NodeText,
         NodeList, NodeListItem, NodeText, NodeListItem, NodeText, NodeList, NodeListItem,
         NodeText] ∧
      Ast.childrenOf (treeOf (HTML2Tree (engine inLists domLists) 100 inLists.toList)).nodes 2 =
        [3, 4, 7] ∧
      Ast.childrenOf (treeOf (HTML2Tree (engine inLists domLists) 100 inLists.toList)).nodes 1 =
        [2, 10] ∧
      Ast.childrenOf (walkedHeap (WalkByNext 100
        (heapAfter (genTree (engine inLists domLists) 100 domLists)) 0)) 2 = [3, 4] ∧
      Ast.childrenOf (walkedHeap (WalkByNext 100
        (heapAfter (genTree (engine inLists domLists) 100 domLists)) 0)) 1 = [2, 7, 10, 12] ∧
      Ast.childrenOf (walkedHeap (WalkByNext 100
        (heapAfter (genTree (engine inLists domLists) 100 domLists)) 0)) 10 = [11] := by
  decide!

/-- C20, amended: a call of the callback of lines 63-77 on entering a `List`
`n` that is then a child of the `List` `p` and whose previous sibling is then
the `ListItem` `i` makes `n` the last child of `i`, after the former last child of `i`,
and takes it out of the children of `p`: the next sibling of `i` is the former
next sibling of `n`, and `i` is the last child of `p` if `n` was. Every other
node but the former next sibling of `n` and the former last child of `i` keeps
all its links, and every node keeps its kind and tokens. -/
theorem list_after_item (h : Heap) (n p i : Nat) (nd pd id : Node)
    (hn : h[n]? = some nd) (ht : nd.Typ = NodeList) (hp : nd.Parent = some p)
    (hpd : h[p]? = some pd) (hpt : pd.Typ = NodeList) (hi : nd.Previous = some i)
    (hid : h[i]? = some id) (hit : id.Typ = NodeListItem) (hnp : n ≠ p)
    (hln : id.LastChild ≠ some n) :
    (relocateList h n).length = h.length ∧
    (∃ x, (relocateList h n)[n]? = some x ∧ x.Parent = some i ∧
      x.Previous = id.LastChild ∧ x.Next = none) ∧
    (∃ y, (relocateList h n)[i]? = some y ∧ y.LastChild = some n ∧
      (id.LastChild ≠ some i → y.Next = nd.Next)) ∧
    (∃ z, (relocateList h n)[p]? = some z ∧ z.FirstChild = pd.FirstChild ∧
      (nd.Next = none → z.LastChild = some i) ∧ (nd.Next ≠ none → z.LastChild = pd.LastChild)) ∧
    (∀ j : Nat, j ≠ n → j ≠ i → j ≠ p → nd.Next ≠ some j → id.LastChild ≠ some j →
      (relocateList h n)[j]? = h[j]?) ∧
    (∀ j : Nat, ((relocateList h n)[j]?).map Node.core = (h[j]?).map Node.core) :=
  relocateList_step h n p i nd pd id hn ht hp hpd hpt hi hid hit hnp hln

/-- Witness of `list_after_item`: in the tree built for
`<ul><li>foo<br></li><ul><li>b</li></ul></ul>` the second list (node 4) becomes
the last child of the item of `foo` (node 2), after its former last child. -/
theorem list_after_item_witness :
    ∃ x y, (relocateList heapFoo 4)[4]? = some x ∧ x.Parent = some 2 ∧ x.Next = none ∧
      (relocateList heapFoo 4)[2]? = some y ∧ y.LastChild = some 4 := by
  obtain ⟨_, ⟨x, hx, hxp, _, hxn⟩, ⟨y, hy, hyl, _⟩, _⟩ :=
    list_after_item heapFoo 4 1 2 (heapFoo.getD 4 {}) (heapFoo.getD 1 {}) (heapFoo.getD 2 {})
      (by decide!) (by decide!) (by decide!) (by decide!) (by decide!) (by decide!)
      (by decide!) (by decide!) (by decide) (by decide!)
  exact ⟨x, y, hx, hxp, hxn, hy, hyl⟩

/-- C21, counterexample: for `<pre class="language-go"><code class="language-">`
the first non-empty candidate is the token `go` of the class of the `pre`, and
for `<pre class="language-"><code class="go">` it is the whole class `go` of the
child; the code block of either input carries an empty info string. -/
theorem fence_info_order :
    infoByCandidates "language-".toList "language-go".toList true false = "go".toList ∧
      (treeOf (HTML2Tree (engine inLangPre domLangPre) 100 inLangPre.toList)).fenceInfos =
        [[]] ∧
      infoByCandidates "go".toList "language-".toList true false = "go".toList ∧
      (treeOf (HTML2Tree (engine inLangCode domLangCode) 100 inLangCode.toList)).fenceInfos =
        [[]] := by
  decide!

/-- C21, amended: the info string that the `pre` case computes from the class
of the first child and the class of the `pre` is the first non-empty candidate
of the four, without a choice that holds a space, a hyphen or an underscore,
whenever the class that is searched for `language-` (the class of the child when
it holds `language-`, else the class of the `pre`) holds no `language-` or holds
a non-empty token after it; when that token is empty, the info string is the
whole class of the `pre` if it holds no space, hyphen or underscore, and empty
otherwise. -/
theorem fence_info (cc pc : Str) (code s2c : Bool) :
    (Contains cc "language-".toList = true → languageToken cc ≠ [] →
      preInfo cc pc code s2c = infoByCandidates cc pc code s2c) ∧
    (Contains cc "language-".toList = false → Contains pc "language-".toList = true →
      languageToken pc ≠ [] → preInfo cc pc code s2c = infoByCandidates cc pc code s2c) ∧
    (Contains cc "language-".toList = false → Contains pc "language-".toList = false →
      preInfo cc pc code s2c = infoByCandidates cc pc code s2c) ∧
    (Contains cc "language-".toList = true → languageToken cc = [] →
      preInfo cc pc code s2c = infoByPreClass pc) ∧
    (Contains cc "language-".toList = false → Contains pc "language-".toList = true →
      languageToken pc = [] → preInfo cc pc code s2c = infoByPreClass pc) :=
  preInfo_cases cc pc code s2c

/-- Witness of `fence_info`: `<pre><code class="language-go">` gives `go`, the
token of the class of the child. -/
theorem fence_info_witness :
    preInfo "language-go".toList [] true false =
        infoByCandidates "language-go".toList [] true false ∧
      infoByCandidates "language-go".toList [] true false = "go".toList ∧
      (treeOf (HTML2Tree (engine inGo domGo) 100 inGo.toList)).fenceInfos = ["go".toList] :=
  ⟨(fence_info "language-go".toList [] true false).1 (by decide!) (by decide!), by decide!,
    by decide!⟩

/-- C22: a `pre` in the first cell of a table of two rows, and a `pre` in the
second cell of a table of one row of two cells: in either tree the code block
stands under the document in the place of the table, and no `Table` is left; of
the second table nothing else is left. -/
theorem table_replaced_early :
    (treeOf (HTML2Tree (engine inTwoRows domTwoRows) 100 inTwoRows.toList)).shape =
        [(0, NodeDocument), (1, NodeCodeBlock), (2, NodeCodeBlockFenceOpenMarker),
         (2, NodeCodeBlockFenceInfoMarker), (2, NodeCodeBlockCode),
         (2, NodeCodeBlockFenceCloseMarker), (1, NodeTableHead), (2, NodeTableRow),
         (3, NodeTableCell), (4, NodeText)] ∧
      (treeOf (HTML2Tree (engine inTwoCells domTwoCells) 100 inTwoCells.toList)).shape =
        [(0, NodeDocument), (1, NodeCodeBlock), (2, NodeCodeBlockFenceOpenMarker),
         (2, NodeCodeBlockFenceInfoMarker), (2, NodeCodeBlockCode),
         (2, NodeCodeBlockFenceCloseMarker)] := by
  decide!

/-- C23: a `pre` with the content `x` and a line break, in the second row of a
table: the cell holds the code span of `x` and a hard break after it, the last
code span; with the two lines `x` and `y` the break stands between the two code
spans. -/
theorem break_after_last_span :
    (treeOf (HTML2Tree (engine inPreLine domPreLine) 100 inPreLine.toList)).shape =
        [(0, NodeDocument), (1, NodeTable), (2, NodeTableHead), (3, NodeTableRow),
         (4, NodeTableCell), (5, NodeText), (2, NodeTableRow), (3, NodeTableCell),
         (4, NodeCodeSpan), (5, NodeCodeSpanOpenMarker), (5, NodeCodeSpanContent),
         (5, NodeCodeSpanCloseMarker), (4, NodeHardBreak)] ∧
      (treeOf (HTML2Tree (engine inPreLines domPreLines) 100 inPreLines.toList)).shape =
        [(0, NodeDocument), (1, NodeTable), (2, NodeTableHead), (3, NodeTableRow),
         (4, NodeTableCell), (5, NodeText), (2, NodeTableRow), (3, NodeTableCell),
         (4, NodeCodeSpan), (5, NodeCodeSpanOpenMarker), (5, NodeCodeSpanContent),
         (5, NodeCodeSpanCloseMarker), (4, NodeHardBreak),
         (4, NodeCodeSpan), (5, NodeCodeSpanOpenMarker), (5, NodeCodeSpanContent),
         (5, NodeCodeSpanCloseMarker)] := by
  decide!

/-- C24: a table of two rows without `thead`: with plain cells the `Table`
holds one `TableHead` with the first row, and the second row after it; with a
`pre` in the first cell no `Table` is left, and the second row stands in a
`TableHead` of its own under the document, after the code block. -/
theorem second_row_without_table :
    (treeOf (HTML2Tree (engine inPlainRows domPlainRows) 100 inPlainRows.toList)).shape =
        [(0, NodeDocument), (1, NodeTable), (2, NodeTableHead), (3, NodeTableRow),
         (4, NodeTableCell), (5, NodeText), (2, NodeTableRow), (3, NodeTableCell),
         (4, NodeText)] ∧
      (treeOf (HTML2Tree (engine inTwoRows domTwoRows) 100 inTwoRows.toList)).outline =
        [(0, NodeDocument, []), (1, NodeCodeBlock, "pre".toList),
         (2, NodeCodeBlockFenceOpenMarker, "```".toList), (2, NodeCodeBlockFenceInfoMarker, []),
         (2, NodeCodeBlockCode, "x".toList), (2, NodeCodeBlockFenceCloseMarker, "```".toList),
         (1, NodeTableHead, []), (2, NodeTableRow, "tr".toList), (3, NodeTableCell, "td".toList),
         (4, NodeText, "y".toList)] := by
  decide!

/-- C25, counterexample: in the WYSIWYG mode, with a marker escaping that leaves
`a|b` as it is, the text `a|b` of a table cell keeps its `|` without a
backslash; outside the WYSIWYG mode the same text becomes `a\|b`. -/
theorem pipe_unescaped_protyle :
    parentIs domPipe 5 [Atom.Table] = true ∧
      (treeOf (HTML2Tree (engineProtyle inPipe domPipe) 100 inPipe.toList)).texts =
        ["a|b".toList] ∧
      (treeOf (HTML2Tree (engine inPipe domPipe) 100 inPipe.toList)).texts =
        ["a\\|b".toList] := by
  decide!

/-- C25, amended: outside the WYSIWYG mode, for every text node that has a
table ancestor and is not whitespace-only, the text pipeline returns, and in
the tokens of the node it emits every `|` stands right after a backslash; the
tokens are the pipe normalisation of the escaped tokens, which keeps every `\|`
of the escaped tokens as it is and normalises the text before and after it. -/
theorem table_pipes (L : Lute) (n : Nat) (s : State) (hn : HNode) (tn : Node)
    (hd : s.dom[n]? = some hn) (ht : s.nodes[s.Tip]? = some tn)
    (hw : L.ProtyleWYSIWYG = false)
    (htab : parentIs s.dom n [Atom.Table] = true) (hne : TrimSpace hn.Data ≠ []) :
    ∃ v s', switchPre L n Atom.zero s = .ok (v, s') ∧
      (s' = s ∨
        ∃ x, s'.nodes[s.nodes.length]? = some x ∧ s'.nodes.length = s.nodes.length + 1 ∧
          PipesEscaped x.Tokens ∧
          x.Tokens = escapePipes (L.EscapeMarkers (textToEscape true hn tn.Typ)) ∧
          ∀ a b : Str, L.EscapeMarkers (textToEscape true hn tn.Typ) = a ++ ['\\', '|'] ++ b →
            x.Tokens = escapePipes a ++ ['\\', '|'] ++ escapePipes b) := by
  have h1 : ¬ (parentIs s.dom n [Atom.Table] = true ∧ hn.Data = ['\n']) := by
    rintro ⟨_, e⟩
    apply hne
    rw [e]
    decide
  have h2 : ¬ (parentIs s.dom n [Atom.Table] = true ∧ TrimSpace hn.Data = []) :=
    fun h => hne h.2
  obtain ⟨v, s', hr, hs⟩ := caseText_emits L n s hn tn hd ht h1 h2
  refine ⟨v, s', hr, ?_⟩
  rcases hs with hs | ⟨x, hx, hl, ht⟩
  · exact Or.inl hs
  · right
    rw [htab] at ht
    have e : x.Tokens = escapePipes (L.EscapeMarkers (textToEscape true hn tn.Typ)) := by
      rw [ht]
      unfold textEscaped
      rw [hw]
      rfl
    refine ⟨x, hx, hl, ?_, e, ?_⟩
    · rw [e]
      exact escapePipes_escaped _
    · intro a b hab
      rw [e, hab]
      exact escapePipes_append a b

/-- Witness of `table_pipes`: the text `a|b` of the cell of `inPipe`, on a tree
that holds its root only. -/
theorem table_pipes_witness :
    ∃ v s', switchPre (engine inPipe domPipe) 5 Atom.zero (initState domPipe) = .ok (v, s') ∧
      (s' = initState domPipe ∨
        ∃ x, s'.nodes[(initState domPipe).nodes.length]? = some x ∧
          s'.nodes.length = (initState domPipe).nodes.length + 1 ∧
          PipesEscaped x.Tokens ∧
          x.Tokens = escapePipes ((engine inPipe domPipe).EscapeMarkers
            (textToEscape true (domPipe.getD 5 {}) NodeDocument)) ∧
          ∀ a b : Str, (engine inPipe domPipe).EscapeMarkers
              (textToEscape true (domPipe.getD 5 {}) NodeDocument) = a ++ ['\\', '|'] ++ b →
            x.Tokens = escapePipes a ++ ['\\', '|'] ++ escapePipes b) :=
  table_pipes (engine inPipe domPipe) 5 (initState domPipe) (domPipe.getD 5 {})
    { Typ := NodeDocument } (by decide!) rfl rfl (by decide!) (by decide!)

/-- C26: for every text node that reaches the marker escaping (it is neither
the lone line break nor white space only under a table), the tokens handed to
the marker escaping hold no `\n` and no U+00A0; they are the prepared tokens,
or the prepared tokens followed by one zero-width separator; the pipeline
returns, and the node it emits holds the escaping of these tokens. -/
theorem text_handed_clean (L : Lute) (n : Nat) (s : State) (hn : HNode) (tn : Node)
    (hd : s.dom[n]? = some hn) (ht : s.nodes[s.Tip]? = some tn)
    (h1 : ¬ (parentIs s.dom n [Atom.Table] = true ∧ hn.Data = ['\n']))
    (h2 : ¬ (parentIs s.dom n [Atom.Table] = true ∧ TrimSpace hn.Data = [])) :
    '\n' ∉ textToEscape (parentIs s.dom n [Atom.Table]) hn tn.Typ ∧
      Char.ofNat 0xA0 ∉ textToEscape (parentIs s.dom n [Atom.Table]) hn tn.Typ ∧
      (textToEscape (parentIs s.dom n [Atom.Table]) hn tn.Typ =
          textPrepared (parentIs s.dom n [Atom.Table]) hn.Data ∨
        textToEscape (parentIs s.dom n [Atom.Table]) hn tn.Typ =
          textPrepared (parentIs s.dom n [Atom.Table]) hn.Data ++ Zwsp) ∧
      ∃ v s', switchPre L n Atom.zero s = .ok (v, s') ∧
        (s' = s ∨
          ∃ x, s'.nodes[s.nodes.length]? = some x ∧ s'.nodes.length = s.nodes.length + 1 ∧
            x.Tokens =
              if L.ProtyleWYSIWYG = true then
                L.EscapeProtyleMarkers (textToEscape (parentIs s.dom n [Atom.Table]) hn tn.Typ)
              else if parentIs s.dom n [Atom.Table] = true then
                escapePipes
                  (L.EscapeMarkers (textToEscape (parentIs s.dom n [Atom.Table]) hn tn.Typ))
              else L.EscapeMarkers (textToEscape (parentIs s.dom n [Atom.Table]) hn tn.Typ)) := by
  refine ⟨(textToEscape_clean _ hn tn.Typ).1, (textToEscape_clean _ hn tn.Typ).2, ?_,
    caseText_emits L n s hn tn hd ht h1 h2⟩
  unfold textToEscape
  split
  · exact Or.inr rfl
  · exact Or.inl rfl

/-- Witness of `text_handed_clean`: the text `foo` of `<h2>foo</h2>`, on a tree
that holds its root only. -/
theorem text_handed_clean_witness :
    '\n' ∉ textToEscape (parentIs (initState domHead).dom 2 [Atom.Table])
        (domHead.getD 2 {}) NodeDocument ∧
      Char.ofNat 0xA0 ∉ textToEscape (parentIs (initState domHead).dom 2 [Atom.Table])
        (domHead.getD 2 {}) NodeDocument ∧
      (textToEscape (parentIs (initState domHead).dom 2 [Atom.Table])
          (domHead.getD 2 {}) NodeDocument =
          textPrepared (parentIs (initState domHead).dom 2 [Atom.Table])
            (domHead.getD 2 {}).Data ∨
        textToEscape (parentIs (initState domHead).dom 2 [Atom.Table])
          (domHead.getD 2 {}) NodeDocument =
          textPrepared (parentIs (initState domHead).dom 2 [Atom.Table])
            (domHead.getD 2 {}).Data ++ Zwsp) ∧
      ∃ v s', switchPre (engine inPipe domHead) 2 Atom.zero (initState domHead) = .ok (v, s') ∧
        (s' = initState domHead ∨
          ∃ x, s'.nodes[(initState domHead).nodes.length]? = some x ∧
            s'.nodes.length = (initState domHead).nodes.length + 1 ∧
            x.Tokens =
              if (engine inPipe domHead).ProtyleWYSIWYG = true then
                (engine inPipe domHead).EscapeProtyleMarkers
                  (textToEscape (parentIs (initState domHead).dom 2 [Atom.Table])
                    (domHead.getD 2 {}) NodeDocument)
              else if parentIs (initState domHead).dom 2 [Atom.Table] = true then
                escapePipes ((engine inPipe domHead).EscapeMarkers
                  (textToEscape (parentIs (initState domHead).dom 2 [Atom.Table])
                    (domHead.getD 2 {}) NodeDocument))
              else (engine inPipe domHead).EscapeMarkers
                (textToEscape (parentIs (initState domHead).dom 2 [Atom.Table])
                  (domHead.getD 2 {}) NodeDocument)) :=
  text_handed_clean (engine inPipe domHead) 2 (initState domHead) (domHead.getD 2 {})
    { Typ := NodeDocument } (by decide!) rfl (by decide!) (by decide!)

/-- C27, counterexample: the `p` of `<p data-tex="x">y</p>` carries the formula
`x`, and its tree is a paragraph with the text `y`, without a math block; the
`div` of `<div class="highlight-source-go" data-tex="x">y</div>` gives a code
block, without a math block. -/
theorem p_data_tex_paragraph :
    TrimSpace (DomAttrValue domTexP (some 1) "data-tex".toList) = "x".toList ∧
      (treeOf (HTML2Tree (engine inTexP domTexP) 100 inTexP.toList)).shape =
        [(0, NodeDocument), (1, NodeParagraph), (2, NodeText)] ∧
      (treeOf (HTML2Tree (engine inTexSource domTexSource) 100 inTexSource.toList)).shape =
        [(0, NodeDocument), (1, NodeCodeBlock), (2, NodeCodeBlockFenceOpenMarker),
         (2, NodeCodeBlockFenceInfoMarker), (2, NodeCodeBlockCode),
         (2, NodeCodeBlockFenceCloseMarker)] := by
  decide!

/-- C27, amended: for every `div` element that carries a `data-tex` attribute
which is not empty after trimming, processed while the tip is no link and no
heading and the element has no table ancestor, whose class names no language
(`-source-`, `-text-html-basic`) and that is no `MathJax` container before a
`math/tex` script, the first switch returns without opening a paragraph: the
only change is a `MathBlock` appended to the tip, with the children open marker
`$$`, content = the trimmed `data-tex`, close marker `$$`; the tip stays. -/
theorem div_math_block (L : Lute) (n : Nat) (s : State) (hn : HNode) (tn : Node)
    (hd : s.dom[n]? = some hn) (ht : s.nodes[s.Tip]? = some tn)
    (hdiv : hn.DataAtom = Atom.Div) (hl : tn.Typ ≠ NodeLink)
    (htab : parentIs s.dom n [Atom.Table] = false) (hh : tn.Typ ≠ NodeHeading)
    (hlang : divLanguage (DomAttrValue s.dom (some n) "class".toList) = [])
    (hmj : ¬ (Contains (DomAttrValue s.dom (some n) "class".toList) "MathJax".toList = true ∧
      hn.NextSibling ≠ none ∧ (hn.NextSibling.map (atomOf s.dom)) = some Atom.Script ∧
      Contains (DomAttrValue s.dom hn.NextSibling "type".toList) "math/tex".toList = true))
    (htex : TrimSpace (DomAttrValue s.dom (some n) "data-tex".toList) ≠ []) :
    ∃ s', switchPre L n Atom.Div s = .ok (Visit.ret, s') ∧
      s' = { s with nodes := (Ast.AppendNew s.nodes s.Tip
        (mathBlock (TrimSpace (DomAttrValue s.dom (some n) "data-tex".toList)))) } ∧
      Ast.typOf s'.nodes s.nodes.length = NodeMathBlock ∧
      Ast.parentOf s'.nodes s.nodes.length = some s.Tip ∧
      Ast.kids s'.nodes s.nodes.length =
        [(NodeMathBlockOpenMarker, "$$".toList),
         (NodeMathBlockContent, TrimSpace (DomAttrValue s.dom (some n) "data-tex".toList)),
         (NodeMathBlockCloseMarker, "$$".toList)] := by
  have e : switchPre L n Atom.Div = caseP n := rfl
  rw [e]
  exact ⟨_, caseP_div_tex n s hn tn hd ht hdiv hl htab hh hlang hmj htex, rfl,
    mathBlock_linked s.nodes s.Tip _ (lt_of_getElem? ht)⟩

/-- Witness of `div_math_block`: the `div` of `<div data-tex=" x ">y</div>` at
the root gives the math block of `x`. -/
theorem div_math_block_witness :
    ∃ s', switchPre (engine inTexP domTexDiv) 1 Atom.Div (initState domTexDiv) =
        .ok (Visit.ret, s') ∧
      s' = { initState domTexDiv with nodes := (Ast.AppendNew (initState domTexDiv).nodes
        (initState domTexDiv).Tip (mathBlock (TrimSpace
          (DomAttrValue (initState domTexDiv).dom (some 1) "data-tex".toList)))) } ∧
      Ast.typOf s'.nodes (initState domTexDiv).nodes.length = NodeMathBlock ∧
      Ast.parentOf s'.nodes (initState domTexDiv).nodes.length =
        some (initState domTexDiv).Tip ∧
      Ast.kids s'.nodes (initState domTexDiv).nodes.length =
        [(NodeMathBlockOpenMarker, "$$".toList),
         (NodeMathBlockContent,
           TrimSpace (DomAttrValue (initState domTexDiv).dom (some 1) "data-tex".toList)),
         (NodeMathBlockCloseMarker, "$$".toList)] :=
  div_math_block (engine inTexP domTexDiv) 1 (initState domTexDiv) (domTexDiv.getD 1 {})
    { Typ := NodeDocument } (by decide!) rfl (by decide!) (by decide) (by decide!) (by decide)
    (by decide!) (by decide!) (by decide!)

/-- C28, counterexample: the empty `del` of `<p>a<del></del>b</p>` gives a
`Strikethrough` with its two markers, and the `mark` under a `mark` of
`<p><mark><mark>x</mark></mark></p>` a `Mark` under the `Mark`, with its
markers. -/
theorem empty_del_emitted :
    (treeOf (HTML2Tree (engine inDelEmpty domDelEmpty) 100 inDelEmpty.toList)).kinds =
        [NodeDocument, NodeParagraph, NodeText, NodeStrikethrough,
         NodeStrikethrough2OpenMarker, NodeStrikethrough2CloseMarker, NodeText] ∧
      (treeOf (HTML2Tree (engine inMarkMark domMarkMark) 100 inMarkMark.toList)).kinds =
        [NodeDocument, NodeParagraph, NodeMark, NodeMark2OpenMarker, NodeMark,
         NodeMark2OpenMarker, NodeText, NodeMark2CloseMarker, NodeMark2CloseMarker] := by
  decide!

/-- C28, amended: for every `em`/`i` element (kind `Emphasis`) and every
`strong`/`b` element (kind `Strong`), if the text of the element is empty after
trimming, or the tip is of that kind or has an ancestor of that kind, the first
switch leaves the tree as it is and links no node, and the second switch, which
then has no node to close, adds text nodes only and changes the kind of no
node: no decoration node and no open or close marker is added. -/
theorem decoration_skipped (L : Lute) (n : Nat) (a : Atom) (t : NodeType) (s : State)
    (hn : HNode) (tn : Node)
    (ha : ((a = Atom.Em ∨ a = Atom.I) ∧ t = NodeEmphasis) ∨
      ((a = Atom.Strong ∨ a = Atom.B) ∧ t = NodeStrong))
    (hd : s.dom[n]? = some hn) (ht : s.nodes[s.Tip]? = some tn)
    (h : TrimSpace (DomText s.dom (some n)) = [] ∨ tn.Typ = t ∨
      Ast.ParentIs s.nodes s.Tip t = true) :
    switchPre L n a s = .ok (Visit.brk, s) ∧ Visit.brk.node = none ∧
      ∀ s1 s2, switchPost L n a none s1 = .ok ((), s2) → TextOnlyAdded s1.nodes s2.nodes := by
  have hpost : switchPost L n a none = appendSpace L n := by
    rcases ha with ⟨rfl | rfl, _⟩ | ⟨rfl | rfl, _⟩ <;> rfl
  refine ⟨?_, rfl, fun s1 s2 h2 => ?_⟩
  · rcases ha with ⟨ha, rfl⟩ | ⟨ha, rfl⟩
    · have e : switchPre L n a = caseEm n := by rcases ha with rfl | rfl <;> rfl
      rw [e]
      exact caseEm_skip n s hn tn hd ht h
    · have e : switchPre L n a = caseStrong n := by rcases ha with rfl | rfl <;> rfl
      rw [e]
      exact caseStrong_skip n s hn tn hd ht h
  · rw [hpost] at h2
    exact appendSpace_textOnly L n s1 s2 h2

/-- Witness of `decoration_skipped`: the `em` of `<p><em> </em>x</p>`, whose
text is a space. -/
theorem decoration_skipped_witness :
    switchPre (engine inDot domEmBlank) 2 Atom.Em (initState domEmBlank) =
        .ok (Visit.brk, initState domEmBlank) ∧ Visit.brk.node = none ∧
      ∀ s1 s2, switchPost (engine inDot domEmBlank) 2 Atom.Em none s1 = .ok ((), s2) →
        TextOnlyAdded s1.nodes s2.nodes :=
  decoration_skipped (engine inDot domEmBlank) 2 Atom.Em NodeEmphasis (initState domEmBlank)
    (domEmBlank.getD 2 {}) { Typ := NodeDocument } (Or.inl ⟨Or.inl rfl, rfl⟩) (by decide!) rfl
    (Or.inl (by decide!))

/-- C29, counterexample: in `<p><em>a.</em> b</p>` the text after the `em`
starts with a space and the text of the `em` ends in a full stop; the text node
under the `Emphasis` keeps the tokens `a.`, without separators. -/
theorem space_after_unwrapped :
    DomText domDotSpace (some 4) = " b".toList ∧ DomText domDotSpace (some 2) = "a.".toList ∧
      (treeOf (HTML2Tree (engine inDotSpace domDotSpace) 100 inDotSpace.toList)).texts =
        ["a.".toList, " b".toList] := by
  decide!

/-- C29, amended: when `appendSpace` runs after an inline decoration was closed,
the first code point `c` of the text of the next DOM sibling is no white space,
no punctuation and no symbol, and the last code point `l` of the text of the
element is a punctuation or a symbol, the tokens of the first `Text` child of
the decoration at the tip are wrapped with a zero-width separator at both ends,
and nothing else changes; when `c` is white space, nothing changes at all. -/
theorem separator_wrap (L : Lute) (n : Nat) (s : State) (hn : HNode) (c l : Char) (rest : Str)
    (text : Nat) (tx : Node)
    (hd : s.dom[n]? = some hn) (hc : DomText s.dom hn.NextSibling = c :: rest)
    (hl : (DomText s.dom (some n)).getLast? = some l)
    (hpl : L.IsPunct l = true ∨ L.IsSymbol l = true)
    (hch : Ast.ChildByType s.nodes s.Tip NodeText = some text) (htx : s.nodes[text]? = some tx) :
    (IsSpace c = true → appendSpace L n s = .ok ((), s)) ∧
    (IsSpace c = false → ¬ (L.IsPunct c = true ∨ L.IsSymbol c = true) →
      ∃ s', appendSpace L n s = .ok ((), s') ∧
        s' = { s with nodes := (upd s.nodes text
          (fun x => { x with Tokens := Zwsp ++ tx.Tokens ++ Zwsp })) } ∧
        s'.nodes[text]? = some { tx with Tokens := Zwsp ++ tx.Tokens ++ Zwsp } ∧
        ∀ i, i ≠ text → s'.nodes[i]? = s.nodes[i]?) := by
  refine ⟨fun hsp => appendSpace_space L n s hn c rest hd hc hsp, fun hsp hpc => ?_⟩
  refine ⟨_, appendSpace_wraps L n s hn c l rest text tx hd hc hsp hpc hl hpl hch htx, rfl, ?_, ?_⟩
  · show (upd s.nodes text _)[text]? = _
    rw [getElem?_upd, if_pos rfl, htx]
    rfl
  · intro i hi
    show (upd s.nodes text _)[i]? = _
    rw [getElem?_upd, if_neg hi]

/-- Witness of `separator_wrap`: when the `em` of `<p><em>a.</em>b</p>` is
closed, the text `a.` (node 4) gets a separator at both ends. -/
theorem separator_wrap_witness :
    ∃ s', appendSpace (engine inDot domDot) 2 stDot = .ok ((), s') ∧
      s' = { stDot with nodes := (upd stDot.nodes 4
        (fun x => { x with Tokens := Zwsp ++ (stDot.nodes.getD 4 {}).Tokens ++ Zwsp })) } ∧
      s'.nodes[4]? = some { stDot.nodes.getD 4 {} with
        Tokens := Zwsp ++ (stDot.nodes.getD 4 {}).Tokens ++ Zwsp } ∧
      ∀ i, i ≠ 4 → s'.nodes[i]? = stDot.nodes[i]? :=
  (separator_wrap (engine inDot domDot) 2 stDot (domDot.getD 2 {}) 'b' '.' [] 4
    (stDot.nodes.getD 4 {}) (by decide!) (by decide!) (by decide!) (Or.inl (by decide!))
    (by decide!) (by decide!)).2 (by decide) (by decide)

/-- C30: the text of the `em` of `<p>a<em> &#352;k</em>x</p>` is a space, the
letter U+0160 and `k`; the space is lifted into the text before the `Emphasis`,
and the text under the `Emphasis` is `k`: the letter U+0160, which the cut set
of lines 992 and 999 names next to the space, is lost. -/
theorem caron_lost :
    DomText domCaron (some 3) = [' ', Char.ofNat 0x160, 'k'] ∧
      prefixSpaces (DomText domCaron (some 3)) = [' '] ∧
      spaceCutset = [' ', Char.ofNat 0x160] ∧
      (treeOf (HTML2Tree (engine inCaron domCaron) 100 inCaron.toList)).texts =
        ["a ".toList, "k".toList, "x".toList] := by
  decide!

/-- C31: for every `code` element with a child, visited while the tip is a node
of the tree, the visit returns whatever the loop over the children would do
(the children are not visited); the tip, the DOM and the pending calls are as
before, and the only change is that one `CodeSpan` with the children open
marker, content and close marker is appended to the tip, after a
zero-width-separator text, appended to the tip before it, if and only if the
last child of the tip was a `CodeSpan`. -/
theorem code_span (L : Lute) (children : Option Nat → M Unit) (n : Nat) (s : State) (hn : HNode)
    (tn : Node) (hd : s.dom[n]? = some hn) (hfc : hn.FirstChild ≠ none)
    (ht : s.nodes[s.Tip]? = some tn) :
    (tn.LastChild.map (Ast.typOf s.nodes) = some NodeCodeSpan →
      visit L children n Atom.Code s = .ok ((), { s with
        nodes := (Ast.AppendNew (Ast.AppendNew s.nodes s.Tip zwspText) s.Tip
          (codeSpan hn.Data (codeContent L s.dom n hn))) }) ∧
      SepBefore (Ast.AppendNew (Ast.AppendNew s.nodes s.Tip zwspText) s.Tip
          (codeSpan hn.Data (codeContent L s.dom n hn))) (s.nodes.length + 1) NodeCodeSpan ∧
      Ast.parentOf (Ast.AppendNew (Ast.AppendNew s.nodes s.Tip zwspText) s.Tip
          (codeSpan hn.Data (codeContent L s.dom n hn))) (s.nodes.length + 1) = some s.Tip ∧
      Ast.kids (Ast.AppendNew (Ast.AppendNew s.nodes s.Tip zwspText) s.Tip
          (codeSpan hn.Data (codeContent L s.dom n hn))) (s.nodes.length + 1) =
        [(NodeCodeSpanOpenMarker, ['`']), (NodeCodeSpanContent, codeContent L s.dom n hn),
         (NodeCodeSpanCloseMarker, ['`'])]) ∧
    (tn.LastChild.map (Ast.typOf s.nodes) ≠ some NodeCodeSpan →
      visit L children n Atom.Code s = .ok ((), { s with
        nodes := (Ast.AppendNew s.nodes s.Tip
          (codeSpan hn.Data (codeContent L s.dom n hn))) }) ∧
      Ast.typOf (Ast.AppendNew s.nodes s.Tip (codeSpan hn.Data (codeContent L s.dom n hn)))
        s.nodes.length = NodeCodeSpan ∧
      Ast.parentOf (Ast.AppendNew s.nodes s.Tip (codeSpan hn.Data (codeContent L s.dom n hn)))
        s.nodes.length = some s.Tip ∧
      Ast.kids (Ast.AppendNew s.nodes s.Tip (codeSpan hn.Data (codeContent L s.dom n hn)))
          s.nodes.length =
        [(NodeCodeSpanOpenMarker, ['`']), (NodeCodeSpanContent, codeContent L s.dom n hn),
         (NodeCodeSpanCloseMarker, ['`'])]) := by
  have hlt := lt_of_getElem? ht
  have hlen : (Ast.AppendNew s.nodes s.Tip zwspText).length = s.nodes.length + 1 :=
    length_AppendNew_leaf _ _ _
  constructor
  · intro hl
    have hp := (AppendNew_new (Ast.AppendNew s.nodes s.Tip zwspText) s.Tip
      (codeSpan hn.Data (codeContent L s.dom n hn)) (by rw [hlen]; omega)).2
    have hk := (kids_AppendNew (Ast.AppendNew s.nodes s.Tip zwspText) s.Tip
      { Typ := NodeCodeSpan, Tokens := hn.Data }
      [{ Typ := NodeCodeSpanOpenMarker, Tokens := ['`'] },
       { Typ := NodeCodeSpanContent, Tokens := codeContent L s.dom n hn },
       { Typ := NodeCodeSpanCloseMarker, Tokens := ['`'] }] (by rw [hlen]; omega) (by simp)).2
    rw [hlen] at hp hk
    refine ⟨?_, sep_AppendNew s.nodes s.Tip _ tn ht, hp, hk⟩
    exact visit_returned L children n Atom.Code s _ (s.nodes.length + 1) s.Tip
      (caseCode_sep_run L n { s with defers := 0 } hn tn hd hfc ht hl) hp
  · intro hl
    have hp := AppendNew_new s.nodes s.Tip (codeSpan hn.Data (codeContent L s.dom n hn)) hlt
    have hk := (kids_AppendNew s.nodes s.Tip { Typ := NodeCodeSpan, Tokens := hn.Data }
      [{ Typ := NodeCodeSpanOpenMarker, Tokens := ['`'] },
       { Typ := NodeCodeSpanContent, Tokens := codeContent L s.dom n hn },
       { Typ := NodeCodeSpanCloseMarker, Tokens := ['`'] }] hlt (by simp)).2
    refine ⟨?_, hp.1, hp.2, hk⟩
    exact visit_returned L children n Atom.Code s _ s.nodes.length s.Tip
      (caseCode_run L n { s with defers := 0 } hn tn hd hfc ht hl) hp.2

/-- Witness of `code_span`: `<code>foo</code>` at the root gives the code span
of `foo` under the document, and the second `code` of
`<p><code>a</code><code>b</code></p>` a separator (node 6) and the code span of
`b` (node 7) under the paragraph. -/
theorem code_span_witness :
    (visit (engine inCode domCode) (fun _ => throw Panic.nilDeref) 1 Atom.Code
        (initState domCode) = .ok ((), { initState domCode with
        nodes := (Ast.AppendNew (initState domCode).nodes (initState domCode).Tip
          (codeSpan (domCode.getD 1 {}).Data
            (codeContent (engine inCode domCode) (initState domCode).dom 1
              (domCode.getD 1 {})))) }) ∧
      Ast.kids (Ast.AppendNew (initState domCode).nodes (initState domCode).Tip
          (codeSpan (domCode.getD 1 {}).Data
            (codeContent (engine inCode domCode) (initState domCode).dom 1
              (domCode.getD 1 {})))) (initState domCode).nodes.length =
        [(NodeCodeSpanOpenMarker, ['`']),
         (NodeCodeSpanContent, codeContent (engine inCode domCode) (initState domCode).dom 1
           (domCode.getD 1 {})),
         (NodeCodeSpanCloseMarker, ['`'])]) ∧
    (visit (engine inCode domCodes) (fun _ => throw Panic.nilDeref) 4 Atom.Code stCodes =
        .ok ((), { stCodes with
        nodes := (Ast.AppendNew (Ast.AppendNew stCodes.nodes stCodes.Tip zwspText) stCodes.Tip
          (codeSpan (domCodes.getD 4 {}).Data
            (codeContent (engine inCode domCodes) stCodes.dom 4 (domCodes.getD 4 {})))) }) ∧
      SepBefore (Ast.AppendNew (Ast.AppendNew stCodes.nodes stCodes.Tip zwspText) stCodes.Tip
          (codeSpan (domCodes.getD 4 {}).Data
            (codeContent (engine inCode domCodes) stCodes.dom 4 (domCodes.getD 4 {}))))
        (stCodes.nodes.length + 1) NodeCodeSpan) :=
  ⟨⟨((code_span (engine inCode domCode) (fun _ => throw Panic.nilDeref) 1 (initState domCode)
        (domCode.getD 1 {}) { Typ := NodeDocument } (by decide!) (by decide!) rfl).2
        (by decide)).1,
    ((code_span (engine inCode domCode) (fun _ => throw Panic.nilDeref) 1 (initState domCode)
        (domCode.getD 1 {}) { Typ := NodeDocument } (by decide!) (by decide!) rfl).2
        (by decide)).2.2.2⟩,
   ⟨((code_span (engine inCode domCodes) (fun _ => throw Panic.nilDeref) 4 stCodes
        (domCodes.getD 4 {}) (stCodes.nodes.getD 1 {}) (by decide!) (by decide!) (by decide!)).1
        (by decide!)).1,
    ((code_span (engine inCode domCodes) (fun _ => throw Panic.nilDeref) 4 stCodes
        (domCodes.getD 4 {}) (stCodes.nodes.getD 1 {}) (by decide!) (by decide!) (by decide!)).1
        (by decide!)).2.1⟩⟩

/-- C32, counterexample: the `strong` of test case 15 carries the `data-marker`
`__` and its markers hold `**`; the `del` of test case 25 carries `~` and its
markers hold `~~`; the `em` of `<p><em data-marker="_">foo</em></p>` carries `_`
and its markers hold `*`. -/
theorem marker_attribute_ignored :
    DomAttrValue domStrongMarker (some 2) "data-marker".toList = "__".toList ∧
      (treeOf (HTML2Tree (engine inStrongMarker domStrongMarker) 100
        inStrongMarker.toList)).markers =
        [(NodeStrongA6kOpenMarker, "**".toList), (NodeStrongA6kCloseMarker, "**".toList)] ∧
      DomAttrValue domDelMarker (some 2) "data-marker".toList = "~".toList ∧
      (treeOf (HTML2Tree (engine inDelMarker domDelMarker) 100 inDelMarker.toList)).markers =
        [(NodeStrikethrough2OpenMarker, "~~".toList),
         (NodeStrikethrough2CloseMarker, "~~".toList)] ∧
      DomAttrValue domEmMarker (some 2) "data-marker".toList = "_".toList ∧
      (treeOf (HTML2Tree (engine inEmMarker domEmMarker) 100 inEmMarker.toList)).markers =
        [(NodeEmA6kOpenMarker, "*".toList), (NodeEmA6kCloseMarker, "*".toList)] := by
  decide!

/-- C32, amended: for every `strong`/`b`, `em`/`i` or `del`/`s`/`strike` element,
with or without a `data-marker` attribute, the tokens of the open marker and of
the close marker of the emitted decoration are those that the code names for
the element kind: `**`, `*` and `~~`. The first switch emits the decoration
(always for `del`/`s`/`strike`; for the others when the text of the element is
not white space only and the tip is not of the kind of the decoration, nor
under one) with the open marker as its only child, and the second switch
appends the close marker to it before `appendSpace` runs. -/
theorem decoration_markers (L : Lute) (n : Nat) (a : Atom) (k o c : NodeType) (m : Str)
    (s : State) (hn : HNode) (tn : Node)
    (ha : decorationMarkers a = some (k, o, c, m))
    (hd : s.dom[n]? = some hn) (ht : s.nodes[s.Tip]? = some tn)
    (hg : k = NodeStrikethrough ∨ (TrimSpace (DomText s.dom (some n)) ≠ [] ∧ tn.Typ ≠ k ∧
      Ast.ParentIs s.nodes s.Tip k = false)) :
    (m = "**".toList ∨ m = "*".toList ∨ m = "~~".toList) ∧
    (∃ i s', switchPre L n a s = .ok (Visit.opened i, s') ∧ s'.Tip = i ∧
      Ast.typOf s'.nodes i = k ∧ Ast.kids s'.nodes i = [(o, m)]) ∧
    (∀ i s1, switchPost L n a (some i) s1 =
      appendSpace L n { s1 with nodes := Ast.AppendNew s1.nodes i (astNode c m) }) ∧
    (∀ (i : Nat) (h : Heap), i < h.length →
      ∃ x, (Ast.AppendNew h i (astNode c m))[h.length]? = some x ∧ x.Typ = c ∧ x.Tokens = m ∧
        Ast.parentOf (Ast.AppendNew h i (astNode c m)) h.length = some i) := by
  refine ⟨?_, ?_, fun i s1 => switchPost_closes L n a k o c m i s1 ha,
    fun i h hi => close_marker_linked h i c m hi⟩
  · cases a <;> simp only [decorationMarkers] at ha <;> cases ha <;> simp
  · have hs : ∀ t : NodeType, k = t → t ≠ NodeStrikethrough →
        TrimSpace (DomText s.dom (some n)) ≠ [] ∧ tn.Typ ≠ t ∧
          Ast.ParentIs s.nodes s.Tip t = false := by
      intro t e ne
      subst e
      rcases hg with hg | hg
      · exact absurd hg ne
      · exact hg
    cases a <;> simp only [decorationMarkers] at ha <;> cases ha
    case Em.refl =>
      obtain ⟨h1, h2, h3⟩ := hs NodeEmphasis rfl (by decide)
      exact caseEm_opens n s hn tn hd ht h1 h2 h3
    case I.refl =>
      obtain ⟨h1, h2, h3⟩ := hs NodeEmphasis rfl (by decide)
      exact caseEm_opens n s hn tn hd ht h1 h2 h3
    case Strong.refl =>
      obtain ⟨h1, h2, h3⟩ := hs NodeStrong rfl (by decide)
      exact caseStrong_opens n s hn tn hd ht h1 h2 h3
    case B.refl =>
      obtain ⟨h1, h2, h3⟩ := hs NodeStrong rfl (by decide)
      exact caseStrong_opens n s hn tn hd ht h1 h2 h3
    case Del.refl => exact caseDecoration_opens n s hn tn _ _ _ hd ht
    case S.refl => exact caseDecoration_opens n s hn tn _ _ _ hd ht
    case Strike.refl => exact caseDecoration_opens n s hn tn _ _ _ hd ht

/-- Witness of `decoration_markers`: the `strong` of test case 15, on a tree that
holds its root only. -/
theorem decoration_markers_witness :
    ("**".toList = "**".toList ∨ "**".toList = "*".toList ∨ "**".toList = "~~".toList) ∧
    (∃ i s', switchPre (engine inStrongMarker domStrongMarker) 2 Atom.Strong
        (initState domStrongMarker) = .ok (Visit.opened i, s') ∧ s'.Tip = i ∧
      Ast.typOf s'.nodes i = NodeStrong ∧
      Ast.kids s'.nodes i = [(NodeStrongA6kOpenMarker, "**".toList)]) ∧
    (∀ i s1, switchPost (engine inStrongMarker domStrongMarker) 2 Atom.Strong (some i) s1 =
      appendSpace (engine inStrongMarker domStrongMarker) 2
        { s1 with nodes := (Ast.AppendNew s1.nodes i
            (astNode NodeStrongA6kCloseMarker "**".toList)) }) ∧
    (∀ (i : Nat) (h : Heap), i < h.length →
      ∃ x, (Ast.AppendNew h i (astNode NodeStrongA6kCloseMarker "**".toList))[h.length]? =
          some x ∧ x.Typ = NodeStrongA6kCloseMarker ∧ x.Tokens = "**".toList ∧
        Ast.parentOf (Ast.AppendNew h i (astNode NodeStrongA6kCloseMarker "**".toList))
          h.length = some i) :=
  decoration_markers (engine inStrongMarker domStrongMarker) 2 Atom.Strong NodeStrong
    NodeStrongA6kOpenMarker NodeStrongA6kCloseMarker "**".toList (initState domStrongMarker)
    (domStrongMarker.getD 2 {}) { Typ := NodeDocument } rfl (by decide!) rfl
    (Or.inr ⟨by decide!, by decide, by decide!⟩)

/-- C33: whenever `skipWhitespaces` gives the marker `*` alone for the line of a
space and the marker `*`, a line of two tokens, the test reads the token at
index 1 of the line that is left, past its end. -/
theorem isList_past_the_end (skip : Items → Items)
    (h : skip [spaceItem, starItem] = [starItem]) :
    isList skip [spaceItem, starItem] = .error Panic.indexOutOfRange := by
  unfold isList
  rw [h]
  decide

/-- Witness of `isList_past_the_end`, with the leading space and tab tokens
skipped: the line of a space and `*` and the line of two spaces read past the
end; on the line of `*` and a space, and on the line of a space, `*` and a line
break, the test holds, and on the line of the single token `*` it does not. -/
theorem isList_past_the_end_witness :
    skipWhitespaces [spaceItem, starItem] = [starItem] ∧
      isList skipWhitespaces [spaceItem, starItem] = .error Panic.indexOutOfRange ∧
      isList skipWhitespaces [spaceItem, spaceItem] = .error Panic.indexOutOfRange ∧
      isList skipWhitespaces [starItem, spaceItem] = .ok true ∧
      isList skipWhitespaces [spaceItem, starItem, newlineItem] = .ok true ∧
      isList skipWhitespaces [starItem] = .ok false :=
  ⟨by decide, isList_past_the_end skipWhitespaces (by decide), by decide, by decide, by decide,
    by decide⟩

/-- C34: for every string, each round of the loop of lines 122-124 that finds a
line break followed by two spaces shortens the string; the loop ends after at
most as many rounds as the string has characters, with a string that holds no
line break followed by two spaces, whatever number of further rounds is
allowed; and the result of the collapse of lines 122-125 holds no line break
right before a space. -/
theorem collapse_total (s : Str) :
    (Contains s ['\n', ' ', ' '] = true →
      (ReplaceAll s ['\n', ' ', ' '] ['\n', ' ']).length < s.length) ∧
    (∀ k, collapseLoop (s.length + k) s = collapseLoop s.length s) ∧
    Contains (collapseLoop s.length s) ['\n', ' ', ' '] = false ∧
    Contains (collapseNewlineSpaces s) ['\n', ' '] = false ∧
    (∀ i, (collapseNewlineSpaces s)[i]? = some '\n' →
      (collapseNewlineSpaces s)[i + 1]? ≠ some ' ') := by
  refine ⟨fun h => length_ReplaceAll_lt s _ _ (by decide) h, fun k => ?_, ?_,
    collapseNewlineSpaces_clean s, no_pair_at '\n' ' ' _ (collapseNewlineSpaces_clean s)⟩
  · rw [collapseLoop_eq, collapseLoop_eq]
    exact replaceLoop_fuel _ _ (by decide) s k
  · rw [collapseLoop_eq]
    exact replaceLoop_done _ _ (by decide) s.length s (Nat.le_refl _)

/-- Witness of `collapse_total`: the string of `a`, a line break, three spaces
and `b` loses a space in the first round, and collapses to `a`, a line break
and `b`. -/
theorem collapse_total_witness :
    (ReplaceAll "a\n   b".toList ['\n', ' ', ' '] ['\n', ' ']).length < "a\n   b".toList.length ∧
      collapseNewlineSpaces "a\n   b".toList = "a\nb".toList :=
  ⟨(collapse_total "a\n   b".toList).1 (by decide), by decide⟩

/-- C35: the table pipe normalisation of lines 165-166 is idempotent, and
removing every backslash that stands right before a `|` gives the same for a
string and for its normalisation, over the code points of the tokens and over
bytes (92 is the backslash, 124 the pipe). -/
theorem pipes_idempotent :
    (∀ x : Str, escapePipes (escapePipes x) = escapePipes x ∧
      ReplaceAll (escapePipes x) ['\\', '|'] ['|'] = ReplaceAll x ['\\', '|'] ['|']) ∧
    (∀ x : List Nat,
      ReplaceAll (ReplaceAll
          (ReplaceAll (ReplaceAll x [92, 124] [124]) [124] [92, 124]) [92, 124] [124])
          [124] [92, 124] =
        ReplaceAll (ReplaceAll x [92, 124] [124]) [124] [92, 124] ∧
      ReplaceAll (ReplaceAll (ReplaceAll x [92, 124] [124]) [124] [92, 124]) [92, 124] [124] =
        ReplaceAll x [92, 124] [124]) :=
  ⟨fun x => pipeNormal_idem '\\' '|' (by decide) x,
   fun x => pipeNormal_idem (92 : Nat) 124 (by decide) x⟩

/-- C36: on a DOM of finite trees the traversal of `sanitize` from node `n`
returns, and when it has returned every element that it reached holds the
attributes it had without those that are `href` or `src` with a value that,
trimmed and in lower case, starts with `javascript:` or `data:`: none of these
is left, every other attribute is kept with its value, in the order it had; the
loop over the attributes of the element never reads past the list. -/
theorem sanitize_filters (d : Dom) (n j : Nat) (hn hj : HNode)
    (hr : d[n]? = some hn) (hw : Walkable d hn.FirstChild)
    (hv : Visits d n j) (hd : d[j]? = some hj) (he : hj.Typ = HType.ElementNode) :
    sanitizeAttrs hj.Attr.length hj.Attr =
        .ok (hj.Attr.filter (fun a => !unsafeURLAttr a)) ∧
      (∃ fuel d2, (∀ k, sanitizeNode (fuel + k) d n = .ok d2) ∧
        d2[j]? = some ({ hj with Attr := hj.Attr.filter (fun a => !unsafeURLAttr a) } : HNode)) ∧
      (∀ fuel d2, sanitizeNode fuel d n = .ok d2 →
        d2[j]? = some ({ hj with Attr := hj.Attr.filter (fun a => !unsafeURLAttr a) } : HNode)) ∧
      (∀ a, a ∈ hj.Attr.filter (fun a => !unsafeURLAttr a) →
        ¬ ((a.Key = "href".toList ∨ a.Key = "src".toList) ∧
          (HasPrefix (ToLower (TrimSpace a.Val)) "javascript:".toList = true ∨
            HasPrefix (ToLower (TrimSpace a.Val)) "data:".toList = true))) := by
  have hall : ∀ fuel d2, sanitizeNode fuel d n = .ok d2 →
      d2[j]? = some ({ hj with Attr := hj.Attr.filter (fun a => !unsafeURLAttr a) } : HNode) :=
    fun fuel d2 h => ((sanitize_walk fuel).1 d n d2 h).2 j hv hj hd he
  refine ⟨sanitizeAttrs_eq hj.Attr, ?_, hall, ?_⟩
  · obtain ⟨fuel, d2, h⟩ := sanitizeNode_returns d n hn hr hw
    exact ⟨fuel, d2, h, hall _ _ (h 0)⟩
  · intro a ha hbad
    have := safeAttrs_clean hj.Attr a ha
    unfold unsafeURLAttr at this
    simp only [Bool.and_eq_false_iff, Bool.or_eq_false_iff, decide_eq_false_iff_not] at this
    rcases this with ⟨h1, h2⟩ | ⟨h1, h2⟩
    · rcases hbad.1 with e | e
      · exact h1 e
      · exact h2 e
    · rcases hbad.2 with e | e
      · rw [e] at h1; cases h1
      · rw [e] at h2; cases h2

/-- Witness of `sanitize_filters`: in
`<a href="javascript:x" title="t"><img src=" DATA:y" alt="z"></a>` the traversal
from the root reaches the `img` (node 2) and leaves it its `alt` only. -/
theorem sanitize_filters_witness :
    sanitizeNode 10 domUnsafe 0 = .ok domUnsafeClean ∧
      domUnsafeClean[2]? = some ({ domUnsafe.getD 2 {} with
        Attr := (domUnsafe.getD 2 {}).Attr.filter (fun a => !unsafeURLAttr a) } : HNode) ∧
      (domUnsafe.getD 2 {}).Attr.filter (fun a => !unsafeURLAttr a) =
        [{ Key := "alt".toList, Val := "z".toList }] :=
  ⟨by decide!,
   (sanitize_filters domUnsafe 0 2 (domUnsafe.getD 0 {}) (domUnsafe.getD 2 {}) (by decide!)
      (Walkable.node 1 (domUnsafe.getD 1 {}) (by decide!)
        (Walkable.node 2 (domUnsafe.getD 2 {}) (by decide!) Walkable.done Walkable.done)
        Walkable.done)
      (Visits.child 0 1 2 (domUnsafe.getD 0 {}) (by decide!) (OnChain.here 1)
        (Visits.child 1 2 2 (domUnsafe.getD 1 {}) (by decide!) (OnChain.here 2)
          (Visits.self 2)))
      (by decide!) (by decide!)).2.2.1 10 domUnsafeClean (by decide!), by decide!⟩

end H2M
